import Mathlib

/-!
# Loom: a work-stealing task scheduler

A shallow embedding of `src/loom.c` (and the parts of `loom/atomics.h` and
`loom.h` it relies on) together with theorems about it.

Conventions of the embedding

* `loom_uint32_t` values are natural numbers below `U32 = 2^32`; every
  arithmetic operation of the source on such a value is followed by an
  explicit reduction modulo `U32`.
* A pointer to a task is the index of the task in the task pool; the null
  pointer is `none`.
* `loom_assert_debug` is modelled for the checked (debug) configuration: a
  failed assertion makes the operation return `none`.
* The atomic read-modify-write primitives follow the MSVC intrinsics named in
  `loom/atomics.h`: increment and decrement return the *new* value, compare
  and exchange returns the *initial* value.
-/

namespace Loom

/-! ## Machine integers and atomics (`loom/atomics.h`) -/

/-- Number of values of a `loom_uint32_t`. -/
def U32 : Nat := 4294967296

/-- Unsigned 32-bit subtraction `a - b`: the difference of the two values when
it is not negative, and `2^32` more than it otherwise. -/
def sub32 (a b : Nat) : Nat :=
  if b % U32 ≤ a % U32 then a % U32 - b % U32 else a % U32 + U32 - b % U32

/-- Unsigned 32-bit addition `a + b`. -/
def add32 (a b : Nat) : Nat := (a + b) % U32

/-- The function `loom_atomic_incr_u32` (`_InterlockedIncrement`): the new
content of the cell, which is also the value returned. -/
def loom_atomic_incr_u32 (m : Nat) : Nat := add32 m 1

/-- The function `loom_atomic_decr_u32` (`_InterlockedDecrement`): the new
content of the cell, which is also the value returned. -/
def loom_atomic_decr_u32 (m : Nat) : Nat := sub32 m 1

/-- The function `loom_atomic_cmp_and_xchg_u32`
(`_InterlockedCompareExchange`): the new content of the cell paired with the
value returned, which is the initial content. -/
def loom_atomic_cmp_and_xchg_u32 (m expected desired : Nat) : Nat × Nat :=
  (if m = expected then desired else m, m)

/-! ## The Chase-Lev deque (`loom_work_queue_t`) -/

/-- The structure `loom_work_queue_t`. -/
structure WorkQueue where
  top : Nat
  bottom : Nat
  tasks : List (Option Nat)
  size : Nat
  size_minus_one : Nat
  deriving DecidableEq, Repr

/-- The function `loom_work_queue_create`: both counters are zero and every
slot is null (`calloc`). -/
def loom_work_queue_create (size : Nat) : WorkQueue :=
  { top := 0
    bottom := 0
    tasks := List.replicate size none
    size := size % U32
    size_minus_one := sub32 (size % U32) 1 }

/-- The function `loom_work_queue_push` in the checked configuration: `none`
when the capacity assertion `(bottom - top) <= wq->size` fails, otherwise the
new queue and the returned depth `bottom - top + 1`. -/
def loom_work_queue_push (wq : WorkQueue) (task : Option Nat) : Option (WorkQueue × Nat) :=
  let bottom := wq.bottom
  let top := wq.top
  if sub32 bottom top ≤ wq.size then
    let wq1 := { wq with tasks := wq.tasks.set (bottom % wq.size) task }
    let wq2 := { wq1 with bottom := add32 bottom 1 }
    some (wq2, add32 (sub32 bottom top) 1)
  else
    none

/-- The function `loom_work_queue_pop`, run without interference: the new
queue and the returned pointer. -/
def loom_work_queue_pop (wq : WorkQueue) : WorkQueue × Option Nat :=
  let bottom := loom_atomic_decr_u32 wq.bottom
  let wq1 := { wq with bottom := bottom }
  let top := wq1.top
  if top ≤ bottom then
    let task := wq1.tasks.getD (bottom % wq1.size) none
    if top ≠ bottom then
      (wq1, task)
    else
      let cas := loom_atomic_cmp_and_xchg_u32 wq1.top top (add32 top 1)
      let wq2 := { wq1 with top := cas.1 }
      let task1 := if cas.2 ≠ top then none else task
      ({ wq2 with bottom := add32 top 1 }, task1)
  else
    ({ wq1 with bottom := top }, none)

/-- The function `loom_work_queue_steal`, run without interference: the new
queue and the returned pointer. -/
def loom_work_queue_steal (wq : WorkQueue) : WorkQueue × Option Nat :=
  let top := wq.top
  let bottom := wq.bottom
  if top < bottom then
    let task := wq.tasks.getD (top % wq.size) none
    let cas := loom_atomic_cmp_and_xchg_u32 wq.top top (add32 top 1)
    let wq1 := { wq with top := cas.1 }
    if cas.2 ≠ top then (wq1, none) else (wq1, task)
  else
    (wq, none)

/-- The function `loom_work_queue_depth`. -/
def loom_work_queue_depth (wq : WorkQueue) : Nat :=
  sub32 wq.bottom wq.top

/-- The function `loom_work_queue_is_empty`. -/
def loom_work_queue_is_empty (wq : WorkQueue) : Bool :=
  wq.bottom == wq.top

/-- Pushes the tasks of a list in order, as the owner does; `none` as soon as
one capacity assertion fails. -/
def pushAll : WorkQueue → List Nat → Option WorkQueue
  | wq, [] => some wq
  | wq, x :: xs =>
    match loom_work_queue_push wq (some x) with
    | none => none
    | some r => pushAll r.1 xs

/-- Calls `loom_work_queue_pop` a number of times in a row and collects the
returned pointers in call order. -/
def popN : Nat → WorkQueue → WorkQueue × List (Option Nat)
  | 0, wq => (wq, [])
  | n + 1, wq =>
    let r := loom_work_queue_pop wq
    let rest := popN n r.1
    (rest.1, r.2 :: rest.2)

/-- Calls `loom_work_queue_steal` a number of times in a row and collects the
returned pointers in call order. -/
def stealN : Nat → WorkQueue → WorkQueue × List (Option Nat)
  | 0, wq => (wq, [])
  | n + 1, wq =>
    let r := loom_work_queue_steal wq
    let rest := stealN n r.1
    (rest.1, r.2 :: rest.2)

/-! ## Pop and steal as sequences of atomic steps -/

/-- The points of `loom_work_queue_pop` between two accesses to shared
memory. -/
inductive PopPc where
  | decrBottom
  | loadTop
  | loadTask
  | casTop
  | storeBottom
  | storeEmpty
  | done
  deriving DecidableEq, Repr

/-- The local variables of a running `loom_work_queue_pop`; `task` is the
returned pointer once the call is done. -/
structure PopThread where
  pc : PopPc
  bottom : Nat
  top : Nat
  task : Option Nat
  deriving DecidableEq, Repr

/-- A call of `loom_work_queue_pop` that has not started. -/
def PopThread.start : PopThread :=
  { pc := PopPc.decrBottom, bottom := 0, top := 0, task := none }

/-- One atomic step of `loom_work_queue_pop` on the shared queue. -/
def popStep (wq : WorkQueue) (th : PopThread) : WorkQueue × PopThread :=
  match th.pc with
  | PopPc.decrBottom =>
    let bottom := loom_atomic_decr_u32 wq.bottom
    ({ wq with bottom := bottom }, { th with pc := PopPc.loadTop, bottom := bottom })
  | PopPc.loadTop =>
    let top := wq.top
    (wq, { th with top := top
                   pc := if top ≤ th.bottom then PopPc.loadTask else PopPc.storeEmpty })
  | PopPc.loadTask =>
    let task := wq.tasks.getD (th.bottom % wq.size) none
    (wq, { th with task := task
                   pc := if th.top ≠ th.bottom then PopPc.done else PopPc.casTop })
  | PopPc.casTop =>
    let cas := loom_atomic_cmp_and_xchg_u32 wq.top th.top (add32 th.top 1)
    ({ wq with top := cas.1 },
     { th with task := if cas.2 ≠ th.top then none else th.task, pc := PopPc.storeBottom })
  | PopPc.storeBottom =>
    ({ wq with bottom := add32 th.top 1 }, { th with pc := PopPc.done })
  | PopPc.storeEmpty =>
    ({ wq with bottom := th.top }, { th with task := none, pc := PopPc.done })
  | PopPc.done => (wq, th)

/-- The points of `loom_work_queue_steal` between two accesses to shared
memory. -/
inductive StealPc where
  | loadTop
  | loadBottom
  | loadTask
  | casTop
  | done
  deriving DecidableEq, Repr

/-- The local variables of a running `loom_work_queue_steal`; `result` is the
returned pointer once the call is done. -/
structure StealThread where
  pc : StealPc
  top : Nat
  bottom : Nat
  task : Option Nat
  result : Option Nat
  deriving DecidableEq, Repr

/-- A call of `loom_work_queue_steal` that has not started. -/
def StealThread.start : StealThread :=
  { pc := StealPc.loadTop, top := 0, bottom := 0, task := none, result := none }

/-- One atomic step of `loom_work_queue_steal` on the shared queue. -/
def stealStep (wq : WorkQueue) (th : StealThread) : WorkQueue × StealThread :=
  match th.pc with
  | StealPc.loadTop => (wq, { th with top := wq.top, pc := StealPc.loadBottom })
  | StealPc.loadBottom =>
    let bottom := wq.bottom
    (wq, { th with bottom := bottom
                   pc := if th.top < bottom then StealPc.loadTask else StealPc.done })
  | StealPc.loadTask =>
    (wq, { th with task := wq.tasks.getD (th.top % wq.size) none, pc := StealPc.casTop })
  | StealPc.casTop =>
    let cas := loom_atomic_cmp_and_xchg_u32 wq.top th.top (add32 th.top 1)
    ({ wq with top := cas.1 },
     { th with result := if cas.2 ≠ th.top then none else th.task, pc := StealPc.done })
  | StealPc.done => (wq, th)

/-- A deque shared by its owner, who runs one pop, and a thief, who runs one
steal. -/
structure Race where
  wq : WorkQueue
  owner : PopThread
  thief : StealThread
  deriving DecidableEq, Repr

/-- Runs an interleaving: `true` lets the owner take its next atomic step,
`false` lets the thief take its next atomic step. -/
def runRace : Race → List Bool → Race
  | r, [] => r
  | r, true :: rest =>
    let p := popStep r.wq r.owner
    runRace { r with wq := p.1, owner := p.2 } rest
  | r, false :: rest =>
    let p := stealStep r.wq r.thief
    runRace { r with wq := p.1, thief := p.2 } rest

/-- The start of a race on a queue. -/
def Race.start (wq : WorkQueue) : Race :=
  { wq := wq, owner := PopThread.start, thief := StealThread.start }

/-- Both calls of a race have returned. -/
def Race.finished (r : Race) : Bool :=
  r.owner.pc == PopPc.done && r.thief.pc == StealPc.done

/-- All the lists of booleans of a given length. -/
def allSchedules : Nat → List (List Bool)
  | 0 => [[]]
  | n + 1 => (allSchedules n).flatMap (fun s => [true :: s, false :: s])

/-- The queue of capacity 1 with `top = 2^32 - 1` that holds the single task
7, so that `bottom` has wrapped to 0. -/
def lastTaskWrapped : WorkQueue :=
  { top := 4294967295, bottom := 0, tasks := [some 7], size := 1, size_minus_one := 0 }

/-- The queue of capacity 1 with `top = 0` that holds the single task 7. -/
def lastTask : WorkQueue :=
  { top := 0, bottom := 1, tasks := [some 7], size := 1, size_minus_one := 0 }

/-! ## Build-time constants -/

/-- The constants fixed when the library is compiled: `LOOM_EMBEDDED_PERMITS`,
`sizeof(loom_permit_t)` (8 on x86, 16 on x86_64) and the number of bits of
`loom_native_t` (32 or 64); `LOOM_WORKER_LIMIT` is `width - 1`. -/
structure Build where
  embedded_permits : Nat
  sizeof_permit : Nat
  width : Nat
  deriving DecidableEq, Repr

/-- The default build for x86_64: one embedded permit, 16-byte permits, a
64-bit native word. -/
def build64 : Build := { embedded_permits := 1, sizeof_permit := 16, width := 64 }

/-- The constant `LOOM_WORKER_LIMIT`. -/
def LOOM_WORKER_LIMIT (b : Build) : Nat := b.width - 1

/-! ## Tasks and permits (`loom.h`) -/

/-- The address of a permit: a cell of the array embedded in a task, or a cell
of the array of the permit pool. -/
inductive PermitRef where
  | embedded (task : Nat) (slot : Nat)
  | pooled (index : Nat)
  deriving DecidableEq, Repr

/-- The structure `loom_permit_t`. -/
structure Permit where
  next : Option PermitRef
  task : Option Nat
  deriving DecidableEq, Repr

/-- The structure `loom_work_t`: kernels and their data are opaque values. -/
inductive Work where
  | none
  | cpu (kernel : Nat) (data : Nat)
  deriving DecidableEq, Repr

/-- The structure `loom_task_t`; `barrier` is the address of a counter owned
by the caller. -/
structure Task where
  id : Nat
  flags : Nat
  work : Work
  permits : List Permit
  blocks : Nat
  blockers : Nat
  barrier : Option Nat
  deriving DecidableEq, Repr

/-- The structure `loom_handle_t` of the checked configuration. -/
structure Handle where
  index : Nat
  id : Nat
  deriving DecidableEq, Repr

/-- A zeroed permit. -/
def Permit.zero : Permit := { next := none, task := none }

/-- A zeroed task, as `calloc` leaves it. -/
def Task.zero (b : Build) : Task :=
  { id := 0, flags := 0, work := Work.none
    permits := List.replicate b.embedded_permits Permit.zero
    blocks := 0, blockers := 0, barrier := none }

/-! ## The lock-free free list (`loom_free_list_t`) -/

/-- The structure `loom_free_list_t`. -/
structure FreeList where
  next : Nat
  entries : List Nat
  deriving DecidableEq, Repr

/-- The function `loom_free_list_alloc`. -/
def loom_free_list_alloc (size : Nat) : FreeList :=
  { next := 0
    entries := (List.range size).map
      (fun slot => if slot + 1 < size then slot + 1 else 4294967295) }

/-- The function `loom_free_list_push`, run without interference. -/
def loom_free_list_push (fl : FreeList) (entry : Nat) : FreeList :=
  let prev := fl.next
  let fl1 := { fl with entries := fl.entries.set entry prev }
  let cas := loom_atomic_cmp_and_xchg_u32 fl1.next prev entry
  { fl1 with next := cas.1 }

/-- The function `loom_free_list_pop`, run without interference, in the
checked configuration: `none` when the read of `entries[entry]` falls outside
the array or the assertion `entry != 0xffffffff` fails. -/
def loom_free_list_pop (fl : FreeList) : Option (FreeList × Nat) :=
  let entry := fl.next
  match fl.entries[entry]? with
  | none => none
  | some next =>
    let cas := loom_atomic_cmp_and_xchg_u32 fl.next entry next
    let fl1 := { fl with next := cas.1 }
    if entry ≠ 4294967295 then some (fl1, entry) else none

/-! ## The task pool and the permit pool -/

/-- The structure `loom_task_pool_t`. -/
structure TaskPool where
  size : Nat
  id : Nat
  tasks : List Task
  freelist : FreeList
  deriving DecidableEq, Repr

/-- The function `loom_task_pool_create`. -/
def loom_task_pool_create (b : Build) (size : Nat) : TaskPool :=
  { size := size, id := 0, tasks := List.replicate size (Task.zero b)
    freelist := loom_free_list_alloc size }

/-- The function `loom_task_pool_acquire`: the new pool and the index of the
task handed out. -/
def loom_task_pool_acquire (pool : TaskPool) : Option (TaskPool × Nat) :=
  match loom_free_list_pop pool.freelist with
  | none => none
  | some (fl, index) =>
    match pool.tasks[index]? with
    | none => none
    | some t =>
      let id := loom_atomic_incr_u32 pool.id
      some ({ pool with freelist := fl, id := id
                        tasks := pool.tasks.set index { t with id := id } }, index)

/-- The function `loom_task_pool_return`; the index is `task - pool->tasks`. -/
def loom_task_pool_return (pool : TaskPool) (task : Nat) : TaskPool :=
  { pool with freelist := loom_free_list_push pool.freelist task }

/-- The structure `loom_permit_pool_t`. -/
structure PermitPool where
  size : Nat
  permits : List Permit
  freelist : FreeList
  deriving DecidableEq, Repr

/-- The function `loom_permit_pool_create`. -/
def loom_permit_pool_create (size : Nat) : PermitPool :=
  { size := size, permits := List.replicate size Permit.zero
    freelist := loom_free_list_alloc size }

/-- The function `loom_permit_pool_acquire`: the new pool and the index of the
node handed out. -/
def loom_permit_pool_acquire (pool : PermitPool) : Option (PermitPool × Nat) :=
  match loom_free_list_pop pool.freelist with
  | none => none
  | some (fl, index) => some ({ pool with freelist := fl }, index)

/-- The function `loom_permit_pool_return`; `permit` is the element offset
`permit - pool->permits`, which the source divides by
`sizeof(loom_permit_t)`. -/
def loom_permit_pool_return (b : Build) (pool : PermitPool) (permit : Nat) : PermitPool :=
  let index := permit / b.sizeof_permit
  { pool with freelist := loom_free_list_push pool.freelist index }

/-! ## The scheduler (`loom_task_scheduler_t`) -/

/-- What the scheduler does that is visible from outside or worth recording:
calls of the prologue, of a kernel and of the epilogue, and, as
instrumentation, every push on a deque, every decrement of a `blockers` field
(with the new value) and every decrement of a barrier counter. -/
inductive Event where
  | prologue (task : Nat)
  | kernel (task : Nat)
  | epilogue (task : Nat)
  | push (queue : Nat) (task : Nat)
  | unblock (task : Nat) (blockers : Nat)
  | barrier (address : Nat) (value : Nat)
  deriving DecidableEq, Repr

/-- The structure `loom_task_scheduler_t`, together with the memory that holds
the barrier counters of the callers (`barriers`), the state of the running
thread's generator (`prng`, the thread-local `P`) and the record of events
(`log`). The events `work_to_steal` and `message` are their signalled state.
The thread-local `q` is passed to the functions that use it and `Q` is
`queues[q]`. -/
structure Scheduler where
  n : Nat
  queues : List (Option WorkQueue)
  online : Nat
  work : Nat
  work_to_steal : Bool
  always_steal_from_main_thread : Bool
  message : Bool
  tasks : TaskPool
  permits : PermitPool
  size_of_each_work_queue : Nat
  barriers : List Nat
  prng : Nat
  log : List Event
  deriving DecidableEq, Repr

/-- The function `loom_task_scheduler_create`. -/
def loom_task_scheduler_create (b : Build) (tasks permits queue : Nat) : Scheduler :=
  { n := 0
    queues := some (loom_work_queue_create queue)
      :: List.replicate (LOOM_WORKER_LIMIT b) none
    online := 1
    work := 0
    work_to_steal := false
    always_steal_from_main_thread := false
    message := false
    tasks := loom_task_pool_create b tasks
    permits := loom_permit_pool_create permits
    size_of_each_work_queue := queue
    barriers := []
    prng := 0
    log := [] }

/-- The structure `loom_options_t` without the callbacks. -/
structure Options where
  workers : Int
  main_thread_does_work : Bool
  tasks : Nat
  permits : Nat
  queue : Nat
  deriving DecidableEq, Repr

/-- The function `choose_number_of_workers`; `cores` is what
`number_of_cores` returns. The sum `number_of_cores() + workers` is computed
on 32 bits and stored in a signed 32-bit variable. -/
def choose_number_of_workers (b : Build) (cores : Nat) (workers : Int) : Nat :=
  let toInt32 : Int → Int := fun v =>
    let u := v % 4294967296
    if u < 2147483648 then u else u - 4294967296
  let w1 : Int := if workers < 0 then toInt32 ((cores : Int) + workers) else workers
  let w2 : Int := if w1 ≥ (LOOM_WORKER_LIMIT b : Int) then (LOOM_WORKER_LIMIT b : Int) - 1 else w1
  (w2 % 4294967296).toNat

/-- The part of `loom_bring_up_workers` that acts on the scheduler's data:
for each new worker the deque is created if absent and `n` is incremented;
`none` when the assertion `S->n + n <= LOOM_WORKER_LIMIT` fails (the sum is
taken on 32 bits). The threads themselves are not part of this sequential
model. -/
def loom_bring_up_workers (b : Build) : Nat → Scheduler → Option Scheduler
  | n, s =>
    if add32 s.n n ≤ LOOM_WORKER_LIMIT b then
      some ((List.range n).foldl
        (fun (s1 : Scheduler) (_ : Nat) =>
          let worker := s1.n
          let fresh := some (loom_work_queue_create s1.size_of_each_work_queue)
          let s2 : Scheduler :=
            match s1.queues[worker + 1]? with
            | some (some _) => s1
            | _ => { s1 with queues := s1.queues.set (worker + 1) fresh }
          { s2 with n := s2.n + 1 })
        s)
    else none

/-- The function `loom_initialize` (the thread-locals `Q`, `q = 0` and `P` of
the main thread are implicit; the generator is created with state 0). -/
def loom_initialize (b : Build) (cores : Nat) (options : Options) : Option Scheduler :=
  let s := loom_task_scheduler_create b options.tasks options.permits options.queue
  let s1 := { s with always_steal_from_main_thread := !options.main_thread_does_work }
  loom_bring_up_workers b (choose_number_of_workers b cores options.workers) s1

/-! ## Handles, acquisition and release -/

/-- Replaces the task stored at an index of the task pool. -/
def Scheduler.setTask (s : Scheduler) (task : Nat) (t : Task) : Scheduler :=
  { s with tasks := { s.tasks with tasks := s.tasks.tasks.set task t } }

/-- Replaces deque `q`. -/
def Scheduler.setQueue (s : Scheduler) (q : Nat) (wq : WorkQueue) : Scheduler :=
  { s with queues := s.queues.set q (some wq) }

/-- Appends an event to the record. -/
def Scheduler.emit (s : Scheduler) (e : Event) : Scheduler :=
  { s with log := s.log ++ [e] }

/-- Reads the permit stored at an address. -/
def Scheduler.readPermit (s : Scheduler) : PermitRef → Option Permit
  | PermitRef.embedded task slot =>
    match s.tasks.tasks[task]? with
    | none => none
    | some t => t.permits[slot]?
  | PermitRef.pooled index => s.permits.permits[index]?

/-- Writes a permit at an address. -/
def Scheduler.writePermit (s : Scheduler) (r : PermitRef) (p : Permit) : Option Scheduler :=
  match r with
  | PermitRef.embedded task slot =>
    match s.tasks.tasks[task]? with
    | none => none
    | some t =>
      if slot < t.permits.length then
        some (s.setTask task { t with permits := t.permits.set slot p })
      else none
  | PermitRef.pooled index =>
    if index < s.permits.permits.length then
      some { s with permits := { s.permits with permits := s.permits.permits.set index p } }
    else none

/-- The function `task_to_handle` of the checked configuration. -/
def task_to_handle (s : Scheduler) (task : Nat) : Option Handle :=
  match s.tasks.tasks[task]? with
  | none => none
  | some t => some { index := task, id := t.id }

/-- The function `handle_to_task` of the checked configuration: `none` when
the index lies outside the pool or the assertion `task->id == handle.id`
fails. -/
def handle_to_task (s : Scheduler) (handle : Handle) : Option Nat :=
  match s.tasks.tasks[handle.index]? with
  | none => none
  | some t => if t.id = handle.id then some handle.index else none

/-- The function `loom_acquire_a_task`. -/
def loom_acquire_a_task (s : Scheduler) : Option (Scheduler × Nat) :=
  match loom_task_pool_acquire s.tasks with
  | none => none
  | some (pool, task) => some ({ s with tasks := pool }, task)

/-- The function `loom_return_a_task`. -/
def loom_return_a_task (s : Scheduler) (task : Nat) : Scheduler :=
  { s with tasks := loom_task_pool_return s.tasks task }

/-- Follows `next` links from a cell until a cell without successor: the loop
`while (*next) next = &(*next)->next` of `loom_acquire_a_permit`. `none` when
a cell cannot be read or the fuel runs out before the end of the chain. -/
def chainEnd (s : Scheduler) : Nat → PermitRef → Option PermitRef
  | 0, _ => none
  | fuel + 1, r =>
    match s.readPermit r with
    | none => none
    | some p =>
      match p.next with
      | none => some r
      | some r1 => chainEnd s fuel r1

/-- The function `loom_acquire_a_permit`: the new scheduler and the address of
the permit. The walk to the end of the chain gets as fuel one more than the
number of cells that a chain can hold, so that running out of fuel means that
the chain is cyclic and the source loops forever. -/
def loom_acquire_a_permit (b : Build) (s : Scheduler) (task : Nat) :
    Option (Scheduler × PermitRef) :=
  match s.tasks.tasks[task]? with
  | none => none
  | some t =>
    let blocks := loom_atomic_incr_u32 t.blocks
    let blocker := sub32 blocks 1
    let s1 := s.setTask task { t with blocks := blocks }
    if blocker < b.embedded_permits then
      if blocker > 0 then
        match s1.readPermit (PermitRef.embedded task (blocker - 1)) with
        | none => none
        | some p =>
          match s1.writePermit (PermitRef.embedded task (blocker - 1))
              { p with next := some (PermitRef.embedded task blocker) } with
          | none => none
          | some s2 => some (s2, PermitRef.embedded task blocker)
      else some (s1, PermitRef.embedded task blocker)
    else
      match chainEnd s1 (b.embedded_permits + s1.permits.permits.length + 1)
          (PermitRef.embedded task (b.embedded_permits - 1)) with
      | none => none
      | some last =>
        match loom_permit_pool_acquire s1.permits with
        | none => none
        | some (pool, index) =>
          let s2 := { s1 with permits := pool }
          match s2.readPermit last with
          | none => none
          | some p =>
            match s2.writePermit last { p with next := some (PermitRef.pooled index) } with
            | none => none
            | some s3 => some (s3, PermitRef.pooled index)

/-- The function `loom_return_a_permit`: an embedded permit lies outside the
array of the pool and is ignored. -/
def loom_return_a_permit (b : Build) (s : Scheduler) : PermitRef → Scheduler
  | PermitRef.embedded _ _ => s
  | PermitRef.pooled index =>
    { s with permits := loom_permit_pool_return b s.permits index }

/-! ## Submission -/

/-- The function `loom_atomic_set_native`: the new content of the cell. -/
def loom_atomic_set_native (m bit : Nat) : Nat := m ||| (1 <<< bit)

/-- The function `loom_atomic_reset_native`: the new content of the cell. -/
def loom_atomic_reset_native (m bit : Nat) : Nat := m ^^^ (m &&& (1 <<< bit))

/-- The function `loom_signal_availability_of_work` called by thread `q`. -/
def loom_signal_availability_of_work (q : Nat) (s : Scheduler) : Scheduler :=
  { s with work := loom_atomic_set_native s.work q, work_to_steal := true }

/-- The function `loom_submit_a_task` called by thread `q`; `none` when the
task or the deque of the thread does not exist or the capacity assertion of
the push fails. -/
def loom_submit_a_task (q : Nat) (s : Scheduler) (task : Nat) : Option Scheduler :=
  match s.tasks.tasks[task]? with
  | none => none
  | some t =>
    let cas := loom_atomic_cmp_and_xchg_u32 t.blockers 0 4294967295
    let s1 := s.setTask task { t with blockers := cas.1 }
    if cas.2 ≠ 0 then some s1
    else
      match s1.queues[q]? with
      | some (some wq) =>
        match loom_work_queue_push wq (some task) with
        | none => none
        | some (wq1, work) =>
          let s2 := (s1.setQueue q wq1).emit (Event.push q task)
          if work > 1 then some (loom_signal_availability_of_work q s2)
          else if q = 0 then
            if s2.always_steal_from_main_thread then
              some (loom_signal_availability_of_work q s2)
            else some s2
          else some s2
      | _ => none

/-! ## Grabbing and stealing -/

/-- The loop of `loom_grab_a_task`. -/
def grabLoop (q : Nat) : Nat → Scheduler → Option (Scheduler × Option Nat)
  | 0, _ => none
  | fuel + 1, s =>
    match s.queues[q]? with
    | some (some wq) =>
      if !loom_work_queue_is_empty wq then
        let r := loom_work_queue_pop wq
        let s1 := s.setQueue q r.1
        match r.2 with
        | some task => some (s1, some task)
        | none => grabLoop q fuel s1
      else some (s, none)
    | _ => none

/-- The function `loom_grab_a_task` called by thread `q`; `none` when the
deque of the thread does not exist. Every pass of the loop through pop moves
`bottom`, and the loop ends after at most `2^32` passes, which is the fuel. -/
def loom_grab_a_task (q : Nat) (s : Scheduler) : Option (Scheduler × Option Nat) :=
  grabLoop q (U32 + 1) s

/-- The function `loom_prng_grab_u32`: the new state, which is also the value
returned. -/
def loom_prng_grab_u32 (state : Nat) : Nat :=
  let x1 := state ^^^ ((state <<< 13) % U32)
  let x2 := x1 ^^^ (x1 >>> 17)
  x2 ^^^ ((x2 <<< 5) % U32)

/-- The function `loom_ctz_native` (`_BitScanForward`): the index of the least
set bit, the width when there is none. -/
def loom_ctz_native (b : Build) (v : Nat) : Nat :=
  ((List.range b.width).find? (fun i => v.testBit i)).getD b.width

/-- The value of `~(1 << q)` converted to `loom_native_t`: the shift is done
on a signed 32-bit `int` (the count taken modulo 32 as the x86 shift does),
so `1 << 31` is negative and its complement is `0x7fffffff`. -/
def notOneShl (b : Build) (q : Nat) : Nat :=
  if q % 32 < 31 then 2 ^ b.width - 1 - 2 ^ (q % 32) else 2147483647

/-- One call `loom_work_queue_steal(S->queues[v])`; `none` when the deque
does not exist. -/
def stealFrom (s : Scheduler) (v : Nat) : Option (Scheduler × Option Nat) :=
  match s.queues[v]? with
  | some (some wq) =>
    let r := loom_work_queue_steal wq
    some (s.setQueue v r.1, r.2)
  | _ => none

/-- The loop `for (attempts = 0; attempts < 3; ++attempts)` of
`loom_steal_a_task`. -/
def stealAttempts (v : Nat) : Nat → Scheduler → Option (Scheduler × Option Nat)
  | 0, s => some (s, none)
  | attempts + 1, s =>
    match stealFrom s v with
    | none => none
    | some (s1, some task) => some (s1, some task)
    | some (s1, none) => stealAttempts v attempts s1

/-- The loop `while (victims)` of `loom_steal_a_task`; every pass clears the
least set bit of `victims`, so `width + 1` passes of fuel are enough. -/
def stealVictims (b : Build) (r offline : Nat) :
    Nat → Scheduler → Nat → Option (Scheduler × Option Nat)
  | 0, _, _ => none
  | fuel + 1, s, victims =>
    if victims = 0 then some (s, none)
    else
      let v := (loom_ctz_native b victims + (b.width - r)) % b.width
      match stealAttempts v 3 s with
      | none => none
      | some (s1, some task) => some (s1, some task)
      | some (s1, none) =>
        let draining := ((offline &&& (1 <<< v)) != 0) || (v == 0)
        match s1.queues[v]? with
        | some (some wq) =>
          let s2 :=
            if draining && loom_work_queue_is_empty wq then
              { s1 with work := loom_atomic_reset_native s1.work v }
            else s1
          stealVictims b r offline fuel s2 (victims &&& (victims - 1))
        | _ => if draining then none
               else stealVictims b r offline fuel s1 (victims &&& (victims - 1))

/-- The function `loom_steal_a_task` called by thread `q`, with fuel for the
outer loop `while (1)`: `none` when the fuel runs out (the loop is still
running) or a deque that does not exist is dereferenced. -/
def loom_steal_a_task (b : Build) (q : Nat) : Nat → Scheduler → Option (Scheduler × Option Nat)
  | 0, _ => none
  | fuel + 1, s =>
    let online := s.online
    let offline := (2 ^ b.width - 1) ^^^ (online % 2 ^ b.width)
    let victims := s.work &&& notOneShl b q
    if victims = 0 then some (s, none)
    else
      let x := loom_prng_grab_u32 s.prng
      let s1 := { s with prng := x }
      let r := x % b.width
      let rotated := ((victims <<< r) % 2 ^ b.width)
        ||| (victims >>> (((2 ^ b.width - r) % 2 ^ b.width) % b.width))
      match stealVictims b r offline (b.width + 1) s1 rotated with
      | none => none
      | some (s2, some task) => some (s2, some task)
      | some (s2, none) => loom_steal_a_task b q fuel s2

/-! ## Completion of a task -/

/-- The body of the loop `while (permit)` of `loom_unblock_any_permitted`, run
by thread `q` on the permit at address `r`: the new scheduler and the address
of the next permit. `none` when a cell or a target cannot be read or a push
fails its capacity assertion. -/
def unblockStep (b : Build) (q : Nat) (s : Scheduler) (r : PermitRef) :
    Option (Scheduler × Option PermitRef) :=
  match s.readPermit r with
  | none => none
  | some p =>
    match p.task with
    | none => none
    | some target =>
      match s.tasks.tasks[target]? with
      | none => none
      | some t =>
        let v := loom_atomic_decr_u32 t.blockers
        let s1 := (s.setTask target { t with blockers := v }).emit (Event.unblock target v)
        match (if v = 0 then loom_submit_a_task q s1 target else some s1) with
        | none => none
        | some s2 =>
          match s2.readPermit r with
          | none => none
          | some p2 => some (loom_return_a_permit b s2 r, p2.next)

/-- The loop `while (permit)` of `loom_unblock_any_permitted`, run by thread
`q`; `none` when a pass fails or the fuel runs out before the end of the
chain. -/
def unblockLoop (b : Build) (q : Nat) : Nat → Scheduler → Option PermitRef → Option Scheduler
  | _, s, none => some s
  | 0, _, some _ => none
  | fuel + 1, s, some r =>
    match unblockStep b q s r with
    | none => none
    | some (s1, next) => unblockLoop b q fuel s1 next

/-- The function `loom_unblock_any_permitted` run by thread `q`. The walk gets
as fuel one more than the number of cells that a chain can hold, so that
running out of fuel means that the chain is cyclic and the source loops
forever. -/
def loom_unblock_any_permitted (b : Build) (q : Nat) (s : Scheduler) (task : Nat) :
    Option Scheduler :=
  match s.tasks.tasks[task]? with
  | none => none
  | some t =>
    if t.blocks > 0 then
      unblockLoop b q (b.embedded_permits + s.permits.permits.length + 1) s
        (some (PermitRef.embedded task 0))
    else some s

/-- The function `loom_schedule_a_task` run by thread `q`. The prologue, the
kernel and the epilogue are opaque calls that return; they are recorded in
the log. -/
def loom_schedule_a_task (b : Build) (q : Nat) (s : Scheduler) (task : Nat) :
    Option Scheduler :=
  match s.tasks.tasks[task]? with
  | none => none
  | some t =>
    let s1 := s.emit (Event.prologue task)
    let s2 :=
      match t.work with
      | Work.none => s1
      | Work.cpu _ _ => s1.emit (Event.kernel task)
    let s3 := s2.emit (Event.epilogue task)
    let s4 : Option Scheduler :=
      match t.barrier with
      | none => some s3
      | some address =>
        match s3.barriers[address]? with
        | none => none
        | some v =>
          let v1 := loom_atomic_decr_u32 v
          some ({ s3 with barriers := s3.barriers.set address v1 }.emit
            (Event.barrier address v1))
    match s4 with
    | none => none
    | some s5 =>
      match loom_unblock_any_permitted b q s5 task with
      | none => none
      | some s6 => some (loom_return_a_task s6 task)

/-! ## The public surface -/

/-- The common body of `loom_empty` and `loom_describe`. -/
def describeWith (b : Build) (work : Work) (flags : Nat) (s : Scheduler) :
    Option (Scheduler × Handle) :=
  match loom_acquire_a_task s with
  | none => none
  | some (s1, task) =>
    match s1.tasks.tasks[task]? with
    | none => none
    | some t =>
      let t1 : Task :=
        { t with flags := flags, work := work
                 permits := List.replicate b.embedded_permits Permit.zero
                 blocks := 0, blockers := 0, barrier := none }
      let s2 := s1.setTask task t1
      match task_to_handle s2 task with
      | none => none
      | some h => some (s2, h)

/-- The function `loom_empty`. -/
def loom_empty (b : Build) (flags : Nat) (s : Scheduler) : Option (Scheduler × Handle) :=
  describeWith b Work.none flags s

/-- The function `loom_describe`. -/
def loom_describe (b : Build) (kernel data flags : Nat) (s : Scheduler) :
    Option (Scheduler × Handle) :=
  describeWith b (Work.cpu kernel data) flags s

/-- The function `permit`. -/
def permit (b : Build) (s : Scheduler) (task permitee : Nat) : Option Scheduler :=
  match loom_acquire_a_permit b s task with
  | none => none
  | some (s1, r) =>
    match s1.readPermit r with
    | none => none
    | some _ =>
      match s1.writePermit r { next := none, task := some permitee } with
      | none => none
      | some s2 =>
        match s2.tasks.tasks[permitee]? with
        | none => none
        | some t =>
          some (s2.setTask permitee { t with blockers := loom_atomic_incr_u32 t.blockers })

/-- The function `loom_permits`. -/
def loom_permits (b : Build) (s : Scheduler) (task permitee : Handle) : Option Scheduler :=
  match handle_to_task s task with
  | none => none
  | some t =>
    match handle_to_task s permitee with
    | none => none
    | some p => permit b s t p

/-- The function `loom_kick_n` called by thread `q`. -/
def loom_kick_n (q : Nat) : Scheduler → List Handle → Option Scheduler
  | s, [] => some s
  | s, h :: hs =>
    match handle_to_task s h with
    | none => none
    | some task =>
      match loom_submit_a_task q s task with
      | none => none
      | some s1 => loom_kick_n q s1 hs

/-- The function `loom_kick` called by thread `q`. -/
def loom_kick (q : Nat) (s : Scheduler) (task : Handle) : Option Scheduler :=
  loom_kick_n q s [task]

/-- The function `is_zero_yet`: the new content of the cell and the result. -/
def is_zero_yet (v : Nat) : Nat × Bool :=
  if v = 0 then
    let cas := loom_atomic_cmp_and_xchg_u32 v 0 0
    (cas.1, cas.2 == 0)
  else (v, false)

/-- The first loop of `kick`: every task of the batch gets the barrier. -/
def setBarriers (barrier : Nat) : Scheduler → List Handle → Option Scheduler
  | s, [] => some s
  | s, h :: hs =>
    match handle_to_task s h with
    | none => none
    | some task =>
      match s.tasks.tasks[task]? with
      | none => none
      | some t => setBarriers barrier (s.setTask task { t with barrier := some barrier }) hs

/-- The function `kick` called by thread `q`. -/
def kick (q : Nat) (s : Scheduler) (tasks : List Handle) (barrier : Nat) : Option Scheduler :=
  match setBarriers barrier s tasks with
  | none => none
  | some s1 => loom_kick_n q s1 tasks

/-- The function `loom_do_some_work` called by thread `q`, with fuel for the
outer loop of `loom_steal_a_task`; `none` when the assertion `q == 0` fails,
when a called function fails or when the steal does not return. -/
def loom_do_some_work (b : Build) (q : Nat) (fuel : Nat) (s : Scheduler) :
    Option (Scheduler × Bool) :=
  if q = 0 then
    match loom_grab_a_task q s with
    | none => none
    | some (s1, some task) =>
      match loom_schedule_a_task b q s1 task with
      | none => none
      | some s2 => some (s2, true)
    | some (s1, none) =>
      match loom_steal_a_task b q fuel s1 with
      | none => none
      | some (s2, some task) =>
        match loom_schedule_a_task b q s2 task with
        | none => none
        | some s3 => some (s3, true)
      | some (s2, none) => some (s2, false)
  else none

/-- The loop `while (!is_zero_yet(&outstanding)) if (!loom_do_some_work())
loom_thread_yield();` run by thread `q`; the yield does nothing in a run with
one thread. `none` when a called function fails or when the fuel runs out
while the loop is still running. -/
def waitLoop (b : Build) (q : Nat) (barrier : Nat) : Nat → Scheduler → Option Scheduler
  | 0, _ => none
  | fuel + 1, s =>
    match s.barriers[barrier]? with
    | none => none
    | some v =>
      let z := is_zero_yet v
      let s1 := { s with barriers := s.barriers.set barrier z.1 }
      if z.2 then some s1
      else
        match loom_do_some_work b q (fuel + 1) s1 with
        | none => none
        | some (s2, _) => waitLoop b q barrier fuel s2

/-- The function `loom_kick_and_do_work_while_waiting_n` called by thread `q`
with fuel for its loops. The local variable `outstanding` is a fresh cell at
the end of the barrier memory; the count `n` is the length of the list. -/
def loom_kick_and_do_work_while_waiting_n (b : Build) (q : Nat) (fuel : Nat)
    (s : Scheduler) (tasks : List Handle) : Option Scheduler :=
  let outstanding := s.barriers.length
  let s1 := { s with barriers := s.barriers ++ [tasks.length % U32] }
  match kick q s1 tasks outstanding with
  | none => none
  | some s2 => waitLoop b q outstanding fuel s2

/-! ## Runs driven from the main thread -/

/-- One call of the public surface made by the main thread (`q = 0`). -/
inductive Op where
  | describe (kernel : Nat)
  | permits (task permitee : Handle)
  | kick (task : Handle)
  | work
  deriving DecidableEq, Repr

/-- Performs one call of the public surface on the main thread; `none` when
the call fails an assertion or does not return. The work call gets one unit
of fuel for the outer loop of the steal. -/
def runOp (b : Build) (s : Scheduler) : Op → Option Scheduler
  | Op.describe kernel => (loom_describe b kernel 0 0 s).map (fun r => r.1)
  | Op.permits task permitee => loom_permits b s task permitee
  | Op.kick task => loom_kick 0 s task
  | Op.work => (loom_do_some_work b 0 1 s).map (fun r => r.1)

/-- Performs a sequence of calls of the public surface on the main thread. -/
def runOps (b : Build) : Scheduler → List Op → Option Scheduler
  | s, [] => some s
  | s, o :: os =>
    match runOp b s o with
    | none => none
    | some s1 => runOps b s1 os

/-- The options of the example runs: no workers, a task pool of 16, a permit
pool of 8 and deques of capacity 8. -/
def exampleOptions : Options :=
  { workers := 0, main_thread_does_work := true, tasks := 16, permits := 8, queue := 8 }

/-- The handle with the given slot index and id. -/
def mkHandle (index id : Nat) : Handle := { index := index, id := id }

/-- The kernels that have run, in order, according to a log. -/
def kernelsRun (log : List Event) : List Nat :=
  log.filterMap (fun e => match e with
    | Event.kernel task => some task
    | _ => none)

/-- The tasks that were pushed on a deque, in order, according to a log. -/
def tasksPushed (log : List Event) : List Nat :=
  log.filterMap (fun e => match e with
    | Event.push _ task => some task
    | _ => none)

/-- The chain of the specification: `a`, `b`, `c` in slots 0, 1, 2 with the
edges `a -> b` and `b -> c`, kicked in the order `c`, `b`, `a`, and then
drained by the main thread. -/
def chainScript : List Op :=
  [Op.describe 100, Op.describe 101, Op.describe 102,
   Op.permits (mkHandle 0 1) (mkHandle 1 2), Op.permits (mkHandle 1 2) (mkHandle 2 3),
   Op.kick (mkHandle 2 3), Op.kick (mkHandle 1 2), Op.kick (mkHandle 0 1),
   Op.work, Op.work, Op.work, Op.work]

/-- Nine tasks `a, b1, b2, c, d1, d2, e, f1, f2` in slots 0 to 8. The edges
`a -> b1`, `a -> b2`, `c -> d1`, `c -> d2` are wired first; `a` takes node 0
and `c` takes node 1 of the permit pool. Then `c` is kicked and run. -/
def overflowPrefix : List Op :=
  [Op.describe 100, Op.describe 101, Op.describe 102, Op.describe 103, Op.describe 104,
   Op.describe 105, Op.describe 106, Op.describe 107, Op.describe 108,
   Op.permits (mkHandle 0 1) (mkHandle 1 2), Op.permits (mkHandle 0 1) (mkHandle 2 3),
   Op.permits (mkHandle 3 4) (mkHandle 4 5), Op.permits (mkHandle 3 4) (mkHandle 5 6),
   Op.kick (mkHandle 3 4), Op.work]

/-- After the prefix the edges `e -> f1` and `e -> f2` are wired, `b2` and `a`
are kicked (`e`, `f1` and `f2` never are), and the main thread drains its
deque until `loom_do_some_work` finds nothing. -/
def overflowScript : List Op :=
  overflowPrefix ++
  [Op.permits (mkHandle 6 7) (mkHandle 7 8), Op.permits (mkHandle 6 7) (mkHandle 8 9),
   Op.kick (mkHandle 2 3), Op.kick (mkHandle 0 1),
   Op.work, Op.work, Op.work, Op.work, Op.work, Op.work]

/-- The outcome that steal-pop exclusivity asks for on a deque that held the
single task `x`: the deque is empty with `top == bottom`, and exactly one of
the two calls returned `x` while the other returned none. -/
def Race.exclusive (r : Race) (x : Nat) : Bool :=
  r.wq.top == r.wq.bottom &&
    ((r.owner.task == some x && r.thief.result == none)
      || (r.owner.task == none && r.thief.result == some x))

/-- The run of `overflowScript` on a freshly initialised scheduler. -/
def overflowRun : Option Scheduler :=
  ( loom_initialize build64 4 exampleOptions).bind (fun s => runOps build64 s overflowScript)

/-- The run of `chainScript` on a freshly initialised scheduler. -/
def chainRun : Option Scheduler :=
  ( loom_initialize build64 4 exampleOptions).bind (fun s => runOps build64 s chainScript)

/-- The queue of capacity 2 that holds the tasks 10 (oldest) and 20. -/
def fullQueue2 : WorkQueue :=
  { top := 0, bottom := 2, tasks := [some 10, some 20], size := 2, size_minus_one := 1 }

/-- The queue of capacity 2 with `top = 2^32 - 1` that holds the tasks 10
(oldest, in slot `(2^32 - 1) % 2 = 1`) and 20 (in slot `2^32 % 2 = 0`), so
that `bottom` has wrapped to 1. -/
def wrappedQueue2 : WorkQueue :=
  { top := 4294967295, bottom := 1, tasks := [some 20, some 10], size := 2,
    size_minus_one := 1 }

/-- Two tasks `a` and `b` in slots 0 and 1 with the edges `a -> b` and
`b -> a`. -/
def cycleScript : List Op :=
  [Op.describe 100, Op.describe 101,
   Op.permits (mkHandle 0 1) (mkHandle 1 2), Op.permits (mkHandle 1 2) (mkHandle 0 1)]

/-- The batch of the two tasks of `cycleScript`. -/
def cycleBatch : List Handle := [mkHandle 0 1, mkHandle 1 2]

/-- The scheduler after `cycleScript` on a freshly initialised scheduler. -/
def cycleRun : Option Scheduler :=
  ( loom_initialize build64 4 exampleOptions).bind (fun s => runOps build64 s cycleScript)

/-- The scheduler after `cycleScript` and the call of `kick` made by
`loom_kick_and_do_work_while_waiting_n` on the batch, when both succeed. -/
def cycleKicked : Scheduler :=
  match cycleRun.bind (fun s =>
      kick 0 { s with barriers := s.barriers ++ [cycleBatch.length % U32] } cycleBatch
        s.barriers.length) with
  | some s => s
  | none => loom_task_scheduler_create build64 0 0 0

/-! ## Batches of tasks -/

/-- The record of the task in a slot of the pool (a zeroed record without
permits when the slot does not exist). -/
def Scheduler.task (s : Scheduler) (t : Nat) : Task :=
  s.tasks.tasks.getD t
    { id := 0, flags := 0, work := Work.none, permits := [], blocks := 0, blockers := 0
      barrier := none }

/-- The targets held by the first `blocks` embedded permits of a task, in
order. -/
def Task.targets (T : Task) : List Nat :=
  (List.range T.blocks).map (fun i => ((T.permits.getD i Permit.zero).task).getD 0)

/-- The number of edges into task `u` from the tasks of a list of slots. -/
def indegree (s : Scheduler) (B : List Nat) (u : Nat) : Nat :=
  (B.map (fun p => (s.task p).targets.count u)).sum

/-- The values that a barrier counter took, in order, according to a log. -/
def barrierValues (address : Nat) (log : List Event) : List Nat :=
  log.filterMap (fun e => match e with
    | Event.barrier a v => if a = address then some v else none
    | _ => none)

/-- The deque holds the tasks of the list `L`, oldest first, between `top` and
`bottom`, without counter wrap. -/
def Holds (Q : Nat) (wq : WorkQueue) (L : List Nat) : Prop :=
  wq.size = Q ∧ wq.tasks.length = Q ∧ wq.bottom = wq.top + L.length ∧
  ∀ i, i < L.length → wq.tasks.getD ((wq.top + i) % Q) none = some (L.getD i 0)

/-- The scheduler after `cycleScript`, when the script succeeds. -/
def cycleStart : Scheduler :=
  match cycleRun with
  | some s => s
  | none => loom_task_scheduler_create build64 0 0 0

/-- Three tasks `a`, `b`, `c` in slots 0, 1, 2 with the edges `a -> b` and
`b -> c`, not yet kicked. -/
def chainReadyScript : List Op :=
  [Op.describe 100, Op.describe 101, Op.describe 102,
   Op.permits (mkHandle 0 1) (mkHandle 1 2), Op.permits (mkHandle 1 2) (mkHandle 2 3)]

/-- The scheduler after `chainReadyScript` on a freshly initialised scheduler,
when the script succeeds. -/
def chainReady : Scheduler :=
  match ( loom_initialize build64 4 exampleOptions).bind
      (fun s => runOps build64 s chainReadyScript) with
  | some s => s
  | none => loom_task_scheduler_create build64 0 0 0

/-- The batch `c`, `b`, `a` of the tasks of `chainReadyScript`. -/
def chainBatch : List Handle := [mkHandle 2 3, mkHandle 1 2, mkHandle 0 1]

/-! ## Free lists as chains -/

/-- Calls `loom_free_list_pop` a number of times in a row and collects the
returned indices in call order; `none` as soon as one call fails. -/
def freeListPopN : Nat → FreeList → Option (FreeList × List Nat)
  | 0, fl => some (fl, [])
  | n + 1, fl =>
    match loom_free_list_pop fl with
    | none => none
    | some (fl1, entry) =>
      match freeListPopN n fl1 with
      | none => none
      | some (fl2, rest) => some (fl2, entry :: rest)

/-- The list `l` is the chain of free indices that starts at head `h`: every
index of `l` lies in the array and is linked to the next one, and the last
one to the sentinel `0xffffffff`. -/
def IsChain (entries : List Nat) : Nat → List Nat → Prop
  | h, [] => h = 4294967295
  | h, x :: l => h = x ∧ x ≠ 4294967295 ∧ ∃ n, entries[x]? = some n ∧ IsChain entries n l

/-- Walks the chain of free indices from the head, with fuel; `none` when the
fuel runs out or a link leaves the array before the sentinel. -/
def freeChain (entries : List Nat) : Nat → Nat → Option (List Nat)
  | 0, _ => none
  | fuel + 1, h =>
    if h = 4294967295 then some []
    else
      match entries[h]? with
      | none => none
      | some n =>
        match freeChain entries fuel n with
        | none => none
        | some l => some (h :: l)

/-- What one pass of the body of `loom_free_list_pop` does, access by access:
the index of `entries` that is read and whether it lies in the array, the
head after the compare-and-exchange, and the index returned (`none` when the
assertion `entry != 0xffffffff` of the checked configuration fails). The
source asserts after the read and the exchange. `beyond i` stands for what
memory holds at `entries[i]` when `i` lies outside the array. -/
structure PopTrace where
  read : Nat
  inBounds : Bool
  head : Nat
  result : Option Nat
  deriving DecidableEq, Repr

/-- The accesses of one pass of `loom_free_list_pop`, run without
interference. -/
def loom_free_list_pop_trace (beyond : Nat → Nat) (fl : FreeList) : PopTrace :=
  let entry := fl.next
  let next := match fl.entries[entry]? with
    | some n => n
    | none => beyond entry
  let cas := loom_atomic_cmp_and_xchg_u32 fl.next entry next
  { read := entry
    inBounds := decide (entry < fl.entries.length)
    head := cas.1
    result := if entry ≠ 4294967295 then some entry else none }

/-- A call on a task pool: an acquisition, or the return of a task. -/
inductive PoolOp where
  | acquire
  | giveBack (task : Nat)
  deriving DecidableEq, Repr

/-- Runs a sequence of calls on a task pool, keeping the list of the tasks
that are held; `none` when an acquisition fails or a task that is not held is
returned. -/
def runPool : TaskPool → List Nat → List PoolOp → Option (TaskPool × List Nat)
  | pool, held, [] => some (pool, held)
  | pool, held, PoolOp.acquire :: ops =>
    match loom_task_pool_acquire pool with
    | none => none
    | some (pool1, task) => runPool pool1 (task :: held) ops
  | pool, held, PoolOp.giveBack task :: ops =>
    if task ∈ held then runPool (loom_task_pool_return pool task) (held.erase task) ops
    else none

/-- The free list of a pool of 2 entries after both have been popped. -/
def exhaustedList : FreeList :=
  match freeListPopN 2 (loom_free_list_alloc 2) with
  | some r => r.1
  | none => loom_free_list_alloc 2

/-- The permit pool of 8 nodes after the nodes 0 and 1 have been acquired. -/
def permitPoolTwoOut : PermitPool :=
  match loom_permit_pool_acquire (loom_permit_pool_create 8) with
  | none => loom_permit_pool_create 8
  | some r =>
    match loom_permit_pool_acquire r.1 with
    | none => loom_permit_pool_create 8
    | some r1 => r1.1

/-- The free list of a task pool of `N` entries is a chain without repetition
that ends in the sentinel, and the indices below `N` are split between the
chain and the list of the tasks that are held. -/
def PoolInv (N : Nat) (pool : TaskPool) (held : List Nat) : Prop :=
  pool.freelist.entries.length = N ∧ pool.tasks.length = N ∧
  ∃ l, IsChain pool.freelist.entries pool.freelist.next l ∧ l.Nodup ∧ held.Nodup
    ∧ (∀ i, i ∈ l → i < N) ∧ (∀ i, i ∈ held → i < N)
    ∧ ∀ i, i < N → (i ∈ l ↔ i ∉ held)

/-- A run on a task pool of 3 entries: two acquisitions, the return of task 0,
one more acquisition and the return of task 1. -/
def poolScript : List PoolOp :=
  [PoolOp.acquire, PoolOp.acquire, PoolOp.giveBack 0, PoolOp.acquire, PoolOp.giveBack 1]

/-- The pool and the held tasks after `poolScript`. -/
def poolExample : TaskPool × List Nat :=
  (runPool (loom_task_pool_create build64 3) [] poolScript).getD
    (loom_task_pool_create build64 3, [])

/-- Calls `loom_submit_a_task` on the same task `n` times in a row from
thread `q`. -/
def submitTimes (q : Nat) (task : Nat) : Nat → Scheduler → Option Scheduler
  | 0, s => some s
  | n + 1, s =>
    match loom_submit_a_task q s task with
    | none => none
    | some s1 => submitTimes q task n s1

/-- The scheduler of the example options with task 0 described and given one
predecessor that has not run: task 0 is dormant. -/
def dormantExample : Scheduler :=
  match ( loom_initialize build64 4 exampleOptions).bind (fun s => runOps build64 s
      [Op.describe 100, Op.describe 101, Op.permits (mkHandle 1 2) (mkHandle 0 1)]) with
  | some s => s
  | none => loom_task_scheduler_create build64 0 0 0

/-- The scheduler of the example options with the main thread not doing work
and task 0 described. -/
def advertisedExample : Scheduler :=
  match ( loom_initialize build64 4 { exampleOptions with main_thread_does_work := false }).bind
      (fun s => runOps build64 s [Op.describe 100]) with
  | some s => s
  | none => loom_task_scheduler_create build64 0 0 0

/-! ## The completion path seen from outside -/

/-- The events that the walk of a permit chain records: decrements of
`blockers` fields and pushes on a deque. -/
def Event.isUnblocking : Event → Bool
  | Event.unblock _ _ => true
  | Event.push _ _ => true
  | _ => false

/-- What the walk of a permit chain leaves alone between two states: the
barrier counters, the free list of the task pool and the flag
`always_steal_from_main_thread` are the same, and the log grew by events of
the walk only. -/
def Unblocks (s s1 : Scheduler) : Prop :=
  s1.barriers = s.barriers ∧ s1.tasks.freelist = s.tasks.freelist
    ∧ s1.always_steal_from_main_thread = s.always_steal_from_main_thread
    ∧ ∃ rest, s1.log = s.log ++ rest ∧ ∀ e, e ∈ rest → e.isUnblocking = true

/-- The chain `a -> b -> c` of `chainReady` kicked as a batch with a barrier
counter of 3 at address 0, after the main thread has grabbed `a` (slot 0). -/
def barrierStart : Scheduler :=
  match (kick 0 { chainReady with barriers := [3] } chainBatch 0).bind
      (fun s => loom_grab_a_task 0 s) with
  | some r => r.1
  | none => chainReady

/-- The scheduler after the main thread has run task `a` from
`barrierStart`. -/
def barrierDone : Scheduler :=
  (loom_schedule_a_task build64 0 barrierStart 0).getD barrierStart

/-! ## Wiring -/

/-- The targets of the permits of a chain, walked through the `next` links
from a cell; the walk stops at a cell that cannot be read or when the fuel
runs out. -/
def chainTargets (s : Scheduler) : Nat → Option PermitRef → List (Option Nat)
  | 0, _ => []
  | _ + 1, none => []
  | fuel + 1, some r =>
    match s.readPermit r with
    | none => []
    | some p => p.task :: chainTargets s fuel p.next

/-- The scheduler after `overflowPrefix` on a freshly initialised scheduler:
`a` (slot 0) has the successors `b1` and `b2` (slots 1 and 2), the second one
in node 0 of the permit pool; `c` has run and has returned node 1. -/
def wiringStart : Scheduler :=
  match ( loom_initialize build64 4 exampleOptions).bind
      (fun s => runOps build64 s overflowPrefix) with
  | some s => s
  | none => loom_task_scheduler_create build64 0 0 0

/-- The scheduler after the edge `a -> e` (slot 6) has been wired from
`wiringStart`. -/
def wiringDone : Scheduler :=
  (loom_permits build64 wiringStart (mkHandle 0 1) (mkHandle 6 7)).getD wiringStart

/-- Wires the edges from task `a` to the tasks of a list, in order, and
records the address of the permit that `loom_acquire_a_permit` returns for
each edge. -/
def wireTrace (b : Build) (a : Nat) : Scheduler → List Nat → Option (Scheduler × List PermitRef)
  | s, [] => some (s, [])
  | s, p :: ps =>
    match loom_acquire_a_permit b s a with
    | none => none
    | some (_, r) =>
      match permit b s a p with
      | none => none
      | some s1 =>
        match wireTrace b a s1 ps with
        | none => none
        | some (s2, rs) => some (s2, r :: rs)

/-- Five described tasks on a freshly initialised scheduler. -/
def fiveTasks : Scheduler :=
  match ( loom_initialize build64 4 exampleOptions).bind (fun s => runOps build64 s
      [Op.describe 100, Op.describe 101, Op.describe 102, Op.describe 103, Op.describe 104]) with
  | some s => s
  | none => loom_task_scheduler_create build64 0 0 0

/-- The outcome of wiring four edges from task 0 of `fiveTasks`. -/
def fourEdges : Scheduler × List PermitRef :=
  (wireTrace build64 0 fiveTasks [1, 2, 3, 4]).getD (fiveTasks, [])

/-! ## The calls of kernels seen from outside -/

/-- The call of `loom_schedule_a_task` that `loom_do_some_work` makes on
thread `q`: the scheduler at the time of the call and the task, which comes
from the deque of the thread or else from a steal; `none` when no call is
made. -/
def scheduledBy (b : Build) (q : Nat) (fuel : Nat) (s : Scheduler) : Option (Scheduler × Nat) :=
  if q = 0 then
    match loom_grab_a_task q s with
    | none => none
    | some (s1, some task) => some (s1, task)
    | some (s1, none) =>
      match loom_steal_a_task b q fuel s1 with
      | none => none
      | some (s2, some task) => some (s2, task)
      | some (_, none) => none
  else none

/-- The kernel that a call of `loom_do_some_work` invokes, if any, paired with
the value that the field `blockers` of its task holds at that time: neither
the prologue nor anything else in `loom_schedule_a_task` writes the field
before the kernel is invoked. -/
def kernelCall (b : Build) (q : Nat) (fuel : Nat) (s : Scheduler) : List (Nat × Nat) :=
  match scheduledBy b q fuel s with
  | none => []
  | some (s1, task) =>
    match (s1.task task).work with
    | Work.none => []
    | Work.cpu _ _ => [(task, (s1.task task).blockers)]

/-! ## Task ids and handles -/

/-- The id stored in a slot of a task pool (0 when the slot does not
exist). -/
def stampOf (pool : TaskPool) (task : Nat) : Nat :=
  match pool.tasks[task]? with
  | some t => t.id
  | none => 0

/-- Runs a sequence of acquisitions and returns on a task pool and records,
for each acquisition in order, the slot handed out and the id found in that
slot right after the acquisition; `none` when an acquisition fails. -/
def runPoolIds : TaskPool → List PoolOp → Option (TaskPool × List (Nat × Nat))
  | pool, [] => some (pool, [])
  | pool, PoolOp.acquire :: ops =>
    match loom_task_pool_acquire pool with
    | none => none
    | some (pool1, task) =>
      match runPoolIds pool1 ops with
      | none => none
      | some (pool2, rest) => some (pool2, (task, stampOf pool1 task) :: rest)
  | pool, PoolOp.giveBack task :: ops => runPoolIds (loom_task_pool_return pool task) ops

/-- The pool and the acquisitions recorded by `runPoolIds` on `poolScript`. -/
def poolIdsExample : TaskPool × List (Nat × Nat) :=
  (runPoolIds (loom_task_pool_create build64 3) poolScript).getD
    (loom_task_pool_create build64 3, [])

/-- The structure `loom_handle_t` of the release configuration: the address
of the task, which the model identifies with its slot. -/
structure ReleaseHandle where
  pointer : Nat
  deriving DecidableEq, Repr

/-- The function `task_to_handle` of the release configuration. -/
def task_to_handle_release (task : Nat) : ReleaseHandle := { pointer := task }

/-- The function `handle_to_task` of the release configuration. -/
def handle_to_task_release (handle : ReleaseHandle) : Nat := handle.pointer

/-- The calls that make up the life of tasks as far as their slots and ids
go: `loom_describe`, `loom_empty`, and the return of a task to the pool that
ends `loom_schedule_a_task`. -/
inductive LifeOp where
  | describe (kernel data flags : Nat)
  | empty (flags : Nat)
  | complete (task : Nat)
  deriving DecidableEq, Repr

/-- Runs a sequence of such calls and collects the handles issued, in
order. -/
def runLife (b : Build) : Scheduler → List LifeOp → Option (Scheduler × List Handle)
  | s, [] => some (s, [])
  | s, LifeOp.describe kernel data flags :: ops =>
    match loom_describe b kernel data flags s with
    | none => none
    | some (s1, h) =>
      match runLife b s1 ops with
      | none => none
      | some (s2, hs) => some (s2, h :: hs)
  | s, LifeOp.empty flags :: ops =>
    match loom_empty b flags s with
    | none => none
    | some (s1, h) =>
      match runLife b s1 ops with
      | none => none
      | some (s2, hs) => some (s2, h :: hs)
  | s, LifeOp.complete task :: ops => runLife b (loom_return_a_task s task) ops

/-- A freshly initialised scheduler with the example options. -/
def freshExample : Scheduler :=
  ( loom_initialize build64 4 exampleOptions).getD (loom_task_scheduler_create build64 0 0 0)

/-- A task is described in slot 0, completes, and slot 0 is described
again. -/
def reuseScript : List LifeOp :=
  [LifeOp.describe 100 0 0, LifeOp.complete 0, LifeOp.describe 101 0 0]

/-- The scheduler and the handles after `reuseScript`. -/
def reuseExample : Scheduler × List Handle :=
  (runLife build64 freshExample reuseScript).getD (freshExample, [])

/-- The scheduler after one task has been described, kicked and run by the
main thread. -/
def staleExample : Scheduler :=
  (runOps build64 freshExample [Op.describe 100, Op.kick (mkHandle 0 1), Op.work]).getD
    freshExample

/-- The default build for x86: one embedded permit, 8-byte permits, a 32-bit
native word. -/
def build32 : Build := { embedded_permits := 1, sizeof_permit := 8, width := 32 }

/-- Four tasks are described on a fresh scheduler and the edges from `a`
(slot 0) to the three others are wired: with one embedded permit, `a` takes
the nodes 0 and 1 of the permit pool. -/
def threeWired : Scheduler :=
  (runOps build64 freshExample
    [Op.describe 100, Op.describe 101, Op.describe 102, Op.describe 103,
     Op.permits (mkHandle 0 1) (mkHandle 1 2), Op.permits (mkHandle 0 1) (mkHandle 2 3),
     Op.permits (mkHandle 0 1) (mkHandle 3 4)]).getD freshExample

/-- The scheduler after `a` has been kicked and run from `threeWired`. -/
def threeDone : Scheduler :=
  (runOps build64 threeWired [Op.kick (mkHandle 0 1), Op.work]).getD threeWired

/-! ## Shutdown -/

/-- The loop `while (loom_atomic_load_native(&S->work)) if
(!loom_do_some_work()) loom_thread_yield();` of `loom_shutdown`, run by thread
`q`; the yield does nothing in a run with one thread. `none` when a called
function fails or when the fuel runs out while the loop is still running. -/
def shutdownLoop (b : Build) (q : Nat) : Nat → Scheduler → Option Scheduler
  | 0, _ => none
  | fuel + 1, s =>
    if s.work ≠ 0 then
      match loom_do_some_work b q (fuel + 1) s with
      | none => none
      | some (s1, _) => shutdownLoop b q fuel s1
    else some s

/-- The part of `loom_bring_down_workers` that acts on the scheduler's data:
`none` when the assertion `S->n >= n` fails; the count of workers goes down by
`n` and the message event ends unsignalled. The threads are not part of this
sequential model; with no worker (`n = 0`) there is none. -/
def loom_bring_down_workers (n : Nat) (s : Scheduler) : Option Scheduler :=
  if s.n ≥ n then some { s with n := s.n - n, message := false } else none

/-- The function `loom_shutdown` called by the main thread, with fuel for its
loop: the scheduler as it is handed to `loom_task_scheduler_destroy`. -/
def loom_shutdown (b : Build) (fuel : Nat) (s : Scheduler) : Option Scheduler :=
  match shutdownLoop b 0 fuel s with
  | none => none
  | some s1 => loom_bring_down_workers s1.n s1

/-- One task without predecessors is described and kicked from the main thread
of a scheduler without workers. -/
def oneKicked : Scheduler :=
  (runOps build64 freshExample [Op.describe 100, Op.kick (mkHandle 0 1)]).getD freshExample

/-- Two tasks without predecessors are described and kicked from the main
thread of a scheduler without workers. -/
def twoKicked : Scheduler :=
  (runOps build64 freshExample
    [Op.describe 100, Op.describe 101, Op.kick (mkHandle 0 1), Op.kick (mkHandle 1 2)]).getD
    freshExample

/-- The scheduler after the main thread has run the two tasks of
`twoKicked`. -/
def twoRun : Scheduler :=
  (runOps build64 twoKicked [Op.work, Op.work]).getD twoKicked

/-! ## The order in which victims are visited -/

/-- The rotation of the bitmap of victims in `loom_steal_a_task`:
`(victims << r) | (victims >> ((-r) % w))` on `loom_native_t`. -/
def rotateVictims (b : Build) (victims r : Nat) : Nat :=
  ((victims <<< r) % 2 ^ b.width)
    ||| (victims >>> (((2 ^ b.width - r) % 2 ^ b.width) % b.width))

/-- The indices `v` that the loop `while (victims)` of `loom_steal_a_task`
computes, in order, when it runs to its end (every steal fails): each pass
takes the least set bit of the rotated bitmap, turns it back into an index and
clears it. -/
def victimOrder (b : Build) (r : Nat) : Nat → Nat → List Nat
  | 0, _ => []
  | fuel + 1, victims =>
    if victims = 0 then []
    else
      ((loom_ctz_native b victims + (b.width - r)) % b.width)
        :: victimOrder b r fuel (victims &&& (victims - 1))

/-- The positions below the width at which a bitmap has a set bit, in
increasing order. -/
def setBits (b : Build) (x : Nat) : List Nat :=
  (List.range b.width).filter (fun i => x.testBit i)

/-- The loop `while (victims)` of `loom_steal_a_task` as a walk over the list
of the indices that it visits: three steal attempts on each victim, then the
reset of the `work` bit of a victim that is draining and empty. -/
def stealList (offline : Nat) : List Nat → Scheduler → Option (Scheduler × Option Nat)
  | [], s => some (s, none)
  | v :: vs, s =>
    match stealAttempts v 3 s with
    | none => none
    | some (s1, some task) => some (s1, some task)
    | some (s1, none) =>
      let draining := ((offline &&& (1 <<< v)) != 0) || (v == 0)
      match s1.queues[v]? with
      | some (some wq) =>
        let s2 :=
          if draining && loom_work_queue_is_empty wq then
            { s1 with work := loom_atomic_reset_native s1.work v }
          else s1
        stealList offline vs s2
      | _ => if draining then none
             else stealList offline vs s1

/-- What a pass of the loop `while (victims)` does to `work` for a victim whose
deque is empty: the bit is reset when the victim is draining (its worker is
offline, or it is the main thread). -/
def resetDrained (offline : Nat) (work v : Nat) : Nat :=
  if ((offline &&& (1 <<< v)) != 0) || (v == 0) then loom_atomic_reset_native work v
  else work

/-- Deque `v` is advertised to the main thread as a victim: its bit of `work`
is set, and it is not the main thread's own deque. -/
def Advertised (b : Build) (s : Scheduler) (v : Nat) : Prop :=
  1 ≤ v ∧ v < b.width ∧ s.work.testBit v = true

/-- A scheduler initialised with one worker, whose thread the sequential model
does not run. -/
def oneWorker : Scheduler :=
  ( loom_initialize build64 4 { exampleOptions with workers := 1 }).getD
    (loom_task_scheduler_create build64 0 0 0)

/-- The state in which worker 1 is online and idle (its thread has set bit 1
of `online` when it started and now waits for an event), and bit 1 of `work`
is still set from work that the worker advertised and that has been stolen
since: its deque is empty. -/
def staleBit : Scheduler := { oneWorker with online := 3, work := 2 }

/-- One task is described; it lies on the deque of worker 1, which has
advertised it, and the main deque is empty. -/
def stealable : Scheduler :=
  let s := (runOps build64 oneWorker [Op.describe 100]).getD oneWorker
  { (s.setTask 0 { s.task 0 with blockers := 4294967295 }) with
    online := 3, work := 2
    queues := s.queues.set 1
      (((loom_work_queue_push (loom_work_queue_create 8) (some 0)).map
        (fun r => r.1))) }

/-- The main deque of `oneKicked`: capacity 8, task 0 in slot 0. -/
def kickedDeque : WorkQueue :=
  { top := 0, bottom := 1, tasks := [some 0, none, none, none, none, none, none, none]
    size := 8, size_minus_one := 7 }

/-! ## Completion without regard to where the permits are stored -/

/-- A task without its embedded permits. -/
def Task.core (T : Task) : Task := { T with permits := [] }

/-- A permit pool without nodes. -/
def emptyPermitPool : PermitPool :=
  { size := 0, permits := [], freelist := { next := 0, entries := [] } }

/-- A scheduler without the storage of the permits: the embedded cells of the
tasks and the permit pool are dropped, everything else (deques, bitmaps,
fields of the tasks, free list of the task pool, barriers and log) is
kept. Two schedulers with the same core differ at most in where their permits
are stored. -/
def Scheduler.core (s : Scheduler) : Scheduler :=
  { s with tasks := { s.tasks with tasks := s.tasks.tasks.map Task.core }
           permits := emptyPermitPool }

/-- The function `permit` called for the edges from task `a` to the tasks of
a list, in order. -/
def wire (b : Build) (a : Nat) : Scheduler → List Nat → Option Scheduler
  | s, [] => some s
  | s, p :: ps =>
    match permit b s a p with
    | none => none
    | some s1 => wire b a s1 ps

/-- What the specification says of the resolution of the permits of a
completed task, run by thread `q`: for each successor in wiring order, its
`blockers` field is decremented, and the successor is submitted when the field
reaches zero. -/
def unblockTargets (q : Nat) : Scheduler → List Nat → Option Scheduler
  | s, [] => some s
  | s, u :: us =>
    match s.tasks.tasks[u]? with
    | none => none
    | some t =>
      let v := loom_atomic_decr_u32 t.blockers
      let s1 := (s.setTask u { t with blockers := v }).emit (Event.unblock u v)
      match (if v = 0 then loom_submit_a_task q s1 u else some s1) with
      | none => none
      | some s2 => unblockTargets q s2 us

/-- The cells `cells` hold the permits of the edges to the tasks `ps`, in
order, each linked to the next and the last one to nothing. -/
def ChainCells (s : Scheduler) (cells : List PermitRef) (ps : List Nat) : Prop :=
  cells.length = ps.length ∧
  ∀ i, i < ps.length → ∃ c, cells[i]? = some c
    ∧ s.readPermit c = some { next := cells[i + 1]?, task := ps[i]? }

/-- A build with three embedded permits in each task. -/
def buildWide : Build := { embedded_permits := 3, sizeof_permit := 16, width := 64 }

/-- Five described tasks on a freshly initialised scheduler of the build with
three embedded permits. -/
def fiveTasksWide : Scheduler :=
  match ( loom_initialize buildWide 4 exampleOptions).bind (fun s => runOps buildWide s
      [Op.describe 100, Op.describe 101, Op.describe 102, Op.describe 103, Op.describe 104]) with
  | some s => s
  | none => loom_task_scheduler_create buildWide 0 0 0

/-! ## The generator -/

/-- The values returned by `n` successive calls of `loom_prng_grab_u32` on a
generator that starts in the given state. -/
def prngCalls : Nat → Nat → List Nat
  | 0, _ => []
  | n + 1, state => loom_prng_grab_u32 state :: prngCalls n (loom_prng_grab_u32 state)

/-! ## What a steal does to the bitmaps -/

/-- What `loom_steal_a_task` may do between two states on a build: `online`
is the same; no bit of `work` is set; a bit `i` of `work` that has been
cleared lies in the bitmap, its owner is offline in `online` or is the main
thread, and deque `i` is empty in the second state; and a deque that was
empty is as it was. -/
def ClearsOnlyStale (b : Build) (s s2 : Scheduler) : Prop :=
  s2.online = s.online
    ∧ (∀ i, s2.work.testBit i = true → s.work.testBit i = true)
    ∧ (∀ i, s.work.testBit i = true → s2.work.testBit i = false →
        i < b.width ∧ (s.online.testBit i = false ∨ i = 0)
          ∧ ∃ wq : WorkQueue, s2.queues[i]? = some (some wq)
            ∧ loom_work_queue_is_empty wq = true)
    ∧ ∀ (i : Nat) (wq : WorkQueue), s.queues[i]? = some (some wq) →
        loom_work_queue_is_empty wq = true → s2.queues[i]? = some (some wq)

/-- One worker that is offline, whose deque is empty and still advertised: bit
1 of `work` is stale. -/
def offlineStale : Scheduler := { oneWorker with work := 2 }

/-- Deque `v` is a victim for thief `q`: its bit is set in
`work & ~(1 << q)`, below the width of the bitmap. -/
def Victim (b : Build) (q : Nat) (s : Scheduler) (v : Nat) : Prop :=
  v < b.width ∧ (s.work &&& notOneShl b q).testBit v = true

/-- Worker 1 is online, the main deque is empty and bit 0 of `work` is still
set from tasks that the main thread advertised and that have run since. -/
def mainStale : Scheduler := { oneWorker with online := 3, work := 1 }

/-! ## The worker thread (`loom_worker_thread`) -/

/-- The labels of `loom_worker_thread` at which a worker stands between two
steps; `finished` is the end of the function. -/
inductive WorkerPc where
  | startup
  | waiting
  | work_in_queue
  | exhausted
  | stealing
  | shutdown
  | finished
  deriving DecidableEq, Repr

/-- A worker thread: its slot `q` (`worker->id`, the index of its deque and of
its bit in the bitmaps), the flag `worker->shutdown`, which the main thread
writes, and the label at which it stands. -/
structure Worker where
  id : Nat
  shutdown : Bool
  pc : WorkerPc
  deriving DecidableEq, Repr

/-- One step of `loom_worker_thread` from a label to the next label, run
without interference; the fuel is that of the loop of `loom_steal_a_task`.
At `waiting` the call `loom_event_wait_on_any` returns 1 when the manual-reset
event `message` is signalled, else 2 when the auto-reset event
`work_to_steal` is signalled, which the wait resets; when neither is
signalled the thread stays blocked and the step changes nothing. `none` when
a called function fails or does not return, and at the end of the
function. -/
def loom_worker_thread_step (b : Build) (fuel : Nat) (w : Worker) (s : Scheduler) :
    Option (Worker × Scheduler) :=
  match w.pc with
  | WorkerPc.startup =>
    some ({ w with pc := WorkerPc.waiting },
      { s with online := loom_atomic_set_native s.online w.id })
  | WorkerPc.waiting =>
    if s.message then
      if w.shutdown then some ({ w with pc := WorkerPc.shutdown }, s)
      else some (w, s)
    else if s.work_to_steal then
      some ({ w with pc := WorkerPc.stealing }, { s with work_to_steal := false })
    else some (w, s)
  | WorkerPc.work_in_queue =>
    if w.shutdown then some ({ w with pc := WorkerPc.shutdown }, s)
    else
      match loom_grab_a_task w.id s with
      | none => none
      | some (s1, some task) =>
        match loom_schedule_a_task b w.id s1 task with
        | none => none
        | some s2 => some (w, s2)
      | some (s1, none) => some ({ w with pc := WorkerPc.exhausted }, s1)
  | WorkerPc.exhausted =>
    some ({ w with pc := WorkerPc.stealing },
      { s with work := loom_atomic_reset_native s.work w.id })
  | WorkerPc.stealing =>
    if w.shutdown then some ({ w with pc := WorkerPc.shutdown }, s)
    else
      match loom_steal_a_task b w.id fuel s with
      | none => none
      | some (s1, some task) =>
        match loom_schedule_a_task b w.id s1 task with
        | none => none
        | some s2 => some (w, s2)
      | some (s1, none) =>
        match s1.queues[w.id]? with
        | some (some wq) =>
          if !loom_work_queue_is_empty wq then
            some ({ w with pc := WorkerPc.work_in_queue }, s1)
          else some ({ w with pc := WorkerPc.waiting }, s1)
        | _ => none
  | WorkerPc.shutdown =>
    some ({ w with pc := WorkerPc.finished },
      loom_signal_availability_of_work w.id
        { s with online := loom_atomic_reset_native s.online w.id })
  | WorkerPc.finished => none

/-- What a completion run by thread `q` may do to the bitmaps: `online` is the
same, and `work` is the same or has bit `q` set in addition. -/
def Keeps (q : Nat) (s s1 : Scheduler) : Prop :=
  s1.online = s.online ∧ (s1.work = s.work ∨ s1.work = loom_atomic_set_native s.work q)

/-- Worker 1 stands at `stealing`, without a request to shut down. -/
def thief1 : Worker := { id := 1, shutdown := false, pc := WorkerPc.stealing }

/-- Task 0 of `fiveTasks` wired with edges to the tasks 1, 2, 3 and 4. -/
def fourWired : Scheduler :=
  (wire build64 0 fiveTasks [1, 2, 3, 4]).getD fiveTasks

/-- The scheduler after the main thread has completed task 0 of
`fourWired`. -/
def fourDone : Scheduler :=
  (loom_schedule_a_task build64 0 fourWired 0).getD fourWired

/-! ## Batches among other tasks -/

/-- The task has a kernel (`work.kind` is not `LOOM_WORK_NONE`). -/
def Task.hasKernel (T : Task) : Bool :=
  match T.work with
  | Work.none => false
  | Work.cpu _ _ => true

/-- The number of edges into task `u` from the tasks of the list `U`, when
`succ` gives the successors of each task in the order of their wiring. -/
def edgesInto (succ : Nat → List Nat) (U : List Nat) (u : Nat) : Nat :=
  (U.map (fun p => (succ p).count u)).sum

/-- What the barrier claim asks of a batch of handles before the call, on a
scheduler whose only running thread is the main thread. The list `U` holds
the slots of the batch and of every task that can be reached from it along
edges, `succ` gives the successors of each of them and `cells` the cells of
its permit chain, embedded or from the pool. The handles are valid and
distinct and their tasks have kernels; every task of `U` is in the pool, its
`blocks` field counts its successors and its permit chain holds them in
order, starting in its first embedded cell; the `blockers` field of a task of
`U` is a 32-bit value that is at least the number of edges into it from `U`;
for a task of the batch it is this number and all these edges come from the
batch; the edges within the batch go up along `rank`, so there is no cycle; a
task outside the batch that has a barrier has it in the barrier memory; the
main deque holds some tasks `Lold`, has room for `U` on top of them and its
counters are at least the size of `U` away from `2^32`; and no bit of `work`
other than the main thread's is set. -/
structure CallReady (b : Build) (s : Scheduler) (hs : List Handle) (U : List Nat)
    (succ : Nat → List Nat) (cells : Nat → List PermitRef) (rank : Nat → Nat) : Prop where
  inPool : ∀ h, h ∈ hs → h.index < s.tasks.tasks.length ∧ (s.task h.index).id = h.id
  distinct : (hs.map (fun h => h.index)).Nodup
  kernels : ∀ h, h ∈ hs → (s.task h.index).work ≠ Work.none
  reach : U.Nodup ∧ (∀ h, h ∈ hs → h.index ∈ U)
    ∧ ∀ t, t ∈ U → t < s.tasks.tasks.length ∧ ∀ u, u ∈ succ t → u ∈ U
  chains : ∀ t, t ∈ U → (s.task t).blocks = (succ t).length
    ∧ ChainCells s (cells t) (succ t)
    ∧ (∀ r, (cells t)[0]? = some r → r = PermitRef.embedded t 0)
    ∧ (succ t).length ≤ b.embedded_permits + s.permits.permits.length
  blockers : ∀ t, t ∈ U → edgesInto succ U t ≤ (s.task t).blockers
    ∧ (s.task t).blockers < U32
  batch : ∀ h, h ∈ hs → (s.task h.index).blockers = edgesInto succ U h.index
    ∧ ∀ p, p ∈ U → h.index ∈ succ p → p ∈ hs.map (fun h => h.index)
  acyclic : ∀ h, h ∈ hs → ∀ u, u ∈ succ h.index → u ∈ hs.map (fun h => h.index)
    → rank h.index < rank u
  barriers : ∀ t, t ∈ U → t ∉ hs.map (fun h => h.index)
    → ∀ k, (s.task t).barrier = some k → k < s.barriers.length
  queue : ∃ wq Lold, s.queues[0]? = some (some wq) ∧ Holds wq.size wq Lold
    ∧ Lold.length + U.length ≤ wq.size ∧ wq.size < U32 ∧ wq.bottom + U.length < U32
  noWorkers : s.work &&& notOneShl b 0 = 0

/-- The data that stay fixed while a batch is run among other tasks: the
build, the slots of the batch, the slots `U` of the tasks that can be reached
from it, the successors and the chain cells of each task, the scheduler
before the call, the capacity of the main deque, its `top` and its content
before the call. -/
structure CallCtx where
  b : Build
  B : List Nat
  U : List Nat
  succ : Nat → List Nat
  cells : Nat → List PermitRef
  s0 : Scheduler
  Q : Nat
  t0 : Nat
  Lold : List Nat

/-- The number of edges into `u` from the tasks of `U` that are not in the
list `done`. -/
def edgesLeft (c : CallCtx) (done : List Nat) (u : Nat) : Nat :=
  (c.U.map (fun p => if p ∈ done then 0 else (c.succ p).count u)).sum

/-- The part of the `blockers` field of `u` before the call that no edge from
`U` accounts for: predecessors that cannot be reached from the batch, or the
latch of a task that was submitted earlier. -/
def spare (c : CallCtx) (u : Nat) : Nat :=
  (c.s0.task u).blockers - edgesLeft c [] u

/-- The tasks of the batch among the tasks of the list `done`. -/
def batchDone (c : CallCtx) (done : List Nat) : List Nat :=
  done.filter (fun t => decide (t ∈ c.B))

/-- What is known of the fixed data of a run among other tasks. -/
structure CallOK (c : CallCtx) (rank : Nat → Nat) : Prop where
  nodupU : c.U.Nodup
  nodupB : c.B.Nodup
  sub : ∀ t, t ∈ c.B → t ∈ c.U
  kernels : ∀ t, t ∈ c.B → (c.s0.task t).work ≠ Work.none
  closed : ∀ t, t ∈ c.U → ∀ u, u ∈ c.succ t → u ∈ c.U
  chains : ∀ t, t ∈ c.U → (c.s0.task t).blocks = (c.succ t).length
    ∧ ChainCells c.s0 (c.cells t) (c.succ t)
    ∧ (∀ r, (c.cells t)[0]? = some r → r = PermitRef.embedded t 0)
    ∧ (c.succ t).length ≤ c.b.embedded_permits + c.s0.permits.permits.length
  counted : ∀ t, t ∈ c.U → edgesLeft c [] t ≤ (c.s0.task t).blockers
    ∧ (c.s0.task t).blockers < U32
  exact : ∀ t, t ∈ c.B → (c.s0.task t).blockers = edgesLeft c [] t
  inside : ∀ p, p ∈ c.U → ∀ t, t ∈ c.succ p → t ∈ c.B → p ∈ c.B
  acyclic : ∀ t, t ∈ c.B → ∀ u, u ∈ c.succ t → u ∈ c.B → rank t < rank u
  barriers : ∀ t, t ∈ c.U → t ∉ c.B
    → ∀ k, (c.s0.task t).barrier = some k → k < c.s0.barriers.length
  room : c.Lold.length + c.U.length ≤ c.Q
  small : c.Q < U32
  far : c.t0 + c.Lold.length + c.U.length < U32

/-- The state of a run of a batch among other tasks: `L` is what the run has
put on the main deque on top of `Lold` and has not yet taken back, `done` the
tasks that the run has completed, `rem` the successors that the task being
completed has still to unblock, `unkicked` the tasks that `kick` has still to
submit. A task of `U` that is neither in `L` nor in `done` has a `blockers`
field that counts the edges into it that are still to be resolved, on top of
its spare part; the barrier counter counts the tasks of the batch that are
not yet complete. -/
structure Run (c : CallCtx) (s : Scheduler) (L done rem unkicked : List Nat) : Prop where
  queue : ∃ wq, s.queues[0]? = some (some wq) ∧ Holds c.Q wq (c.Lold ++ L)
    ∧ wq.top ≤ c.t0 + done.length
  nodup : (L ++ done).Nodup
  sub : ∀ x, x ∈ L ++ done → x ∈ c.U
  tasks : ∀ t, t ∈ c.U → t < s.tasks.tasks.length
    ∧ (s.task t).id = (c.s0.task t).id ∧ (s.task t).work = (c.s0.task t).work
    ∧ (s.task t).blocks = (c.s0.task t).blocks
    ∧ (s.task t).barrier
        = (if t ∈ c.B then some c.s0.barriers.length else (c.s0.task t).barrier)
    ∧ (t ∈ L ++ done → (s.task t).blockers = 4294967295 ∧ edgesLeft c done t = 0 ∧ t ∉ rem)
    ∧ (t ∉ L ++ done → (s.task t).blockers = edgesLeft c done t + rem.count t + spare c t
        ∧ (s.task t).blockers < U32
        ∧ (t ∈ c.B → (s.task t).blockers = 0 → t ∈ unkicked))
  reads : ∀ r, s.readPermit r = c.s0.readPermit r
  pool : s.permits.permits.length = c.s0.permits.permits.length
  barrier : s.barriers[c.s0.barriers.length]?
    = some (c.B.length - (batchDone c done).length)
  memory : s.barriers.length = c.s0.barriers.length + 1
  work : s.work &&& notOneShl c.b 0 = 0
  log : ∃ nl, s.log = c.s0.log ++ nl
    ∧ kernelsRun nl = done.filter (fun t => (c.s0.task t).hasKernel)
    ∧ barrierValues c.s0.barriers.length nl
        = (List.range (batchDone c done).length).map (fun i => c.B.length - 1 - i)

/-- Eight tasks `a, b1, b2, b3, x, y, z, w` in slots 0 to 7 with the edges
`a -> b1`, `a -> b2`, `a -> b3` (the last two in the nodes 0 and 1 of the
permit pool), `b3 -> x`, `b2 -> y` and `z -> y`; the task `w` is kicked, so
that it lies on the main deque, and no other task is. -/
def fanScript : List Op :=
  [Op.describe 100, Op.describe 101, Op.describe 102, Op.describe 103, Op.describe 104,
   Op.describe 105, Op.describe 106, Op.describe 107,
   Op.permits (mkHandle 0 1) (mkHandle 1 2), Op.permits (mkHandle 0 1) (mkHandle 2 3),
   Op.permits (mkHandle 0 1) (mkHandle 3 4), Op.permits (mkHandle 3 4) (mkHandle 4 5),
   Op.permits (mkHandle 2 3) (mkHandle 5 6), Op.permits (mkHandle 6 7) (mkHandle 5 6),
   Op.kick (mkHandle 7 8)]

/-- The scheduler after `fanScript` on a freshly initialised scheduler, when
the script succeeds. -/
def fanReady : Scheduler :=
  match ( loom_initialize build64 4 exampleOptions).bind
      (fun s => runOps build64 s fanScript) with
  | some s => s
  | none => loom_task_scheduler_create build64 0 0 0

/-- The batch `b3`, `a`, `b1`, `b2` of tasks of `fanScript`. -/
def fanBatch : List Handle := [mkHandle 3 4, mkHandle 0 1, mkHandle 1 2, mkHandle 2 3]

/-- The tasks of `fanScript` that can be reached from the batch: the batch,
`x` and `y`. -/
def fanReach : List Nat := [0, 1, 2, 3, 4, 5]

/-- The successors of the tasks of `fanScript` that can be reached from the
batch. -/
def fanSucc (t : Nat) : List Nat :=
  if t = 0 then [1, 2, 3] else if t = 3 then [4] else if t = 2 then [5] else []

/-- The cells of the permit chains of the tasks of `fanScript` that can be
reached from the batch. -/
def fanCells (t : Nat) : List PermitRef :=
  if t = 0 then [PermitRef.embedded 0 0, PermitRef.pooled 0, PermitRef.pooled 1]
  else if t = 3 then [PermitRef.embedded 3 0]
  else if t = 2 then [PermitRef.embedded 2 0]
  else []

/-! ## A kernel that runs before a predecessor -/

/-- The calls of `overflowScript` up to and including the completion of `a`:
the next call of `loom_do_some_work` is the one that runs `f2`. -/
def overflowUntilF2 : List Op :=
  overflowPrefix ++
  [Op.permits (mkHandle 6 7) (mkHandle 7 8), Op.permits (mkHandle 6 7) (mkHandle 8 9),
   Op.kick (mkHandle 2 3), Op.kick (mkHandle 0 1), Op.work]

/-- The scheduler after `overflowUntilF2` on a freshly initialised scheduler,
when the script succeeds. -/
def overflowBeforeF2 : Scheduler :=
  match ( loom_initialize build64 4 exampleOptions).bind
      (fun s => runOps build64 s overflowUntilF2) with
  | some s => s
  | none => loom_task_scheduler_create build64 0 0 0

/-- The calls of `overflowScript` with other kicks: after the wiring of
`e -> f1` and `e -> f2`, `a` is kicked and run, then `e` is kicked and run,
then `f1` is run; the next call of `loom_do_some_work` is the one that runs
`f2`. -/
def sharedNodeScript : List Op :=
  overflowPrefix ++
  [Op.permits (mkHandle 6 7) (mkHandle 7 8), Op.permits (mkHandle 6 7) (mkHandle 8 9),
   Op.kick (mkHandle 0 1), Op.work, Op.kick (mkHandle 6 7), Op.work, Op.work]

/-- The scheduler after `sharedNodeScript` on a freshly initialised scheduler,
when the script succeeds. -/
def sharedNodeBeforeF2 : Scheduler :=
  match ( loom_initialize build64 4 exampleOptions).bind
      (fun s => runOps build64 s sharedNodeScript) with
  | some s => s
  | none => loom_task_scheduler_create build64 0 0 0

/-- The predecessors of task `t` that are not yet complete, which is what the
field `blockers` is meant to count: the tasks of the pool that have
successors, whose permit chain holds an edge to `t` and whose epilogue the
log does not record. -/
def outstandingPredecessors (b : Build) (s : Scheduler) (t : Nat) : List Nat :=
  (List.range s.tasks.tasks.length).filter (fun p =>
    decide (0 < (s.task p).blocks)
      && decide (some t ∈ chainTargets s (b.embedded_permits + s.permits.permits.length + 1)
          (some (PermitRef.embedded p 0)))
      && !decide (Event.epilogue p ∈ s.log))

/-! # Theorems -/

/-! ## Arithmetic helpers -/

theorem sub32_of_le {a b : Nat} (hb : b ≤ a) (ha : a < U32) : sub32 a b = a - b := by
  unfold sub32
  have hb1 : b % U32 = b := Nat.mod_eq_of_lt (lt_of_le_of_lt hb ha)
  have ha1 : a % U32 = a := Nat.mod_eq_of_lt ha
  rw [hb1, ha1, if_pos hb]

theorem add32_of_lt {a b : Nat} (h : a + b < U32) : add32 a b = a + b := by
  unfold add32
  exact Nat.mod_eq_of_lt h

/-! ## Sequential behaviour of the deque without counter wrap -/

/-- Push on a queue whose `top` is zero and that holds fewer than `size` tasks. -/
theorem push_top_zero (wq : WorkQueue) (x : Option Nat) (k : Nat)
    (ht : wq.top = 0) (hb : wq.bottom = k) (hk : k < wq.size) (hQ : wq.size < U32) :
    loom_work_queue_push wq x
      = some ({ wq with tasks := wq.tasks.set k x, bottom := k + 1 }, k + 1) := by
  have h1 : sub32 k 0 = k := by
    rw [sub32_of_le (Nat.zero_le k) (by omega)]; rfl
  have h2 : add32 k 1 = k + 1 := add32_of_lt (by omega)
  have h3 : k % wq.size = k := Nat.mod_eq_of_lt hk
  simp only [loom_work_queue_push, ht, hb, h1, h2, h3]
  rw [if_pos (by omega)]

/-- The queue obtained by pushing a list on a queue whose `top` is zero. -/
theorem pushAll_top_zero (xs : List Nat) : ∀ (wq : WorkQueue) (k : Nat),
    wq.top = 0 → wq.bottom = k → k + xs.length ≤ wq.size → wq.size < U32 →
    ∃ w1, pushAll wq xs = some w1 ∧ w1.top = 0 ∧ w1.bottom = k + xs.length
      ∧ w1.size = wq.size ∧ w1.tasks.length = wq.tasks.length
      ∧ (∀ i, i < k → w1.tasks.getD i none = wq.tasks.getD i none)
      ∧ (∀ i, i < xs.length → k + i < wq.tasks.length →
            w1.tasks.getD (k + i) none = some (xs.getD i 0)) := by
  induction xs with
  | nil =>
    intro wq k ht hb _ _
    exact ⟨wq, rfl, ht, by simpa using hb, rfl, rfl, fun _ _ => rfl, by simp⟩
  | cons x xs ih =>
    intro wq k ht hb hk hQ
    simp only [List.length_cons] at hk
    have hp := push_top_zero wq (some x) k ht hb (by omega) hQ
    obtain ⟨w1, h1, h2, h3, h4, h5, h6, h7⟩ :=
      ih { wq with tasks := wq.tasks.set k (some x), bottom := k + 1 } (k + 1)
        ht rfl (by simp only []; omega) hQ
    refine ⟨w1, ?_, h2, ?_, h4, ?_, ?_, ?_⟩
    · simp only [pushAll, hp, h1]
    · simp only [List.length_cons]; omega
    · rw [h5]; simp
    · intro i hi
      rw [h6 i (by omega)]
      simp only [List.getD_eq_getElem?_getD]
      rw [List.getElem?_set_ne (by omega)]
    · intro i hi hlen
      cases i with
      | zero =>
        simp only [Nat.add_zero] at hlen ⊢
        rw [h6 k (by omega)]
        simp only [List.getD_eq_getElem?_getD]
        rw [List.getElem?_set_eq_of_lt _ (by simpa using hlen)]
        simp
      | succ j =>
        simp only [List.length_cons] at hi
        have := h7 j (by omega) (by simp only [List.length_set]; omega)
        rw [show k + (j + 1) = k + 1 + j by omega, this]
        simp

/-- Pop on a queue whose `top` is zero and that holds at least two tasks. -/
theorem pop_top_zero_many (wq : WorkQueue) (k : Nat)
    (ht : wq.top = 0) (hb : wq.bottom = k + 1) (hk : 1 ≤ k) (hks : k < wq.size)
    (hQ : wq.size < U32) :
    loom_work_queue_pop wq = ({ wq with bottom := k }, wq.tasks.getD k none) := by
  have h1 : sub32 (k + 1) 1 = k := by
    rw [sub32_of_le (by omega) (by omega)]; rfl
  have h3 : k % wq.size = k := Nat.mod_eq_of_lt hks
  simp only [loom_work_queue_pop, loom_atomic_decr_u32, ht, hb, h1, h3]
  rw [if_pos (Nat.zero_le k), if_pos (by omega)]

/-- Pop on a queue whose `top` is zero and that holds exactly one task. -/
theorem pop_top_zero_last (wq : WorkQueue)
    (ht : wq.top = 0) (hb : wq.bottom = 1) :
    loom_work_queue_pop wq = ({ wq with top := 1, bottom := 1 }, wq.tasks.getD 0 none) := by
  have h1 : sub32 1 1 = 0 := by decide
  have h2 : add32 0 1 = 1 := by decide
  simp [loom_work_queue_pop, loom_atomic_decr_u32, loom_atomic_cmp_and_xchg_u32, ht, hb, h1, h2]

theorem popN_add (a b : Nat) : ∀ wq : WorkQueue,
    popN (a + b) wq
      = ((popN b (popN a wq).1).1, (popN a wq).2 ++ (popN b (popN a wq).1).2) := by
  induction a with
  | zero => intro wq; simp [popN]
  | succ a ih =>
    intro wq
    rw [show a + 1 + b = (a + b) + 1 by omega]
    simp only [popN, ih, List.cons_append]

/-- Popping the upper part of a queue whose `top` is zero: the tasks come out
in the reverse of the order in which they lie in the slots. -/
theorem popN_top_zero (ys : List Nat) : ∀ (wq : WorkQueue) (k : Nat),
    wq.top = 0 → 1 ≤ k → wq.bottom = k + ys.length → k + ys.length ≤ wq.size →
    wq.size < U32 →
    (∀ i, i < ys.length → wq.tasks.getD (k + i) none = some (ys.getD i 0)) →
    popN ys.length wq = ({ wq with bottom := k }, ys.reverse.map some) := by
  induction ys using List.reverseRecOn with
  | nil =>
    intro wq k _ _ hb _ _ _
    simp only [List.length_nil, Nat.add_zero] at hb
    simp [popN, ← hb]
  | append_singleton ys y ih =>
    intro wq k ht hk hb hle hQ hc
    simp only [List.length_append, List.length_singleton] at hb hle hc ⊢
    have hp := pop_top_zero_many wq (k + ys.length) ht (by omega) (by omega) (by omega) hQ
    have hy := hc ys.length (by omega)
    have hrec := ih { wq with bottom := k + ys.length } k ht hk rfl
      (by simp only []; omega) hQ
      (by
        intro i hi
        have := hc i (by omega)
        simp only [this, List.getD_eq_getElem?_getD]
        rw [List.getElem?_append_left hi])
    simp only [popN, hp, hrec, hy]
    simp [List.getD_eq_getElem?_getD]

/-- Steal on a queue that holds at least one task, without counter wrap. -/
theorem steal_nonempty (wq : WorkQueue) (j : Nat)
    (ht : wq.top = j) (hb : j < wq.bottom) (hjs : j < wq.size) (hQ : wq.size < U32) :
    loom_work_queue_steal wq = ({ wq with top := j + 1 }, wq.tasks.getD j none) := by
  have h2 : add32 j 1 = j + 1 := add32_of_lt (by omega)
  have h3 : j % wq.size = j := Nat.mod_eq_of_lt hjs
  simp [loom_work_queue_steal, loom_atomic_cmp_and_xchg_u32, ht, hb, h2, h3]

/-- Steal on a queue whose counters are equal returns none and changes nothing. -/
theorem steal_empty (wq : WorkQueue) (h : wq.top = wq.bottom) :
    loom_work_queue_steal wq = (wq, none) := by
  simp [loom_work_queue_steal, h]

/-- Stealing everything from a queue: the tasks come out in the order in
which they lie in the slots. -/
theorem stealN_spec (ys : List Nat) : ∀ (wq : WorkQueue) (j : Nat),
    wq.top = j → wq.bottom = j + ys.length → j + ys.length ≤ wq.size →
    wq.size < U32 →
    (∀ i, i < ys.length → wq.tasks.getD (j + i) none = some (ys.getD i 0)) →
    stealN ys.length wq = ({ wq with top := j + ys.length }, ys.map some) := by
  induction ys with
  | nil =>
    intro wq j ht _ _ _ _
    simp [stealN, ← ht]
  | cons y ys ih =>
    intro wq j ht hb hle hQ hc
    simp only [List.length_cons] at hb hle hc ⊢
    have hs := steal_nonempty wq j ht (by omega) (by omega) hQ
    have hy := hc 0 (by omega)
    have hrec := ih { wq with top := j + 1 } (j + 1) rfl (by simp only []; omega)
      (by simp only []; omega) hQ
      (by
        intro i hi
        have := hc (i + 1) (by omega)
        rw [show j + 1 + i = j + (i + 1) by omega]
        simpa using this)
    simp only [stealN, hs, hrec]
    simp only [Nat.add_zero] at hy
    rw [hy]
    simp [Nat.add_assoc, Nat.add_comm 1]

/-- The freshly created queue of a capacity below `2^32`. -/
theorem create_shape (Q : Nat) (hQ : Q < U32) :
    (loom_work_queue_create Q).top = 0 ∧ (loom_work_queue_create Q).bottom = 0
      ∧ (loom_work_queue_create Q).size = Q ∧ (loom_work_queue_create Q).tasks.length = Q := by
  simp [loom_work_queue_create, Nat.mod_eq_of_lt hQ]

/-! ## The deque claims -/

/-- C1 (owner LIFO): on a freshly created deque of capacity `Q` (below
`2^32`, the range of the `size` field), pushing `n` tasks with `1 <= n <= Q`
succeeds, and `n` pops in a row, without any steal, return the tasks in the
reverse of the push order. -/
theorem C1_owner_lifo (Q : Nat) (xs : List Nat) (hQ : Q < U32)
    (hn : 1 ≤ xs.length) (hle : xs.length ≤ Q) :
    ∃ wq, pushAll (loom_work_queue_create Q) xs = some wq
      ∧ (popN xs.length wq).2 = xs.reverse.map some := by
  obtain ⟨ht, hb, hs, hl⟩ := create_shape Q hQ
  obtain ⟨w1, h1, h2, h3, h4, h5, _, h7⟩ :=
    pushAll_top_zero xs (loom_work_queue_create Q) 0 ht hb (by omega) (by omega)
  refine ⟨w1, h1, ?_⟩
  cases xs with
  | nil => simp at hn
  | cons x rest =>
    simp only [List.length_cons] at h3 h7 hle ⊢
    have hrest := popN_top_zero rest w1 1 h2 (by omega) (by omega) (by omega) (by omega)
      (by
        intro i hi
        have := h7 (i + 1) (by omega) (by omega)
        rw [show 1 + i = 0 + (i + 1) by omega, this]
        simp)
    have hx := h7 0 (by omega) (by omega)
    have hlast := pop_top_zero_last { w1 with bottom := 1 } h2 rfl
    rw [popN_add rest.length 1, hrest]
    simp only [popN, hlast]
    simp only [Nat.add_zero, List.getD_eq_getElem?_getD] at hx
    simp [hx]

/-- C1 witness: capacity 4 and three tasks. -/
theorem C1_owner_lifo_witness :
    ∃ wq, pushAll (loom_work_queue_create 4) [10, 20, 30] = some wq
      ∧ (popN [10, 20, 30].length wq).2 = [10, 20, 30].reverse.map some :=
  C1_owner_lifo 4 [10, 20, 30] (by decide) (by decide) (by decide)

/-- C2 (stealer FIFO): on a freshly created deque of capacity `Q` (below
`2^32`), after pushing `n` tasks with `1 <= n <= Q`, `n` steals in a row,
without any pop, return the tasks in push order, and one more steal returns
none and leaves the queue, hence `top` and `bottom`, unchanged (the statement
also covers `n = 0`). -/
theorem C2_stealer_fifo (Q : Nat) (xs : List Nat) (hQ : Q < U32) (hle : xs.length ≤ Q) :
    ∃ wq, pushAll (loom_work_queue_create Q) xs = some wq
      ∧ (stealN xs.length wq).2 = xs.map some
      ∧ loom_work_queue_steal (stealN xs.length wq).1 = ((stealN xs.length wq).1, none) := by
  obtain ⟨ht, hb, hs, hl⟩ := create_shape Q hQ
  obtain ⟨w1, h1, h2, h3, h4, h5, _, h7⟩ :=
    pushAll_top_zero xs (loom_work_queue_create Q) 0 ht hb (by omega) (by omega)
  have hst := stealN_spec xs w1 0 h2 (by omega) (by omega) (by omega)
    (fun i hi => h7 i hi (by omega))
  refine ⟨w1, h1, ?_, ?_⟩
  · rw [hst]
  · rw [hst]
    apply steal_empty
    simp only [h3]

/-- C2 witness: capacity 4 and three tasks. -/
theorem C2_stealer_fifo_witness :
    ∃ wq, pushAll (loom_work_queue_create 4) [10, 20, 30] = some wq
      ∧ (stealN [10, 20, 30].length wq).2 = [10, 20, 30].map some
      ∧ loom_work_queue_steal (stealN [10, 20, 30].length wq).1
          = ((stealN [10, 20, 30].length wq).1, none) :=
  C2_stealer_fifo 4 [10, 20, 30] (by decide) (by decide)

/-- Pop on an empty queue whose counters are not zero: none is returned and
both counters keep their value. -/
theorem pop_empty_nonzero (wq : WorkQueue) (t : Nat)
    (ht : wq.top = t) (hb : wq.bottom = t) (h0 : 1 ≤ t) (h32 : t < U32) :
    loom_work_queue_pop wq = (wq, none) := by
  have h1 : sub32 t 1 = t - 1 := sub32_of_le h0 h32
  simp only [loom_work_queue_pop, loom_atomic_decr_u32, ht, hb, h1]
  rw [if_neg (by omega)]
  cases wq
  simp_all

/-- C6 (pop on an empty deque), evaluated on the freshly created deque: the
decrement wraps `bottom` to `2^32 - 1`, the unsigned test `top <= bottom`
takes the non-empty branch, and the call returns the content of slot
`(2^32 - 1) % size` with `top = 0` and `bottom = 2^32 - 1`, a depth of
`2^32 - 1` instead of `0`. -/
theorem C6_pop_fresh_deque_wraps_bottom :
    loom_work_queue_pop (loom_work_queue_create 4)
        = ({ loom_work_queue_create 4 with bottom := 4294967295 }, none)
      ∧ (loom_work_queue_pop (loom_work_queue_create 4)).1.top = 0
      ∧ (loom_work_queue_pop (loom_work_queue_create 4)).1.bottom ≠
          (loom_work_queue_pop (loom_work_queue_create 4)).1.top
      ∧ loom_work_queue_depth (loom_work_queue_pop (loom_work_queue_create 4)).1
          = 4294967295 := by
  decide

/-- C7 (depth invariant), evaluated on a full deque of capacity 2: the
capacity assertion `2 <= 2` passes and the push leaves a depth of 3. -/
theorem C7_push_on_full_deque_exceeds_capacity :
    pushAll (loom_work_queue_create 2) [10, 20] = some fullQueue2
      ∧ loom_work_queue_depth fullQueue2 ≤ fullQueue2.size
      ∧ ∃ wq d, loom_work_queue_push fullQueue2 (some 30) = some (wq, d)
          ∧ loom_work_queue_depth wq = 3 ∧ ¬ loom_work_queue_depth wq ≤ wq.size := by
  refine ⟨by decide, by decide, ?_⟩
  exact ⟨{ fullQueue2 with tasks := [some 30, some 20], bottom := 3 }, 3,
    by decide, by decide, by decide⟩

/-- C8 (capacity check), evaluated on a full deque of capacity 2: the third
push does not fail, it returns depth 3 and overwrites slot 0, which held the
oldest task 10, still unconsumed; the next steal returns 30 instead of 10. -/
theorem C8_push_on_full_deque_overwrites :
    loom_work_queue_depth fullQueue2 = fullQueue2.size
      ∧ loom_work_queue_push fullQueue2 (some 30)
          = some ({ fullQueue2 with tasks := [some 30, some 20], bottom := 3 }, 3)
      ∧ (loom_work_queue_steal fullQueue2).2 = some 10
      ∧ (loom_work_queue_steal
          { fullQueue2 with tasks := [some 30, some 20], bottom := 3 }).2 = some 30 := by
  decide

/-- C9 (counter wrap-around), evaluated at `Q = 2`, `t = 2^32 - 1`, `d = 2`:
the queue is reached from the empty queue with both counters at `2^32 - 1` by
two pushes and has depth 2, yet steal returns none, and pop returns none and
resets `bottom` to `top`, so both tasks are dropped. -/
theorem C9_wrapped_queue_loses_tasks :
    pushAll { top := 4294967295, bottom := 4294967295, tasks := [none, none], size := 2,
              size_minus_one := 1 } [10, 20] = some wrappedQueue2
      ∧ loom_work_queue_depth wrappedQueue2 = 2
      ∧ loom_work_queue_steal wrappedQueue2 = (wrappedQueue2, none)
      ∧ loom_work_queue_pop wrappedQueue2
          = ({ wrappedQueue2 with bottom := 4294967295 }, none) := by
  decide

/-! ## The scheduler claims -/

/-- The chain `a -> b -> c` kicked in the order `c`, `b`, `a` and drained by
the main thread: the kernels run in the order `a`, `b`, `c`. -/
theorem chain_kernels_in_order :
    chainRun.map (fun s => kernelsRun s.log) = some [0, 1, 2] := by
  decide

/-- C3 (exactly-once submission), evaluated on `overflowScript`: the only edge
into `b2` (slot 2), `a -> b2`, is wired before any kick; `b2` is kicked and
its only predecessor `a` (slot 0) runs to completion, yet `b2` is never pushed
on a deque: the pushes of the whole run are `c, d1, d2, a, b1, f2`, the
`blockers` field of `b2` is still 1 at the end and the main deque is drained
(`loom_do_some_work` returns false). The node of the permit pool that carried
`a -> b2` was handed out a second time, because `loom_permit_pool_return`
pushed index `1 / sizeof(loom_permit_t) = 0` instead of 1. -/
theorem C3_kicked_task_never_pushed :
    overflowRun.map (fun s => (tasksPushed s.log, kernelsRun s.log,
        (s.tasks.tasks.map (fun t => t.blockers))[2]?,
        (loom_do_some_work build64 0 1 s).map (fun r => r.2)))
      = some ([3, 4, 5, 0, 1, 8], [3, 0, 8, 1, 5, 4], some 1, some false) := by
  decide

/-- C4 (dependency order), evaluated on `overflowScript`: the edge `e -> f2`
(slots 6 and 8) is wired by `loom_permits` before either task is kicked, and
the kernel of `f2` runs although the kernel of `e` never does: the kernels
that run are those of `c, a, f2, b1, d2, d1`. Completing `a` walks the pool
node 0, which by then carries `e -> f2`. -/
theorem C4_successor_runs_without_predecessor :
    overflowRun.map (fun s => (kernelsRun s.log, decide (8 ∈ kernelsRun s.log),
        decide (6 ∈ kernelsRun s.log)))
      = some ([3, 0, 8, 1, 5, 4], true, false) := by
  decide

set_option maxRecDepth 1000000 in
/-- With `top = 0` every interleaving of one pop and one steal on a deque that
holds one task ends with exactly one of them returning the task. Nine steps
are enough for both calls to finish, and a finished call does not move. -/
theorem race_exclusive_at_zero :
    (allSchedules 9).all (fun sch =>
      !(runRace (Race.start lastTask) sch).finished
        || (runRace (Race.start lastTask) sch).exclusive 7) = true := by
  decide

/-- C10 (steal-pop exclusivity), evaluated on the deque of capacity 1 that
holds the single task 7 with `top = 2^32 - 1` and `bottom = 0`: when the owner
runs its pop up to and including the compare-and-exchange, then the thief
runs its whole steal, then the owner stores `bottom`, both calls return the
task 7 and the deque ends with `top = 1` and `bottom = 0`. -/
theorem C10_race_at_wrap_returns_task_twice :
    loom_work_queue_depth lastTaskWrapped = 1
      ∧ runRace (Race.start lastTaskWrapped)
          [true, true, true, true, false, false, false, false, true]
        = { wq := { lastTaskWrapped with top := 1, bottom := 0 }
            owner := { pc := PopPc.done, bottom := 4294967295, top := 4294967295,
                       task := some 7 }
            thief := { pc := StealPc.done, top := 0, bottom := 4294967295,
                       task := some 7, result := some 7 } }
      ∧ (runRace (Race.start lastTaskWrapped)
          [true, true, true, true, false, false, false, false, true]).finished = true
      ∧ (runRace (Race.start lastTaskWrapped)
          [true, true, true, true, false, false, false, false, true]).exclusive 7 = false := by
  decide

/-! ## The barrier countdown -/

/-- When no bit of `work` other than the thief's own is set, the steal returns
none at once and changes nothing. -/
theorem steal_no_victims (b : Build) (q fuel : Nat) (s : Scheduler)
    (h : s.work &&& notOneShl b q = 0) :
    loom_steal_a_task b q (fuel + 1) s = some (s, none) := by
  simp [loom_steal_a_task, h]

/-- After the kick of the cyclic batch the waiting loop makes no progress: the
counter is 2, the deque is empty and there is nothing to steal, so a pass of
the loop leaves the state as it is. -/
theorem cycle_wait_never_returns : ∀ fuel, waitLoop build64 0 0 fuel cycleKicked = none := by
  intro fuel
  induction fuel with
  | zero => rfl
  | succ fuel ih =>
    have h1 : cycleKicked.barriers[0]? = some 2 := by decide
    have h2 : { cycleKicked with barriers := cycleKicked.barriers.set 0 (is_zero_yet 2).1 }
        = cycleKicked := by decide
    have h3 : (is_zero_yet 2).2 = false := by decide
    have h4 : loom_grab_a_task 0 cycleKicked = some (cycleKicked, none) := by decide
    have h5 : loom_steal_a_task build64 0 (fuel + 1) cycleKicked = some (cycleKicked, none) :=
      steal_no_victims build64 0 fuel cycleKicked (by decide)
    have h6 : loom_do_some_work build64 0 (fuel + 1) cycleKicked = some (cycleKicked, false) := by
      simp [loom_do_some_work, h4, h5]
    simp only [waitLoop, h1, h2, h3, h6]
    simpa using ih

/-! ## Lists -/

theorem list_set_self {α : Type} (l : List α) (i : Nat) (a : α) (h : l[i]? = some a) :
    l.set i a = l := by
  apply List.ext_getElem?
  intro j
  rw [List.getElem?_set]
  split
  · rename_i hij
    subst hij
    rw [h]
    have : i < l.length := by
      by_contra hc
      rw [List.getElem?_eq_none (by omega)] at h
      exact absurd h (by simp)
    simp [this]
  · rfl

theorem mod_ne_of_lt_add {Q a i l : Nat} (hi : i < l) (hl : l < Q) :
    (a + i) % Q ≠ (a + l) % Q := by
  intro h
  have h1 : (a + l - (a + i)) % Q = 0 := Nat.sub_mod_eq_zero_of_mod_eq h.symm
  have h2 : a + l - (a + i) = l - i := by omega
  rw [h2, Nat.mod_eq_of_lt (by omega)] at h1
  omega

/-! ## The deque as a list -/

theorem holds_push {Q : Nat} {wq : WorkQueue} {L : List Nat} (x : Nat)
    (h : Holds Q wq L) (hl : L.length < Q) (hQ : Q < U32) (hb : wq.bottom + 1 < U32) :
    ∃ wq1, loom_work_queue_push wq (some x) = some (wq1, L.length + 1)
      ∧ Holds Q wq1 (L ++ [x]) ∧ wq1.top = wq.top := by
  obtain ⟨hs, hlen, hbot, hslots⟩ := h
  have h1 : sub32 wq.bottom wq.top = L.length := by
    rw [sub32_of_le (by omega) (by omega)]; omega
  have h2 : add32 wq.bottom 1 = wq.bottom + 1 := add32_of_lt hb
  have h3 : add32 L.length 1 = L.length + 1 := add32_of_lt (by omega)
  refine ⟨{ wq with tasks := wq.tasks.set (wq.bottom % Q) (some x), bottom := wq.bottom + 1 },
    ?_, ?_, rfl⟩
  · simp only [loom_work_queue_push, h1, h2, h3, hs]
    rw [if_pos (by omega)]
  · refine ⟨hs, by simp [hlen], by simp [hbot]; omega, ?_⟩
    intro i hi
    simp only [List.length_append, List.length_singleton] at hi
    simp only [List.getD_eq_getElem?_getD]
    by_cases hil : i < L.length
    · have hne : wq.bottom % Q ≠ (wq.top + i) % Q := by
        rw [hbot]; exact (mod_ne_of_lt_add hil hl).symm
      rw [List.getElem?_set_ne hne, List.getElem?_append_left hil]
      have := hslots i hil
      simpa [List.getD_eq_getElem?_getD] using this
    · have hi2 : i = L.length := by omega
      subst hi2
      rw [← hbot]
      rw [List.getElem?_set_eq_of_lt _ (by rw [hlen]; exact Nat.mod_lt _ (by omega))]
      simp

theorem holds_pop {Q : Nat} {wq : WorkQueue} {L : List Nat} {x : Nat}
    (h : Holds Q wq (L ++ [x])) (hb : wq.bottom < U32) :
    ∃ wq1, loom_work_queue_pop wq = (wq1, some x) ∧ Holds Q wq1 L
      ∧ wq1.top ≤ wq.top + 1 := by
  obtain ⟨hs, hlen, hbot, hslots⟩ := h
  simp only [List.length_append, List.length_singleton] at hbot hslots
  have h1 : sub32 wq.bottom 1 = wq.top + L.length := by
    rw [sub32_of_le (by omega) (by omega)]; omega
  have hx : wq.tasks.getD ((wq.top + L.length) % Q) none = some x := by
    have := hslots L.length (by omega)
    simpa using this
  by_cases hL : L.length = 0
  · have hnil : L = [] := List.length_eq_zero.mp hL
    have h2 : add32 wq.top 1 = wq.top + 1 := add32_of_lt (by omega)
    refine ⟨{ wq with top := wq.top + 1, bottom := wq.top + 1 }, ?_, ?_, by simp⟩
    · have hx2 : wq.tasks.getD (wq.top % Q) none = some x := by
        simpa [hL] using hx
      simp only [loom_work_queue_pop, loom_atomic_decr_u32, loom_atomic_cmp_and_xchg_u32, h1,
        hs, hL, h2, Nat.add_zero, hx2]
      simp
    · subst hnil
      exact ⟨hs, hlen, by simp, by simp⟩
  · refine ⟨{ wq with bottom := wq.top + L.length }, ?_, ?_, by simp⟩
    · simp only [loom_work_queue_pop, loom_atomic_decr_u32, h1, hs, hx]
      rw [if_pos (by omega), if_pos (by omega)]
    · refine ⟨hs, hlen, rfl, ?_⟩
      intro i hi
      have := hslots i (by omega)
      simp only [List.getD_eq_getElem?_getD] at this ⊢
      rw [List.getElem?_append_left hi] at this
      exact this

/-! ## Effects of the primitives on the parts of the state that a run reads -/

theorem task_get {s : Scheduler} {t : Nat} (h : t < s.tasks.tasks.length) :
    s.tasks.tasks[t]? = some (s.task t) := by
  simp [Scheduler.task, List.getElem?_eq_getElem h]

theorem setTask_task (s : Scheduler) (u t : Nat) (T : Task) (hu : u < s.tasks.tasks.length) :
    (s.setTask u T).task t = if t = u then T else s.task t := by
  simp only [Scheduler.task, Scheduler.setTask, List.getD_eq_getElem?_getD]
  by_cases h : t = u
  · subst h
    simp [List.getElem?_set_eq_of_lt _ hu]
  · rw [List.getElem?_set_ne (Ne.symm h)]
    simp [h]

theorem setTask_length (s : Scheduler) (u : Nat) (T : Task) :
    (s.setTask u T).tasks.tasks.length = s.tasks.tasks.length := by
  simp [Scheduler.setTask]

theorem setTask_self (s : Scheduler) (u : Nat) (hu : u < s.tasks.tasks.length) :
    s.setTask u (s.task u) = s := by
  have h := list_set_self s.tasks.tasks u (s.task u) (task_get hu)
  simp only [Scheduler.setTask, h]

theorem setQueue_get (s : Scheduler) (wq wq1 : WorkQueue)
    (h : s.queues[0]? = some (some wq)) :
    (s.setQueue 0 wq1).queues[0]? = some (some wq1) := by
  have hl : 0 < s.queues.length := by
    by_contra hc
    rw [List.getElem?_eq_none (by omega)] at h
    exact absurd h (by simp)
  simp [Scheduler.setQueue, List.getElem?_set_eq_of_lt _ hl]

/-- Grabbing from a deque that holds at least one task returns the task pushed
last. -/
theorem grab_spec {Q : Nat} {s : Scheduler} {wq : WorkQueue} {L : List Nat} {x : Nat}
    (hq : s.queues[0]? = some (some wq)) (h : Holds Q wq (L ++ [x])) (hb : wq.bottom < U32) :
    ∃ wq1, loom_grab_a_task 0 s = some (s.setQueue 0 wq1, some x) ∧ Holds Q wq1 L
      ∧ wq1.top ≤ wq.top + 1 := by
  obtain ⟨wq1, hp, hh, ht⟩ := holds_pop h hb
  refine ⟨wq1, ?_, hh, ht⟩
  have hne : loom_work_queue_is_empty wq = false := by
    have := h.2.2.1
    simp only [List.length_append, List.length_singleton] at this
    simp [loom_work_queue_is_empty, this]
  simp [loom_grab_a_task, grabLoop, hq, hne, hp]

/-- Submitting a task whose `blockers` field is not zero changes nothing. -/
theorem submit_blocked {s : Scheduler} {t : Nat} (q : Nat) (ht : t < s.tasks.tasks.length)
    (hb : (s.task t).blockers ≠ 0) :
    loom_submit_a_task q s t = some s := by
  have hself : s.setTask t { s.task t with blockers := (s.task t).blockers } = s :=
    setTask_self s t ht
  simp [loom_submit_a_task, task_get ht, loom_atomic_cmp_and_xchg_u32, hb, hself]

/-- Submitting from the main thread a task whose `blockers` field is zero
latches the field and pushes the task on the main deque. -/
theorem submit_ready {s : Scheduler} {t : Nat} {wq wq1 : WorkQueue} {d : Nat}
    (b : Build) (ht : t < s.tasks.tasks.length) (hb : (s.task t).blockers = 0)
    (hq : s.queues[0]? = some (some wq))
    (hp : loom_work_queue_push wq (some t) = some (wq1, d))
    (hw : s.work &&& notOneShl b 0 = 0) :
    ∃ s1, loom_submit_a_task 0 s t = some s1
      ∧ s1.tasks.tasks = s.tasks.tasks.set t { s.task t with blockers := 4294967295 }
      ∧ s1.queues[0]? = some (some wq1)
      ∧ s1.barriers = s.barriers
      ∧ s1.log = s.log ++ [Event.push 0 t]
      ∧ s1.work &&& notOneShl b 0 = 0 := by
  have hq1 : (s.setTask t { s.task t with blockers := 4294967295 }).queues[0]?
      = some (some wq) := hq
  have hmask : (1 : Nat) &&& notOneShl b 0 = 0 := by
    simp only [notOneShl, Nat.zero_mod, Nat.pow_zero]
    rw [if_pos (by omega), Nat.one_and_eq_mod_two]
    rcases Nat.eq_zero_or_pos b.width with h0 | h0
    · simp [h0]
    · obtain ⟨w, hw2⟩ : ∃ w, b.width = w + 1 := ⟨b.width - 1, by omega⟩
      rw [hw2, Nat.pow_succ]
      omega
  have hw1 : (s.work ||| 1 <<< 0) &&& notOneShl b 0 = 0 := by
    rw [Nat.shiftLeft_zero, Nat.and_distrib_right, hw, hmask]
    rfl
  simp only [loom_submit_a_task, task_get ht, loom_atomic_cmp_and_xchg_u32, hb]
  simp only [if_true, ne_eq, not_true_eq_false, if_false, hq1, hp]
  split
  · exact ⟨_, rfl, rfl, by
      simp [loom_signal_availability_of_work, Scheduler.emit, Scheduler.setQueue]
      exact setQueue_get _ wq wq1 hq1, rfl, rfl, by
      simpa [loom_signal_availability_of_work, Scheduler.emit, Scheduler.setQueue,
        Scheduler.setTask, loom_atomic_set_native] using hw1⟩
  · split
    · exact ⟨_, rfl, rfl, by
        simp [loom_signal_availability_of_work, Scheduler.emit, Scheduler.setQueue]
        exact setQueue_get _ wq wq1 hq1, rfl, rfl, by
        simpa [loom_signal_availability_of_work, Scheduler.emit, Scheduler.setQueue,
          Scheduler.setTask, loom_atomic_set_native] using hw1⟩
    · exact ⟨_, rfl, rfl, by
        simp [Scheduler.emit]
        exact setQueue_get _ wq wq1 hq1, rfl, rfl, hw⟩

/-! ## Counting edges -/

theorem sum_move_aux (cnt : Nat → Nat) (done : List Nat) (t : Nat) (ht : t ∉ done) :
    ∀ B : List Nat, B.Nodup →
      (B.map (fun p => if p ∈ done ∨ p = t then 0 else cnt p)).sum
          + (if t ∈ B then cnt t else 0)
        = (B.map (fun p => if p ∈ done then 0 else cnt p)).sum := by
  intro B
  induction B with
  | nil => intro _; simp
  | cons p B ih =>
    intro hnd
    have hp : p ∉ B := (List.nodup_cons.mp hnd).1
    have ih1 := ih (List.nodup_cons.mp hnd).2
    by_cases hpt : p = t
    · subst hpt
      simp only [hp, if_false, Nat.add_zero] at ih1
      simp [ht, ih1, Nat.add_comm]
    · have h1 : (p ∈ done ∨ p = t) ↔ p ∈ done := by simp [hpt]
      have h2 : (t ∈ p :: B) ↔ t ∈ B := by simp [Ne.symm hpt]
      simp only [List.map_cons, List.sum_cons, h1, h2]
      rw [Nat.add_assoc, ih1]

theorem sum_pos_exists (cnt : Nat → Nat) (done : List Nat) :
    ∀ B : List Nat, 0 < (B.map (fun p => if p ∈ done then 0 else cnt p)).sum →
      ∃ p, p ∈ B ∧ p ∉ done ∧ 0 < cnt p := by
  intro B
  induction B with
  | nil => intro h; simp at h
  | cons p B ih =>
    intro h
    simp only [List.map_cons, List.sum_cons] at h
    by_cases hp : p ∈ done
    · simp only [hp, if_true, Nat.zero_add] at h
      obtain ⟨r, hr, hrd, hrc⟩ := ih h
      exact ⟨r, List.mem_cons_of_mem _ hr, hrd, hrc⟩
    · simp only [hp, if_false] at h
      by_cases hc : 0 < cnt p
      · exact ⟨p, List.mem_cons_self _ _, hp, hc⟩
      · have h0 : cnt p = 0 := by omega
        rw [h0, Nat.zero_add] at h
        obtain ⟨r, hr, hrd, hrc⟩ := ih h
        exact ⟨r, List.mem_cons_of_mem _ hr, hrd, hrc⟩

theorem nodup_length_le {l B : List Nat} (hnd : l.Nodup) (hsub : ∀ x, x ∈ l → x ∈ B) :
    l.length ≤ B.length :=
  (List.subperm_of_subset hnd hsub).length_le

theorem exists_not_mem {done B : List Nat} (hB : B.Nodup) (hlt : done.length < B.length) :
    ∃ t, t ∈ B ∧ t ∉ done := by
  by_contra hc
  have hsub : ∀ x, x ∈ B → x ∈ done := by
    intro x hx
    by_contra hxd
    exact hc ⟨x, hx, hxd⟩
  have := nodup_length_le hB hsub
  omega

theorem nodup_snoc_mid {L done : List Nat} {u : Nat} (h : (L ++ done).Nodup)
    (hu : u ∉ L ++ done) : (L ++ [u] ++ done).Nodup := by
  have hp : (L ++ [u] ++ done).Perm (u :: (L ++ done)) := by
    simp
  exact hp.nodup_iff.mpr (List.nodup_cons.mpr ⟨hu, h⟩)

theorem kernelsRun_append (l1 l2 : List Event) :
    kernelsRun (l1 ++ l2) = kernelsRun l1 ++ kernelsRun l2 := by
  simp [kernelsRun]

theorem barrierValues_append (k : Nat) (l1 l2 : List Event) :
    barrierValues k (l1 ++ l2) = barrierValues k l1 ++ barrierValues k l2 := by
  simp [barrierValues]

/-! ## The loops of a run, unfolded -/

theorem task_of_set {s s1 : Scheduler} {u : Nat} {T : Task}
    (h : s1.tasks.tasks = s.tasks.tasks.set u T) (hu : u < s.tasks.tasks.length) (t : Nat) :
    s1.task t = if t = u then T else s.task t := by
  have := setTask_task s u t T hu
  simp only [Scheduler.task, Scheduler.setTask] at this ⊢
  rw [h]
  exact this

theorem unblockLoop_succ (b : Build) (q fuel : Nat) (s : Scheduler) (r : PermitRef) :
    unblockLoop b q (fuel + 1) s (some r)
      = match unblockStep b q s r with
        | none => none
        | some (s1, next) => unblockLoop b q fuel s1 next := rfl

/-- One pass of the loop of `loom_unblock_any_permitted`. -/
theorem unblockStep_eq (b : Build) (q : Nat) (s s2 : Scheduler) (r : PermitRef)
    (p p2 : Permit) (target : Nat)
    (h1 : s.readPermit r = some p) (h2 : p.task = some target)
    (h3 : target < s.tasks.tasks.length)
    (h4 : (if loom_atomic_decr_u32 (s.task target).blockers = 0 then
        loom_submit_a_task q
          ((s.setTask target { s.task target with
              blockers := loom_atomic_decr_u32 (s.task target).blockers }).emit
            (Event.unblock target (loom_atomic_decr_u32 (s.task target).blockers))) target
      else some ((s.setTask target { s.task target with
              blockers := loom_atomic_decr_u32 (s.task target).blockers }).emit
            (Event.unblock target (loom_atomic_decr_u32 (s.task target).blockers)))) = some s2)
    (h5 : s2.readPermit r = some p2) :
    unblockStep b q s r = some (loom_return_a_permit b s2 r, p2.next) := by
  simp only [unblockStep, h1, h2, task_get h3, h4, h5]

theorem nodup_move_last {L done : List Nat} {t : Nat} (h : (L ++ [t] ++ done).Nodup) :
    (L ++ (done ++ [t])).Nodup ∧ t ∉ done ∧ t ∉ L := by
  have hp : (L ++ (done ++ [t])).Perm (L ++ [t] ++ done) := by
    rw [List.append_assoc]
    exact List.Perm.append_left L List.perm_append_comm
  refine ⟨hp.nodup_iff.mpr h, ?_, ?_⟩
  · intro hc
    have := List.nodup_append.mp h
    exact this.2.2 (by simp) hc
  · intro hc
    have := (List.nodup_append.mp h).1
    have h2 := List.nodup_append.mp this
    exact h2.2.2 hc (by simp)

theorem set_barrier_self (s : Scheduler) (k v : Nat) (h : s.barriers[k]? = some v) :
    { s with barriers := s.barriers.set k v } = s := by
  rw [list_set_self _ _ _ h]

theorem waitLoop_succ (b : Build) (q barrier fuel : Nat) (s : Scheduler) :
    waitLoop b q barrier (fuel + 1) s
      = match s.barriers[barrier]? with
        | none => none
        | some v =>
          let z := is_zero_yet v
          let s1 := { s with barriers := s.barriers.set barrier z.1 }
          if z.2 then some s1
          else
            match loom_do_some_work b q (fuel + 1) s1 with
            | none => none
            | some (s2, _) => waitLoop b q barrier fuel s2 := rfl

theorem handle_to_task_eq {s : Scheduler} {h : Handle} (hlt : h.index < s.tasks.tasks.length)
    (hid : (s.task h.index).id = h.id) : handle_to_task s h = some h.index := by
  simp [handle_to_task, task_get hlt, hid]

/-- The first loop of `kick` stores the barrier in every task of the batch and
changes nothing else. -/
theorem setBarriers_spec (k : Nat) : ∀ (hs : List Handle) (s : Scheduler),
    (∀ h, h ∈ hs → h.index < s.tasks.tasks.length ∧ (s.task h.index).id = h.id) →
    ∃ s1, setBarriers k s hs = some s1 ∧ s1.queues = s.queues ∧ s1.barriers = s.barriers
      ∧ s1.work = s.work ∧ s1.log = s.log
      ∧ s1.tasks.tasks.length = s.tasks.tasks.length
      ∧ ∀ t, s1.task t = if t ∈ hs.map (fun h => h.index)
          then { s.task t with barrier := some k } else s.task t := by
  intro hs
  induction hs with
  | nil =>
    intro s _
    exact ⟨s, rfl, rfl, rfl, rfl, rfl, rfl, by simp⟩
  | cons h hs ih =>
    intro s hall
    obtain ⟨hlt, hid⟩ := hall h (List.mem_cons_self _ _)
    have htask : ∀ t, (s.setTask h.index { s.task h.index with barrier := some k }).task t
        = if t = h.index then { s.task h.index with barrier := some k } else s.task t :=
      fun t => setTask_task s h.index t _ hlt
    obtain ⟨s1, h1, h2, h3, h4, h5, h6, h7⟩ :=
      ih (s.setTask h.index { s.task h.index with barrier := some k }) (by
        intro h' hh'
        obtain ⟨a1, a2⟩ := hall h' (List.mem_cons_of_mem _ hh')
        refine ⟨by rw [setTask_length]; exact a1, ?_⟩
        rw [htask]
        split
        · rename_i heq
          rw [heq] at a2
          exact a2
        · exact a2)
    refine ⟨s1, ?_, h2, h3, h4, h5, by rw [h6, setTask_length], ?_⟩
    · simp only [setBarriers, handle_to_task_eq hlt hid, task_get hlt, h1]
    · intro t
      rw [h7 t, htask t]
      by_cases h1 : t = h.index
      · subst h1
        simp
      · by_cases h2 : t ∈ hs.map (fun h => h.index)
        · simp [h1, h2]
        · simp [h1, h2]

/-- C5 (barrier countdown), the claim as stated fails on a cycle: the tasks
`a` and `b` of `cycleScript` are two distinct, freshly described tasks with
valid handles, each has one predecessor, which belongs to the batch (the
`blockers` field of each equals the number of edges from the batch), the
scheduler has no worker and a main deque of capacity 8; yet the call of
`loom_kick_and_do_work_while_waiting_n` on the batch returns for no amount of
fuel: both tasks stay dormant and the counter stays at 2. -/
theorem C5_cycle_never_returns :
    cycleRun = some cycleStart
      ∧ (∀ h, h ∈ cycleBatch → handle_to_task cycleStart h = some h.index)
      ∧ (∀ h, h ∈ cycleBatch → (cycleStart.task h.index).blockers
            = indegree cycleStart (cycleBatch.map (fun x => x.index)) h.index)
      ∧ (∀ h, h ∈ cycleBatch → (cycleStart.task h.index).blockers = 1)
      ∧ cycleStart.work = 0
      ∧ ¬ ∃ fuel s1,
          loom_kick_and_do_work_while_waiting_n build64 0 fuel cycleStart cycleBatch
            = some s1 := by
  refine ⟨by decide, by decide, by decide, by decide, by decide, ?_⟩
  rintro ⟨fuel, s1, h⟩
  have hk : kick 0 { cycleStart with
      barriers := cycleStart.barriers ++ [cycleBatch.length % U32] } cycleBatch
      cycleStart.barriers.length = some cycleKicked := by decide
  have hlen : cycleStart.barriers.length = 0 := by decide
  simp only [loom_kick_and_do_work_while_waiting_n, hk] at h
  rw [hlen, cycle_wait_never_returns fuel] at h
  exact absurd h (by simp)

/-! ## Free lists -/

theorem alloc_entry (N k : Nat) (hk : k < N) :
    (loom_free_list_alloc N).entries[k]? = some (if k + 1 < N then k + 1 else 4294967295) := by
  simp [loom_free_list_alloc, List.getElem?_map, List.getElem?_range hk]

/-- The chain of a freshly built free list from index `k` on. -/
theorem alloc_chain_from (N : Nat) (h32 : N < U32) : ∀ (j k : Nat), k + j + 1 = N →
    IsChain (loom_free_list_alloc N).entries k (List.range' k (j + 1)) := by
  intro j
  induction j with
  | zero =>
    intro k hk
    simp only [U32] at h32
    refine ⟨rfl, by omega, 4294967295, ?_, rfl⟩
    rw [alloc_entry N k (by omega), if_neg (by omega)]
  | succ j ih =>
    intro k hk
    simp only [U32] at h32
    rw [List.range'_succ]
    refine ⟨rfl, by omega, k + 1, ?_, ih (k + 1) (by omega)⟩
    rw [alloc_entry N k (by omega), if_pos (by omega)]

/-- The chain of a freshly built free list holds every index, in order. -/
theorem alloc_chain (N : Nat) (h1 : 1 ≤ N) (h32 : N < U32) :
    IsChain (loom_free_list_alloc N).entries (loom_free_list_alloc N).next (List.range N) := by
  have h := alloc_chain_from N h32 (N - 1) 0 (by omega)
  rw [show N - 1 + 1 = N by omega] at h
  rw [List.range_eq_range']
  exact h

/-- Popping the head of a chain. -/
theorem pop_chain (fl : FreeList) (x : Nat) (l : List Nat)
    (h : IsChain fl.entries fl.next (x :: l)) :
    ∃ n, loom_free_list_pop fl = some ({ fl with next := n }, x)
      ∧ IsChain fl.entries n l := by
  obtain ⟨hx, hne, n, hn, hl⟩ := h
  refine ⟨n, ?_, hl⟩
  simp [loom_free_list_pop, loom_atomic_cmp_and_xchg_u32, hx, hn, hne]

/-- Popping a whole chain returns its indices in order and leaves the
sentinel as head. -/
theorem popN_chain : ∀ (l : List Nat) (fl : FreeList), IsChain fl.entries fl.next l →
    freeListPopN l.length fl = some ({ fl with next := 4294967295 }, l) := by
  intro l
  induction l with
  | nil =>
    intro fl h
    have h1 : fl.next = 4294967295 := h
    simp [freeListPopN, ← h1]
  | cons x l ih =>
    intro fl h
    obtain ⟨n, hp, hl⟩ := pop_chain fl x l h
    have := ih { fl with next := n } hl
    simp only [List.length_cons, freeListPopN, hp, this]

/-- C11 (pool capacity): on the free list freshly built for `N` entries, with
`1 <= N < 2^32` (indices are 32-bit values and `0xffffffff` is the sentinel),
`N` pops in a row succeed and return `0, 1, ..., N - 1` in this order, which
are pairwise distinct and all below `N`, and they leave the sentinel
`0xffffffff` as head. -/
theorem C11_pool_capacity (N : Nat) (h1 : 1 ≤ N) (h32 : N < U32) :
    ∃ fl, freeListPopN N (loom_free_list_alloc N) = some (fl, List.range N)
      ∧ fl.next = 4294967295
      ∧ (List.range N).Nodup ∧ ∀ i, i ∈ List.range N → i < N := by
  have h := popN_chain (List.range N) (loom_free_list_alloc N) (alloc_chain N h1 h32)
  rw [List.length_range] at h
  exact ⟨_, h, rfl, List.nodup_range N, fun i hi => List.mem_range.mp hi⟩

/-- C11 witness: a pool of 5 entries. -/
theorem C11_pool_capacity_witness :
    ∃ fl, freeListPopN 5 (loom_free_list_alloc 5) = some (fl, List.range 5)
      ∧ fl.next = 4294967295
      ∧ (List.range 5).Nodup ∧ ∀ i, i ∈ List.range 5 → i < 5 :=
  C11_pool_capacity 5 (by decide) (by decide)

/-- When the head lies in the array, the accesses of `loom_free_list_pop`
give the result of the call. -/
theorem pop_trace_agrees (beyond : Nat → Nat) (fl : FreeList) (n : Nat)
    (h : fl.entries[fl.next]? = some n) :
    loom_free_list_pop fl
      = (loom_free_list_pop_trace beyond fl).result.map
          (fun e => ({ fl with next := (loom_free_list_pop_trace beyond fl).head }, e)) := by
  simp only [loom_free_list_pop, loom_free_list_pop_trace, h]
  split <;> simp

/-- C12 (pool exhaustion), evaluated on the free list of a pool of 2 entries
after 2 pops (head `0xffffffff`): the call reads `entries[0xffffffff]`, which
lies outside the array, and exchanges the head for what it read there (the
value `beyond 0xffffffff`), before the assertion `entry != 0xffffffff` fails.
No index is returned, but an entry outside `[0, N)` is read and the head does
not keep its value. -/
theorem C12_exhausted_pop_reads_outside :
    exhaustedList = { next := 4294967295, entries := [1, 4294967295] }
      ∧ (∀ beyond : Nat → Nat, loom_free_list_pop_trace beyond exhaustedList
          = { read := 4294967295, inBounds := false, head := beyond 4294967295,
              result := none })
      ∧ (loom_free_list_pop_trace (fun _ => 7) exhaustedList).head ≠ exhaustedList.next
      ∧ loom_free_list_pop exhaustedList = none := by
  refine ⟨by decide, fun beyond => ?_, by decide, by decide⟩
  have h : exhaustedList = { next := 4294967295, entries := [1, 4294967295] } := by decide
  rw [h]
  simp [loom_free_list_pop_trace, loom_atomic_cmp_and_xchg_u32]

/-- C14 (permit release round trip), evaluated on a pool of 8 nodes of which
the nodes 0 and 1 are out, in the default build (`sizeof(loom_permit_t)` is
16): returning node 1 pushes the index `1 / 16 = 0` on the free list, and the
next acquisition hands out node 0, which was never returned, instead of
node 1. -/
theorem C14_return_pushes_divided_index :
    permitPoolTwoOut.freelist = { next := 2, entries := [1, 2, 3, 4, 5, 6, 7, 4294967295] }
      ∧ (loom_permit_pool_return build64 permitPoolTwoOut 1).freelist
          = { next := 0, entries := [2, 2, 3, 4, 5, 6, 7, 4294967295] }
      ∧ (loom_permit_pool_acquire (loom_permit_pool_return build64 permitPoolTwoOut 1)).map
          (fun r => r.2) = some 0 := by
  decide

/-- Writing an entry that is not on a chain leaves the chain as it is. -/
theorem chain_set (e : List Nat) (t v : Nat) : ∀ (l : List Nat) (h : Nat),
    IsChain e h l → t ∉ l → IsChain (e.set t v) h l := by
  intro l
  induction l with
  | nil => intro h hc _; exact hc
  | cons x l ih =>
    intro h hc ht
    obtain ⟨hx, hne, n, hn, hl⟩ := hc
    have hxt : t ≠ x := fun hc => ht (by rw [hc]; exact List.mem_cons_self _ _)
    refine ⟨hx, hne, n, ?_, ih n hl (fun hc => ht (List.mem_cons_of_mem _ hc))⟩
    rw [List.getElem?_set_ne hxt]
    exact hn

theorem poolInv_create (b : Build) (N : Nat) (h1 : 1 ≤ N) (h32 : N < U32) :
    PoolInv N (loom_task_pool_create b N) [] := by
  refine ⟨by simp [loom_task_pool_create, loom_free_list_alloc],
    by simp [loom_task_pool_create], List.range N, alloc_chain N h1 h32, List.nodup_range N,
    List.nodup_nil, fun i hi => List.mem_range.mp hi, by simp, ?_⟩
  intro i hi
  simp [hi]

theorem poolInv_acquire (N : Nat) (h32 : N < U32) (pool pool1 : TaskPool)
    (held : List Nat) (t : Nat) (h : PoolInv N pool held)
    (ha : loom_task_pool_acquire pool = some (pool1, t)) :
    PoolInv N pool1 (t :: held) := by
  obtain ⟨hlen, htl, l, hc, hnd, hhd, hlN, hhN, hpart⟩ := h
  cases l with
  | nil =>
    have hnext : pool.freelist.next = 4294967295 := hc
    have hnone : pool.freelist.entries[pool.freelist.next]? = none := by
      apply List.getElem?_eq_none
      simp only [U32] at h32
      omega
    simp [loom_task_pool_acquire, loom_free_list_pop, hnone] at ha
  | cons x l =>
    obtain ⟨n, hp, hl⟩ := pop_chain pool.freelist x l hc
    have hxN : x < N := hlN x (List.mem_cons_self _ _)
    have htask : pool.tasks[x]? = some pool.tasks[x] :=
      List.getElem?_eq_getElem (by omega)
    simp only [loom_task_pool_acquire, hp, htask] at ha
    obtain ⟨rfl, rfl⟩ := Prod.mk.inj (Option.some.inj ha)
    have hx : x ∉ l := (List.nodup_cons.mp hnd).1
    have hxh : x ∉ held := (hpart x hxN).mp (List.mem_cons_self _ _)
    refine ⟨hlen, by simp [htl], l, hl, (List.nodup_cons.mp hnd).2,
      List.nodup_cons.mpr ⟨hxh, hhd⟩, fun i hi => hlN i (List.mem_cons_of_mem _ hi), ?_, ?_⟩
    · intro i hi
      rcases List.mem_cons.mp hi with hi | hi
      · rw [hi]; exact hxN
      · exact hhN i hi
    · intro i hi
      constructor
      · intro hil hc2
        rcases List.mem_cons.mp hc2 with hc2 | hc2
        · rw [hc2] at hil; exact hx hil
        · exact (hpart i hi).mp (List.mem_cons_of_mem _ hil) hc2
      · intro hni
        have h1 : i ≠ x := fun hc2 => hni (by rw [hc2]; exact List.mem_cons_self _ _)
        have h2 : i ∉ held := fun hc2 => hni (List.mem_cons_of_mem _ hc2)
        rcases List.mem_cons.mp ((hpart i hi).mpr h2) with h3 | h3
        · exact absurd h3 h1
        · exact h3

theorem poolInv_return (N : Nat) (h32 : N < U32) (pool : TaskPool) (held : List Nat)
    (t : Nat) (h : PoolInv N pool held) (ht : t ∈ held) :
    PoolInv N (loom_task_pool_return pool t) (held.erase t) := by
  obtain ⟨hlen, htl, l, hc, hnd, hhd, hlN, hhN, hpart⟩ := h
  have htN : t < N := hhN t ht
  have htl2 : t ∉ l := fun hc2 => (hpart t htN).mp hc2 ht
  refine ⟨by simp [loom_task_pool_return, loom_free_list_push, hlen], htl, t :: l, ?_,
    List.nodup_cons.mpr ⟨htl2, hnd⟩, hhd.erase t, ?_, ?_, ?_⟩
  · refine ⟨by simp [loom_task_pool_return, loom_free_list_push, loom_atomic_cmp_and_xchg_u32],
      by simp only [U32] at h32; omega, pool.freelist.next, ?_, ?_⟩
    · simp only [loom_task_pool_return, loom_free_list_push]
      rw [List.getElem?_set_eq_of_lt _ (by omega)]
    · exact chain_set _ t _ l _ hc htl2
  · intro i hi
    rcases List.mem_cons.mp hi with hi | hi
    · rw [hi]; exact htN
    · exact hlN i hi
  · intro i hi
    exact hhN i (List.mem_of_mem_erase hi)
  · intro i hi
    rw [hhd.mem_erase_iff]
    constructor
    · intro hil hc2
      rcases List.mem_cons.mp hil with h3 | h3
      · exact hc2.1 h3
      · exact (hpart i hi).mp h3 hc2.2
    · intro hni
      by_cases hit : i = t
      · rw [hit]; exact List.mem_cons_self _ _
      · have : i ∉ held := fun hc2 => hni ⟨hit, hc2⟩
        exact List.mem_cons_of_mem _ ((hpart i hi).mpr this)

theorem poolInv_run (N : Nat) (h32 : N < U32) : ∀ (ops : List PoolOp) (pool pool1 : TaskPool)
    (held held1 : List Nat), PoolInv N pool held →
    runPool pool held ops = some (pool1, held1) → PoolInv N pool1 held1 := by
  intro ops
  induction ops with
  | nil =>
    intro pool pool1 held held1 h hr
    obtain ⟨rfl, rfl⟩ := Prod.mk.inj (Option.some.inj hr)
    exact h
  | cons op ops ih =>
    intro pool pool1 held held1 h hr
    cases op with
    | acquire =>
      simp only [runPool] at hr
      cases ha : loom_task_pool_acquire pool with
      | none => rw [ha] at hr; exact absurd hr (by simp)
      | some r =>
        obtain ⟨pool2, t⟩ := r
        rw [ha] at hr
        exact ih pool2 pool1 (t :: held) held1 (poolInv_acquire N h32 pool pool2 held t h ha) hr
    | giveBack t =>
      simp only [runPool] at hr
      by_cases ht : t ∈ held
      · rw [if_pos ht] at hr
        exact ih _ pool1 _ held1 (poolInv_return N h32 pool held t h ht) hr
      · rw [if_neg ht] at hr
        exact absurd hr (by simp)

/-- In a state of the task pool that satisfies `PoolInv`, an acquisition
fails exactly when the free list is exhausted. -/
theorem poolInv_acquire_none (N : Nat) (h32 : N < U32) (pool : TaskPool) (held : List Nat)
    (h : PoolInv N pool held) :
    loom_task_pool_acquire pool = none ↔ pool.freelist.next = 4294967295 := by
  obtain ⟨hlen, htl, l, hc, hnd, hhd, hlN, hhN, hpart⟩ := h
  cases l with
  | nil =>
    have hnext : pool.freelist.next = 4294967295 := hc
    have hnone : pool.freelist.entries[pool.freelist.next]? = none := by
      apply List.getElem?_eq_none
      simp only [U32] at h32
      omega
    constructor
    · intro _
      exact hnext
    · intro _
      simp [loom_task_pool_acquire, loom_free_list_pop, hnone]
  | cons x l =>
    obtain ⟨n, hp, _⟩ := pop_chain pool.freelist x l hc
    have hxN : x < N := hlN x (List.mem_cons_self _ _)
    have htask : pool.tasks[x]? = some pool.tasks[x] :=
      List.getElem?_eq_getElem (by omega)
    constructor
    · intro hacq
      simp [loom_task_pool_acquire, hp, htask] at hacq
    · intro hnext
      obtain ⟨hx, hne, _⟩ := hc
      rw [hnext] at hx
      exact absurd hx.symm hne

/-- C13 (task pool partition): starting from a fresh task pool of `N` entries
with `1 <= N < 2^32`, after any sequence of acquisitions and returns that
succeeds (every acquisition finds a free index; only held tasks are
returned), the free list is a chain `l` from the head to the sentinel without
repetition, hence without cycle, and every index below `N` is either on the
chain or held, never both; and an acquisition in that state fails exactly
when the free list is exhausted (its head is the sentinel). -/
theorem C13_task_pool_partition (b : Build) (N : Nat) (ops : List PoolOp) (pool : TaskPool)
    (held : List Nat) (h1 : 1 ≤ N) (h32 : N < U32)
    (hrun : runPool (loom_task_pool_create b N) [] ops = some (pool, held)) :
    (∃ l, IsChain pool.freelist.entries pool.freelist.next l ∧ l.Nodup ∧ held.Nodup
      ∧ (∀ i, i ∈ l → i < N) ∧ (∀ i, i ∈ held → i < N)
      ∧ ∀ i, i < N → (i ∈ l ↔ i ∉ held))
      ∧ (loom_task_pool_acquire pool = none ↔ pool.freelist.next = 4294967295) :=
  ⟨(poolInv_run N h32 ops _ pool [] held (poolInv_create b N h1 h32) hrun).2.2,
    poolInv_acquire_none N h32 pool held
      (poolInv_run N h32 ops _ pool [] held (poolInv_create b N h1 h32) hrun)⟩

/-- C13 witness: a pool of 3 entries; two acquisitions, the return of task 0,
one more acquisition and the return of task 1. -/
theorem C13_task_pool_partition_witness :
    (∃ l, IsChain poolExample.1.freelist.entries poolExample.1.freelist.next l ∧ l.Nodup
      ∧ poolExample.2.Nodup
      ∧ (∀ i, i ∈ l → i < 3) ∧ (∀ i, i ∈ poolExample.2 → i < 3)
      ∧ ∀ i, i < 3 → (i ∈ l ↔ i ∉ poolExample.2))
      ∧ (loom_task_pool_acquire poolExample.1 = none
          ↔ poolExample.1.freelist.next = 4294967295) :=
  C13_task_pool_partition build64 3 poolScript poolExample.1 poolExample.2
    (by decide) (by decide) (by decide)

/-- The depth that a push returns is the depth of the deque after the push. -/
theorem push_depth (wq wq1 : WorkQueue) (task : Option Nat) (d : Nat)
    (hp : loom_work_queue_push wq task = some (wq1, d)) :
    d = loom_work_queue_depth wq1 ∧ wq1.top = wq.top ∧ wq1.bottom = add32 wq.bottom 1
      ∧ wq1.tasks = wq.tasks.set (wq.bottom % wq.size) task := by
  simp only [loom_work_queue_push] at hp
  split at hp
  · obtain ⟨rfl, rfl⟩ := Prod.mk.inj (Option.some.inj hp)
    refine ⟨?_, rfl, rfl, rfl⟩
    simp only [loom_work_queue_depth, add32, sub32, U32]
    split <;> split <;> omega
  · exact absurd hp (by simp)

/-- C17 (dormant submit is a no-op): for every scheduler state, every thread
`q` and every task `t` of the pool whose `blockers` field is not zero,
`loom_submit_a_task` returns and leaves the whole state as it was (every
deque, the `work` bitmap, the `work_to_steal` event, every field of every
task), and so does any number `n` of repeated calls. -/
theorem C17_dormant_submit_noop (q n : Nat) (s : Scheduler) (t : Nat)
    (ht : t < s.tasks.tasks.length) (hb : (s.task t).blockers ≠ 0) :
    loom_submit_a_task q s t = some s ∧ submitTimes q t n s = some s := by
  refine ⟨submit_blocked q ht hb, ?_⟩
  induction n with
  | zero => rfl
  | succ n ih =>
    simp only [submitTimes, submit_blocked q ht hb]
    exact ih

/-- C17 witness: task 0 of `dormantExample` has one predecessor that has not
run; five submissions from the main thread change nothing. -/
theorem C17_dormant_submit_noop_witness :
    loom_submit_a_task 0 dormantExample 0 = some dormantExample
      ∧ submitTimes 0 0 5 dormantExample = some dormantExample :=
  C17_dormant_submit_noop 0 5 dormantExample 0 (by decide) (by decide)

/-- C18 (advertising rule): `loom_initialize` sets
`always_steal_from_main_thread` to the negation of `main_thread_does_work`;
and when thread `q` submits a task `t` whose `blockers` field is zero and the
push on deque `q` passes its assertion, the call returns, deque `q` is the
deque after the push of `t`, the other deques are unchanged, and with `d` the
depth after the push: if `d > 1`, or `q = 0` and
`always_steal_from_main_thread` is set, bit `q` of `work` is set and
`work_to_steal` is signalled; otherwise `work` and the event are as before. -/
theorem C18_advertising_rule (b : Build) (cores : Nat) (o : Options) (q : Nat) (s : Scheduler)
    (t : Nat) (wq wq1 : WorkQueue) (d : Nat)
    (ht : t < s.tasks.tasks.length) (hb : (s.task t).blockers = 0)
    (hq : s.queues[q]? = some (some wq))
    (hp : loom_work_queue_push wq (some t) = some (wq1, d)) :
    (∀ s0, loom_initialize b cores o = some s0 →
        s0.always_steal_from_main_thread = !o.main_thread_does_work)
      ∧ d = loom_work_queue_depth wq1
      ∧ ∃ s1, loom_submit_a_task q s t = some s1
        ∧ s1.queues = s.queues.set q (some wq1)
        ∧ s1.always_steal_from_main_thread = s.always_steal_from_main_thread
        ∧ (if d > 1 ∨ (q = 0 ∧ s.always_steal_from_main_thread = true)
            then s1.work = s.work ||| (1 <<< q) ∧ s1.work_to_steal = true
            else s1.work = s.work ∧ s1.work_to_steal = s.work_to_steal) := by
  refine ⟨?_, (push_depth wq wq1 (some t) d hp).1, ?_⟩
  · intro s0 h0
    simp only [ loom_initialize, loom_bring_up_workers] at h0
    split at h0
    · have h1 := Option.some.inj h0
      rw [← h1]
      generalize (List.range (choose_number_of_workers b cores o.workers)) = l
      generalize hs1 : ({ loom_task_scheduler_create b o.tasks o.permits o.queue with
        always_steal_from_main_thread := !o.main_thread_does_work } : Scheduler) = s1
      have hflag : s1.always_steal_from_main_thread = !o.main_thread_does_work := by
        rw [← hs1]
      clear hs1 h0 h1
      induction l generalizing s1 with
      | nil => exact hflag
      | cons x l ih =>
        rw [List.foldl_cons]
        apply ih
        rw [← hflag]
        dsimp only
        split <;> rfl
    · exact absurd h0 (by simp)
  · have hq1 : (s.setTask t { s.task t with blockers := 4294967295 }).queues[q]?
        = some (some wq) := hq
    simp only [loom_submit_a_task, task_get ht, loom_atomic_cmp_and_xchg_u32, hb]
    simp only [if_true, ne_eq, not_true_eq_false, if_false, hq1, hp]
    by_cases hd : d > 1
    · rw [if_pos hd]
      refine ⟨_, rfl, rfl, rfl, ?_⟩
      rw [if_pos (Or.inl hd)]
      exact ⟨rfl, rfl⟩
    · rw [if_neg hd]
      by_cases hq0 : q = 0
      · rw [if_pos hq0]
        by_cases hf : s.always_steal_from_main_thread = true
        · have hf1 : (((s.setTask t { s.task t with blockers := 4294967295 }).setQueue q
              wq1).emit (Event.push q t)).always_steal_from_main_thread = true := hf
          rw [if_pos hf1]
          refine ⟨_, rfl, rfl, rfl, ?_⟩
          rw [if_pos (Or.inr ⟨hq0, hf⟩)]
          exact ⟨rfl, rfl⟩
        · have hf1 : ¬ (((s.setTask t { s.task t with blockers := 4294967295 }).setQueue q
              wq1).emit (Event.push q t)).always_steal_from_main_thread = true := hf
          rw [if_neg hf1]
          refine ⟨_, rfl, rfl, rfl, ?_⟩
          rw [if_neg (by rintro (h | h); exact hd h; exact hf h.2)]
          exact ⟨rfl, rfl⟩
      · rw [if_neg hq0]
        refine ⟨_, rfl, rfl, rfl, ?_⟩
        rw [if_neg (by rintro (h | h); exact hd h; exact hq0 h.1)]
        exact ⟨rfl, rfl⟩

/-- C18 witness: the main thread of a scheduler initialised with
`main_thread_does_work == false` submits task 0 on its empty deque; the depth
after the push is 1 and the work is advertised all the same. -/
theorem C18_advertising_rule_witness :
    (∀ s0, loom_initialize build64 4 { exampleOptions with main_thread_does_work := false }
          = some s0 →
        s0.always_steal_from_main_thread
          = !({ exampleOptions with main_thread_does_work := false } : Options).main_thread_does_work)
      ∧ 1 = loom_work_queue_depth
          { top := 0, bottom := 1, tasks := [some 0, none, none, none, none, none, none, none]
            size := 8, size_minus_one := 7 }
      ∧ ∃ s1, loom_submit_a_task 0 advertisedExample 0 = some s1
        ∧ s1.queues = advertisedExample.queues.set 0 (some
          { top := 0, bottom := 1, tasks := [some 0, none, none, none, none, none, none, none]
            size := 8, size_minus_one := 7 })
        ∧ s1.always_steal_from_main_thread = advertisedExample.always_steal_from_main_thread
        ∧ (if 1 > 1 ∨ (0 = 0 ∧ advertisedExample.always_steal_from_main_thread = true)
            then s1.work = advertisedExample.work ||| (1 <<< 0) ∧ s1.work_to_steal = true
            else s1.work = advertisedExample.work
              ∧ s1.work_to_steal = advertisedExample.work_to_steal) :=
  C18_advertising_rule build64 4 { exampleOptions with main_thread_does_work := false } 0
    advertisedExample 0 (loom_work_queue_create 8) _ 1 (by decide) (by decide) (by decide)
    (by decide)

/-! ## The completion path -/

theorem Unblocks.refl (s : Scheduler) : Unblocks s s :=
  ⟨rfl, rfl, rfl, [], by simp, by simp⟩

theorem Unblocks.trans {s s1 s2 : Scheduler} (h1 : Unblocks s s1) (h2 : Unblocks s1 s2) :
    Unblocks s s2 := by
  obtain ⟨a1, a2, a3, r1, a4, a5⟩ := h1
  obtain ⟨b1, b2, b3, r2, b4, b5⟩ := h2
  refine ⟨b1.trans a1, b2.trans a2, b3.trans a3, r1 ++ r2, by rw [b4, a4, List.append_assoc], ?_⟩
  intro e he
  rcases List.mem_append.mp he with he | he
  · exact a5 e he
  · exact b5 e he

/-- A submission leaves the barrier counters and the free list of the task
pool alone and records at most a push. -/
theorem submit_frame (q : Nat) (s s1 : Scheduler) (t : Nat)
    (h : loom_submit_a_task q s t = some s1) : Unblocks s s1 := by
  simp only [loom_submit_a_task] at h
  split at h
  · exact absurd h (by simp)
  · split at h
    · rw [← Option.some.inj h]
      exact ⟨rfl, rfl, rfl, [], by simp [Scheduler.setTask], by simp⟩
    · split at h
      · split at h
        · exact absurd h (by simp)
        · have hpush : ∀ e, e ∈ [Event.push q t] → e.isUnblocking = true := by
            intro e he
            rw [List.mem_singleton.mp he]
            rfl
          split at h
          · rw [← Option.some.inj h]
            exact ⟨rfl, rfl, rfl, [Event.push q t], rfl, hpush⟩
          · split at h
            · split at h
              · rw [← Option.some.inj h]
                exact ⟨rfl, rfl, rfl, [Event.push q t], rfl, hpush⟩
              · rw [← Option.some.inj h]
                exact ⟨rfl, rfl, rfl, [Event.push q t], rfl, hpush⟩
            · rw [← Option.some.inj h]
              exact ⟨rfl, rfl, rfl, [Event.push q t], rfl, hpush⟩
      · exact absurd h (by simp)

theorem return_permit_frame (b : Build) (s : Scheduler) (r : PermitRef) :
    Unblocks s (loom_return_a_permit b s r) := by
  cases r with
  | embedded task slot => exact Unblocks.refl s
  | pooled index => exact ⟨rfl, rfl, rfl, [], by simp [loom_return_a_permit], by simp⟩

theorem unblockStep_frame (b : Build) (q : Nat) (s s1 : Scheduler) (r : PermitRef)
    (next : Option PermitRef) (h : unblockStep b q s r = some (s1, next)) : Unblocks s s1 := by
  simp only [unblockStep] at h
  split at h
  · exact absurd h (by simp)
  · split at h
    · exact absurd h (by simp)
    · rename_i target _
      split at h
      · exact absurd h (by simp)
      · rename_i t _
        have h0 : Unblocks s ((s.setTask target
            { t with blockers := loom_atomic_decr_u32 t.blockers }).emit
              (Event.unblock target (loom_atomic_decr_u32 t.blockers))) :=
          ⟨rfl, rfl, rfl, [Event.unblock target (loom_atomic_decr_u32 t.blockers)], rfl, by
            intro e he
            rw [List.mem_singleton.mp he]
            rfl⟩
        split at h
        · exact absurd h (by simp)
        · rename_i s2 hs2
          have h2 : Unblocks s s2 := by
            split at hs2
            · exact h0.trans (submit_frame q _ s2 target hs2)
            · rw [← Option.some.inj hs2]
              exact h0
          split at h
          · exact absurd h (by simp)
          · obtain ⟨rfl, _⟩ := Prod.mk.inj (Option.some.inj h)
            exact h2.trans (return_permit_frame b s2 r)

theorem unblockLoop_frame (b : Build) (q : Nat) : ∀ (fuel : Nat) (s s1 : Scheduler)
    (r : Option PermitRef), unblockLoop b q fuel s r = some s1 → Unblocks s s1 := by
  intro fuel
  induction fuel with
  | zero =>
    intro s s1 r h
    cases r with
    | none =>
      rw [show unblockLoop b q 0 s none = some s from rfl] at h
      rw [← Option.some.inj h]
      exact Unblocks.refl s
    | some r => exact absurd h (by simp [unblockLoop])
  | succ fuel ih =>
    intro s s1 r h
    cases r with
    | none =>
      rw [show unblockLoop b q (fuel + 1) s none = some s from rfl] at h
      rw [← Option.some.inj h]
      exact Unblocks.refl s
    | some r =>
      rw [unblockLoop_succ] at h
      split at h
      · exact absurd h (by simp)
      · rename_i s2 next hstep
        exact (unblockStep_frame b q s s2 r next hstep).trans (ih s2 s1 next h)

theorem unblock_frame (b : Build) (q : Nat) (s s1 : Scheduler) (t : Nat)
    (h : loom_unblock_any_permitted b q s t = some s1) : Unblocks s s1 := by
  simp only [loom_unblock_any_permitted] at h
  split at h
  · exact absurd h (by simp)
  · split at h
    · exact unblockLoop_frame b q _ s s1 _ h
    · rw [← Option.some.inj h]
      exact Unblocks.refl s
/-- C19 (barrier position in completion), amended: whenever
`loom_schedule_a_task` completes a task `t` that has a barrier pointer `k`,
the counter at `k` is decremented exactly once, right after the epilogue and
before the walk of the permit chain: the log grows by the prologue, the
kernel if there is one, the epilogue, the decrement of the barrier, and then
only by decrements of `blockers` fields and pushes of successors; the task is
returned to the pool after that, and the barrier memory differs from the one
before the call by this single decrement. -/
theorem C19_barrier_decrement_position (b : Build) (q : Nat) (s s1 : Scheduler) (t : Nat)
    (T : Task) (k : Nat) (hT : s.tasks.tasks[t]? = some T) (hk : T.barrier = some k)
    (h : loom_schedule_a_task b q s t = some s1) :
    ∃ v rest, s.barriers[k]? = some v
      ∧ s1.barriers = s.barriers.set k (loom_atomic_decr_u32 v)
      ∧ s1.log = s.log ++ [Event.prologue t]
          ++ (match T.work with
              | Work.none => []
              | Work.cpu _ _ => [Event.kernel t])
          ++ [Event.epilogue t, Event.barrier k (loom_atomic_decr_u32 v)] ++ rest
      ∧ (∀ e, e ∈ rest → e.isUnblocking = true)
      ∧ s1.tasks.freelist = loom_free_list_push s.tasks.freelist t := by
  simp only [loom_schedule_a_task, hT, hk] at h
  split at h
  · exact absurd h (by simp)
  · rename_i s5 hs5
    split at hs5
    · exact absurd hs5 (by simp)
    · rename_i v hv
      have hs5 := Option.some.inj hs5
      split at h
      · exact absurd h (by simp)
      · rename_i s6 hs6
        obtain ⟨f1, f2, _, rest, f4, f5⟩ := unblock_frame b q s5 s6 t hs6
        rw [← Option.some.inj h]
        refine ⟨v, rest, ?_, ?_, ?_, f5, ?_⟩
        · cases hw : T.work <;> rw [hw] at hv <;> exact hv
        · show s6.barriers = _
          rw [f1, ← hs5]
          cases hw : T.work <;> rfl
        · show s6.log = _
          rw [f4, ← hs5]
          cases hw : T.work <;> simp [Scheduler.emit]
        · show loom_free_list_push s6.tasks.freelist t = _
          rw [f2, ← hs5]
          cases hw : T.work <;> rfl

/-- C19 witness: the run of task `a` of the chain `a -> b -> c` from
`barrierStart`, where the barrier counter at address 0 holds 3. -/
theorem C19_barrier_decrement_position_witness :
    ∃ v rest, barrierStart.barriers[0]? = some v
      ∧ barrierDone.barriers = barrierStart.barriers.set 0 (loom_atomic_decr_u32 v)
      ∧ barrierDone.log = barrierStart.log ++ [Event.prologue 0]
          ++ (match (barrierStart.task 0).work with
              | Work.none => []
              | Work.cpu _ _ => [Event.kernel 0])
          ++ [Event.epilogue 0, Event.barrier 0 (loom_atomic_decr_u32 v)] ++ rest
      ∧ (∀ e, e ∈ rest → e.isUnblocking = true)
      ∧ barrierDone.tasks.freelist = loom_free_list_push barrierStart.tasks.freelist 0 :=
  C19_barrier_decrement_position build64 0 barrierStart barrierDone 0 (barrierStart.task 0) 0
    (by decide) (by decide) (by decide)

/-- C19 (barrier position in completion), the claim as stated fails: task `a`
of the chain `a -> b -> c` has the barrier at address 0 and the successor
`b`; when the main thread completes `a`, the barrier counter goes from 3 to 2
before the `blockers` field of `b` is decremented to 0 and `b` is pushed. -/
theorem C19_barrier_precedes_unblock :
    (barrierStart.task 0).barrier = some 0
      ∧ barrierStart.barriers = [3]
      ∧ loom_schedule_a_task build64 0 barrierStart 0 = some barrierDone
      ∧ barrierDone.log.drop barrierStart.log.length
          = [Event.prologue 0, Event.kernel 0, Event.epilogue 0, Event.barrier 0 2,
             Event.unblock 1 0, Event.push 0 1] := by
  decide

/-! ## Wiring -/

/-- C15 (permit wiring), a run where the claim fails: after `overflowPrefix`
task `a` has `blocks == 2` and the chain `b1`, `b2`, the second permit in
node 0 of the pool, and the head of the free list of the permit pool is 0,
because `c` returned its node 1 under the divided index 0. Wiring `a -> e`
(both described and never kicked, seven nodes of the pool not in use) raises
`a.blocks` to 3 and `e.blockers` to 1, but the pool hands out node 0 again:
the chain walked from `a.permits[0]` has two nodes with the targets `b1` and
`e`, and the permit for `b2`, whose `blockers` field still counts it, is
gone. -/
theorem C15_recycled_node_drops_permit :
    (wiringStart.task 0).blocks = 2
      ∧ chainTargets wiringStart 16 (some (PermitRef.embedded 0 0)) = [some 1, some 2]
      ∧ wiringStart.permits.freelist.next = 0
      ∧ wiringStart.readPermit (PermitRef.embedded 0 0)
          = some { next := some (PermitRef.pooled 0), task := some 1 }
      ∧ loom_permits build64 wiringStart (mkHandle 0 1) (mkHandle 6 7) = some wiringDone
      ∧ (wiringDone.task 0).blocks = 3
      ∧ (wiringDone.task 6).blockers = 1
      ∧ chainTargets wiringDone 16 (some (PermitRef.embedded 0 0)) = [some 1, some 6]
      ∧ (wiringDone.task 2).blockers = 1 := by
  decide

/-- Writing a permit changes no `blocks` field and does not touch the free
list of the permit pool; writing an embedded permit leaves the pool alone. -/
theorem writePermit_frame (s s1 : Scheduler) (r : PermitRef) (p : Permit)
    (h : s.writePermit r p = some s1) :
    s1.permits.freelist = s.permits.freelist
      ∧ s1.tasks.tasks.length = s.tasks.tasks.length
      ∧ (∀ x, (s1.task x).blocks = (s.task x).blocks)
      ∧ ((∃ task slot, r = PermitRef.embedded task slot) → s1.permits = s.permits) := by
  cases r with
  | embedded task slot =>
    simp only [Scheduler.writePermit] at h
    split at h
    · exact absurd h (by simp)
    · rename_i t ht
      split at h
      · rw [← Option.some.inj h]
        have hlt : task < s.tasks.tasks.length := by
          by_contra hc
          rw [List.getElem?_eq_none (by omega)] at ht
          exact absurd ht (by simp)
        have htt : s.task task = t := by
          have := task_get hlt
          rw [ht] at this
          exact (Option.some.inj this).symm
        refine ⟨rfl, setTask_length _ _ _, ?_, fun _ => rfl⟩
        intro x
        rw [setTask_task s task x _ hlt]
        split
        · rename_i hx
          rw [hx, htt]
        · rfl
      · exact absurd h (by simp)
  | pooled index =>
    simp only [Scheduler.writePermit] at h
    split at h
    · rw [← Option.some.inj h]
      refine ⟨rfl, rfl, fun x => rfl, ?_⟩
      rintro ⟨task, slot, hc⟩
      exact absurd hc (by simp)
    · exact absurd h (by simp)

/-- What `loom_acquire_a_permit` does for the edge number `i` of a task. -/
theorem acquire_permit_spec (b : Build) (s s1 : Scheduler) (a i : Nat) (r : PermitRef)
    (hi : (s.task a).blocks = i) (h32 : i + 1 < U32)
    (h : loom_acquire_a_permit b s a = some (s1, r)) :
    (s1.task a).blocks = i + 1
      ∧ s1.tasks.tasks.length = s.tasks.tasks.length
      ∧ (i < b.embedded_permits → r = PermitRef.embedded a i ∧ s1.permits = s.permits)
      ∧ (b.embedded_permits ≤ i → ∃ fl index,
          loom_free_list_pop s.permits.freelist = some (fl, index)
            ∧ r = PermitRef.pooled index ∧ s1.permits.freelist = fl) := by
  have hlt : a < s.tasks.tasks.length := by
    by_contra hc
    simp [loom_acquire_a_permit, List.getElem?_eq_none (Nat.le_of_not_lt hc)] at h
  have hincr : loom_atomic_incr_u32 (s.task a).blocks = i + 1 := by
    rw [hi, loom_atomic_incr_u32, add32]
    exact Nat.mod_eq_of_lt h32
  have hblocker : sub32 (i + 1) 1 = i := by
    rw [sub32_of_le (by omega) h32]
    omega
  simp only [loom_acquire_a_permit, task_get hlt, hincr, hblocker] at h
  have hs1 : ((s.setTask a { s.task a with blocks := i + 1 }).task a).blocks = i + 1 := by
    rw [setTask_task s a a _ hlt, if_pos rfl]
  split at h
  · rename_i hik
    refine (?_ : _ ∧ _ ∧ (_ ∧ _) ∧ True).imp id (fun h2 => ⟨h2.1, fun _ => h2.2.1,
      fun hc => absurd hik (by omega)⟩)
    split at h
    · split at h
      · exact absurd h (by simp)
      · split at h
        · exact absurd h (by simp)
        · rename_i s2 hw
          obtain ⟨rfl, rfl⟩ := Prod.mk.inj (Option.some.inj h)
          obtain ⟨f1, f2, f3, f4⟩ := writePermit_frame _ _ _ _ hw
          refine ⟨by rw [f3, hs1], by rw [f2, setTask_length], ⟨rfl, ?_⟩, trivial⟩
          rw [f4 ⟨_, _, rfl⟩]
          rfl
    · obtain ⟨rfl, rfl⟩ := Prod.mk.inj (Option.some.inj h)
      exact ⟨hs1, setTask_length _ _ _, ⟨rfl, rfl⟩, trivial⟩
  · rename_i hik
    refine (?_ : _ ∧ _ ∧ _).imp id (fun h2 => ⟨h2.1, fun hc => absurd hc hik, fun _ => h2.2⟩)
    split at h
    · exact absurd h (by simp)
    · split at h
      · exact absurd h (by simp)
      · rename_i pool index hacq
        split at h
        · exact absurd h (by simp)
        · split at h
          · exact absurd h (by simp)
          · rename_i s3 hw
            obtain ⟨rfl, rfl⟩ := Prod.mk.inj (Option.some.inj h)
            obtain ⟨f1, f2, f3, _⟩ := writePermit_frame _ _ _ _ hw
            have hpop : loom_free_list_pop s.permits.freelist
                = some (pool.freelist, index) := by
              have hacq1 : loom_permit_pool_acquire s.permits = some (pool, index) := hacq
              simp only [loom_permit_pool_acquire] at hacq1
              split at hacq1
              · exact absurd hacq1 (by simp)
              · rename_i fl idx hp
                obtain ⟨rfl, rfl⟩ := Prod.mk.inj (Option.some.inj hacq1)
                exact hp
            refine ⟨?_, ?_, pool.freelist, index, hpop, rfl, f1⟩
            · rw [f3]
              exact hs1
            · rw [f2]
              exact setTask_length _ _ _

/-- What `permit` does for the edge number `i` of a task. -/
theorem permit_spec (b : Build) (s s1 s2 : Scheduler) (a p i : Nat) (r : PermitRef)
    (hi : (s.task a).blocks = i) (h32 : i + 1 < U32)
    (hacq : loom_acquire_a_permit b s a = some (s1, r))
    (h : permit b s a p = some s2) :
    (s2.task a).blocks = i + 1
      ∧ (i < b.embedded_permits → r = PermitRef.embedded a i ∧ s2.permits = s.permits)
      ∧ (b.embedded_permits ≤ i → ∃ fl index,
          loom_free_list_pop s.permits.freelist = some (fl, index)
            ∧ r = PermitRef.pooled index ∧ s2.permits.freelist = fl) := by
  obtain ⟨a1, a2, a3, a4⟩ := acquire_permit_spec b s s1 a i r hi h32 hacq
  simp only [permit, hacq] at h
  split at h
  · exact absurd h (by simp)
  · split at h
    · exact absurd h (by simp)
    · rename_i s3 hw
      obtain ⟨f1, f2, f3, f4⟩ := writePermit_frame _ _ _ _ hw
      split at h
      · exact absurd h (by simp)
      · rename_i t ht
        rw [← Option.some.inj h]
        have hplt : p < s3.tasks.tasks.length := by
          by_contra hc
          rw [List.getElem?_eq_none (by omega)] at ht
          exact absurd ht (by simp)
        have htt : s3.task p = t := by
          have := task_get hplt
          rw [ht] at this
          exact (Option.some.inj this).symm
        have hblocks : ((s3.setTask p
            { t with blockers := loom_atomic_incr_u32 t.blockers }).task a).blocks = i + 1 := by
          rw [setTask_task s3 p a _ hplt]
          split
          · rename_i hap
            show t.blocks = i + 1
            rw [← htt, ← hap, f3, a1]
          · rw [f3, a1]
        refine ⟨hblocks, ?_, ?_⟩
        · intro hik
          obtain ⟨hr, hp⟩ := a3 hik
          refine ⟨hr, ?_⟩
          show s3.permits = s.permits
          rw [f4 ⟨a, i, hr⟩, hp]
        · intro hik
          obtain ⟨fl, index, hpop, hr, hfl⟩ := a4 hik
          refine ⟨fl, index, hpop, hr, ?_⟩
          show s3.permits.freelist = fl
          rw [f1, hfl]
theorem wireTrace_cons (b : Build) (a : Nat) (s s2 : Scheduler) (p : Nat) (ps : List Nat)
    (refs : List PermitRef) (h : wireTrace b a s (p :: ps) = some (s2, refs)) :
    ∃ s0 r s1 rs, loom_acquire_a_permit b s a = some (s0, r) ∧ permit b s a p = some s1
      ∧ wireTrace b a s1 ps = some (s2, rs) ∧ refs = r :: rs := by
  simp only [wireTrace] at h
  split at h
  · exact absurd h (by simp)
  · rename_i s0 r hacq
    split at h
    · exact absurd h (by simp)
    · rename_i s1 hp
      split at h
      · exact absurd h (by simp)
      · rename_i s3 rs hw
        obtain ⟨rfl, rfl⟩ := Prod.mk.inj (Option.some.inj h)
        exact ⟨s0, r, s1, rs, hacq, hp, hw, rfl⟩

/-- Edges that fit in the embedded cells use them in order and leave the
permit pool alone. -/
theorem wire_embedded (b : Build) (a : Nat) : ∀ (ps : List Nat) (s s2 : Scheduler) (i : Nat)
    (refs : List PermitRef), (s.task a).blocks = i → i + ps.length ≤ b.embedded_permits →
    i + ps.length < U32 → wireTrace b a s ps = some (s2, refs) →
    s2.permits = s.permits ∧ refs = (List.range' i ps.length).map (PermitRef.embedded a)
      ∧ (s2.task a).blocks = i + ps.length := by
  intro ps
  induction ps with
  | nil =>
    intro s s2 i refs hi _ _ h
    obtain ⟨rfl, rfl⟩ := Prod.mk.inj (Option.some.inj h)
    exact ⟨rfl, rfl, hi⟩
  | cons p ps ih =>
    intro s s2 i refs hi hK h32 h
    simp only [List.length_cons] at hK h32
    obtain ⟨s0, r, s1, rs, hacq, hp, hw, rfl⟩ := wireTrace_cons b a s s2 p ps refs h
    obtain ⟨e1, e2, _⟩ := permit_spec b s s0 s1 a p i r hi (by omega) hacq hp
    obtain ⟨hr, hperm⟩ := e2 (by omega)
    obtain ⟨g1, g2, g3⟩ := ih s1 s2 (i + 1) rs e1 (by omega) (by omega) hw
    refine ⟨by rw [g1, hperm], ?_, by rw [g3, List.length_cons]; omega⟩
    rw [g2, hr, List.length_cons, List.range'_succ, List.map_cons]

/-- Every edge beyond the embedded cells takes one node from the permit
pool. -/
theorem wire_overflow (b : Build) (a : Nat) : ∀ (ps : List Nat) (s s2 : Scheduler) (i : Nat)
    (refs : List PermitRef), (s.task a).blocks = i → b.embedded_permits ≤ i →
    i + ps.length < U32 → wireTrace b a s ps = some (s2, refs) →
    ∃ taken, freeListPopN ps.length s.permits.freelist = some (s2.permits.freelist, taken)
      ∧ taken.length = ps.length
      ∧ refs = taken.map PermitRef.pooled
      ∧ (s2.task a).blocks = i + ps.length := by
  intro ps
  induction ps with
  | nil =>
    intro s s2 i refs hi _ _ h
    obtain ⟨rfl, rfl⟩ := Prod.mk.inj (Option.some.inj h)
    exact ⟨[], rfl, rfl, rfl, hi⟩
  | cons p ps ih =>
    intro s s2 i refs hi hK h32 h
    simp only [List.length_cons] at h32
    obtain ⟨s0, r, s1, rs, hacq, hp, hw, rfl⟩ := wireTrace_cons b a s s2 p ps refs h
    obtain ⟨e1, _, e3⟩ := permit_spec b s s0 s1 a p i r hi (by omega) hacq hp
    obtain ⟨fl, index, hpop, hr, hfl⟩ := e3 hK
    obtain ⟨taken, g1, g2, g3, g4⟩ := ih s1 s2 (i + 1) rs e1 (by omega) (by omega) hw
    refine ⟨index :: taken, ?_, by simp [g2], by rw [hr, g3, List.map_cons],
      by rw [g4, List.length_cons]; omega⟩
    rw [hfl] at g1
    simp only [List.length_cons, freeListPopN, hpop, g1]

theorem wireTrace_append (b : Build) (a : Nat) : ∀ (ps1 ps2 : List Nat) (s s2 : Scheduler)
    (refs : List PermitRef), wireTrace b a s (ps1 ++ ps2) = some (s2, refs) →
    ∃ s1 r1 r2, wireTrace b a s ps1 = some (s1, r1) ∧ wireTrace b a s1 ps2 = some (s2, r2)
      ∧ refs = r1 ++ r2 := by
  intro ps1
  induction ps1 with
  | nil =>
    intro ps2 s s2 refs h
    exact ⟨s, [], refs, rfl, h, rfl⟩
  | cons p ps1 ih =>
    intro ps2 s s2 refs h
    rw [List.cons_append] at h
    obtain ⟨s0, r, s1, rs, hacq, hp, hw, rfl⟩ := wireTrace_cons b a s s2 p _ refs h
    obtain ⟨s3, r1, r2, h1, h2, rfl⟩ := ih ps2 s1 s2 rs hw
    refine ⟨s3, r :: r1, r2, ?_, h2, rfl⟩
    simp only [wireTrace, hacq, hp, h1]

/-- C16 (embedded versus overflow permits): for every build, every scheduler
state and every task `a` without successors, when the edges from `a` to the
tasks of a list of `n < 2^32` tasks are wired in order, the edge number `i`
(from 0) gets the embedded cell `a.permits[i]` when `i < K`, with
`K = LOOM_EMBEDDED_PERMITS`, and every later edge gets a node popped from the
free list of the permit pool: the free list after the wiring is the one
before it after exactly `n - K` pops (none when `n <= K`), the nodes popped
are the permits of the edges `K, K + 1, ...` in order, and `a.blocks` is
`n`. -/
theorem C16_embedded_then_pool (b : Build) (s s2 : Scheduler) (a : Nat) (ps : List Nat)
    (refs : List PermitRef) (h0 : (s.task a).blocks = 0) (h32 : ps.length < U32)
    (h : wireTrace b a s ps = some (s2, refs)) :
    ∃ taken, refs = (List.range (min ps.length b.embedded_permits)).map (PermitRef.embedded a)
          ++ taken.map PermitRef.pooled
      ∧ taken.length = ps.length - b.embedded_permits
      ∧ freeListPopN (ps.length - b.embedded_permits) s.permits.freelist
          = some (s2.permits.freelist, taken)
      ∧ (s2.task a).blocks = ps.length := by
  rw [← List.take_append_drop b.embedded_permits ps] at h
  obtain ⟨s1, r1, r2, h1, h2, rfl⟩ := wireTrace_append b a _ _ s s2 refs h
  have hlt : (ps.take b.embedded_permits).length = min ps.length b.embedded_permits := by
    rw [List.length_take, Nat.min_comm]
  have hld : (ps.drop b.embedded_permits).length = ps.length - b.embedded_permits :=
    List.length_drop _ _
  obtain ⟨e1, e2, e3⟩ := wire_embedded b a _ s s1 0 r1 h0 (by rw [hlt]; omega)
    (by rw [hlt]; omega) h1
  rw [Nat.zero_add] at e3
  rw [hlt] at e2 e3
  by_cases hn : ps.length ≤ b.embedded_permits
  · have hnil : ps.drop b.embedded_permits = [] := List.drop_eq_nil_of_le hn
    rw [hnil] at h2
    obtain ⟨rfl, rfl⟩ := Prod.mk.inj (Option.some.inj h2)
    refine ⟨[], by rw [e2, List.range_eq_range']; rfl, by simp; omega, ?_, by rw [e3]; omega⟩
    rw [Nat.sub_eq_zero_of_le hn, e1]
    rfl
  · obtain ⟨taken, g1, g2, g3, g4⟩ := wire_overflow b a _ s1 s2 (min ps.length b.embedded_permits)
      r2 e3 (by omega) (by rw [hld]; omega) h2
    rw [hld] at g1 g2 g4
    rw [e1] at g1
    exact ⟨taken, by rw [e2, g3, List.range_eq_range'], g2, g1, by rw [g4]; omega⟩

/-- C16 witness: with one embedded permit, four edges wired from task 0 of
`fiveTasks` use the embedded cell and then the nodes 0, 1, 2 of the pool. -/
theorem C16_embedded_then_pool_witness :
    ∃ taken, fourEdges.2
        = (List.range (min [1, 2, 3, 4].length build64.embedded_permits)).map
            (PermitRef.embedded 0) ++ taken.map PermitRef.pooled
      ∧ taken.length = [1, 2, 3, 4].length - build64.embedded_permits
      ∧ freeListPopN ([1, 2, 3, 4].length - build64.embedded_permits) fiveTasks.permits.freelist
          = some (fourEdges.1.permits.freelist, taken)
      ∧ (fourEdges.1.task 0).blocks = [1, 2, 3, 4].length :=
  C16_embedded_then_pool build64 fiveTasks fourEdges.1 0 [1, 2, 3, 4] fourEdges.2
    (by decide) (by decide) (by decide)

/-! ## The calls of kernels -/

/-- Whenever `loom_do_some_work` reports that it ran a task, the task and the
scheduler at the call of `loom_schedule_a_task` are those of
`scheduledBy`. -/
theorem scheduledBy_spec (b : Build) (q fuel : Nat) (s s2 : Scheduler)
    (h : loom_do_some_work b q fuel s = some (s2, true)) :
    ∃ s1 t, scheduledBy b q fuel s = some (s1, t)
      ∧ loom_schedule_a_task b q s1 t = some s2 := by
  simp only [loom_do_some_work] at h
  simp only [scheduledBy]
  split at h
  · rename_i hq
    rw [if_pos hq]
    split at h
    · exact absurd h (by simp)
    · rename_i s1 task hg
      split at h
      · exact absurd h (by simp)
      · rename_i s3 hs3
        obtain ⟨rfl, _⟩ := Prod.mk.inj (Option.some.inj h)
        exact ⟨s1, task, rfl, hs3⟩
    · rename_i s1 hg
      split at h
      · exact absurd h (by simp)
      · rename_i s3 task hst
        split at h
        · exact absurd h (by simp)
        · rename_i s4 hs4
          obtain ⟨rfl, _⟩ := Prod.mk.inj (Option.some.inj h)
          exact ⟨s3, task, rfl, hs4⟩
      · have := (Prod.mk.inj (Option.some.inj h)).2
        exact absurd this (by simp)
  · exact absurd h (by simp)

/-! ## Task ids -/

/-- An acquisition increments the counter of the pool and stamps the new value
on the slot that it hands out. -/
theorem acquire_stamp (pool pool1 : TaskPool) (task : Nat)
    (h : loom_task_pool_acquire pool = some (pool1, task)) :
    pool1.id = add32 pool.id 1 ∧ stampOf pool1 task = add32 pool.id 1 := by
  simp only [loom_task_pool_acquire] at h
  split at h
  · exact absurd h (by simp)
  · rename_i fl index _
    split at h
    · exact absurd h (by simp)
    · rename_i t ht
      obtain ⟨rfl, rfl⟩ := Prod.mk.inj (Option.some.inj h)
      have hlt : index < pool.tasks.length := by
        by_contra hc
        rw [List.getElem?_eq_none (by omega)] at ht
        exact absurd ht (by simp)
      refine ⟨rfl, ?_⟩
      simp [stampOf, List.getElem?_set_eq_of_lt _ hlt, loom_atomic_incr_u32]

theorem runPoolIds_spec : ∀ (ops : List PoolOp) (pool pool1 : TaskPool) (c : Nat)
    (acq : List (Nat × Nat)), pool.id = c % U32 → runPoolIds pool ops = some (pool1, acq) →
    pool1.id = (c + acq.length) % U32
      ∧ ∀ k, k < acq.length → (acq.getD k (0, 0)).2 = (c + k + 1) % U32 := by
  intro ops
  induction ops with
  | nil =>
    intro pool pool1 c acq hc h
    obtain ⟨rfl, rfl⟩ := Prod.mk.inj (Option.some.inj h)
    exact ⟨by simpa using hc, by simp⟩
  | cons op ops ih =>
    intro pool pool1 c acq hc h
    cases op with
    | acquire =>
      simp only [runPoolIds] at h
      split at h
      · exact absurd h (by simp)
      · rename_i pool2 task hacq
        split at h
        · exact absurd h (by simp)
        · rename_i pool3 rest hrest
          obtain ⟨rfl, rfl⟩ := Prod.mk.inj (Option.some.inj h)
          obtain ⟨e1, e2⟩ := acquire_stamp pool pool2 task hacq
          have hid : add32 pool.id 1 = (c + 1) % U32 := by
            rw [hc, add32, Nat.add_mod, Nat.mod_mod, ← Nat.add_mod]
          obtain ⟨g1, g2⟩ := ih pool2 pool3 (c + 1) rest (by rw [e1, hid]) hrest
          refine ⟨by rw [g1, List.length_cons]; congr 1; omega, ?_⟩
          intro k hk
          cases k with
          | zero =>
            show stampOf pool2 task = _
            rw [e2, hid]
          | succ k =>
            simp only [List.length_cons] at hk
            show (rest.getD k (0, 0)).2 = _
            rw [g2 k (by omega)]
            congr 1
            omega
    | giveBack task =>
      simp only [runPoolIds] at h
      exact ih (loom_task_pool_return pool task) pool1 c acq hc h

/-- C21 (monotonic task ids): on a task pool created by
`loom_task_pool_create`, after any sequence of acquisitions and returns in
which the acquisitions succeed, the acquisition number `k` (counted from 0)
found the id `(k + 1) mod 2^32` stamped on its slot, the counter of the pool
is the number of acquisitions modulo `2^32`, and two acquisitions fewer than
`2^32` apart got different ids, whichever slots they got. -/
theorem C21_task_ids_count_acquisitions (b : Build) (N : Nat) (ops : List PoolOp)
    (pool : TaskPool) (acq : List (Nat × Nat))
    (h : runPoolIds (loom_task_pool_create b N) ops = some (pool, acq)) :
    (∀ k, k < acq.length → (acq.getD k (0, 0)).2 = (k + 1) % U32)
      ∧ pool.id = acq.length % U32
      ∧ ∀ i j, i < j → j < acq.length → j - i < U32 →
          (acq.getD i (0, 0)).2 ≠ (acq.getD j (0, 0)).2 := by
  obtain ⟨g1, g2⟩ := runPoolIds_spec ops (loom_task_pool_create b N) pool 0 acq rfl h
  simp only [Nat.zero_add] at g1 g2
  refine ⟨g2, g1, ?_⟩
  intro i j hij hj hd
  rw [g2 i (by omega), g2 j hj]
  intro hc
  have h1 : (j + 1 - (i + 1)) % U32 = 0 := Nat.sub_mod_eq_zero_of_mod_eq hc.symm
  have h2 : j + 1 - (i + 1) = j - i := by omega
  rw [h2, Nat.mod_eq_of_lt hd] at h1
  omega

/-- C21 witness: the three acquisitions of `poolScript` on a pool of 3 entries
get the ids 1, 2, 3 (the third one in the slot that the first one had). -/
theorem C21_task_ids_count_acquisitions_witness :
    (∀ k, k < poolIdsExample.2.length → (poolIdsExample.2.getD k (0, 0)).2 = (k + 1) % U32)
      ∧ poolIdsExample.1.id = poolIdsExample.2.length % U32
      ∧ ∀ i j, i < j → j < poolIdsExample.2.length → j - i < U32 →
          (poolIdsExample.2.getD i (0, 0)).2 ≠ (poolIdsExample.2.getD j (0, 0)).2 :=
  C21_task_ids_count_acquisitions build64 3 poolScript poolIdsExample.1 poolIdsExample.2
    (by decide)

/-! ## Handles -/

/-- C22 (handle round trip): for every slot `t` of the task pool (held or
not), in the checked configuration `task_to_handle` issues the handle made of
`t` and of the id stored in the slot, and `handle_to_task` on that handle
passes its id assertion and returns `t`; in the release configuration the
handle is the address of the task and `handle_to_task` returns it. -/
theorem C22_handle_round_trip (s : Scheduler) (t : Nat) (ht : t < s.tasks.tasks.length) :
    task_to_handle s t = some { index := t, id := (s.task t).id }
      ∧ (task_to_handle s t).bind (handle_to_task s) = some t
      ∧ handle_to_task_release (task_to_handle_release t) = t := by
  refine ⟨by simp [task_to_handle, task_get ht], ?_, rfl⟩
  simp [task_to_handle, handle_to_task, task_get ht]

/-- C22 witness: slot 0 of the scheduler in which slot 0 was described
twice. -/
theorem C22_handle_round_trip_witness :
    task_to_handle reuseExample.1 0 = some { index := 0, id := (reuseExample.1.task 0).id }
      ∧ (task_to_handle reuseExample.1 0).bind (handle_to_task reuseExample.1) = some 0
      ∧ handle_to_task_release (task_to_handle_release 0) = 0 :=
  C22_handle_round_trip reuseExample.1 0 (by decide)

/-- What `loom_describe` and `loom_empty` do to the ids: the counter of the
pool is incremented, its new value is stamped on the slot handed out and is
the id of the handle, and the ids of the other slots stay. -/
theorem describeWith_ids (b : Build) (work : Work) (flags : Nat) (s s1 : Scheduler)
    (h : Handle) (hd : describeWith b work flags s = some (s1, h)) :
    s1.tasks.id = add32 s.tasks.id 1 ∧ h.id = add32 s.tasks.id 1
      ∧ s1.tasks.tasks.length = s.tasks.tasks.length
      ∧ h.index < s.tasks.tasks.length
      ∧ (s1.task h.index).id = h.id
      ∧ ∀ x, x ≠ h.index → (s1.task x).id = (s.task x).id := by
  simp only [describeWith, loom_acquire_a_task, loom_task_pool_acquire] at hd
  split at hd
  · exact absurd hd (by simp)
  · rename_i s2 task hacq
    split at hacq
    · exact absurd hacq (by simp)
    · rename_i pool index hpool
      split at hpool
      · exact absurd hpool (by simp)
      · rename_i fl idx hpop
        split at hpool
        · exact absurd hpool (by simp)
        · rename_i t0 ht0
          obtain ⟨rfl, rfl⟩ := Prod.mk.inj (Option.some.inj hpool)
          obtain ⟨rfl, rfl⟩ := Prod.mk.inj (Option.some.inj hacq)
          have hlt : idx < s.tasks.tasks.length := by
            by_contra hc
            rw [List.getElem?_eq_none (by omega)] at ht0
            exact absurd ht0 (by simp)
          simp only [List.getElem?_set_eq_of_lt _ hlt] at hd
          simp only [task_to_handle, Scheduler.setTask, List.set_set,
            List.getElem?_set_eq_of_lt _ hlt] at hd
          obtain ⟨rfl, rfl⟩ := Prod.mk.inj (Option.some.inj hd)
          refine ⟨rfl, rfl, by simp, hlt, ?_, ?_⟩
          · simp [Scheduler.task, List.getD_eq_getElem?_getD, List.getElem?_set_eq_of_lt _ hlt]
          · intro x hx
            simp only [Scheduler.task, List.getD_eq_getElem?_getD]
            rw [List.getElem?_set_ne (Ne.symm hx)]
theorem runLife_cons_issue (b : Build) (work : Work) (flags : Nat) (s s2 : Scheduler)
    (ops : List LifeOp) (hs : List Handle)
    (h : (match describeWith b work flags s with
          | none => none
          | some (s1, h) =>
            match runLife b s1 ops with
            | none => none
            | some (s2, hs) => some (s2, h :: hs)) = some (s2, hs)) :
    ∃ s1 h0 rest, describeWith b work flags s = some (s1, h0)
      ∧ runLife b s1 ops = some (s2, rest) ∧ hs = h0 :: rest := by
  split at h
  · exact absurd h (by simp)
  · rename_i s1 h0 hd
    split at h
    · exact absurd h (by simp)
    · rename_i s3 rest hr
      obtain ⟨rfl, rfl⟩ := Prod.mk.inj (Option.some.inj h)
      exact ⟨s1, h0, rest, hd, hr, rfl⟩

/-- The ids along a run of `runLife`: the handle number `j` carries the id
`c + j + 1` modulo `2^32`, where `c` is the counter at the start, and every
slot holds either the id it had at the start, when no handle was issued for
it, or the id of the last handle issued for it. -/
theorem runLife_ids (b : Build) : ∀ (ops : List LifeOp) (s s2 : Scheduler) (hs : List Handle)
    (c : Nat), s.tasks.id = c % U32 → runLife b s ops = some (s2, hs) →
    s2.tasks.tasks.length = s.tasks.tasks.length
      ∧ (∀ (j : Nat) (h : Handle), hs[j]? = some h → h.id = (c + j + 1) % U32 ∧ h.index < s.tasks.tasks.length)
      ∧ ∀ x, ((s2.task x).id = (s.task x).id ∧ ∀ (j : Nat) (h : Handle), hs[j]? = some h → h.index ≠ x)
          ∨ ∃ (j : Nat) (h : Handle), hs[j]? = some h ∧ h.index = x ∧ (s2.task x).id = h.id
              ∧ ∀ (j1 : Nat) (h1 : Handle), j < j1 → hs[j1]? = some h1 → h1.index ≠ x := by
  intro ops
  induction ops with
  | nil =>
    intro s s2 hs c _ h
    obtain ⟨rfl, rfl⟩ := Prod.mk.inj (Option.some.inj h)
    exact ⟨rfl, by simp, fun x => Or.inl ⟨rfl, by simp⟩⟩
  | cons op ops ih =>
    intro s s2 hs c hc h
    have issue : ∀ (work : Work) (flags : Nat) (s1 : Scheduler) (h0 : Handle)
        (rest : List Handle), describeWith b work flags s = some (s1, h0) →
        runLife b s1 ops = some (s2, rest) → hs = h0 :: rest →
        s2.tasks.tasks.length = s.tasks.tasks.length
          ∧ (∀ (j : Nat) (h : Handle), hs[j]? = some h → h.id = (c + j + 1) % U32
              ∧ h.index < s.tasks.tasks.length)
          ∧ ∀ x, ((s2.task x).id = (s.task x).id ∧ ∀ (j : Nat) (h : Handle), hs[j]? = some h → h.index ≠ x)
              ∨ ∃ (j : Nat) (h : Handle), hs[j]? = some h ∧ h.index = x ∧ (s2.task x).id = h.id
                  ∧ ∀ (j1 : Nat) (h1 : Handle), j < j1 → hs[j1]? = some h1 → h1.index ≠ x := by
      intro work flags s1 h0 rest hd hr hhs
      obtain ⟨d1, d2, d3, d4, d5, d6⟩ := describeWith_ids b work flags s s1 h0 hd
      have hid : add32 s.tasks.id 1 = (c + 1) % U32 := by
        rw [hc, add32, Nat.add_mod, Nat.mod_mod, ← Nat.add_mod]
      obtain ⟨g1, g2, g3⟩ := ih s1 s2 rest (c + 1) (by rw [d1, hid]) hr
      subst hhs
      refine ⟨by rw [g1, d3], ?_, ?_⟩
      · intro j h hj
        cases j with
        | zero =>
          simp only [List.getElem?_cons_zero, Option.some.injEq] at hj
          subst hj
          exact ⟨by rw [d2, hid], d4⟩
        | succ j =>
          simp only [List.getElem?_cons_succ] at hj
          obtain ⟨a1, a2⟩ := g2 j h hj
          exact ⟨by rw [a1]; congr 1; omega, by rw [← d3]; exact a2⟩
      · intro x
        rcases g3 x with ⟨a1, a2⟩ | ⟨j, h, a1, a2, a3, a4⟩
        · by_cases hx : x = h0.index
          · refine Or.inr ⟨0, h0, by simp, hx.symm, by rw [a1, hx, d5], ?_⟩
            intro j1 h1 hj1 hh1
            cases j1 with
            | zero => exact absurd hj1 (by omega)
            | succ j1 =>
              simp only [List.getElem?_cons_succ] at hh1
              exact a2 j1 h1 hh1
          · refine Or.inl ⟨by rw [a1, d6 x hx], ?_⟩
            intro j h hj
            cases j with
            | zero =>
              simp only [List.getElem?_cons_zero, Option.some.injEq] at hj
              subst hj
              exact fun hc2 => hx hc2.symm
            | succ j =>
              simp only [List.getElem?_cons_succ] at hj
              exact a2 j h hj
        · refine Or.inr ⟨j + 1, h, by simpa using a1, a2, a3, ?_⟩
          intro j1 h1 hj1 hh1
          cases j1 with
          | zero => exact absurd hj1 (by omega)
          | succ j1 =>
            simp only [List.getElem?_cons_succ] at hh1
            exact a4 j1 h1 (by omega) hh1
    cases op with
    | describe kernel data flags =>
      simp only [runLife, loom_describe] at h
      obtain ⟨s1, h0, rest, hd, hr, hhs⟩ := runLife_cons_issue b _ flags s s2 ops hs h
      exact issue _ flags s1 h0 rest hd hr hhs
    | empty flags =>
      simp only [runLife, loom_empty] at h
      obtain ⟨s1, h0, rest, hd, hr, hhs⟩ := runLife_cons_issue b _ flags s s2 ops hs h
      exact issue _ flags s1 h0 rest hd hr hhs
    | complete task =>
      simp only [runLife] at h
      exact ih (loom_return_a_task s task) s2 hs c hc h

/-- C23 (stale handle detection), amended: in the checked configuration, after
any sequence of calls of `loom_describe` and `loom_empty` and of returns of
tasks to the pool, with fewer than `2^32` handles issued, `handle_to_task` on
an issued handle fails its id assertion exactly when the slot of the handle
has been handed out again by a later call; otherwise, also when the task has
been returned to the pool, the assertion passes and the slot is returned. -/
theorem C23_stale_handle_detected_after_reuse (b : Build) (s s2 : Scheduler)
    (ops : List LifeOp) (hs : List Handle) (j : Nat) (h : Handle)
    (h0 : s.tasks.id = 0) (hn : hs.length < U32)
    (hrun : runLife b s ops = some (s2, hs)) (hj : hs[j]? = some h) :
    handle_to_task s2 h
      = if (hs.drop (j + 1)).any (fun h1 => h1.index == h.index) then none
        else some h.index := by
  obtain ⟨g1, g2, g3⟩ := runLife_ids b ops s s2 hs 0 (by rw [h0]; rfl) hrun
  obtain ⟨hid, hlt⟩ := g2 j h hj
  have hjlt : j < hs.length := by
    by_contra hc
    rw [List.getElem?_eq_none (by omega)] at hj
    exact absurd hj (by simp)
  have hget : s2.tasks.tasks[h.index]? = some (s2.task h.index) := task_get (by rw [g1]; exact hlt)
  simp only [handle_to_task, hget]
  rcases g3 h.index with ⟨_, a2⟩ | ⟨j2, h2, a1, a2, a3, a4⟩
  · exact absurd rfl (a2 j h hj)
  · have hj2 : j2 < hs.length := by
      by_contra hc
      rw [List.getElem?_eq_none (by omega)] at a1
      exact absurd a1 (by simp)
    have hle : j ≤ j2 := by
      by_contra hc
      exact a4 j h (by omega) hj rfl
    obtain ⟨hid2, _⟩ := g2 j2 h2 a1
    by_cases hany : (hs.drop (j + 1)).any (fun h1 => h1.index == h.index) = true
    · rw [if_pos hany]
      obtain ⟨h1, hmem, heq⟩ := List.any_eq_true.mp hany
      obtain ⟨i, hi, hgi⟩ := List.getElem_of_mem hmem
      have hi1 : hs[j + 1 + i]? = some h1 := by
        rw [← List.getElem?_drop, List.getElem?_eq_getElem hi, hgi]
      have hne : j ≠ j2 := by
        intro hc
        subst hc
        exact a4 (j + 1 + i) h1 (by omega) hi1 (by simpa using heq)
      have hidne : (s2.task h.index).id ≠ h.id := by
        rw [a3, hid2, hid]
        intro hc
        have h1 : (0 + j2 + 1 - (0 + j + 1)) % U32 = 0 := Nat.sub_mod_eq_zero_of_mod_eq hc
        have h2 : 0 + j2 + 1 - (0 + j + 1) = j2 - j := by omega
        rw [h2, Nat.mod_eq_of_lt (by omega)] at h1
        omega
      rw [if_neg hidne]
    · rw [if_neg hany]
      have heq : j2 = j := by
        by_contra hc
        apply hany
        apply List.any_eq_true.mpr
        refine ⟨h2, ?_, by simp [a2]⟩
        have : hs[j + 1 + (j2 - (j + 1))]? = some h2 := by
          rw [show j + 1 + (j2 - (j + 1)) = j2 by omega]
          exact a1
        rw [← List.getElem?_drop] at this
        exact List.mem_iff_getElem?.mpr ⟨_, this⟩
      subst heq
      rw [hj] at a1
      have := Option.some.inj a1
      subst this
      rw [if_pos a3]

/-- C23 witness: slot 0 is described, its task returned to the pool, and the
slot described again; the first handle then fails the id assertion. -/
theorem C23_stale_handle_detected_after_reuse_witness :
    handle_to_task reuseExample.1 (mkHandle 0 1)
      = if (reuseExample.2.drop (0 + 1)).any (fun h1 => h1.index == (mkHandle 0 1).index)
          then none
        else some (mkHandle 0 1).index :=
  C23_stale_handle_detected_after_reuse build64 freshExample reuseExample.1 reuseScript
    reuseExample.2 0 (mkHandle 0 1) (by decide) (by decide) (by decide) (by decide)

/-- C23 (stale handle detection), the claim as stated fails: the task of the
handle `(0, 1)` issued by `loom_describe` is kicked and run by the main
thread, which returns it to the pool (slot 0 is the head of the free list);
the slot has not been acquired again, and `handle_to_task` on the stale
handle passes its id assertion and returns the slot. -/
theorem C23_returned_slot_keeps_id :
    kernelsRun staleExample.log = [0]
      ∧ staleExample.tasks.freelist.next = 0
      ∧ handle_to_task staleExample (mkHandle 0 1) = some 0 := by
  decide

/-! ## The number of workers -/

/-- C24 (worker-count clamp), where the claim fails: with `w` the number of
workers asked for (`workers` itself, or `cores + workers` when `workers` is
negative) between 0 and `2^31`, `choose_number_of_workers` returns `w` when
`w < LOOM_WORKER_LIMIT` and `LOOM_WORKER_LIMIT - 1` otherwise, which is one
less than `min(w, LOOM_WORKER_LIMIT)`: 63 workers asked for on x86_64, or 64
cores and `workers == -1`, give 62 and not 63; 31 asked for on x86 give 30. -/
theorem C24_clamp_is_one_below_limit :
    (∀ (b : Build) (cores : Nat) (workers : Int) (w : Nat),
        (if workers < 0 then (cores : Int) + workers else workers) = (w : Int) →
        w < 2147483648 → 1 ≤ LOOM_WORKER_LIMIT b → LOOM_WORKER_LIMIT b < 2147483648 →
        choose_number_of_workers b cores workers
          = if w < LOOM_WORKER_LIMIT b then w else LOOM_WORKER_LIMIT b - 1)
      ∧ LOOM_WORKER_LIMIT build64 = 63
      ∧ choose_number_of_workers build64 8 63 = 62
      ∧ choose_number_of_workers build64 64 (-1) = 62
      ∧ min 63 (LOOM_WORKER_LIMIT build64) = 63
      ∧ LOOM_WORKER_LIMIT build32 = 31
      ∧ choose_number_of_workers build32 8 31 = 30 := by
  refine ⟨?_, by decide, by decide, by decide, by decide, by decide, by decide⟩
  intro b cores workers w hw h31 hlim hlim2
  simp only [choose_number_of_workers]
  split_ifs at hw ⊢ <;> omega

/-! ## Prologue and epilogue -/

/-- C27 (prologue and epilogue bracket every task): whenever
`loom_schedule_a_task` completes a task `t`, of either kind, with or without
a barrier, the log grows by exactly: the prologue of `t`; the kernel of `t`
when the kind is `LOOM_WORK_CPU`, nothing when it is `LOOM_WORK_NONE`; the
epilogue of `t`; the decrement of the barrier when `t` has one; and then only
decrements of `blockers` fields and pushes of successors. So the prologue and
the epilogue are invoked once each, around the kernel, and the epilogue
precedes the barrier decrement and every decrement of a successor. -/
theorem C27_prologue_epilogue_bracket (b : Build) (q : Nat) (s s1 : Scheduler) (t : Nat)
    (T : Task) (hT : s.tasks.tasks[t]? = some T)
    (h : loom_schedule_a_task b q s t = some s1) :
    ∃ rest, s1.log = s.log ++ [Event.prologue t]
          ++ (match T.work with
              | Work.none => []
              | Work.cpu _ _ => [Event.kernel t])
          ++ [Event.epilogue t]
          ++ (match T.barrier with
              | none => []
              | some k => [Event.barrier k (loom_atomic_decr_u32 (s.barriers.getD k 0))])
          ++ rest
      ∧ ∀ e, e ∈ rest → e.isUnblocking = true := by
  simp only [loom_schedule_a_task, hT] at h
  split at h
  · exact absurd h (by simp)
  · rename_i s5 hs5
    split at h
    · exact absurd h (by simp)
    · rename_i s6 hs6
      obtain ⟨_, _, _, rest, f4, f5⟩ := unblock_frame b q s5 s6 t hs6
      rw [← Option.some.inj h]
      refine ⟨rest, ?_, f5⟩
      show s6.log = _
      rw [f4]
      cases hb : T.barrier with
      | none =>
        rw [hb] at hs5
        rw [← Option.some.inj hs5]
        cases hw : T.work <;> simp [Scheduler.emit]
      | some k =>
        rw [hb] at hs5
        simp only at hs5
        split at hs5
        · exact absurd hs5 (by simp)
        · rename_i v hv
          have hv1 : s.barriers[k]? = some v := by
            cases hw : T.work <;> rw [hw] at hv <;> exact hv
          have hgd : s.barriers.getD k 0 = v := by
            rw [List.getD_eq_getElem?_getD, hv1]
            rfl
          rw [← Option.some.inj hs5, hgd]
          cases hw : T.work <;> simp [Scheduler.emit]

/-- C27 witness: the run of task `a` of the chain `a -> b -> c` from
`barrierStart`: prologue, kernel, epilogue, the barrier, and then the
decrement and the push of `b`. -/
theorem C27_prologue_epilogue_bracket_witness :
    ∃ rest, barrierDone.log = barrierStart.log ++ [Event.prologue 0]
          ++ (match (barrierStart.task 0).work with
              | Work.none => []
              | Work.cpu _ _ => [Event.kernel 0])
          ++ [Event.epilogue 0]
          ++ (match (barrierStart.task 0).barrier with
              | none => []
              | some k =>
                [Event.barrier k (loom_atomic_decr_u32 (barrierStart.barriers.getD k 0))])
          ++ rest
      ∧ ∀ e, e ∈ rest → e.isUnblocking = true :=
  C27_prologue_epilogue_bracket build64 0 barrierStart barrierDone 0 (barrierStart.task 0)
    (by decide) (by decide)

/-! ## The permit pool after a completion -/

/-- C28 (permit pool restored after completion), a run where the claim fails:
with one embedded permit, task `a` is wired with 3 edges on a fresh scheduler
whose permit pool has the free chain `0, 1, ..., 7`, and takes the nodes 0 and
1. After `loom_schedule_a_task(a)` (the kernel of `a` has run) the head of
the free list is 0 and entry 0 links to 0 again: both nodes were pushed under
the index 0, node 1 is not on the list, and the walk from the head never
reaches the sentinel. -/
theorem C28_returned_nodes_make_cycle :
    freeChain freshExample.permits.freelist.entries 9 freshExample.permits.freelist.next
        = some [0, 1, 2, 3, 4, 5, 6, 7]
      ∧ (threeWired.task 0).blocks = 3
      ∧ chainTargets threeWired 16 (some (PermitRef.embedded 0 0)) = [some 1, some 2, some 3]
      ∧ threeWired.permits.freelist
          = { next := 2, entries := [1, 2, 3, 4, 5, 6, 7, 4294967295] }
      ∧ runOps build64 threeWired [Op.kick (mkHandle 0 1), Op.work] = some threeDone
      ∧ kernelsRun threeDone.log = [0]
      ∧ threeDone.permits.freelist
          = { next := 0, entries := [0, 2, 3, 4, 5, 6, 7, 4294967295] }
      ∧ ∀ fuel, freeChain threeDone.permits.freelist.entries fuel
          threeDone.permits.freelist.next = none := by
  refine ⟨by decide, by decide, by decide, by decide, by decide, by decide, by decide, ?_⟩
  have h : threeDone.permits.freelist
      = { next := 0, entries := [0, 2, 3, 4, 5, 6, 7, 4294967295] } := by decide
  rw [h]
  intro fuel
  induction fuel with
  | zero => rfl
  | succ fuel ih =>
    simp only [freeChain] at ih ⊢
    simp [ih]

/-! ## Shutdown -/

/-- Once the main thread has advertised work on its own deque, nothing that it
runs clears the bit: with no other thread, the loop of `loom_shutdown` runs the
two tasks of `twoKicked` and then goes on for ever. -/
theorem shutdown_two_tasks_never_returns :
    ∀ fuel, loom_shutdown build64 fuel twoKicked = none := by
  have hfix : ∀ fuel, shutdownLoop build64 0 fuel twoRun = none := by
    intro fuel
    induction fuel with
    | zero => rfl
    | succ fuel ih =>
      have h1 : twoRun.work ≠ 0 := by decide
      have h4 : loom_grab_a_task 0 twoRun = some (twoRun, none) := by decide
      have h5 : loom_steal_a_task build64 0 (fuel + 1) twoRun = some (twoRun, none) :=
        steal_no_victims build64 0 fuel twoRun (by decide)
      have h6 : loom_do_some_work build64 0 (fuel + 1) twoRun = some (twoRun, false) := by
        simp [loom_do_some_work, h4, h5]
      simp only [shutdownLoop, h1, h6]
      simpa using ih
  have hwork : ∀ (fuel : Nat) (s : Scheduler), (loom_grab_a_task 0 s).map (fun r => r.2.isSome)
        = some true →
      loom_do_some_work build64 0 fuel s = (runOp build64 s Op.work).map (fun s1 => (s1, true)) := by
    intro fuel s hg
    simp only [loom_do_some_work, runOp]
    cases hgr : loom_grab_a_task 0 s with
    | none => rw [hgr] at hg; exact absurd hg (by simp)
    | some r =>
      obtain ⟨s1, ot⟩ := r
      cases ot with
      | none => rw [hgr] at hg; exact absurd hg (by simp)
      | some task =>
        simp only [if_true]
        cases loom_schedule_a_task build64 0 s1 task <;> rfl
  intro fuel
  simp only [loom_shutdown]
  have hloop : shutdownLoop build64 0 fuel twoKicked = none := by
    cases fuel with
    | zero => rfl
    | succ fuel =>
      have h1 : twoKicked.work ≠ 0 := by decide
      have hs1 : runOp build64 twoKicked Op.work
          = some ((runOps build64 twoKicked [Op.work]).getD twoKicked) := by decide
      simp only [shutdownLoop, h1, hwork (fuel + 1) twoKicked (by decide), hs1]
      cases fuel with
      | zero => rfl
      | succ fuel =>
        have h2 : ((runOps build64 twoKicked [Op.work]).getD twoKicked).work ≠ 0 := by decide
        have hs2 : runOp build64 ((runOps build64 twoKicked [Op.work]).getD twoKicked) Op.work
            = some twoRun := by decide
        simp only [Option.map_some', ne_eq, not_false_eq_true, if_true]
        simp only [shutdownLoop, h2,
          hwork (fuel + 1) ((runOps build64 twoKicked [Op.work]).getD twoKicked) (by decide), hs2]
        simpa using hfix fuel
  rw [hloop]

/-- C26 (shutdown drops no kernel), a run where the claim fails: on a
scheduler without workers and with `main_thread_does_work` set, one task
without predecessors is kicked from the main thread; the push leaves the deque
at depth 1, which is not advertised, so `work` is 0 and `loom_shutdown`
returns at once: the kernel of the task has not run and the task is still on
the main deque. -/
theorem C26_shutdown_drops_single_task :
    tasksPushed oneKicked.log = [0]
      ∧ oneKicked.work = 0
      ∧ oneKicked.n = 0
      ∧ loom_shutdown build64 1 oneKicked = some oneKicked
      ∧ kernelsRun oneKicked.log = []
      ∧ (oneKicked.queues[0]?).map (fun wq => wq.map loom_work_queue_depth) = some (some 1) := by
  decide

/-! ## Bitmaps -/

/-- The least set bit of a bitmap is the head of `setBits`. -/
theorem ctz_eq_head (b : Build) (x : Nat) :
    loom_ctz_native b x = (setBits b x).head?.getD b.width := by
  simp only [loom_ctz_native, setBits, List.filter_head?]

/-- The bits of `x - 1` that matter for `x & (x - 1)`: when `p` is the least
set bit of `x`, the bit `p` of `x - 1` is clear and the bits above `p` are
those of `x`. -/
theorem testBit_and_pred (x p : Nat) (hp : x.testBit p = true)
    (hlow : ∀ j, j < p → x.testBit j = false) (i : Nat) :
    (x &&& (x - 1)).testBit i = (x.testBit i && decide (i ≠ p)) := by
  have hmod : x % 2 ^ (p + 1) = 2 ^ p := by
    apply Nat.eq_of_testBit_eq
    intro j
    rw [Nat.testBit_mod_two_pow, Nat.testBit_two_pow]
    by_cases h1 : j < p
    · rw [hlow j h1]
      simp
      omega
    · by_cases h2 : j = p
      · subst h2
        simp [hp]
      · have : ¬ j < p + 1 := by omega
        simp [this]
        omega
  have hx : x = 2 ^ (p + 1) * (x / 2 ^ (p + 1)) + 2 ^ p := by
    have := Nat.div_add_mod x (2 ^ (p + 1))
    rw [hmod] at this
    exact this.symm
  have hpos : 0 < 2 ^ p := Nat.two_pow_pos p
  have hx1 : x - 1 = 2 ^ (p + 1) * (x / 2 ^ (p + 1)) + (2 ^ p - 1) := by
    omega
  have hlt : 2 ^ p - 1 < 2 ^ (p + 1) := by
    have : 2 ^ p < 2 ^ (p + 1) := Nat.pow_lt_pow_right (by decide) (by omega)
    omega
  have hlt2 : 2 ^ p < 2 ^ (p + 1) := Nat.pow_lt_pow_right (by decide) (by omega)
  rw [Nat.testBit_and]
  by_cases h1 : i < p
  · rw [hlow i h1]
    simp
  · by_cases h2 : i = p
    · subst h2
      have : (x - 1).testBit i = false := by
        rw [hx1, Nat.testBit_mul_pow_two_add _ hlt, if_pos (by omega),
          Nat.testBit_two_pow_sub_one]
        simp
      rw [this]
      simp
    · have h3 : ¬ i < p + 1 := by omega
      have e1 : (x - 1).testBit i = (x / 2 ^ (p + 1)).testBit (i - (p + 1)) := by
        rw [hx1, Nat.testBit_mul_pow_two_add _ hlt, if_neg h3]
      have e2 : x.testBit i = (x / 2 ^ (p + 1)).testBit (i - (p + 1)) := by
        conv => lhs; rw [hx]
        rw [Nat.testBit_mul_pow_two_add _ hlt2, if_neg h3]
      rw [e1, ← e2]
      simp [h2]

theorem filter_tail_of_head {l : List Nat} {P : Nat → Bool} {p : Nat} {rest : List Nat}
    (hnd : l.Nodup) (h : l.filter P = p :: rest) :
    l.filter (fun i => P i && decide (i ≠ p)) = rest := by
  have h1 : l.filter (fun i => P i && decide (i ≠ p))
      = (l.filter P).filter (fun i => decide (i ≠ p)) := by
    rw [List.filter_filter]
    congr 1
    funext i
    rw [Bool.and_comm]
  have hnd2 : (p :: rest).Nodup := by
    rw [← h]
    exact hnd.filter _
  have hp : p ∉ rest := (List.nodup_cons.mp hnd2).1
  rw [h1, h, List.filter_cons]
  simp only [ne_eq, not_true_eq_false, decide_False, Bool.false_eq_true, if_false]
  apply List.filter_eq_self.mpr
  intro a ha
  simp only [decide_eq_true_eq]
  intro hc
  exact hp (hc ▸ ha)

/-- The loop `while (victims)` enumerates the set bits of the bitmap from the
least one up. -/
theorem victimOrder_eq (b : Build) (r : Nat) : ∀ (fuel x : Nat),
    (∀ j, b.width ≤ j → x.testBit j = false) → (setBits b x).length < fuel →
    victimOrder b r fuel x = (setBits b x).map (fun p => (p + (b.width - r)) % b.width) := by
  intro fuel
  induction fuel with
  | zero => intro x _ h; exact absurd h (by omega)
  | succ fuel ih =>
    intro x hhigh hlen
    by_cases hx : x = 0
    · subst hx
      simp [victimOrder, setBits]
    · obtain ⟨j, hj⟩ := Nat.ne_zero_implies_bit_true hx
      have hjW : j < b.width := by
        by_contra hc
        rw [hhigh j (by omega)] at hj
        exact absurd hj (by simp)
      have hmem : j ∈ setBits b x := by
        simp only [setBits, List.mem_filter, List.mem_range]
        exact ⟨hjW, hj⟩
      obtain ⟨p, rest, hS⟩ : ∃ p rest, setBits b x = p :: rest := by
        cases hl : setBits b x with
        | nil => rw [hl] at hmem; exact absurd hmem (by simp)
        | cons p rest => exact ⟨p, rest, rfl⟩
      have hctz : loom_ctz_native b x = p := by
        rw [ctz_eq_head, hS]
        rfl
      have hpmem : p ∈ setBits b x := by rw [hS]; exact List.mem_cons_self _ _
      have hpbit : x.testBit p = true := by
        simp only [setBits, List.mem_filter] at hpmem
        exact hpmem.2
      have hpW : p < b.width := by
        simp only [setBits, List.mem_filter, List.mem_range] at hpmem
        exact hpmem.1
      have hlow : ∀ i, i < p → x.testBit i = false := by
        intro i hi
        by_contra hc
        have hi2 : i ∈ setBits b x := by
          simp only [setBits, List.mem_filter, List.mem_range]
          exact ⟨by omega, by simpa using hc⟩
        rw [hS] at hi2
        have hsorted : (p :: rest).Pairwise (· < ·) := by
          rw [← hS]
          exact List.Pairwise.filter _ (List.pairwise_lt_range _)
        rcases List.mem_cons.mp hi2 with h1 | h1
        · omega
        · have := (List.pairwise_cons.mp hsorted).1 i h1
          omega
      have hS2 : setBits b (x &&& (x - 1)) = rest := by
        have : setBits b (x &&& (x - 1))
            = (List.range b.width).filter (fun i => x.testBit i && decide (i ≠ p)) := by
          simp only [setBits]
          congr 1
          funext i
          exact testBit_and_pred x p hpbit hlow i
        rw [this]
        exact filter_tail_of_head (List.nodup_range _) hS
      have hhigh2 : ∀ j, b.width ≤ j → (x &&& (x - 1)).testBit j = false := by
        intro j hj
        rw [Nat.testBit_and, hhigh j hj]
        rfl
      have hlen2 : (setBits b (x &&& (x - 1))).length < fuel := by
        rw [hS2]
        rw [hS, List.length_cons] at hlen
        omega
      simp only [victimOrder, if_neg hx, hctz, ih _ hhigh2 hlen2, hS2, hS, List.map_cons]
/-- The amount of the right shift in the rotation: `(-r) % w` on a word of `w`
bits, when `w` divides `2^w`. -/
theorem rotate_shift (W r : Nat) (hdiv : 2 ^ W % W = 0) (hr : r < W) :
    ((2 ^ W - r) % 2 ^ W) % W = if r = 0 then 0 else W - r := by
  by_cases h0 : r = 0
  · subst h0
    simp [hdiv]
  · rw [if_neg h0]
    have hWlt : W < 2 ^ W := Nat.lt_two_pow W
    rw [Nat.mod_eq_of_lt (show 2 ^ W - r < 2 ^ W by omega)]
    obtain ⟨c, hc⟩ : ∃ c, 2 ^ W = W * c := ⟨2 ^ W / W, by
      have := Nat.div_add_mod (2 ^ W) W
      rw [hdiv] at this
      omega⟩
    have hc1 : 1 ≤ c := by
      rcases Nat.eq_zero_or_pos c with h | h
      · rw [h] at hc
        omega
      · exact h
    have : 2 ^ W - r = W - r + W * (c - 1) := by
      have : W * c = W * (c - 1) + W := by
        conv => lhs; rw [show c = (c - 1) + 1 by omega]
        rw [Nat.mul_add, Nat.mul_one]
      omega
    rw [this, Nat.add_mul_mod_self_left, Nat.mod_eq_of_lt (show W - r < W by omega)]

/-- The bits of the rotated bitmap: bit `j` of the rotation by `r` is bit
`(j + (w - r)) % w` of the bitmap, and no bit is set at the width or above. -/
theorem rotate_testBit (b : Build) (x r : Nat)
    (hdiv : 2 ^ b.width % b.width = 0) (hx : x < 2 ^ b.width) (hr : r < b.width) (j : Nat) :
    (rotateVictims b x r).testBit j
      = (decide (j < b.width) && x.testBit ((j + (b.width - r)) % b.width)) := by
  have hhigh : ∀ i, b.width ≤ i → x.testBit i = false := by
    intro i hi
    apply Nat.testBit_lt_two_pow
    exact lt_of_lt_of_le hx (Nat.pow_le_pow_right (by decide) hi)
  simp only [rotateVictims, rotate_shift b.width r hdiv hr, Nat.testBit_or,
    Nat.testBit_mod_two_pow, Nat.testBit_shiftLeft, Nat.testBit_shiftRight]
  by_cases hj : j < b.width
  · by_cases h0 : r = 0
    · subst h0
      simp [hj, Nat.mod_eq_of_lt hj]
    · rw [if_neg h0]
      by_cases hjr : r ≤ j
      · have e1 : (j + (b.width - r)) % b.width = j - r := by
          have : j + (b.width - r) = j - r + b.width := by omega
          rw [this, Nat.add_mod_right, Nat.mod_eq_of_lt (by omega)]
        rw [e1, hhigh (b.width - r + j) (by omega)]
        simp [hj, hjr]
      · have e1 : (j + (b.width - r)) % b.width = b.width - r + j := by
          rw [Nat.mod_eq_of_lt (by omega)]
          omega
        rw [e1]
        simp [hj, hjr]
  · have h1 : x.testBit ((if r = 0 then 0 else b.width - r) + j) = false := by
      apply hhigh
      split <;> omega
    rw [h1]
    simp [hj]

/-- C30 (victim enumeration under rotation): for a bitmap width of 32 or 64
bits, every non-zero bitmap of victims that fits the width and every rotation
`r` below the width, the indices that the loop `while (victims)` of
`loom_steal_a_task` computes from the rotated bitmap, when every steal fails,
are exactly the set bits of the bitmap, each once, in increasing order of
`(v + r) mod W`. -/
theorem C30_victims_visited_once_in_rotated_order (b : Build) (victims r : Nat)
    (hW : b.width = 32 ∨ b.width = 64) (hv : victims ≠ 0) (hlt : victims < 2 ^ b.width)
    (hr : r < b.width) :
    (∀ v, v ∈ victimOrder b r (b.width + 1) (rotateVictims b victims r)
        ↔ v < b.width ∧ victims.testBit v = true)
      ∧ (victimOrder b r (b.width + 1) (rotateVictims b victims r)).Nodup
      ∧ ((victimOrder b r (b.width + 1) (rotateVictims b victims r)).map
          (fun v => (v + r) % b.width)).Pairwise (fun x y => x < y)
      ∧ victimOrder b r (b.width + 1) (rotateVictims b victims r) ≠ [] := by
  have hpos : 0 < b.width := by omega
  have hdiv : 2 ^ b.width % b.width = 0 := by
    rcases hW with h | h <;> rw [h] <;> decide
  have hbit := rotate_testBit b victims r hdiv hlt hr
  have hhigh : ∀ j, b.width ≤ j → (rotateVictims b victims r).testBit j = false := by
    intro j hj
    rw [hbit]
    simp
    omega
  have hlen : (setBits b (rotateVictims b victims r)).length < b.width + 1 := by
    have := List.length_filter_le (fun i => (rotateVictims b victims r).testBit i)
      (List.range b.width)
    rw [List.length_range] at this
    exact Nat.lt_succ_of_le this
  have hfg : ∀ p, p < b.width → ((p + (b.width - r)) % b.width + r) % b.width = p := by
    intro p hp
    by_cases h1 : p + (b.width - r) < b.width
    · rw [Nat.mod_eq_of_lt h1]
      have : p + (b.width - r) + r = p + b.width := by omega
      rw [this, Nat.add_mod_right, Nat.mod_eq_of_lt hp]
    · have : (p + (b.width - r)) % b.width = p - r := by
        have : p + (b.width - r) = p - r + b.width := by omega
        rw [this, Nat.add_mod_right, Nat.mod_eq_of_lt (by omega)]
      rw [this, show p - r + r = p by omega, Nat.mod_eq_of_lt hp]
  have hgf : ∀ v, v < b.width → ((v + r) % b.width + (b.width - r)) % b.width = v := by
    intro v hv2
    by_cases h1 : v + r < b.width
    · rw [Nat.mod_eq_of_lt h1]
      have : v + r + (b.width - r) = v + b.width := by omega
      rw [this, Nat.add_mod_right, Nat.mod_eq_of_lt hv2]
    · have : (v + r) % b.width = v + r - b.width := by
        have : v + r = v + r - b.width + b.width := by omega
        conv => lhs; rw [this]
        rw [Nat.add_mod_right, Nat.mod_eq_of_lt (by omega)]
      rw [this, show v + r - b.width + (b.width - r) = v by omega, Nat.mod_eq_of_lt hv2]
  have hmemS : ∀ p, p ∈ setBits b (rotateVictims b victims r)
      ↔ p < b.width ∧ victims.testBit ((p + (b.width - r)) % b.width) = true := by
    intro p
    simp only [setBits, List.mem_filter, List.mem_range, hbit]
    constructor
    · rintro ⟨h1, h2⟩
      simp [h1] at h2
      exact ⟨h1, h2⟩
    · rintro ⟨h1, h2⟩
      exact ⟨h1, by simp [h1, h2]⟩
  rw [victimOrder_eq b r (b.width + 1) _ hhigh hlen]
  have hmem : ∀ v, v ∈ (setBits b (rotateVictims b victims r)).map
      (fun p => (p + (b.width - r)) % b.width) ↔ v < b.width ∧ victims.testBit v = true := by
    intro v
    simp only [List.mem_map]
    constructor
    · rintro ⟨p, hp, rfl⟩
      obtain ⟨h1, h2⟩ := (hmemS p).mp hp
      exact ⟨Nat.mod_lt _ hpos, h2⟩
    · rintro ⟨h1, h2⟩
      refine ⟨(v + r) % b.width, (hmemS _).mpr ⟨Nat.mod_lt _ hpos, ?_⟩, hgf v h1⟩
      rw [hgf v h1]
      exact h2
  refine ⟨hmem, ?_, ?_, ?_⟩
  · apply List.Nodup.map_on
    · intro p hp p2 hp2 heq
      have h1 := hfg p ((hmemS p).mp hp).1
      have h2 := hfg p2 ((hmemS p2).mp hp2).1
      simp only at heq
      rw [heq, h2] at h1
      exact h1.symm
    · exact (List.nodup_range _).filter _
  · rw [List.map_map]
    have : (setBits b (rotateVictims b victims r)).map
        ((fun v => (v + r) % b.width) ∘ (fun p => (p + (b.width - r)) % b.width))
        = setBits b (rotateVictims b victims r) := by
      conv => rhs; rw [← List.map_id (setBits b (rotateVictims b victims r))]
      apply List.map_congr_left
      intro p hp
      exact hfg p ((hmemS p).mp hp).1
    rw [this]
    exact List.Pairwise.filter _ (List.pairwise_lt_range _)
  · obtain ⟨j, hj⟩ := Nat.ne_zero_implies_bit_true hv
    have hjW : j < b.width := by
      by_contra hc
      have : victims.testBit j = false := by
        apply Nat.testBit_lt_two_pow
        exact lt_of_lt_of_le hlt (Nat.pow_le_pow_right (by decide) (by omega))
      rw [this] at hj
      exact absurd hj (by simp)
    intro hnil
    have := (hmem j).mpr ⟨hjW, hj⟩
    rw [hnil] at this
    exact absurd this (by simp)

/-- C30 witness: on 64 bits, the victims 1, 5 and 63 under the rotation by 60
are visited in the order 5, 63, 1. -/
theorem C30_victims_visited_once_in_rotated_order_witness :
    (∀ v, v ∈ victimOrder build64 60 (build64.width + 1)
            (rotateVictims build64 9223372036854775842 60)
        ↔ v < build64.width ∧ (9223372036854775842 : Nat).testBit v = true)
      ∧ (victimOrder build64 60 (build64.width + 1)
          (rotateVictims build64 9223372036854775842 60)).Nodup
      ∧ ((victimOrder build64 60 (build64.width + 1)
          (rotateVictims build64 9223372036854775842 60)).map
          (fun v => (v + 60) % build64.width)).Pairwise (fun x y => x < y)
      ∧ victimOrder build64 60 (build64.width + 1)
          (rotateVictims build64 9223372036854775842 60) ≠ [] :=
  C30_victims_visited_once_in_rotated_order build64 9223372036854775842 60
    (Or.inr rfl) (by decide) (by decide) (by decide)

/-- The order of the visit in the example of the C30 witness. -/
theorem victimOrder_example :
    victimOrder build64 60 (build64.width + 1) (rotateVictims build64 9223372036854775842 60)
      = [5, 63, 1] := by
  decide

/-! ## The steal loop as a walk over the victims -/

theorem stealVictims_succ (b : Build) (r offline fuel : Nat) (s : Scheduler) (victims : Nat) :
    stealVictims b r offline (fuel + 1) s victims
      = if victims = 0 then some (s, none)
        else
          let v := (loom_ctz_native b victims + (b.width - r)) % b.width
          match stealAttempts v 3 s with
          | none => none
          | some (s1, some task) => some (s1, some task)
          | some (s1, none) =>
            let draining := ((offline &&& (1 <<< v)) != 0) || (v == 0)
            match s1.queues[v]? with
            | some (some wq) =>
              let s2 :=
                if draining && loom_work_queue_is_empty wq then
                  { s1 with work := loom_atomic_reset_native s1.work v }
                else s1
              stealVictims b r offline fuel s2 (victims &&& (victims - 1))
            | _ => if draining then none
                   else stealVictims b r offline fuel s1 (victims &&& (victims - 1)) := rfl

theorem stealList_cons (offline v : Nat) (vs : List Nat) (s : Scheduler) :
    stealList offline (v :: vs) s
      = match stealAttempts v 3 s with
        | none => none
        | some (s1, some task) => some (s1, some task)
        | some (s1, none) =>
          let draining := ((offline &&& (1 <<< v)) != 0) || (v == 0)
          match s1.queues[v]? with
          | some (some wq) =>
            let s2 :=
              if draining && loom_work_queue_is_empty wq then
                { s1 with work := loom_atomic_reset_native s1.work v }
              else s1
            stealList offline vs s2
          | _ => if draining then none
                 else stealList offline vs s1 := rfl

/-- One pass of the loop on the bitmap: the least set bit is the head of
`setBits`, and clearing it leaves the tail. -/
theorem setBits_step (b : Build) (x : Nat) (hx : x ≠ 0)
    (hhigh : ∀ j, b.width ≤ j → x.testBit j = false) :
    ∃ p rest, setBits b x = p :: rest ∧ loom_ctz_native b x = p
      ∧ setBits b (x &&& (x - 1)) = rest
      ∧ ∀ j, b.width ≤ j → (x &&& (x - 1)).testBit j = false := by
  obtain ⟨j, hj⟩ := Nat.ne_zero_implies_bit_true hx
  have hjW : j < b.width := by
    by_contra hc
    rw [hhigh j (by omega)] at hj
    exact absurd hj (by simp)
  have hmem : j ∈ setBits b x := by
    simp only [setBits, List.mem_filter, List.mem_range]
    exact ⟨hjW, hj⟩
  obtain ⟨p, rest, hS⟩ : ∃ p rest, setBits b x = p :: rest := by
    cases hl : setBits b x with
    | nil => rw [hl] at hmem; exact absurd hmem (by simp)
    | cons p rest => exact ⟨p, rest, rfl⟩
  have hctz : loom_ctz_native b x = p := by
    rw [ctz_eq_head, hS]
    rfl
  have hpmem : p ∈ setBits b x := by rw [hS]; exact List.mem_cons_self _ _
  have hpbit : x.testBit p = true := by
    simp only [setBits, List.mem_filter] at hpmem
    exact hpmem.2
  have hlow : ∀ i, i < p → x.testBit i = false := by
    intro i hi
    by_contra hc
    have hpW : p < b.width := by
      simp only [setBits, List.mem_filter, List.mem_range] at hpmem
      exact hpmem.1
    have hi2 : i ∈ setBits b x := by
      simp only [setBits, List.mem_filter, List.mem_range]
      exact ⟨by omega, by simpa using hc⟩
    rw [hS] at hi2
    have hsorted : (p :: rest).Pairwise (· < ·) := by
      rw [← hS]
      exact List.Pairwise.filter _ (List.pairwise_lt_range _)
    rcases List.mem_cons.mp hi2 with h1 | h1
    · omega
    · have := (List.pairwise_cons.mp hsorted).1 i h1
      omega
  refine ⟨p, rest, hS, hctz, ?_, ?_⟩
  · have : setBits b (x &&& (x - 1))
        = (List.range b.width).filter (fun i => x.testBit i && decide (i ≠ p)) := by
      simp only [setBits]
      congr 1
      funext i
      exact testBit_and_pred x p hpbit hlow i
    rw [this]
    exact filter_tail_of_head (List.nodup_range _) hS
  · intro j hj
    rw [Nat.testBit_and, hhigh j hj]
    rfl

/-- The loop `while (victims)` is the walk over the indices of
`victimOrder`. -/
theorem stealVictims_list (b : Build) (r offline : Nat) : ∀ (fuel x : Nat),
    (∀ j, b.width ≤ j → x.testBit j = false) → (setBits b x).length < fuel →
    ∀ s, stealVictims b r offline fuel s x = stealList offline (victimOrder b r fuel x) s := by
  intro fuel
  induction fuel with
  | zero => intro x _ h; exact absurd h (by omega)
  | succ fuel ih =>
    intro x hhigh hlen s
    by_cases hx : x = 0
    · subst hx
      rfl
    · obtain ⟨p, rest, hS, hctz, hS2, hhigh2⟩ := setBits_step b x hx hhigh
      have hlen2 : (setBits b (x &&& (x - 1))).length < fuel := by
        rw [hS2]
        rw [hS, List.length_cons] at hlen
        omega
      have ih2 := ih (x &&& (x - 1)) hhigh2 hlen2
      have hvo : victimOrder b r (fuel + 1) x
          = ((loom_ctz_native b x + (b.width - r)) % b.width)
              :: victimOrder b r fuel (x &&& (x - 1)) := by
        simp only [victimOrder, if_neg hx]
      rw [stealVictims_succ, if_neg hx, hvo, stealList_cons]
      simp only [ih2]
/-- Steal on a deque that holds `y :: L` without counter wrap takes `y`, the
oldest task. -/
theorem holds_steal {Q : Nat} {wq : WorkQueue} {y : Nat} {L : List Nat}
    (h : Holds Q wq (y :: L)) (hb : wq.bottom < U32) :
    loom_work_queue_steal wq = ({ wq with top := wq.top + 1 }, some y)
      ∧ Holds Q { wq with top := wq.top + 1 } L := by
  obtain ⟨hs, hlen, hbot, hslots⟩ := h
  simp only [List.length_cons] at hbot hslots
  have h0 := hslots 0 (by omega)
  simp only [Nat.add_zero, List.getD_cons_zero] at h0
  have h2 : add32 wq.top 1 = wq.top + 1 := add32_of_lt (by omega)
  constructor
  · simp only [loom_work_queue_steal, loom_atomic_cmp_and_xchg_u32, h2, hs, h0]
    rw [if_pos (by omega)]
    simp
  · refine ⟨hs, hlen, by simp only []; omega, ?_⟩
    intro i hi
    have := hslots (i + 1) (by omega)
    simp only [List.getD_cons_succ] at this
    rw [← this]
    show wq.tasks.getD ((wq.top + 1 + i) % Q) none = _
    congr 2
    omega

theorem setQueue_self (s : Scheduler) (v : Nat) (wq : WorkQueue)
    (h : s.queues[v]? = some (some wq)) : s.setQueue v wq = s := by
  have h1 := list_set_self s.queues v (some wq) h
  simp only [Scheduler.setQueue, h1]

/-- Steal attempts on an empty deque fail and change nothing. -/
theorem stealAttempts_empty (s : Scheduler) (v : Nat) (wq : WorkQueue)
    (hq : s.queues[v]? = some (some wq)) (he : wq.top = wq.bottom) :
    ∀ n, stealAttempts v n s = some (s, none) := by
  intro n
  induction n with
  | zero => rfl
  | succ n ih =>
    simp only [stealAttempts, stealFrom, hq, steal_empty wq he, setQueue_self s v wq hq]
    exact ih

/-- The first steal attempt on a deque that holds a task takes the oldest
one. -/
theorem stealAttempts_nonempty (s : Scheduler) (v n : Nat) (wq : WorkQueue) (y : Nat)
    (L : List Nat) (hq : s.queues[v]? = some (some wq)) (h : Holds wq.size wq (y :: L))
    (hb : wq.bottom < U32) :
    stealAttempts v (n + 1) s = some (s.setQueue v { wq with top := wq.top + 1 }, some y) := by
  simp only [stealAttempts, stealFrom, hq, (holds_steal h hb).1]

/-- The walk stops at the first victim whose deque holds a task and returns
the oldest task of that deque; on the way only `work` changes. -/
theorem stealList_finds (offline : Nat) : ∀ (vs : List Nat) (s : Scheduler),
    (∀ v, v ∈ vs → ∃ wq L, s.queues[v]? = some (some wq) ∧ Holds wq.size wq L
      ∧ wq.bottom < U32) →
    (∃ v wq, v ∈ vs ∧ s.queues[v]? = some (some wq) ∧ wq.top ≠ wq.bottom) →
    ∃ v wq y L w, v ∈ vs ∧ s.queues[v]? = some (some wq) ∧ Holds wq.size wq (y :: L)
      ∧ stealList offline vs s
          = some (({ s with work := w } : Scheduler).setQueue v { wq with top := wq.top + 1 },
              some y) := by
  intro vs
  induction vs with
  | nil =>
    intro s _ h
    obtain ⟨v, _, hv, _⟩ := h
    exact absurd hv (by simp)
  | cons v vs ih =>
    intro s hall hex
    obtain ⟨wq, L, hq, hh, hb⟩ := hall v (List.mem_cons_self _ _)
    cases L with
    | cons y L =>
      refine ⟨v, wq, y, L, s.work, List.mem_cons_self _ _, hq, hh, ?_⟩
      rw [stealList_cons, stealAttempts_nonempty s v 2 wq y L hq hh hb]
    | nil =>
      have he : wq.top = wq.bottom := by
        have := hh.2.2.1
        simpa using this.symm
      have hrest : ∃ v1 wq1, v1 ∈ vs ∧ s.queues[v1]? = some (some wq1)
          ∧ wq1.top ≠ wq1.bottom := by
        obtain ⟨v1, wq1, hv1, hq1, hne⟩ := hex
        rcases List.mem_cons.mp hv1 with h1 | h1
        · subst h1
          rw [hq] at hq1
          have := Option.some.inj (Option.some.inj hq1)
          subst this
          exact absurd he hne
        · exact ⟨v1, wq1, h1, hq1, hne⟩
      rw [stealList_cons, stealAttempts_empty s v wq hq he 3]
      simp only [hq]
      split
      · obtain ⟨v1, wq1, y, L, w, a1, a2, a3, a4⟩ :=
          ih { s with work := loom_atomic_reset_native s.work v }
            (fun v1 hv1 => hall v1 (List.mem_cons_of_mem _ hv1)) hrest
        exact ⟨v1, wq1, y, L, w, List.mem_cons_of_mem _ a1, a2, a3, a4⟩
      · obtain ⟨v1, wq1, y, L, w, a1, a2, a3, a4⟩ :=
          ih s (fun v1 hv1 => hall v1 (List.mem_cons_of_mem _ hv1)) hrest
        exact ⟨v1, wq1, y, L, w, List.mem_cons_of_mem _ a1, a2, a3, a4⟩

/-- The walk over victims whose deques are all empty steals nothing, leaves
the deques as they are, and resets the `work` bits of the victims that are
draining. -/
theorem stealList_all_empty (offline : Nat) : ∀ (vs : List Nat) (s : Scheduler),
    (∀ v, v ∈ vs → ∃ wq, s.queues[v]? = some (some wq) ∧ wq.top = wq.bottom) →
    stealList offline vs s
      = some ({ s with work := vs.foldl (resetDrained offline) s.work }, none) := by
  intro vs
  induction vs with
  | nil => intro s _; rfl
  | cons v vs ih =>
    intro s hall
    obtain ⟨wq, hq, he⟩ := hall v (List.mem_cons_self _ _)
    have hemp : loom_work_queue_is_empty wq = true := by
      simp [loom_work_queue_is_empty, he]
    rw [stealList_cons, stealAttempts_empty s v wq hq he 3]
    simp only [hq, hemp, Bool.and_true, List.foldl_cons, resetDrained]
    split
    · rename_i hd
      rw [ih { s with work := loom_atomic_reset_native s.work v }
        (fun v1 hv1 => hall v1 (List.mem_cons_of_mem _ hv1))]
    · rename_i hd
      rw [ih s (fun v1 hv1 => hall v1 (List.mem_cons_of_mem _ hv1))]
/-! ## Bits of the bookkeeping words -/

theorem testBit_reset (m v i : Nat) :
    (loom_atomic_reset_native m v).testBit i = (m.testBit i && decide (i ≠ v)) := by
  simp only [loom_atomic_reset_native, Nat.testBit_xor, Nat.testBit_and, Nat.one_shiftLeft,
    Nat.testBit_two_pow]
  by_cases h : v = i
  · subst h
    cases m.testBit v <;> simp
  · have h2 : i ≠ v := fun hc => h hc.symm
    cases m.testBit i <;> simp [h, h2]

theorem and_one_shiftLeft_ne_zero (m v : Nat) :
    ((m &&& (1 <<< v)) != 0) = m.testBit v := by
  rw [Nat.one_shiftLeft]
  by_cases h : m.testBit v = true
  · rw [h]
    have : (m &&& 2 ^ v).testBit v = true := by
      rw [Nat.testBit_and, h, Nat.testBit_two_pow]
      simp
    have hne : m &&& 2 ^ v ≠ 0 := by
      intro hc
      rw [hc, Nat.zero_testBit] at this
      exact absurd this (by simp)
    simp [hne]
  · have h2 : m.testBit v = false := by simpa using h
    rw [h2]
    have : m &&& 2 ^ v = 0 := by
      apply Nat.eq_of_testBit_eq
      intro i
      rw [Nat.testBit_and, Nat.testBit_two_pow, Nat.zero_testBit]
      by_cases hi : v = i
      · subst hi
        simp [h2]
      · simp [hi]
    simp [this]

theorem testBit_offline (W online v : Nat) (hv : v < W) :
    ((2 ^ W - 1) ^^^ (online % 2 ^ W)).testBit v = !online.testBit v := by
  rw [Nat.testBit_xor, Nat.testBit_two_pow_sub_one, Nat.testBit_mod_two_pow]
  simp [hv]

theorem testBit_mask_zero (b : Build) (hW : 0 < b.width) (i : Nat) :
    (notOneShl b 0).testBit i = decide (1 ≤ i ∧ i < b.width) := by
  have h1 : notOneShl b 0 = 2 * (2 ^ (b.width - 1) - 1) := by
    simp only [notOneShl, Nat.zero_mod, Nat.pow_zero]
    rw [if_pos (by omega)]
    obtain ⟨w, hw⟩ : ∃ w, b.width = w + 1 := ⟨b.width - 1, by omega⟩
    rw [hw, Nat.pow_succ]
    have := Nat.two_pow_pos w
    simp only [Nat.add_sub_cancel]
    omega
  rw [h1]
  cases i with
  | zero => simp [Nat.testBit_zero]
  | succ i =>
    rw [Nat.testBit_succ, Nat.mul_div_cancel_left _ (by decide : 0 < 2),
      Nat.testBit_two_pow_sub_one]
    by_cases h : i < b.width - 1
    · simp [h]
      omega
    · simp [h]
      omega

theorem mask_zero_lt (b : Build) : notOneShl b 0 < 2 ^ b.width := by
  simp only [notOneShl, Nat.zero_mod, Nat.pow_zero]
  rw [if_pos (by omega)]
  have := Nat.two_pow_pos b.width
  omega

theorem testBit_foldl_reset (offline : Nat) : ∀ (vs : List Nat) (w i : Nat),
    (vs.foldl (resetDrained offline) w).testBit i
      = (w.testBit i && !(decide (i ∈ vs) && (offline.testBit i || i == 0))) := by
  intro vs
  induction vs with
  | nil => intro w i; simp
  | cons v vs ih =>
    intro w i
    rw [List.foldl_cons, ih]
    simp only [resetDrained, and_one_shiftLeft_ne_zero]
    by_cases hd : (offline.testBit v || v == 0) = true
    · rw [if_pos hd, testBit_reset]
      by_cases hiv : i = v
      · subst hiv
        simp [hd]
      · have : (decide (i ∈ v :: vs)) = decide (i ∈ vs) := by
          simp [hiv]
        rw [this]
        simp [hiv]
    · rw [if_neg hd]
      by_cases hiv : i = v
      · subst hiv
        have hd2 : (offline.testBit i || i == 0) = false := by simpa using hd
        simp [hd2]
      · have : (decide (i ∈ v :: vs)) = decide (i ∈ vs) := by
          simp [hiv]
        rw [this]

/-- The victims of a pass are the set bits of the bitmap that was rotated, and
the loop is the walk over them. -/
theorem victimOrder_mem (b : Build) (x r : Nat) (hW : 0 < b.width)
    (hdiv : 2 ^ b.width % b.width = 0) (hx : x < 2 ^ b.width) (hr : r < b.width) :
    (∀ v, v ∈ victimOrder b r (b.width + 1) (rotateVictims b x r)
        ↔ v < b.width ∧ x.testBit v = true)
      ∧ ∀ offline s, stealVictims b r offline (b.width + 1) s (rotateVictims b x r)
          = stealList offline (victimOrder b r (b.width + 1) (rotateVictims b x r)) s := by
  have hbit := rotate_testBit b x r hdiv hx hr
  have hhigh : ∀ j, b.width ≤ j → (rotateVictims b x r).testBit j = false := by
    intro j hj
    rw [hbit]
    simp
    omega
  have hlen : (setBits b (rotateVictims b x r)).length < b.width + 1 := by
    have := List.length_filter_le (fun i => (rotateVictims b x r).testBit i)
      (List.range b.width)
    rw [List.length_range] at this
    exact Nat.lt_succ_of_le this
  refine ⟨?_, fun offline s => stealVictims_list b r offline _ _ hhigh hlen s⟩
  have hgf : ∀ v, v < b.width → ((v + r) % b.width + (b.width - r)) % b.width = v := by
    intro v hv2
    by_cases h1 : v + r < b.width
    · rw [Nat.mod_eq_of_lt h1]
      have : v + r + (b.width - r) = v + b.width := by omega
      rw [this, Nat.add_mod_right, Nat.mod_eq_of_lt hv2]
    · have : (v + r) % b.width = v + r - b.width := by
        have : v + r = v + r - b.width + b.width := by omega
        conv => lhs; rw [this]
        rw [Nat.add_mod_right, Nat.mod_eq_of_lt (by omega)]
      rw [this, show v + r - b.width + (b.width - r) = v by omega, Nat.mod_eq_of_lt hv2]
  have hmemS : ∀ p, p ∈ setBits b (rotateVictims b x r)
      ↔ p < b.width ∧ x.testBit ((p + (b.width - r)) % b.width) = true := by
    intro p
    simp only [setBits, List.mem_filter, List.mem_range, hbit]
    constructor
    · rintro ⟨h1, h2⟩
      simp [h1] at h2
      exact ⟨h1, h2⟩
    · rintro ⟨h1, h2⟩
      exact ⟨h1, by simp [h1, h2]⟩
  rw [victimOrder_eq b r (b.width + 1) _ hhigh hlen]
  intro v
  simp only [List.mem_map]
  constructor
  · rintro ⟨p, hp, rfl⟩
    obtain ⟨h1, h2⟩ := (hmemS p).mp hp
    exact ⟨Nat.mod_lt _ hW, h2⟩
  · rintro ⟨h1, h2⟩
    refine ⟨(v + r) % b.width, (hmemS _).mpr ⟨Nat.mod_lt _ hW, ?_⟩, hgf v h1⟩
    rw [hgf v h1]
    exact h2
/-! ## What the main thread steals -/

theorem steal_succ (b : Build) (q fuel : Nat) (s : Scheduler) :
    loom_steal_a_task b q (fuel + 1) s
      = if s.work &&& notOneShl b q = 0 then some (s, none)
        else
          match stealVictims b (loom_prng_grab_u32 s.prng % b.width)
              ((2 ^ b.width - 1) ^^^ (s.online % 2 ^ b.width)) (b.width + 1)
              { s with prng := loom_prng_grab_u32 s.prng }
              (rotateVictims b (s.work &&& notOneShl b q)
                (loom_prng_grab_u32 s.prng % b.width)) with
          | none => none
          | some (s2, some task) => some (s2, some task)
          | some (s2, none) => loom_steal_a_task b q fuel s2 := rfl

/-- The victims of the main thread are the advertised deques. -/
theorem victims_testBit (b : Build) (s : Scheduler) (hW : 0 < b.width) (v : Nat) :
    (v < b.width ∧ (s.work &&& notOneShl b 0).testBit v = true) ↔ Advertised b s v := by
  rw [Nat.testBit_and, testBit_mask_zero b hW]
  simp only [Advertised, Bool.and_eq_true, decide_eq_true_eq]
  constructor
  · rintro ⟨h1, h2, h3, _⟩
    exact ⟨h3, h1, h2⟩
  · rintro ⟨h1, h2, h3⟩
    exact ⟨h2, h3, h1, h2⟩

theorem victims_lt (b : Build) (s : Scheduler) : s.work &&& notOneShl b 0 < 2 ^ b.width :=
  lt_of_le_of_lt Nat.and_le_right (mask_zero_lt b)

theorem victims_ne_zero (b : Build) (s : Scheduler) (hW : 0 < b.width) (v : Nat)
    (h : Advertised b s v) : s.work &&& notOneShl b 0 ≠ 0 := by
  intro hc
  have := ((victims_testBit b s hW v).mpr h).2
  rw [hc, Nat.zero_testBit] at this
  exact absurd this (by simp)

/-- When some advertised deque holds a task, the steal of the main thread
returns the oldest task of an advertised deque and changes nothing but that
deque, the generator and `work`. -/
theorem steal_finds (b : Build) (s : Scheduler) (fuel : Nat) (hW : 0 < b.width)
    (hdiv : 2 ^ b.width % b.width = 0)
    (hall : ∀ v, Advertised b s v → ∃ wq L, s.queues[v]? = some (some wq)
      ∧ Holds wq.size wq L ∧ wq.bottom < U32)
    (hex : ∃ v wq, Advertised b s v ∧ s.queues[v]? = some (some wq) ∧ wq.top ≠ wq.bottom) :
    ∃ v wq y L w, Advertised b s v ∧ s.queues[v]? = some (some wq)
      ∧ Holds wq.size wq (y :: L)
      ∧ loom_steal_a_task b 0 (fuel + 1) s
          = some (({ s with prng := loom_prng_grab_u32 s.prng, work := w } : Scheduler).setQueue
              v { wq with top := wq.top + 1 }, some y) := by
  obtain ⟨v0, wq0, ha0, hq0, hne0⟩ := hex
  have hvne := victims_ne_zero b s hW v0 ha0
  have hr : loom_prng_grab_u32 s.prng % b.width < b.width := Nat.mod_lt _ hW
  obtain ⟨hmem, hlist⟩ := victimOrder_mem b (s.work &&& notOneShl b 0)
    (loom_prng_grab_u32 s.prng % b.width) hW hdiv (victims_lt b s) hr
  have hadv : ∀ v, v ∈ victimOrder b (loom_prng_grab_u32 s.prng % b.width) (b.width + 1)
      (rotateVictims b (s.work &&& notOneShl b 0) (loom_prng_grab_u32 s.prng % b.width))
      ↔ Advertised b s v := fun v => (hmem v).trans (victims_testBit b s hW v)
  obtain ⟨v, wq, y, L, w, a1, a2, a3, a4⟩ := stealList_finds
    ((2 ^ b.width - 1) ^^^ (s.online % 2 ^ b.width))
    (victimOrder b (loom_prng_grab_u32 s.prng % b.width) (b.width + 1)
      (rotateVictims b (s.work &&& notOneShl b 0) (loom_prng_grab_u32 s.prng % b.width)))
    { s with prng := loom_prng_grab_u32 s.prng }
    (fun v hv => hall v ((hadv v).mp hv))
    ⟨v0, wq0, (hadv v0).mpr ha0, hq0, hne0⟩
  refine ⟨v, wq, y, L, w, (hadv v).mp a1, a2, a3, ?_⟩
  rw [steal_succ, if_neg hvne, hlist, a4]

/-- What a pass over empty advertised deques leaves in `work`. -/
theorem steal_pass_empty (b : Build) (s : Scheduler) (hW : 0 < b.width)
    (hdiv : 2 ^ b.width % b.width = 0)
    (hall : ∀ v, Advertised b s v → ∃ wq, s.queues[v]? = some (some wq)
      ∧ wq.top = wq.bottom) :
    ∃ w, stealVictims b (loom_prng_grab_u32 s.prng % b.width)
          ((2 ^ b.width - 1) ^^^ (s.online % 2 ^ b.width)) (b.width + 1)
          { s with prng := loom_prng_grab_u32 s.prng }
          (rotateVictims b (s.work &&& notOneShl b 0) (loom_prng_grab_u32 s.prng % b.width))
        = some ({ s with prng := loom_prng_grab_u32 s.prng, work := w }, none)
      ∧ ∀ i, w.testBit i = (s.work.testBit i
          && !(decide (1 ≤ i ∧ i < b.width) && !s.online.testBit i)) := by
  have hr : loom_prng_grab_u32 s.prng % b.width < b.width := Nat.mod_lt _ hW
  obtain ⟨hmem, hlist⟩ := victimOrder_mem b (s.work &&& notOneShl b 0)
    (loom_prng_grab_u32 s.prng % b.width) hW hdiv (victims_lt b s) hr
  have hadv : ∀ v, v ∈ victimOrder b (loom_prng_grab_u32 s.prng % b.width) (b.width + 1)
      (rotateVictims b (s.work &&& notOneShl b 0) (loom_prng_grab_u32 s.prng % b.width))
      ↔ Advertised b s v := fun v => (hmem v).trans (victims_testBit b s hW v)
  refine ⟨(victimOrder b (loom_prng_grab_u32 s.prng % b.width) (b.width + 1)
      (rotateVictims b (s.work &&& notOneShl b 0) (loom_prng_grab_u32 s.prng % b.width))).foldl
      (resetDrained ((2 ^ b.width - 1) ^^^ (s.online % 2 ^ b.width))) s.work, ?_, ?_⟩
  · rw [hlist]
    exact stealList_all_empty _ _ { s with prng := loom_prng_grab_u32 s.prng }
      (fun v hv => hall v ((hadv v).mp hv))
  · intro i
    rw [testBit_foldl_reset]
    by_cases ha : Advertised b s i
    · have hi : i < b.width := ha.2.1
      have hi0 : (i == 0) = false := by
        have := ha.1
        simp
        omega
      rw [testBit_offline b.width s.online i hi, hi0]
      simp [(hadv i).mpr ha, ha.1, ha.2.1]
    · have hn : ¬ i ∈ victimOrder b (loom_prng_grab_u32 s.prng % b.width) (b.width + 1)
          (rotateVictims b (s.work &&& notOneShl b 0) (loom_prng_grab_u32 s.prng % b.width)) :=
        fun hc => ha ((hadv i).mp hc)
      by_cases hm : 1 ≤ i ∧ i < b.width
      · have : s.work.testBit i = false := by
          by_contra hc
          exact ha ⟨hm.1, hm.2, by simpa using hc⟩
        simp [this]
      · simp [hn, hm]

/-- When every advertised deque is empty and belongs to an offline worker, the
steal of the main thread clears the bits and returns none. -/
theorem steal_drains (b : Build) (s : Scheduler) (fuel : Nat) (hW : 0 < b.width)
    (hdiv : 2 ^ b.width % b.width = 0) (hne : s.work &&& notOneShl b 0 ≠ 0)
    (hall : ∀ v, Advertised b s v → ∃ wq, s.queues[v]? = some (some wq)
      ∧ wq.top = wq.bottom)
    (hoff : ∀ v, Advertised b s v → s.online.testBit v = false) :
    ∃ w, w &&& notOneShl b 0 = 0
      ∧ loom_steal_a_task b 0 (fuel + 2) s
          = some ({ s with prng := loom_prng_grab_u32 s.prng, work := w }, none) := by
  obtain ⟨w, hpass, hbits⟩ := steal_pass_empty b s hW hdiv hall
  have hz : w &&& notOneShl b 0 = 0 := by
    apply Nat.eq_of_testBit_eq
    intro i
    rw [Nat.testBit_and, Nat.zero_testBit, hbits, testBit_mask_zero b hW]
    by_cases ha : Advertised b s i
    · simp [ha.1, ha.2.1, hoff i ha]
    · by_cases hm : 1 ≤ i ∧ i < b.width
      · have : s.work.testBit i = false := by
          by_contra hc
          exact ha ⟨hm.1, hm.2, by simpa using hc⟩
        simp [this]
      · simp [hm]
  refine ⟨w, hz, ?_⟩
  rw [steal_succ, if_neg hne, hpass]
  exact steal_no_victims b 0 fuel _ hz

/-- When every advertised deque is empty and one of them belongs to a worker
that is online, the steal of the main thread never returns: the bit of that
deque is never reset. -/
theorem steal_spins (b : Build) (hW : 0 < b.width) (hdiv : 2 ^ b.width % b.width = 0) :
    ∀ (fuel : Nat) (s : Scheduler),
    (∀ v, Advertised b s v → ∃ wq, s.queues[v]? = some (some wq) ∧ wq.top = wq.bottom) →
    (∃ v, Advertised b s v ∧ s.online.testBit v = true) →
    loom_steal_a_task b 0 fuel s = none := by
  intro fuel
  induction fuel with
  | zero => intro s _ _; rfl
  | succ fuel ih =>
    intro s hall hon
    obtain ⟨v0, ha0, hon0⟩ := hon
    obtain ⟨w, hpass, hbits⟩ := steal_pass_empty b s hW hdiv hall
    rw [steal_succ, if_neg (victims_ne_zero b s hW v0 ha0), hpass]
    apply ih
    · intro v hv
      have hv1 : Advertised b s v := by
        refine ⟨hv.1, hv.2.1, ?_⟩
        have := hv.2.2
        simp only [] at this
        rw [hbits] at this
        simp only [Bool.and_eq_true] at this
        exact this.1
      exact hall v hv1
    · refine ⟨v0, ⟨ha0.1, ha0.2.1, ?_⟩, hon0⟩
      show w.testBit v0 = true
      rw [hbits, ha0.2.2, hon0]
      simp
/-- Grabbing from an empty deque returns none and changes nothing. -/
theorem grab_empty (s : Scheduler) (wq : WorkQueue) (hq : s.queues[0]? = some (some wq))
    (he : wq.top = wq.bottom) : loom_grab_a_task 0 s = some (s, none) := by
  simp [loom_grab_a_task, grabLoop, hq, loom_work_queue_is_empty, he]

/-- C25 (result of `loom_do_some_work`), amended: in a state without
concurrent activity in which the main deque holds the tasks `L0` without
counter wrap, on a build with a bitmap of 32 or 64 bits:
called with `q != 0` the function fails its assertion;
when the main deque is not empty it runs exactly the task pushed last and
returns true (as soon as `loom_schedule_a_task` returns);
when the main deque is empty and no other deque is advertised in `work` it
runs nothing, changes nothing and returns false;
when the main deque is empty, every advertised deque exists and is free of
counter wrap, and one of them holds a task, it steals the oldest task of an
advertised deque, runs exactly that task and returns true;
when the main deque is empty and every advertised deque is empty and belongs
to a worker that is offline, it clears their bits of `work`, runs nothing and
returns false;
and when the main deque is empty, every advertised deque is empty and one of
them belongs to a worker that is online, it does not return. -/
theorem C25_do_some_work_result (b : Build) (s : Scheduler) (fuel : Nat) (wq0 : WorkQueue)
    (L0 : List Nat) (hW : b.width = 32 ∨ b.width = 64)
    (hq0 : s.queues[0]? = some (some wq0)) (hh0 : Holds wq0.size wq0 L0)
    (hb0 : wq0.bottom < U32) :
    (∀ q, q ≠ 0 → loom_do_some_work b q fuel s = none)
      ∧ (∀ L x, L0 = L ++ [x] → ∃ wq1, Holds wq0.size wq1 L
          ∧ loom_do_some_work b 0 fuel s
              = (loom_schedule_a_task b 0 (s.setQueue 0 wq1) x).map (fun s2 => (s2, true)))
      ∧ (L0 = [] → s.work &&& notOneShl b 0 = 0 →
          loom_do_some_work b 0 (fuel + 1) s = some (s, false))
      ∧ (L0 = [] →
          (∀ v, Advertised b s v → ∃ wq L, s.queues[v]? = some (some wq)
            ∧ Holds wq.size wq L ∧ wq.bottom < U32) →
          (∃ v wq, Advertised b s v ∧ s.queues[v]? = some (some wq) ∧ wq.top ≠ wq.bottom) →
          ∃ v wq y L s1, Advertised b s v ∧ s.queues[v]? = some (some wq)
            ∧ Holds wq.size wq (y :: L)
            ∧ s1.queues = s.queues.set v (some { wq with top := wq.top + 1 })
            ∧ s1.tasks = s.tasks ∧ s1.permits = s.permits ∧ s1.log = s.log
            ∧ s1.barriers = s.barriers
            ∧ loom_do_some_work b 0 (fuel + 1) s
                = (loom_schedule_a_task b 0 s1 y).map (fun s2 => (s2, true)))
      ∧ (L0 = [] → s.work &&& notOneShl b 0 ≠ 0 →
          (∀ v, Advertised b s v → ∃ wq, s.queues[v]? = some (some wq)
            ∧ wq.top = wq.bottom) →
          (∀ v, Advertised b s v → s.online.testBit v = false) →
          ∃ w, w &&& notOneShl b 0 = 0
            ∧ loom_do_some_work b 0 (fuel + 2) s
                = some ({ s with prng := loom_prng_grab_u32 s.prng, work := w }, false))
      ∧ (L0 = [] →
          (∀ v, Advertised b s v → ∃ wq, s.queues[v]? = some (some wq)
            ∧ wq.top = wq.bottom) →
          (∃ v, Advertised b s v ∧ s.online.testBit v = true) →
          ∀ fuel1, loom_do_some_work b 0 fuel1 s = none) := by
  have hpos : 0 < b.width := by omega
  have hdiv : 2 ^ b.width % b.width = 0 := by
    rcases hW with h | h <;> rw [h] <;> decide
  have hempty : L0 = [] → loom_grab_a_task 0 s = some (s, none) := by
    intro hL
    apply grab_empty s wq0 hq0
    have := hh0.2.2.1
    rw [hL] at this
    simpa using this.symm
  refine ⟨?_, ?_, ?_, ?_, ?_, ?_⟩
  · intro q hq
    simp [loom_do_some_work, hq]
  · intro L x hL
    subst hL
    obtain ⟨wq1, hgrab, hh1, _⟩ := grab_spec hq0 hh0 hb0
    refine ⟨wq1, hh1, ?_⟩
    simp only [loom_do_some_work, hgrab, if_true]
    cases loom_schedule_a_task b 0 (s.setQueue 0 wq1) x <;> rfl
  · intro hL hz
    simp only [loom_do_some_work, hempty hL, if_true, steal_no_victims b 0 fuel s hz]
  · intro hL hall hex
    obtain ⟨v, wq, y, L, w, a1, a2, a3, a4⟩ := steal_finds b s fuel hpos hdiv hall hex
    refine ⟨v, wq, y, L, ({ s with prng := loom_prng_grab_u32 s.prng, work := w }
      : Scheduler).setQueue v { wq with top := wq.top + 1 }, a1, a2, a3, rfl, rfl, rfl, rfl,
      rfl, ?_⟩
    simp only [loom_do_some_work, hempty hL, if_true, a4]
    cases loom_schedule_a_task b 0 (({ s with prng := loom_prng_grab_u32 s.prng, work := w }
      : Scheduler).setQueue v { wq with top := wq.top + 1 }) y <;> rfl
  · intro hL hne hall hoff
    obtain ⟨w, hz, hst⟩ := steal_drains b s fuel hpos hdiv hne hall hoff
    refine ⟨w, hz, ?_⟩
    simp only [loom_do_some_work, hempty hL, if_true, hst]
  · intro hL hall hon fuel1
    simp only [loom_do_some_work, hempty hL, if_true, steal_spins b hpos hdiv fuel1 s hall hon]

/-- C25 witness: the scheduler `oneKicked`, whose main deque holds task 0. -/
theorem C25_do_some_work_result_witness :
    (∀ q, q ≠ 0 → loom_do_some_work build64 q 1 oneKicked = none)
      ∧ (∀ L x, [0] = L ++ [x] → ∃ wq1,
          Holds kickedDeque.size wq1 L
          ∧ loom_do_some_work build64 0 1 oneKicked
              = (loom_schedule_a_task build64 0 (oneKicked.setQueue 0 wq1) x).map
                  (fun s2 => (s2, true)))
      ∧ ([0] = [] → oneKicked.work &&& notOneShl build64 0 = 0 →
          loom_do_some_work build64 0 (1 + 1) oneKicked = some (oneKicked, false))
      ∧ ([0] = [] →
          (∀ v, Advertised build64 oneKicked v → ∃ wq L, oneKicked.queues[v]? = some (some wq)
            ∧ Holds wq.size wq L ∧ wq.bottom < U32) →
          (∃ v wq, Advertised build64 oneKicked v ∧ oneKicked.queues[v]? = some (some wq)
            ∧ wq.top ≠ wq.bottom) →
          ∃ v wq y L s1, Advertised build64 oneKicked v
            ∧ oneKicked.queues[v]? = some (some wq)
            ∧ Holds wq.size wq (y :: L)
            ∧ s1.queues = oneKicked.queues.set v (some { wq with top := wq.top + 1 })
            ∧ s1.tasks = oneKicked.tasks ∧ s1.permits = oneKicked.permits
            ∧ s1.log = oneKicked.log
            ∧ s1.barriers = oneKicked.barriers
            ∧ loom_do_some_work build64 0 (1 + 1) oneKicked
                = (loom_schedule_a_task build64 0 s1 y).map (fun s2 => (s2, true)))
      ∧ ([0] = [] → oneKicked.work &&& notOneShl build64 0 ≠ 0 →
          (∀ v, Advertised build64 oneKicked v → ∃ wq, oneKicked.queues[v]? = some (some wq)
            ∧ wq.top = wq.bottom) →
          (∀ v, Advertised build64 oneKicked v → oneKicked.online.testBit v = false) →
          ∃ w, w &&& notOneShl build64 0 = 0
            ∧ loom_do_some_work build64 0 (1 + 2) oneKicked
                = some ({ oneKicked with prng := loom_prng_grab_u32 oneKicked.prng, work := w },
                    false))
      ∧ ([0] = [] →
          (∀ v, Advertised build64 oneKicked v → ∃ wq, oneKicked.queues[v]? = some (some wq)
            ∧ wq.top = wq.bottom) →
          (∃ v, Advertised build64 oneKicked v ∧ oneKicked.online.testBit v = true) →
          ∀ fuel1, loom_do_some_work build64 0 fuel1 oneKicked = none) :=
  C25_do_some_work_result build64 oneKicked 1 kickedDeque [0]
    (Or.inr rfl) (by decide)
    ⟨rfl, by decide, by decide, fun i hi => by
      obtain rfl : i = 0 := by simpa using hi
      decide⟩
    (by decide)
/-- C25 (result of `loom_do_some_work`), the claim as stated fails: in the
state `staleBit` nothing runs concurrently, the main deque is empty, the only
advertised deque, that of worker 1, is empty, and worker 1 is online; the
claim asks for the result false, but the loop of `loom_steal_a_task` finds the
bit set at every pass and `loom_do_some_work` returns for no amount of
fuel. -/
theorem C25_stale_bit_never_returns :
    staleBit.queues[0]? = some (some (loom_work_queue_create 8))
      ∧ staleBit.queues[1]? = some (some (loom_work_queue_create 8))
      ∧ staleBit.online = 3 ∧ staleBit.work = 2
      ∧ ∀ fuel, loom_do_some_work build64 0 fuel staleBit = none := by
  refine ⟨by decide, by decide, by decide, by decide, ?_⟩
  intro fuel
  have hone : ∀ v, Advertised build64 staleBit v → v = 1 := by
    intro v hv
    have h := hv.2.2
    have hw : staleBit.work = 2 ^ 1 := by decide
    rw [hw, Nat.testBit_two_pow] at h
    exact (of_decide_eq_true h).symm
  have hgrab : loom_grab_a_task 0 staleBit = some (staleBit, none) :=
    grab_empty staleBit (loom_work_queue_create 8) (by decide) (by decide)
  have hspin := steal_spins build64 (by decide) (by decide) fuel staleBit
    (fun v hv => by
      rw [hone v hv]
      exact ⟨loom_work_queue_create 8, by decide, by decide⟩)
    ⟨1, ⟨by decide, by decide, by decide⟩, by decide⟩
  simp only [loom_do_some_work, hgrab, if_true, hspin]

/-- An instance of the steal: task 0 lies on the deque of worker 1, which is
advertised; the main thread steals it and runs its kernel. -/
theorem steal_example :
    (loom_do_some_work build64 0 1 stealable).map (fun r => (r.2, kernelsRun r.1.log))
      = some (true, [0]) := by
  decide

/-- An instance of the drain: the deque of worker 1 is advertised and empty
and the worker is offline; the main thread clears the bit and returns
false. -/
theorem drain_example :
    (loom_do_some_work build64 0 2 { oneWorker with work := 2 }).map
        (fun r => (r.2, r.1.work, kernelsRun r.1.log))
      = some (false, 0, []) := by
  decide

/-! ## The core of a scheduler -/

theorem core_tasks_get (s : Scheduler) (t : Nat) :
    s.core.tasks.tasks[t]? = (s.tasks.tasks[t]?).map Task.core := by
  simp [Scheduler.core]

theorem core_setTask (s : Scheduler) (t : Nat) (T : Task) :
    (s.setTask t T).core = s.core.setTask t T.core := by
  simp [Scheduler.core, Scheduler.setTask, List.map_set]

theorem core_emit (s : Scheduler) (e : Event) : (s.emit e).core = s.core.emit e := rfl

theorem core_setQueue (s : Scheduler) (q : Nat) (wq : WorkQueue) :
    (s.setQueue q wq).core = s.core.setQueue q wq := rfl

theorem core_signal (s : Scheduler) (q : Nat) :
    (loom_signal_availability_of_work q s).core
      = loom_signal_availability_of_work q s.core := rfl

theorem core_return_task (s : Scheduler) (t : Nat) :
    (loom_return_a_task s t).core = loom_return_a_task s.core t := rfl

/-- A submission does not look at the permits. -/
theorem submit_core (q : Nat) (s : Scheduler) (t : Nat) :
    (loom_submit_a_task q s t).map Scheduler.core = loom_submit_a_task q s.core t := by
  simp only [loom_submit_a_task, core_tasks_get]
  cases ht : s.tasks.tasks[t]? with
  | none => rfl
  | some T =>
    simp only [Option.map_some']
    have hb : T.core.blockers = T.blockers := rfl
    rw [hb]
    have hset : ∀ v, (s.setTask t { T with blockers := v }).core
        = s.core.setTask t { T.core with blockers := v } := fun v => core_setTask s t _
    by_cases hz : (loom_atomic_cmp_and_xchg_u32 T.blockers 0 4294967295).2 ≠ 0
    · rw [if_pos hz, if_pos hz, Option.map_some', hset]
    · rw [if_neg hz, if_neg hz, ← hset]
      generalize s.setTask t { T with
        blockers := (loom_atomic_cmp_and_xchg_u32 T.blockers 0 4294967295).1 } = s1
      have hq : s1.core.queues = s1.queues := rfl
      rw [hq]
      cases hqq : s1.queues[q]? with
      | none => rfl
      | some owq =>
        cases owq with
        | none => rfl
        | some wq =>
          simp only []
          cases hp : loom_work_queue_push wq (some t) with
          | none => rfl
          | some r =>
            obtain ⟨wq1, work⟩ := r
            simp only []
            have hX : ((s1.core.setQueue q wq1).emit (Event.push q t))
                = ((s1.setQueue q wq1).emit (Event.push q t)).core := rfl
            rw [hX]
            generalize (s1.setQueue q wq1).emit (Event.push q t) = X
            have hf : X.core.always_steal_from_main_thread
                = X.always_steal_from_main_thread := rfl
            rw [hf]
            by_cases h1 : work > 1
            · rw [if_pos h1, if_pos h1]
              rfl
            · rw [if_neg h1, if_neg h1]
              by_cases h2 : q = 0
              · rw [if_pos h2, if_pos h2]
                by_cases h3 : X.always_steal_from_main_thread = true
                · rw [if_pos h3, if_pos h3]
                  rfl
                · rw [if_neg h3, if_neg h3]
                  rfl
              · rw [if_neg h2, if_neg h2]
                rfl

/-- The resolution of the permits as the specification has it does not look at
the permits. -/
theorem unblockTargets_core (q : Nat) : ∀ (us : List Nat) (s : Scheduler),
    (unblockTargets q s us).map Scheduler.core = unblockTargets q s.core us := by
  intro us
  induction us with
  | nil => intro s; rfl
  | cons u us ih =>
    intro s
    simp only [unblockTargets, core_tasks_get]
    cases ht : s.tasks.tasks[u]? with
    | none => rfl
    | some T =>
      simp only [Option.map_some']
      have hb : T.core.blockers = T.blockers := rfl
      rw [hb]
      have hs1 : ((s.setTask u { T with blockers := loom_atomic_decr_u32 T.blockers }).emit
            (Event.unblock u (loom_atomic_decr_u32 T.blockers))).core
          = (s.core.setTask u { T.core with blockers := loom_atomic_decr_u32 T.blockers }).emit
            (Event.unblock u (loom_atomic_decr_u32 T.blockers)) := by
        rw [core_emit, core_setTask]
        rfl
      by_cases hz : loom_atomic_decr_u32 T.blockers = 0
      · rw [if_pos hz, if_pos hz, ← hs1, ← submit_core]
        cases loom_submit_a_task q ((s.setTask u
            { T with blockers := loom_atomic_decr_u32 T.blockers }).emit
            (Event.unblock u (loom_atomic_decr_u32 T.blockers))) u with
        | none => rfl
        | some s2 => exact ih s2
      · rw [if_neg hz, if_neg hz, ← hs1]
        exact ih _

/-! ## Reading permits -/

theorem readPermit_setTask (s : Scheduler) (t : Nat) (T T1 : Task)
    (hT : s.tasks.tasks[t]? = some T) (hp : T1.permits = T.permits) (r : PermitRef) :
    (s.setTask t T1).readPermit r = s.readPermit r := by
  have hlt : t < s.tasks.tasks.length := by
    by_contra hc
    rw [List.getElem?_eq_none (by omega)] at hT
    exact absurd hT (by simp)
  cases r with
  | pooled index => rfl
  | embedded task slot =>
    simp only [Scheduler.readPermit, Scheduler.setTask]
    by_cases h : task = t
    · subst h
      rw [List.getElem?_set_eq_of_lt _ hlt, hT]
      simp only [hp]
    · rw [List.getElem?_set_ne (fun hc => h hc.symm)]

/-- A submission leaves the permits where they are. -/
theorem submit_readPermit (q : Nat) (s s1 : Scheduler) (t : Nat)
    (h : loom_submit_a_task q s t = some s1) (r : PermitRef) :
    s1.readPermit r = s.readPermit r := by
  simp only [loom_submit_a_task] at h
  split at h
  · exact absurd h (by simp)
  · rename_i T hT
    have hset := readPermit_setTask s t T
      { T with blockers := (loom_atomic_cmp_and_xchg_u32 T.blockers 0 4294967295).1 } hT rfl r
    split at h
    · rw [← Option.some.inj h]
      exact hset
    · split at h
      · split at h
        · exact absurd h (by simp)
        · split at h
          · rw [← Option.some.inj h]
            exact hset
          · split at h
            · split at h
              · rw [← Option.some.inj h]
                exact hset
              · rw [← Option.some.inj h]
                exact hset
            · rw [← Option.some.inj h]
              exact hset
      · exact absurd h (by simp)

/-- The completion of the witness of C29 returns on both builds, and the log
holds the decrements of tasks 1 to 4 in wiring order, each followed by the
push of the task. -/
theorem wide_example :
    ((wire build64 0 fiveTasks [1, 2, 3, 4]).bind
        (fun w => loom_schedule_a_task build64 0 w 0)).map Scheduler.log
      = some [Event.prologue 0, Event.kernel 0, Event.epilogue 0,
          Event.unblock 1 0, Event.push 0 1, Event.unblock 2 0, Event.push 0 2,
          Event.unblock 3 0, Event.push 0 3, Event.unblock 4 0, Event.push 0 4]
    ∧ ((wire buildWide 0 fiveTasksWide [1, 2, 3, 4]).bind
        (fun w => loom_schedule_a_task buildWide 0 w 0)).map Scheduler.log
      = some [Event.prologue 0, Event.kernel 0, Event.epilogue 0,
          Event.unblock 1 0, Event.push 0 1, Event.unblock 2 0, Event.push 0 2,
          Event.unblock 3 0, Event.push 0 3, Event.unblock 4 0, Event.push 0 4] := by
  decide


/-! ## The xorshift step -/

theorem u32_eq : U32 = 2 ^ 32 := by decide

theorem bxor_cancel (a b c : Bool) (h : xor a c = xor b c) : a = b := by
  cases a <;> cases b <;> cases c <;> simp_all

/-- The step `x ^= x << k` on 32 bits is injective. -/
theorem xorshl_inj (k : Nat) (hk : 0 < k) (x y : Nat) (hx : x < 2 ^ 32) (hy : y < 2 ^ 32)
    (h : x ^^^ ((x <<< k) % 2 ^ 32) = y ^^^ ((y <<< k) % 2 ^ 32)) : x = y := by
  apply Nat.eq_of_testBit_eq
  intro i
  induction i using Nat.strong_induction_on with
  | _ i ih =>
    by_cases hi : i < 32
    · have e := congrArg (fun z => z.testBit i) h
      simp only [Nat.testBit_xor, Nat.testBit_mod_two_pow, Nat.testBit_shiftLeft, hi,
        decide_True, Bool.true_and] at e
      by_cases hik : k ≤ i
      · have := ih (i - k) (by omega)
        rw [this] at e
        simp only [ge_iff_le, hik, decide_True, Bool.true_and] at e
        exact bxor_cancel _ _ _ e
      · simpa [hik] using e
    · rw [Nat.testBit_lt_two_pow (lt_of_lt_of_le hx (Nat.pow_le_pow_right (by decide) (by omega))),
        Nat.testBit_lt_two_pow (lt_of_lt_of_le hy (Nat.pow_le_pow_right (by decide) (by omega)))]

/-- The step `x ^= x >> k` on 32 bits is injective. -/
theorem xorshr_inj (k : Nat) (hk : 0 < k) (x y : Nat) (hx : x < 2 ^ 32) (hy : y < 2 ^ 32)
    (h : x ^^^ (x >>> k) = y ^^^ (y >>> k)) : x = y := by
  have key : ∀ d i, 32 ≤ i + d → x.testBit i = y.testBit i := by
    intro d
    induction d with
    | zero =>
      intro i hi
      rw [Nat.testBit_lt_two_pow (lt_of_lt_of_le hx (Nat.pow_le_pow_right (by decide) (by omega))),
        Nat.testBit_lt_two_pow (lt_of_lt_of_le hy (Nat.pow_le_pow_right (by decide) (by omega)))]
    | succ d ih =>
      intro i hi
      have e := congrArg (fun z => z.testBit i) h
      simp only [Nat.testBit_xor, Nat.testBit_shiftRight] at e
      have := ih (k + i) (by omega)
      rw [this] at e
      exact bxor_cancel _ _ _ e
  exact Nat.eq_of_testBit_eq (fun i => key 32 i (by omega))

theorem xorshl_lt (k x : Nat) (hx : x < 2 ^ 32) : x ^^^ ((x <<< k) % 2 ^ 32) < 2 ^ 32 :=
  Nat.xor_lt_two_pow hx (Nat.mod_lt _ (by decide))

theorem xorshr_lt (k x : Nat) (hx : x < 2 ^ 32) : x ^^^ (x >>> k) < 2 ^ 32 :=
  Nat.xor_lt_two_pow hx (lt_of_le_of_lt (by rw [Nat.shiftRight_eq_div_pow]; exact Nat.div_le_self _ _) hx)

theorem prng_lt (x : Nat) (hx : x < U32) : loom_prng_grab_u32 x < U32 := by
  rw [u32_eq] at hx ⊢
  simp only [loom_prng_grab_u32, u32_eq]
  exact xorshl_lt 5 _ (xorshr_lt 17 _ (xorshl_lt 13 x hx))

theorem prng_inj (x y : Nat) (hx : x < U32) (hy : y < U32)
    (h : loom_prng_grab_u32 x = loom_prng_grab_u32 y) : x = y := by
  rw [u32_eq] at hx hy
  simp only [loom_prng_grab_u32, u32_eq] at h
  have h1 := xorshl_inj 5 (by decide) _ _ (xorshr_lt 17 _ (xorshl_lt 13 x hx))
    (xorshr_lt 17 _ (xorshl_lt 13 y hy)) h
  have h2 := xorshr_inj 17 (by decide) _ _ (xorshl_lt 13 x hx) (xorshl_lt 13 y hy) h1
  exact xorshl_inj 13 (by decide) x y hx hy h2

theorem prng_zero : loom_prng_grab_u32 0 = 0 := by decide

theorem prng_ne_zero (x : Nat) (hx : x < U32) (h0 : x ≠ 0) : loom_prng_grab_u32 x ≠ 0 := by
  intro h
  exact h0 (prng_inj x 0 hx (by decide) (h.trans prng_zero.symm))

/-- C40 (the xorshift step is a bijection that fixes zero): on the 32-bit
states the update of `loom_prng_grab_u32` is injective and onto, and maps 0
to 0; a generator with a non-zero state never returns 0, whatever the number
of calls, and a generator with state 0 returns 0 at every call, so that the
rotation `r = x % w` of the steal is 0 on every build. -/
theorem C40_xorshift_bijection_fixes_zero :
    (∀ x y, x < U32 → y < U32 → loom_prng_grab_u32 x = loom_prng_grab_u32 y → x = y)
      ∧ (∀ x, x < U32 → loom_prng_grab_u32 x < U32)
      ∧ (∀ y, y < U32 → ∃ x, x < U32 ∧ loom_prng_grab_u32 x = y)
      ∧ loom_prng_grab_u32 0 = 0
      ∧ (∀ n x v, x < U32 → x ≠ 0 → v ∈ prngCalls n x → v ≠ 0)
      ∧ (∀ n v (b : Build), v ∈ prngCalls n 0 → v = 0 ∧ v % b.width = 0) := by
  refine ⟨prng_inj, prng_lt, ?_, prng_zero, ?_, ?_⟩
  · intro y hy
    have hinj : Function.Injective
        (fun x : Fin U32 => (⟨loom_prng_grab_u32 x.1, prng_lt x.1 x.2⟩ : Fin U32)) := by
      intro x1 x2 h
      exact Fin.ext (prng_inj x1.1 x2.1 x1.2 x2.2 (congrArg Fin.val h))
    obtain ⟨x, hx⟩ := Finite.surjective_of_injective hinj ⟨y, hy⟩
    exact ⟨x.1, x.2, congrArg Fin.val hx⟩
  · intro n
    induction n with
    | zero => intro x v _ _ hv; simp [prngCalls] at hv
    | succ n ih =>
      intro x v hx h0 hv
      simp only [prngCalls, List.mem_cons] at hv
      rcases hv with hv | hv
      · rw [hv]; exact prng_ne_zero x hx h0
      · exact ih _ v (prng_lt x hx) (prng_ne_zero x hx h0) hv
  · intro n
    induction n with
    | zero => intro v b hv; simp [prngCalls] at hv
    | succ n ih =>
      intro v b hv
      simp only [prngCalls, List.mem_cons, prng_zero] at hv
      rcases hv with hv | hv
      · rw [hv]; exact ⟨rfl, Nat.zero_mod _⟩
      · exact ih v b hv


/-! ## The mask of the thief -/

theorem testBit_all_but (W q i : Nat) (hq : q < W) :
    (2 ^ W - 1 - 2 ^ q).testBit i = decide (i < W ∧ i ≠ q) := by
  obtain ⟨d, hd⟩ : ∃ d, W = q + 1 + d := ⟨W - q - 1, by omega⟩
  have hP := Nat.two_pow_pos q
  have hR := Nat.two_pow_pos d
  have e : 2 ^ W - 1 - 2 ^ q = 2 ^ (q + 1) * (2 ^ d - 1) + (2 ^ q - 1) := by
    rw [hd, Nat.pow_add, Nat.pow_succ, Nat.mul_sub, Nat.mul_one]
    have h1 : 2 ^ q * 2 ≤ 2 ^ q * 2 * 2 ^ d := Nat.le_mul_of_pos_right _ hR
    omega
  rw [e, Nat.testBit_mul_pow_two_add _ (by rw [Nat.pow_succ]; omega)]
  by_cases h : i < q + 1
  · rw [if_pos h, Nat.testBit_two_pow_sub_one]
    apply decide_eq_decide.mpr
    omega
  · rw [if_neg h, Nat.testBit_two_pow_sub_one]
    apply decide_eq_decide.mpr
    omega

/-- For a thief slot below 31 the mask has every bit of the bitmap but the
bit of the thief. -/
theorem testBit_mask (b : Build) (q i : Nat) (hq : q < 31) (hW : q < b.width) :
    (notOneShl b q).testBit i = decide (i < b.width ∧ i ≠ q) := by
  have hm : q % 32 = q := Nat.mod_eq_of_lt (by omega)
  simp only [notOneShl, hm]
  rw [if_pos hq]
  exact testBit_all_but b.width q i hW

/-- C31 (self-exclusion of the thief), where the claim fails: for a thief slot
`q` below 31 the victims are `work` with bit `q` cleared and every other bit
of the bitmap unchanged, on both widths, and so they are for slot 31 of the
32-bit build. On the 64-bit build the complement `~(1 << q)` is computed on a
32-bit `int`: for `q = 31` its conversion to 64 bits is `0x7fffffff`, so the
bits 31 to 63 of `work` are all cleared: with deque 40 advertised
(`work = 2^40`) thief 31 finds no victim and `loom_steal_a_task` returns
none at once. -/
theorem C31_slot_31_masks_upper_half :
    (∀ (b : Build) (q work i : Nat), q < 31 → q < b.width →
        (work &&& notOneShl b q).testBit i
          = (work.testBit i && decide (i < b.width ∧ i ≠ q)))
      ∧ (∀ work i : Nat, (work &&& notOneShl build32 31).testBit i
          = (work.testBit i && decide (i < 32 ∧ i ≠ 31)))
      ∧ notOneShl build64 31 = 2147483647
      ∧ (2 ^ 40 : Nat).testBit 40 = true
      ∧ 2 ^ 40 &&& notOneShl build64 31 = 0
      ∧ (2 ^ 63 + 2 ^ 40 + 2 ^ 32 + 2 ^ 31) &&& notOneShl build64 31 = 0
      ∧ ∀ fuel, loom_steal_a_task build64 31 (fuel + 1) { oneWorker with work := 2 ^ 40 }
          = some ({ oneWorker with work := 2 ^ 40 }, none) := by
  refine ⟨?_, ?_, by decide, by decide, by decide, by decide, ?_⟩
  · intro b q work i hq hW
    rw [Nat.testBit_and, testBit_mask b q i hq hW]
  · intro work i
    have e : notOneShl build32 31 = 2 ^ 32 - 1 - 2 ^ 31 := by decide
    rw [Nat.testBit_and, e, testBit_all_but 32 31 i (by decide)]
  · intro fuel
    rw [steal_succ]
    rfl


/-! ## The number of workers for a negative request -/

/-- C34 (worker count never exceeds the limit), where the claim fails: when
the request `w` (`workers`, or `cores + workers` for a negative `workers`)
lies between 0 and `2^31`, the value returned is at most
`LOOM_WORKER_LIMIT - 1`; but a negative `cores + workers` is returned as it
is, converted to `loom_uint32_t`: with 4 cores and `workers == -5` the value
is `0xffffffff`, far above the limit of 63, and the assertion
`S->n + n <= LOOM_WORKER_LIMIT` of `loom_bring_up_workers` fails in
`loom_initialize`. -/
theorem C34_negative_request_exceeds_limit :
    (∀ (b : Build) (cores : Nat) (workers : Int) (w : Nat),
        (if workers < 0 then (cores : Int) + workers else workers) = (w : Int) →
        w < 2147483648 → 1 ≤ LOOM_WORKER_LIMIT b → LOOM_WORKER_LIMIT b < 2147483648 →
        choose_number_of_workers b cores workers ≤ LOOM_WORKER_LIMIT b - 1)
      ∧ LOOM_WORKER_LIMIT build64 = 63
      ∧ choose_number_of_workers build64 4 (-5) = 4294967295
      ∧ choose_number_of_workers build32 4 (-5) = 4294967295
      ∧ loom_initialize build64 4 { exampleOptions with workers := -5 } = none
      ∧ (loom_task_scheduler_create build64 16 8 8).n = 0
      ∧ loom_bring_up_workers build64 4294967295 (loom_task_scheduler_create build64 16 8 8)
          = none := by
  refine ⟨?_, by decide, by decide, by decide, by decide, by decide, by decide⟩
  · intro b cores workers w hw hlt h1 h2
    simp only [choose_number_of_workers]
    split_ifs at hw ⊢ <;> omega


/-! ## The state of a described task -/

/-- C38 (fresh task state): whenever the task pool hands out a slot `t`,
whatever the slot held before, `loom_describe(kernel, data, flags)` returns
the handle of `t` with the id that the acquisition stamped, the handle passes
`handle_to_task`, and the task has the work `CPU{kernel, data}`, the given
flags, `blocks = 0`, `blockers = 0`, no barrier and `LOOM_EMBEDDED_PERMITS`
embedded permits that are all zero; `loom_empty(flags)` gives the same handle
and the same task with the work kind `NONE`. -/
theorem C38_fresh_task_state (b : Build) (s : Scheduler) (kernel data flags t : Nat)
    (hacq : (loom_task_pool_acquire s.tasks).map (fun r => r.2) = some t) :
    ∃ s1 s2, loom_describe b kernel data flags s
          = some (s1, { index := t, id := loom_atomic_incr_u32 s.tasks.id })
      ∧ s1.task t
          = { id := loom_atomic_incr_u32 s.tasks.id, flags := flags
              work := Work.cpu kernel data
              permits := List.replicate b.embedded_permits Permit.zero
              blocks := 0, blockers := 0, barrier := none }
      ∧ handle_to_task s1 { index := t, id := loom_atomic_incr_u32 s.tasks.id } = some t
      ∧ loom_empty b flags s = some (s2, { index := t, id := loom_atomic_incr_u32 s.tasks.id })
      ∧ s2.task t
          = { id := loom_atomic_incr_u32 s.tasks.id, flags := flags
              work := Work.none
              permits := List.replicate b.embedded_permits Permit.zero
              blocks := 0, blockers := 0, barrier := none }
      ∧ handle_to_task s2 { index := t, id := loom_atomic_incr_u32 s.tasks.id } = some t
      ∧ (s1.task t).permits.length = b.embedded_permits
      ∧ ∀ p, p ∈ (s1.task t).permits → p.next = none ∧ p.task = none := by
  have key : ∀ work : Work, ∃ s1, describeWith b work flags s
        = some (s1, { index := t, id := loom_atomic_incr_u32 s.tasks.id })
      ∧ s1.task t
          = { id := loom_atomic_incr_u32 s.tasks.id, flags := flags, work := work
              permits := List.replicate b.embedded_permits Permit.zero
              blocks := 0, blockers := 0, barrier := none }
      ∧ handle_to_task s1 { index := t, id := loom_atomic_incr_u32 s.tasks.id } = some t := by
    intro work
    simp only [loom_task_pool_acquire] at hacq
    cases hpop : loom_free_list_pop s.tasks.freelist with
    | none => rw [hpop] at hacq; cases hacq
    | some r =>
      obtain ⟨fl, index⟩ := r
      rw [hpop] at hacq
      simp only [] at hacq
      cases hget : s.tasks.tasks[index]? with
      | none => rw [hget] at hacq; cases hacq
      | some T =>
        rw [hget] at hacq
        simp only [Option.map_some', Option.some.injEq] at hacq
        subst hacq
        have hlt : index < s.tasks.tasks.length := by
          by_contra hc
          rw [List.getElem?_eq_none (by omega)] at hget
          cases hget
        obtain ⟨s0, hs0, hget0, hlt0⟩ : ∃ s0, loom_acquire_a_task s = some (s0, index)
            ∧ s0.tasks.tasks[index]? = some { T with id := loom_atomic_incr_u32 s.tasks.id }
            ∧ index < s0.tasks.tasks.length :=
          ⟨{ s with tasks := { s.tasks with
                freelist := fl, id := loom_atomic_incr_u32 s.tasks.id
                tasks := s.tasks.tasks.set index
                  { T with id := loom_atomic_incr_u32 s.tasks.id } } },
            by simp only [loom_acquire_a_task, loom_task_pool_acquire, hpop, hget],
            List.getElem?_set_eq_of_lt _ hlt, by rw [List.length_set]; exact hlt⟩
        have hlt1 : ∀ T1 : Task, index < (s0.setTask index T1).tasks.tasks.length := by
          intro T1; rw [setTask_length]; exact hlt0
        refine ⟨s0.setTask index
          { id := loom_atomic_incr_u32 s.tasks.id, flags := flags, work := work
            permits := List.replicate b.embedded_permits Permit.zero
            blocks := 0, blockers := 0, barrier := none }, ?_, ?_, ?_⟩
        · simp only [describeWith, hs0, hget0, task_to_handle, task_get (hlt1 _),
            setTask_task s0 index index _ hlt0, if_true]
        · rw [setTask_task s0 index index _ hlt0, if_pos rfl]
        · simp only [handle_to_task, task_get (hlt1 _), setTask_task s0 index index _ hlt0,
            if_true]
  obtain ⟨s1, h1, h2, h3⟩ := key (Work.cpu kernel data)
  obtain ⟨s2, g1, g2, g3⟩ := key Work.none
  refine ⟨s1, s2, h1, h2, h3, g1, g2, g3, ?_, ?_⟩
  · rw [h2]
    exact List.length_replicate _ _
  · intro p hp
    rw [h2] at hp
    rw [List.eq_of_mem_replicate hp]
    exact ⟨rfl, rfl⟩

/-- C38 witness: slot 0 of `threeDone` is the head of the free list and still
holds the record of the completed task (three successors, the latch in
`blockers`); describing a task there gives a clean record. -/
theorem C38_fresh_task_state_witness :
    ((threeDone.task 0).blocks = 3 ∧ (threeDone.task 0).blockers = 4294967295)
      ∧ ∃ s1 s2, loom_describe build64 200 7 5 threeDone
          = some (s1, { index := 0, id := loom_atomic_incr_u32 threeDone.tasks.id })
      ∧ s1.task 0
          = { id := loom_atomic_incr_u32 threeDone.tasks.id, flags := 5
              work := Work.cpu 200 7
              permits := List.replicate build64.embedded_permits Permit.zero
              blocks := 0, blockers := 0, barrier := none }
      ∧ handle_to_task s1 { index := 0, id := loom_atomic_incr_u32 threeDone.tasks.id }
          = some 0
      ∧ loom_empty build64 5 threeDone
          = some (s2, { index := 0, id := loom_atomic_incr_u32 threeDone.tasks.id })
      ∧ s2.task 0
          = { id := loom_atomic_incr_u32 threeDone.tasks.id, flags := 5
              work := Work.none
              permits := List.replicate build64.embedded_permits Permit.zero
              blocks := 0, blockers := 0, barrier := none }
      ∧ handle_to_task s2 { index := 0, id := loom_atomic_incr_u32 threeDone.tasks.id }
          = some 0
      ∧ (s1.task 0).permits.length = build64.embedded_permits
      ∧ ∀ p, p ∈ (s1.task 0).permits → p.next = none ∧ p.task = none :=
  ⟨by decide, C38_fresh_task_state build64 threeDone 200 7 5 0 (by decide)⟩


/-! ## The clearing of stale bits -/

theorem clears_refl (b : Build) (s : Scheduler) : ClearsOnlyStale b s s :=
  ⟨rfl, fun _ h => h, fun i h1 h2 => (by rw [h1] at h2; cases h2), fun _ _ h _ => h⟩

theorem clears_trans {b : Build} {s s1 s2 : Scheduler} (h1 : ClearsOnlyStale b s s1)
    (h2 : ClearsOnlyStale b s1 s2) : ClearsOnlyStale b s s2 := by
  obtain ⟨a1, a2, a3, a4⟩ := h1
  obtain ⟨b1, b2, b3, b4⟩ := h2
  refine ⟨b1.trans a1, fun i h => a2 i (b2 i h), ?_, fun i wq hq he => b4 i wq (a4 i wq hq he) he⟩
  intro i hs hs2
  cases h : s1.work.testBit i with
  | false =>
    obtain ⟨c1, c2, wq, c3, c4⟩ := a3 i hs h
    exact ⟨c1, c2, wq, b4 i wq c3 c4, c4⟩
  | true =>
    obtain ⟨c1, c2, c3⟩ := b3 i h hs2
    rw [a1] at c2
    exact ⟨c1, c2, c3⟩

/-- A state that differs only in fields that the relation does not read. -/
theorem clears_of_eq (b : Build) (s s1 : Scheduler) (ho : s1.online = s.online)
    (hw : s1.work = s.work) (hq : s1.queues = s.queues) : ClearsOnlyStale b s s1 :=
  ⟨ho, fun i h => (by rw [← hw]; exact h), fun i h1 h2 => (by rw [hw, h1] at h2; cases h2),
    fun i wq h _ => (by rw [hq]; exact h)⟩

theorem steal_of_empty (wq : WorkQueue) (he : loom_work_queue_is_empty wq = true) :
    loom_work_queue_steal wq = (wq, none) := by
  have hb : wq.bottom = wq.top := by simpa [loom_work_queue_is_empty] using he
  simp [loom_work_queue_steal, hb]

theorem stealFrom_clears (b : Build) (s s1 : Scheduler) (v : Nat) (r : Option Nat)
    (h : stealFrom s v = some (s1, r)) :
    ClearsOnlyStale b s s1 ∧ s1.work = s.work := by
  simp only [stealFrom] at h
  split at h
  · rename_i wq hq
    have h1 := (Prod.mk.inj (Option.some.inj h)).1
    rw [← h1]
    refine ⟨⟨rfl, fun _ hh => hh, fun i h1 h2 => ?_, fun i wq1 hq1 he => ?_⟩, rfl⟩
    · have h3 : (s.setQueue v (loom_work_queue_steal wq).1).work = s.work := rfl
      rw [h3, h1] at h2
      cases h2
    · simp only [Scheduler.setQueue]
      by_cases hiv : v = i
      · subst hiv
        rw [hq] at hq1
        have e := Option.some.inj (Option.some.inj hq1)
        have hlt : v < s.queues.length := by
          by_contra hc
          rw [List.getElem?_eq_none (by omega)] at hq
          cases hq
        rw [List.getElem?_set_eq_of_lt _ hlt, e, steal_of_empty wq1 he]
      · rw [List.getElem?_set_ne hiv]
        exact hq1
  · cases h

theorem stealAttempts_clears (b : Build) (v : Nat) : ∀ (n : Nat) (s s1 : Scheduler)
    (r : Option Nat), stealAttempts v n s = some (s1, r) →
    ClearsOnlyStale b s s1 ∧ s1.work = s.work := by
  intro n
  induction n with
  | zero =>
    intro s s1 r h
    simp only [stealAttempts] at h
    rw [← (Prod.mk.inj (Option.some.inj h)).1]
    exact ⟨clears_refl b s, rfl⟩
  | succ n ih =>
    intro s s1 r h
    simp only [stealAttempts] at h
    split at h
    · cases h
    · rename_i s2 task hs
      rw [← (Prod.mk.inj (Option.some.inj h)).1]
      exact stealFrom_clears b s s2 v _ hs
    · rename_i s2 hs
      obtain ⟨c1, c2⟩ := stealFrom_clears b s s2 v _ hs
      obtain ⟨d1, d2⟩ := ih s2 s1 r h
      exact ⟨clears_trans c1 d1, d2.trans c2⟩

/-- The reset of the bit of a victim that is draining and whose deque is
empty. -/
theorem reset_clears (b : Build) (s : Scheduler) (v : Nat) (wq : WorkQueue) (hv : v < b.width)
    (hq : s.queues[v]? = some (some wq)) (he : loom_work_queue_is_empty wq = true)
    (hd : ((((2 ^ b.width - 1) ^^^ (s.online % 2 ^ b.width)) &&& (1 <<< v)) != 0
      || v == 0) = true) :
    ClearsOnlyStale b s { s with work := loom_atomic_reset_native s.work v } := by
  refine ⟨rfl, fun i h => ?_, fun i h1 h2 => ?_, fun _ _ h _ => h⟩
  · have e : ({ s with work := loom_atomic_reset_native s.work v } : Scheduler).work.testBit i
        = (s.work.testBit i && decide (i ≠ v)) := testBit_reset s.work v i
    rw [e] at h
    simp only [Bool.and_eq_true] at h
    exact h.1
  · have e : ({ s with work := loom_atomic_reset_native s.work v } : Scheduler).work.testBit i
        = (s.work.testBit i && decide (i ≠ v)) := testBit_reset s.work v i
    rw [e, h1] at h2
    have hiv : i = v := by simpa using h2
    subst hiv
    refine ⟨hv, ?_, wq, hq, he⟩
    rw [and_one_shiftLeft_ne_zero, testBit_offline _ _ _ hv] at hd
    simp only [Bool.or_eq_true, Bool.not_eq_true', beq_iff_eq] at hd
    exact hd

theorem stealVictims_clears (b : Build) (r : Nat) (hW : 0 < b.width) :
    ∀ (fuel : Nat) (s s2 : Scheduler) (victims : Nat) (res : Option Nat) (online : Nat),
      s.online = online →
      stealVictims b r ((2 ^ b.width - 1) ^^^ (online % 2 ^ b.width)) fuel s victims
        = some (s2, res) →
      ClearsOnlyStale b s s2 := by
  intro fuel
  induction fuel with
  | zero => intro s s2 victims res online _ h; simp [stealVictims] at h
  | succ fuel ih =>
    intro s s2 victims res online ho h
    rw [stealVictims_succ] at h
    split_ifs at h with hz
    · rw [← (Prod.mk.inj (Option.some.inj h)).1]
      exact clears_refl b s
    · simp only [] at h
      have hv : (loom_ctz_native b victims + (b.width - r)) % b.width < b.width :=
        Nat.mod_lt _ hW
      generalize (loom_ctz_native b victims + (b.width - r)) % b.width = v at h hv
      split at h
      · cases h
      · rename_i s1 task hs
        rw [← (Prod.mk.inj (Option.some.inj h)).1]
        exact (stealAttempts_clears b v 3 s s1 _ hs).1
      · rename_i s1 hs
        obtain ⟨c1, c2⟩ := stealAttempts_clears b v 3 s s1 _ hs
        have ho1 : s1.online = online := c1.1.trans ho
        split at h
        · rename_i wq hq
          by_cases hd : ((((2 ^ b.width - 1) ^^^ (online % 2 ^ b.width)) &&& (1 <<< v)) != 0
              || v == 0) = true
          · by_cases he : loom_work_queue_is_empty wq = true
            · simp only [hd, he, Bool.and_self, if_true] at h
              have c3 := reset_clears b s1 v wq hv hq he (by rw [ho1]; exact hd)
              exact clears_trans c1 (clears_trans c3 (ih _ s2 _ res online ho1 h))
            · simp only [he, Bool.and_false, Bool.false_eq_true, if_false] at h
              exact clears_trans c1 (ih _ s2 _ res online ho1 h)
          · simp only [hd, Bool.false_and, Bool.false_eq_true, if_false] at h
            exact clears_trans c1 (ih _ s2 _ res online ho1 h)
        · split_ifs at h
          exact clears_trans c1 (ih _ s2 _ res online ho1 h)

theorem steal_clears (b : Build) (q : Nat) (hW : 0 < b.width) :
    ∀ (fuel : Nat) (s s2 : Scheduler) (res : Option Nat),
      loom_steal_a_task b q fuel s = some (s2, res) → ClearsOnlyStale b s s2 := by
  intro fuel
  induction fuel with
  | zero => intro s s2 res h; simp [loom_steal_a_task] at h
  | succ fuel ih =>
    intro s s2 res h
    rw [steal_succ] at h
    split_ifs at h with hz
    · rw [← (Prod.mk.inj (Option.some.inj h)).1]
      exact clears_refl b s
    · have c0 : ClearsOnlyStale b s { s with prng := loom_prng_grab_u32 s.prng } :=
        clears_of_eq b s _ rfl rfl rfl
      split at h
      · cases h
      · rename_i s1 task hs
        rw [← (Prod.mk.inj (Option.some.inj h)).1]
        exact clears_trans c0 (stealVictims_clears b _ hW _ _ s1 _ _ s.online rfl hs)
      · rename_i s1 hs
        exact clears_trans c0 (clears_trans
          (stealVictims_clears b _ hW _ _ s1 _ _ s.online rfl hs) (ih s1 s2 res h))

/-- C32 (clearing of stale work bits): whenever `loom_steal_a_task`, called by
any thread `q` in any state, returns (with a task or with none), it has set no
bit of `work`, and every bit `v` of `work` that it has cleared is the bit of a
deque that is empty and whose owner is offline in `online` or is the main
thread (`v == 0`); so the bit of an online worker other than main and the bit
of a deque that is not empty are never cleared. `online` is not changed, and
the deques that were empty are as they were. -/
theorem C32_only_stale_bits_cleared (b : Build) (q fuel : Nat) (s s2 : Scheduler)
    (res : Option Nat) (hW : b.width = 32 ∨ b.width = 64)
    (h : loom_steal_a_task b q fuel s = some (s2, res)) :
    s2.online = s.online
      ∧ (∀ v, s2.work.testBit v = true → s.work.testBit v = true)
      ∧ (∀ v, s.work.testBit v = true → s2.work.testBit v = false →
          (s.online.testBit v = false ∨ v = 0)
            ∧ ∃ wq, s2.queues[v]? = some (some wq) ∧ loom_work_queue_is_empty wq = true)
      ∧ (∀ v, s.work.testBit v = true → v ≠ 0 → s.online.testBit v = true →
          s2.work.testBit v = true)
      ∧ (∀ v wq, s.work.testBit v = true → s2.queues[v]? = some (some wq) →
          loom_work_queue_is_empty wq = false → s2.work.testBit v = true) := by
  obtain ⟨c1, c2, c3, _⟩ := steal_clears b q (by rcases hW with h | h <;> omega) fuel s s2 res h
  refine ⟨c1, c2, fun v h1 h2 => (c3 v h1 h2).2, ?_, ?_⟩
  · intro v h1 h0 hon
    by_contra hc
    rcases (c3 v h1 (by simpa using hc)).2.1 with h3 | h3
    · rw [hon] at h3; cases h3
    · exact h0 h3
  · intro v wq h1 hq he
    by_contra hc
    obtain ⟨wq1, hq1, he1⟩ := (c3 v h1 (by simpa using hc)).2.2
    rw [hq] at hq1
    rw [Option.some.inj (Option.some.inj hq1), he1] at he
    cases he

/-- C32 witness: the main thread steals in `offlineStale`; bit 1 of `work` is
cleared, the deque of worker 1 is empty and worker 1 is offline. -/
theorem C32_only_stale_bits_cleared_witness :
    ({ offlineStale with work := 0 } : Scheduler).online = offlineStale.online
      ∧ (∀ v, ({ offlineStale with work := 0 } : Scheduler).work.testBit v = true →
          offlineStale.work.testBit v = true)
      ∧ (∀ v, offlineStale.work.testBit v = true →
          ({ offlineStale with work := 0 } : Scheduler).work.testBit v = false →
          (offlineStale.online.testBit v = false ∨ v = 0)
            ∧ ∃ wq, ({ offlineStale with work := 0 } : Scheduler).queues[v]? = some (some wq)
              ∧ loom_work_queue_is_empty wq = true)
      ∧ (∀ v, offlineStale.work.testBit v = true → v ≠ 0 →
          offlineStale.online.testBit v = true →
          ({ offlineStale with work := 0 } : Scheduler).work.testBit v = true)
      ∧ (∀ v wq, offlineStale.work.testBit v = true →
          ({ offlineStale with work := 0 } : Scheduler).queues[v]? = some (some wq) →
          loom_work_queue_is_empty wq = false →
          ({ offlineStale with work := 0 } : Scheduler).work.testBit v = true) :=
  C32_only_stale_bits_cleared build64 0 2 offlineStale { offlineStale with work := 0 } none
    (Or.inr rfl) (by decide)


/-! ## Termination of the steal for any thief -/

theorem mask_lt (b : Build) (q : Nat) (hW : b.width = 32 ∨ b.width = 64) :
    notOneShl b q < 2 ^ b.width := by
  have hp := Nat.two_pow_pos b.width
  simp only [notOneShl]
  split_ifs
  · exact lt_of_le_of_lt (Nat.sub_le _ _) (by omega)
  · rcases hW with h | h <;> rw [h] <;> decide

theorem victims_any_lt (b : Build) (q : Nat) (s : Scheduler)
    (hW : b.width = 32 ∨ b.width = 64) : s.work &&& notOneShl b q < 2 ^ b.width :=
  lt_of_le_of_lt Nat.and_le_right (mask_lt b q hW)

theorem victim_of_testBit (b : Build) (q : Nat) (s : Scheduler)
    (hW : b.width = 32 ∨ b.width = 64) (v : Nat)
    (h : (s.work &&& notOneShl b q).testBit v = true) : Victim b q s v := by
  refine ⟨?_, h⟩
  by_contra hc
  rw [Nat.testBit_lt_two_pow (lt_of_lt_of_le (victims_any_lt b q s hW)
    (Nat.pow_le_pow_right (by decide) (by omega)))] at h
  cases h

theorem victim_ne_zero (b : Build) (q : Nat) (s : Scheduler) (v : Nat)
    (h : Victim b q s v) : s.work &&& notOneShl b q ≠ 0 := by
  intro hc
  have := h.2
  rw [hc, Nat.zero_testBit] at this
  cases this

theorem width_ok (b : Build) (hW : b.width = 32 ∨ b.width = 64) :
    0 < b.width ∧ 2 ^ b.width % b.width = 0 := by
  rcases hW with h | h <;> rw [h] <;> decide

/-- The victims of a pass of thief `q` are the deques that `Victim` names. -/
theorem victims_any_mem (b : Build) (q : Nat) (s : Scheduler)
    (hW : b.width = 32 ∨ b.width = 64) :
    (∀ v, v ∈ victimOrder b (loom_prng_grab_u32 s.prng % b.width) (b.width + 1)
        (rotateVictims b (s.work &&& notOneShl b q) (loom_prng_grab_u32 s.prng % b.width))
        ↔ Victim b q s v)
      ∧ ∀ offline s1, stealVictims b (loom_prng_grab_u32 s.prng % b.width) offline
          (b.width + 1) s1
          (rotateVictims b (s.work &&& notOneShl b q) (loom_prng_grab_u32 s.prng % b.width))
        = stealList offline (victimOrder b (loom_prng_grab_u32 s.prng % b.width) (b.width + 1)
            (rotateVictims b (s.work &&& notOneShl b q)
              (loom_prng_grab_u32 s.prng % b.width))) s1 := by
  obtain ⟨hpos, hdiv⟩ := width_ok b hW
  exact victimOrder_mem b (s.work &&& notOneShl b q)
    (loom_prng_grab_u32 s.prng % b.width) hpos hdiv (victims_any_lt b q s hW)
    (Nat.mod_lt _ hpos)

/-- When some victim deque holds a task, the steal returns in its first pass
with the oldest task of a victim deque. -/
theorem steal_any_finds (b : Build) (q : Nat) (s : Scheduler) (fuel : Nat)
    (hW : b.width = 32 ∨ b.width = 64)
    (hall : ∀ v, Victim b q s v → ∃ wq L, s.queues[v]? = some (some wq)
      ∧ Holds wq.size wq L ∧ wq.bottom < U32)
    (hex : ∃ v wq, Victim b q s v ∧ s.queues[v]? = some (some wq) ∧ wq.top ≠ wq.bottom) :
    ∃ v wq y L w, Victim b q s v ∧ s.queues[v]? = some (some wq)
      ∧ Holds wq.size wq (y :: L)
      ∧ loom_steal_a_task b q (fuel + 1) s
          = some (({ s with prng := loom_prng_grab_u32 s.prng, work := w } : Scheduler).setQueue
              v { wq with top := wq.top + 1 }, some y) := by
  obtain ⟨v0, wq0, ha0, hq0, hne0⟩ := hex
  obtain ⟨hmem, hlist⟩ := victims_any_mem b q s hW
  obtain ⟨v, wq, y, L, w, a1, a2, a3, a4⟩ := stealList_finds
    ((2 ^ b.width - 1) ^^^ (s.online % 2 ^ b.width))
    (victimOrder b (loom_prng_grab_u32 s.prng % b.width) (b.width + 1)
      (rotateVictims b (s.work &&& notOneShl b q) (loom_prng_grab_u32 s.prng % b.width)))
    { s with prng := loom_prng_grab_u32 s.prng }
    (fun v hv => hall v ((hmem v).mp hv))
    ⟨v0, wq0, (hmem v0).mpr ha0, hq0, hne0⟩
  refine ⟨v, wq, y, L, w, (hmem v).mp a1, a2, a3, ?_⟩
  rw [steal_succ, if_neg (victim_ne_zero b q s v0 ha0), hlist, a4]

/-- What a pass of thief `q` over empty victim deques leaves in `work`: the
bits of the victims that are offline or the main thread are cleared. -/
theorem steal_any_pass_empty (b : Build) (q : Nat) (s : Scheduler)
    (hW : b.width = 32 ∨ b.width = 64)
    (hall : ∀ v, Victim b q s v → ∃ wq, s.queues[v]? = some (some wq)
      ∧ wq.top = wq.bottom) :
    ∃ w, stealVictims b (loom_prng_grab_u32 s.prng % b.width)
          ((2 ^ b.width - 1) ^^^ (s.online % 2 ^ b.width)) (b.width + 1)
          { s with prng := loom_prng_grab_u32 s.prng }
          (rotateVictims b (s.work &&& notOneShl b q) (loom_prng_grab_u32 s.prng % b.width))
        = some ({ s with prng := loom_prng_grab_u32 s.prng, work := w }, none)
      ∧ (∀ i, Victim b q s i → w.testBit i
          = (s.work.testBit i && !(!s.online.testBit i || i == 0)))
      ∧ ∀ i, ¬ Victim b q s i → w.testBit i = s.work.testBit i := by
  obtain ⟨hmem, hlist⟩ := victims_any_mem b q s hW
  refine ⟨(victimOrder b (loom_prng_grab_u32 s.prng % b.width) (b.width + 1)
      (rotateVictims b (s.work &&& notOneShl b q) (loom_prng_grab_u32 s.prng % b.width))).foldl
      (resetDrained ((2 ^ b.width - 1) ^^^ (s.online % 2 ^ b.width))) s.work, ?_, ?_, ?_⟩
  · rw [hlist]
    exact stealList_all_empty _ _ { s with prng := loom_prng_grab_u32 s.prng }
      (fun v hv => hall v ((hmem v).mp hv))
  · intro i ha
    rw [testBit_foldl_reset, testBit_offline b.width s.online i ha.1]
    simp [(hmem i).mpr ha]
  · intro i ha
    have hn : ¬ i ∈ victimOrder b (loom_prng_grab_u32 s.prng % b.width) (b.width + 1)
        (rotateVictims b (s.work &&& notOneShl b q) (loom_prng_grab_u32 s.prng % b.width)) :=
      fun hc => ha ((hmem i).mp hc)
    rw [testBit_foldl_reset]
    simp [hn]

/-- When every victim deque is empty and belongs to an offline worker or to
the main thread, the steal clears the bits in its first pass and returns none
in the second. -/
theorem steal_any_drains (b : Build) (q : Nat) (s : Scheduler) (fuel : Nat)
    (hW : b.width = 32 ∨ b.width = 64) (hne : s.work &&& notOneShl b q ≠ 0)
    (hall : ∀ v, Victim b q s v → ∃ wq, s.queues[v]? = some (some wq)
      ∧ wq.top = wq.bottom)
    (hoff : ∀ v, Victim b q s v → s.online.testBit v = false ∨ v = 0) :
    ∃ w, w &&& notOneShl b q = 0
      ∧ loom_steal_a_task b q (fuel + 2) s
          = some ({ s with prng := loom_prng_grab_u32 s.prng, work := w }, none) := by
  obtain ⟨w, hpass, hbits, hrest⟩ := steal_any_pass_empty b q s hW hall
  have hz : w &&& notOneShl b q = 0 := by
    apply Nat.eq_of_testBit_eq
    intro i
    rw [Nat.testBit_and, Nat.zero_testBit]
    by_cases ha : Victim b q s i
    · rw [hbits i ha]
      rcases hoff i ha with h | h
      · simp [h]
      · simp [h]
    · rw [hrest i ha]
      have : (s.work &&& notOneShl b q).testBit i = false := by
        by_contra hc
        exact ha (victim_of_testBit b q s hW i (by simpa using hc))
      rw [Nat.testBit_and] at this
      exact this
  refine ⟨w, hz, ?_⟩
  rw [steal_succ, if_neg hne, hpass]
  exact steal_no_victims b q fuel _ hz

/-- When every victim deque is empty and one of them belongs to an online
worker other than the main thread, the steal never returns. -/
theorem steal_any_spins (b : Build) (q : Nat) (hW : b.width = 32 ∨ b.width = 64) :
    ∀ (fuel : Nat) (s : Scheduler),
    (∀ v, Victim b q s v → ∃ wq, s.queues[v]? = some (some wq) ∧ wq.top = wq.bottom) →
    (∃ v, Victim b q s v ∧ s.online.testBit v = true ∧ v ≠ 0) →
    loom_steal_a_task b q fuel s = none := by
  intro fuel
  induction fuel with
  | zero => intro s _ _; rfl
  | succ fuel ih =>
    intro s hall hon
    obtain ⟨v0, ha0, hon0, hv0⟩ := hon
    obtain ⟨w, hpass, hbits, hrest⟩ := steal_any_pass_empty b q s hW hall
    rw [steal_succ, if_neg (victim_ne_zero b q s v0 ha0), hpass]
    have hsub : ∀ v, Victim b q { s with prng := loom_prng_grab_u32 s.prng, work := w } v →
        Victim b q s v := by
      intro v hv
      by_contra hc
      have h2 := hv.2
      simp only [] at h2
      rw [Nat.testBit_and, hrest v hc, ← Nat.testBit_and] at h2
      exact hc ⟨hv.1, h2⟩
    apply ih
    · intro v hv
      exact hall v (hsub v hv)
    · refine ⟨v0, ⟨ha0.1, ?_⟩, hon0, hv0⟩
      show (w &&& notOneShl b q).testBit v0 = true
      have h2 := ha0.2
      rw [Nat.testBit_and] at h2 ⊢
      rw [hbits v0 ha0, hon0]
      simpa [hv0] using h2


/-- C33 (the steal terminates), the claim as stated fails: in the state
`staleBit` nothing runs concurrently, worker 1 is online, its bit of `work`
is set and its deque is empty, as is the main deque; the steal of the main
thread finds the bit at every pass, cannot clear it because the worker is
online, and returns for no amount of fuel. -/
theorem C33_steal_spins_on_online_stale_bit :
    Victim build64 0 staleBit 1
      ∧ staleBit.online.testBit 1 = true
      ∧ (staleBit.queues[1]?).map (fun d => d.map loom_work_queue_is_empty) = some (some true)
      ∧ ∀ fuel, loom_steal_a_task build64 0 fuel staleBit = none := by
  have hv : Victim build64 0 staleBit 1 := ⟨by decide, by decide⟩
  refine ⟨hv, by decide, by decide, fun fuel => ?_⟩
  apply steal_any_spins build64 0 (Or.inr rfl) fuel staleBit
  · intro v hv1
    have hv2 : v = 1 := by
      have h2 := hv1.2
      have e : staleBit.work &&& notOneShl build64 0 = 2 := by decide
      rw [e] at h2
      by_contra hc
      have : (2 : Nat).testBit v = false := by
        rw [show (2 : Nat) = 2 ^ 1 from rfl, Nat.testBit_two_pow]
        simpa using fun h => hc h.symm
      rw [this] at h2
      cases h2
    subst hv2
    exact ⟨loom_work_queue_create 8, by decide, by decide⟩
  · exact ⟨1, hv, by decide, by decide⟩

/-- C33 (the steal terminates), amended: for a bitmap of 32 or 64 bits, a
thief `q` and a state without concurrent activity, with the victims being the
deques whose bit is set in `work & ~(1 << q)`:
when there is no victim the steal returns none at once;
when every victim deque exists and is free of counter wrap and one of them
holds a task, the steal returns in its first pass with the oldest task of a
victim deque;
when every victim deque is empty and belongs to an offline worker or to the
main thread, the steal clears their bits in its first pass and returns none in
the second;
and when every victim deque is empty and one of them belongs to an online
worker other than the main thread, the steal does not return. -/
theorem C33_steal_returns_unless_online_victim_is_empty (b : Build) (q : Nat) (s : Scheduler)
    (fuel : Nat) (hW : b.width = 32 ∨ b.width = 64) :
    (s.work &&& notOneShl b q = 0 → loom_steal_a_task b q (fuel + 1) s = some (s, none))
      ∧ ((∀ v, Victim b q s v → ∃ wq L, s.queues[v]? = some (some wq)
            ∧ Holds wq.size wq L ∧ wq.bottom < U32) →
          (∃ v wq, Victim b q s v ∧ s.queues[v]? = some (some wq) ∧ wq.top ≠ wq.bottom) →
          ∃ v wq y L w, Victim b q s v ∧ s.queues[v]? = some (some wq)
            ∧ Holds wq.size wq (y :: L)
            ∧ loom_steal_a_task b q (fuel + 1) s
                = some (({ s with prng := loom_prng_grab_u32 s.prng, work := w }
                    : Scheduler).setQueue v { wq with top := wq.top + 1 }, some y))
      ∧ (s.work &&& notOneShl b q ≠ 0 →
          (∀ v, Victim b q s v → ∃ wq, s.queues[v]? = some (some wq) ∧ wq.top = wq.bottom) →
          (∀ v, Victim b q s v → s.online.testBit v = false ∨ v = 0) →
          ∃ w, w &&& notOneShl b q = 0
            ∧ loom_steal_a_task b q (fuel + 2) s
                = some ({ s with prng := loom_prng_grab_u32 s.prng, work := w }, none))
      ∧ ((∀ v, Victim b q s v → ∃ wq, s.queues[v]? = some (some wq) ∧ wq.top = wq.bottom) →
          (∃ v, Victim b q s v ∧ s.online.testBit v = true ∧ v ≠ 0) →
          ∀ fuel1, loom_steal_a_task b q fuel1 s = none) :=
  ⟨steal_no_victims b q fuel s,
    steal_any_finds b q s fuel hW,
    steal_any_drains b q s fuel hW,
    fun hall hon fuel1 => steal_any_spins b q hW fuel1 s hall hon⟩

/-- C33 witness: worker 1 steals in the state `mainStale`. -/
theorem C33_steal_returns_unless_online_victim_is_empty_witness :
    (mainStale.work &&& notOneShl build64 1 = 0 →
        loom_steal_a_task build64 1 (0 + 1) mainStale = some (mainStale, none))
      ∧ ((∀ v, Victim build64 1 mainStale v → ∃ wq L, mainStale.queues[v]? = some (some wq)
            ∧ Holds wq.size wq L ∧ wq.bottom < U32) →
          (∃ v wq, Victim build64 1 mainStale v ∧ mainStale.queues[v]? = some (some wq)
            ∧ wq.top ≠ wq.bottom) →
          ∃ v wq y L w, Victim build64 1 mainStale v ∧ mainStale.queues[v]? = some (some wq)
            ∧ Holds wq.size wq (y :: L)
            ∧ loom_steal_a_task build64 1 (0 + 1) mainStale
                = some (({ mainStale with prng := loom_prng_grab_u32 mainStale.prng, work := w }
                    : Scheduler).setQueue v { wq with top := wq.top + 1 }, some y))
      ∧ (mainStale.work &&& notOneShl build64 1 ≠ 0 →
          (∀ v, Victim build64 1 mainStale v → ∃ wq, mainStale.queues[v]? = some (some wq)
            ∧ wq.top = wq.bottom) →
          (∀ v, Victim build64 1 mainStale v → mainStale.online.testBit v = false ∨ v = 0) →
          ∃ w, w &&& notOneShl build64 1 = 0
            ∧ loom_steal_a_task build64 1 (0 + 2) mainStale
                = some ({ mainStale with prng := loom_prng_grab_u32 mainStale.prng, work := w },
                    none))
      ∧ ((∀ v, Victim build64 1 mainStale v → ∃ wq, mainStale.queues[v]? = some (some wq)
            ∧ wq.top = wq.bottom) →
          (∃ v, Victim build64 1 mainStale v ∧ mainStale.online.testBit v = true ∧ v ≠ 0) →
          ∀ fuel1, loom_steal_a_task build64 1 fuel1 mainStale = none) :=
  C33_steal_returns_unless_online_victim_is_empty build64 1 mainStale 0 (Or.inr rfl)

/-- The steal of worker 1 in `mainStale` returns none and has cleared bit 0 of
`work`, which is the bit of the main thread. -/
theorem main_stale_example :
    loom_steal_a_task build64 1 2 mainStale = some ({ mainStale with work := 0 }, none) := by
  decide


/-! ## The bit of the main thread -/

/-- C36 (quiescent state), a run where the claim fails: on a scheduler without
workers, two tasks without predecessors are described and kicked from the
main thread (the second push reaches depth 2 and sets bit 0 of `work`), and
the main thread runs both with `loom_do_some_work`. Every kicked task has
completed, nothing is executing, there is no worker, every deque is empty; but
`work` is 1: nothing that the main thread runs resets its own bit. -/
theorem C36_main_bit_stays_set_when_idle :
    ( loom_initialize build64 4 exampleOptions).bind (fun s => runOps build64 s
        [Op.describe 100, Op.describe 101, Op.kick (mkHandle 0 1), Op.kick (mkHandle 1 2),
         Op.work, Op.work]) = some twoRun
      ∧ tasksPushed twoRun.log = [0, 1]
      ∧ kernelsRun twoRun.log = [1, 0]
      ∧ twoRun.log.filter (fun e => e == Event.epilogue 0 || e == Event.epilogue 1)
          = [Event.epilogue 1, Event.epilogue 0]
      ∧ twoRun.n = 0
      ∧ twoRun.queues.all (fun d => match d with
          | some wq => loom_work_queue_is_empty wq
          | none => true) = true
      ∧ twoRun.work = 1 := by
  decide

/-- C37 (shutdown terminates), a run where the claim fails: on a scheduler
without workers and with `main_thread_does_work` set, two tasks without
predecessors whose kernels return are kicked from the main thread, which sets
bit 0 of `work`. The loop of `loom_shutdown` runs both kernels; after that the
main deque is empty and `loom_do_some_work` returns false at every pass, but
bit 0 of `work` is still set and there is no other thread to clear it, so the
loop never ends and `loom_shutdown` returns for no amount of fuel. -/
theorem C37_shutdown_spins_on_main_bit :
    twoKicked.n = 0
      ∧ twoKicked.always_steal_from_main_thread = false
      ∧ tasksPushed twoKicked.log = [0, 1]
      ∧ twoKicked.work = 1
      ∧ runOps build64 twoKicked [Op.work, Op.work] = some twoRun
      ∧ kernelsRun twoRun.log = [1, 0]
      ∧ twoRun.work = 1
      ∧ (∀ fuel, loom_do_some_work build64 0 (fuel + 1) twoRun = some (twoRun, false))
      ∧ ∀ fuel, loom_shutdown build64 fuel twoKicked = none := by
  refine ⟨by decide, by decide, by decide, by decide, by decide, by decide, by decide, ?_,
    shutdown_two_tasks_never_returns⟩
  intro fuel
  have h4 : loom_grab_a_task 0 twoRun = some (twoRun, none) := by decide
  have h5 : loom_steal_a_task build64 0 (fuel + 1) twoRun = some (twoRun, none) :=
    steal_no_victims build64 0 fuel twoRun (by decide)
  simp [loom_do_some_work, h4, h5]


/-! ## The bitmaps under a completion -/

theorem testBit_set (m v i : Nat) :
    (loom_atomic_set_native m v).testBit i = (m.testBit i || decide (i = v)) := by
  simp only [loom_atomic_set_native, Nat.testBit_or, Nat.one_shiftLeft, Nat.testBit_two_pow]
  by_cases h : v = i
  · subst h
    simp
  · have h2 : i ≠ v := fun hc => h hc.symm
    simp [h, h2]

theorem set_set (m v : Nat) :
    loom_atomic_set_native (loom_atomic_set_native m v) v = loom_atomic_set_native m v := by
  simp only [loom_atomic_set_native, Nat.or_assoc, Nat.or_self]

theorem keeps_refl (q : Nat) (s : Scheduler) : Keeps q s s := ⟨rfl, Or.inl rfl⟩

theorem keeps_trans {q : Nat} {s s1 s2 : Scheduler} (h1 : Keeps q s s1) (h2 : Keeps q s1 s2) :
    Keeps q s s2 := by
  obtain ⟨a1, a2⟩ := h1
  obtain ⟨b1, b2⟩ := h2
  refine ⟨b1.trans a1, ?_⟩
  rcases a2 with a2 | a2 <;> rcases b2 with b2 | b2
  · exact Or.inl (b2.trans a2)
  · exact Or.inr (by rw [b2, a2])
  · exact Or.inr (b2.trans a2)
  · exact Or.inr (by rw [b2, a2, set_set])

theorem keeps_of_eq (q : Nat) (s s1 : Scheduler) (ho : s1.online = s.online)
    (hw : s1.work = s.work) : Keeps q s s1 := ⟨ho, Or.inl hw⟩

theorem submit_keeps (q : Nat) (s s1 : Scheduler) (t : Nat)
    (h : loom_submit_a_task q s t = some s1) : Keeps q s s1 := by
  simp only [loom_submit_a_task] at h
  split at h
  · exact absurd h (by simp)
  · split at h
    · rw [← Option.some.inj h]
      exact keeps_of_eq q _ _ rfl rfl
    · split at h
      · split at h
        · exact absurd h (by simp)
        · split at h
          · rw [← Option.some.inj h]
            exact ⟨rfl, Or.inr rfl⟩
          · split at h
            · split at h
              · rw [← Option.some.inj h]
                exact ⟨rfl, Or.inr rfl⟩
              · rw [← Option.some.inj h]
                exact keeps_of_eq q _ _ rfl rfl
            · rw [← Option.some.inj h]
              exact keeps_of_eq q _ _ rfl rfl
      · exact absurd h (by simp)

theorem unblockStep_keeps (b : Build) (q : Nat) (s s1 : Scheduler) (r : PermitRef)
    (next : Option PermitRef) (h : unblockStep b q s r = some (s1, next)) : Keeps q s s1 := by
  simp only [unblockStep] at h
  split at h
  · exact absurd h (by simp)
  · split at h
    · exact absurd h (by simp)
    · rename_i target _
      split at h
      · exact absurd h (by simp)
      · rename_i t _
        have h0 : Keeps q s ((s.setTask target
            { t with blockers := loom_atomic_decr_u32 t.blockers }).emit
              (Event.unblock target (loom_atomic_decr_u32 t.blockers))) :=
          keeps_of_eq q _ _ rfl rfl
        split at h
        · exact absurd h (by simp)
        · rename_i s2 hs2
          have h2 : Keeps q s s2 := by
            split at hs2
            · exact keeps_trans h0 (submit_keeps q _ s2 target hs2)
            · rw [← Option.some.inj hs2]
              exact h0
          split at h
          · exact absurd h (by simp)
          · obtain ⟨rfl, _⟩ := Prod.mk.inj (Option.some.inj h)
            refine keeps_trans h2 (keeps_of_eq q _ _ ?_ ?_) <;> cases r <;> rfl

theorem unblockLoop_keeps (b : Build) (q : Nat) : ∀ (fuel : Nat) (s s1 : Scheduler)
    (r : Option PermitRef), unblockLoop b q fuel s r = some s1 → Keeps q s s1 := by
  intro fuel
  induction fuel with
  | zero =>
    intro s s1 r h
    cases r with
    | none =>
      rw [show unblockLoop b q 0 s none = some s from rfl] at h
      rw [← Option.some.inj h]
      exact keeps_refl q s
    | some r => exact absurd h (by simp [unblockLoop])
  | succ fuel ih =>
    intro s s1 r h
    cases r with
    | none =>
      rw [show unblockLoop b q (fuel + 1) s none = some s from rfl] at h
      rw [← Option.some.inj h]
      exact keeps_refl q s
    | some r =>
      rw [unblockLoop_succ] at h
      split at h
      · exact absurd h (by simp)
      · rename_i s2 next hstep
        exact keeps_trans (unblockStep_keeps b q s s2 r next hstep) (ih s2 s1 next h)

theorem unblock_keeps (b : Build) (q : Nat) (s s1 : Scheduler) (t : Nat)
    (h : loom_unblock_any_permitted b q s t = some s1) : Keeps q s s1 := by
  simp only [loom_unblock_any_permitted] at h
  split at h
  · exact absurd h (by simp)
  · split at h
    · exact unblockLoop_keeps b q _ s s1 _ h
    · rw [← Option.some.inj h]
      exact keeps_refl q s

/-- A completion run by thread `q` leaves `online` alone and sets at most bit
`q` of `work`. -/
theorem schedule_keeps (b : Build) (q : Nat) (s s1 : Scheduler) (t : Nat)
    (h : loom_schedule_a_task b q s t = some s1) : Keeps q s s1 := by
  simp only [loom_schedule_a_task] at h
  split at h
  · exact absurd h (by simp)
  · rename_i T hT
    split at h
    · exact absurd h (by simp)
    · rename_i s5 hs5
      split at h
      · exact absurd h (by simp)
      · rename_i s6 hs6
        have k5 : Keeps q s s5 := by
          cases hb : T.barrier with
          | none =>
            rw [hb] at hs5
            rw [← Option.some.inj hs5]
            cases hw : T.work <;> exact keeps_of_eq q _ _ rfl rfl
          | some k =>
            rw [hb] at hs5
            simp only at hs5
            split at hs5
            · exact absurd hs5 (by simp)
            · rw [← Option.some.inj hs5]
              cases hw : T.work <;> exact keeps_of_eq q _ _ rfl rfl
        rw [← Option.some.inj h]
        exact keeps_trans k5 (keeps_trans (unblock_keeps b q s5 s6 t hs6)
          (keeps_of_eq q _ _ rfl rfl))

theorem keeps_bits {q : Nat} {s s1 : Scheduler} (h : Keeps q s s1) (i : Nat) (hi : i ≠ q) :
    s1.online.testBit i = s.online.testBit i ∧ s1.work.testBit i = s.work.testBit i := by
  obtain ⟨h1, h2⟩ := h
  refine ⟨by rw [h1], ?_⟩
  rcases h2 with h2 | h2
  · rw [h2]
  · rw [h2, testBit_set]
    simp [hi]

/-- The loop of `loom_grab_a_task` changes nothing but the deque of the
thread, and returns none only when it has observed that deque empty. -/
theorem grabLoop_spec (q : Nat) : ∀ (fuel : Nat) (s s1 : Scheduler) (r : Option Nat),
    grabLoop q fuel s = some (s1, r) →
    s1.online = s.online ∧ s1.work = s.work
      ∧ (r = none → ∃ wq, s1.queues[q]? = some (some wq)
          ∧ loom_work_queue_is_empty wq = true) := by
  intro fuel
  induction fuel with
  | zero => intro s s1 r h; simp [grabLoop] at h
  | succ fuel ih =>
    intro s s1 r h
    simp only [grabLoop] at h
    split at h
    · rename_i wq hq
      split_ifs at h with he
      · split at h
        · obtain ⟨rfl, rfl⟩ := Prod.mk.inj (Option.some.inj h)
          exact ⟨rfl, rfl, fun hc => by cases hc⟩
        · obtain ⟨h1, h2, h3⟩ := ih _ s1 r h
          exact ⟨h1, h2, h3⟩
      · obtain ⟨rfl, rfl⟩ := Prod.mk.inj (Option.some.inj h)
        exact ⟨rfl, rfl, fun _ => ⟨wq, hq, by simpa using he⟩⟩
    · cases h


/-! ## The transitions of a worker -/

/-- C35 (worker transitions), the claim as stated fails: worker 1 stands at
`stealing` in the state `mainStale`, where bit 0 of `work` is set and the
main deque is empty. Its call of `loom_steal_a_task` visits deque 0, finds it
empty and, deque 0 being that of the main thread, clears bit 0 of `work`,
which is not the bit of the worker; then the worker goes to `waiting`. -/
theorem C35_worker_clears_bit_of_main :
    thief1.id = 1
      ∧ mainStale.work.testBit 0 = true
      ∧ loom_worker_thread_step build64 2 thief1 mainStale
          = some ({ thief1 with pc := WorkerPc.waiting }, { mainStale with work := 0 })
      ∧ ({ mainStale with work := 0 } : Scheduler).work.testBit 0 = false := by
  decide

/-- A step that changes the bitmaps at the bit of thread `q` only. -/
theorem bits_same (q : Nat) (s s1 : Scheduler) (P : Nat → Prop)
    (h : ∀ i, i ≠ q → s1.online.testBit i = s.online.testBit i
      ∧ s1.work.testBit i = s.work.testBit i) :
    (∀ i, i ≠ q → s1.online.testBit i = s.online.testBit i)
      ∧ (∀ i, i ≠ q → s1.work.testBit i = true → s.work.testBit i = true)
      ∧ (∀ i, i ≠ q → s.work.testBit i = true → s1.work.testBit i = false → P i) := by
  refine ⟨fun i hi => (h i hi).1, fun i hi hh => ?_, fun i hi ha hb => ?_⟩
  · rw [← (h i hi).2]; exact hh
  · rw [(h i hi).2, ha] at hb
    cases hb

theorem bits_refl (q : Nat) (s : Scheduler) (i : Nat) (_ : i ≠ q) :
    s.online.testBit i = s.online.testBit i ∧ s.work.testBit i = s.work.testBit i :=
  ⟨rfl, rfl⟩

/-- The labels of a step of a worker. -/
theorem worker_step_labels (b : Build) (fuel : Nat) (w w1 : Worker) (s s1 : Scheduler)
    (h : loom_worker_thread_step b fuel w s = some (w1, s1)) :
    (w1.id = w.id ∧ w1.shutdown = w.shutdown)
      ∧ (w.pc = WorkerPc.stealing → w1.pc = WorkerPc.waiting →
          loom_steal_a_task b w.id fuel s = some (s1, none)
            ∧ ∃ wq, s1.queues[w.id]? = some (some wq) ∧ loom_work_queue_is_empty wq = true)
      ∧ (w.pc = WorkerPc.work_in_queue → w1.pc ≠ WorkerPc.stealing)
      ∧ (w1.pc = WorkerPc.exhausted →
          w.pc = WorkerPc.work_in_queue ∧ loom_grab_a_task w.id s = some (s1, none)
            ∧ ∃ wq, s1.queues[w.id]? = some (some wq) ∧ loom_work_queue_is_empty wq = true)
      ∧ (w.pc = WorkerPc.exhausted →
          w1.pc = WorkerPc.stealing
            ∧ s1 = { s with work := loom_atomic_reset_native s.work w.id })
      ∧ (w1.pc = WorkerPc.stealing →
          w.pc = WorkerPc.exhausted ∨ w.pc = WorkerPc.stealing
            ∨ (w.pc = WorkerPc.waiting ∧ s.message = false ∧ s.work_to_steal = true)) := by
  obtain ⟨id, sd, pc⟩ := w
  cases pc with
  | startup =>
    simp only [loom_worker_thread_step] at h
    obtain ⟨rfl, rfl⟩ := Prod.mk.inj (Option.some.inj h)
    exact ⟨⟨rfl, rfl⟩, fun hc => (by cases hc), fun hc => (by cases hc), fun hc => (by cases hc),
      fun hc => (by cases hc), fun hc => (by cases hc)⟩
  | waiting =>
    simp only [loom_worker_thread_step] at h
    split_ifs at h with hm hs hwts
    · obtain ⟨rfl, rfl⟩ := Prod.mk.inj (Option.some.inj h)
      exact ⟨⟨rfl, rfl⟩, fun hc => (by cases hc), fun hc => (by cases hc), fun hc => (by cases hc),
        fun hc => (by cases hc), fun hc => (by cases hc)⟩
    · obtain ⟨rfl, rfl⟩ := Prod.mk.inj (Option.some.inj h)
      exact ⟨⟨rfl, rfl⟩, fun hc => (by cases hc), fun hc => (by cases hc), fun hc => (by cases hc),
        fun hc => (by cases hc), fun hc => (by cases hc)⟩
    · obtain ⟨rfl, rfl⟩ := Prod.mk.inj (Option.some.inj h)
      exact ⟨⟨rfl, rfl⟩, fun hc => (by cases hc), fun hc => (by cases hc), fun hc => (by cases hc),
        fun hc => (by cases hc),
        fun _ => Or.inr (Or.inr ⟨rfl, by simpa using hm, hwts⟩)⟩
    · obtain ⟨rfl, rfl⟩ := Prod.mk.inj (Option.some.inj h)
      exact ⟨⟨rfl, rfl⟩, fun hc => (by cases hc), fun hc => (by cases hc), fun hc => (by cases hc),
        fun hc => (by cases hc), fun hc => (by cases hc)⟩
  | work_in_queue =>
    simp only [loom_worker_thread_step] at h
    split_ifs at h with hs
    · obtain ⟨rfl, rfl⟩ := Prod.mk.inj (Option.some.inj h)
      exact ⟨⟨rfl, rfl⟩, fun hc => (by cases hc), fun _ hc => (by cases hc), fun hc => (by cases hc),
        fun hc => (by cases hc), fun hc => (by cases hc)⟩
    · split at h
      · cases h
      · split at h
        · cases h
        · obtain ⟨rfl, rfl⟩ := Prod.mk.inj (Option.some.inj h)
          exact ⟨⟨rfl, rfl⟩, fun hc => (by cases hc), fun _ hc => (by cases hc),
            fun hc => (by cases hc), fun hc => (by cases hc), fun hc => (by cases hc)⟩
      · rename_i s2 hg
        obtain ⟨rfl, rfl⟩ := Prod.mk.inj (Option.some.inj h)
        exact ⟨⟨rfl, rfl⟩, fun hc => (by cases hc), fun _ hc => (by cases hc),
          fun _ => ⟨rfl, hg, (grabLoop_spec id _ s _ none hg).2.2 rfl⟩,
          fun hc => (by cases hc), fun hc => (by cases hc)⟩
  | exhausted =>
    simp only [loom_worker_thread_step] at h
    obtain ⟨rfl, rfl⟩ := Prod.mk.inj (Option.some.inj h)
    exact ⟨⟨rfl, rfl⟩, fun hc => (by cases hc), fun hc => (by cases hc), fun hc => (by cases hc),
      fun _ => ⟨rfl, rfl⟩, fun _ => Or.inl rfl⟩
  | stealing =>
    simp only [loom_worker_thread_step] at h
    split_ifs at h with hs
    · obtain ⟨rfl, rfl⟩ := Prod.mk.inj (Option.some.inj h)
      exact ⟨⟨rfl, rfl⟩, fun _ hc => (by cases hc), fun hc => (by cases hc), fun hc => (by cases hc),
        fun hc => (by cases hc), fun hc => (by cases hc)⟩
    · split at h
      · cases h
      · split at h
        · cases h
        · obtain ⟨rfl, rfl⟩ := Prod.mk.inj (Option.some.inj h)
          exact ⟨⟨rfl, rfl⟩, fun _ hc => (by cases hc), fun hc => (by cases hc),
            fun hc => (by cases hc), fun hc => (by cases hc), fun _ => Or.inr (Or.inl rfl)⟩
      · rename_i s2 hst
        split at h
        · rename_i wq hq
          split_ifs at h with he
          · obtain ⟨rfl, rfl⟩ := Prod.mk.inj (Option.some.inj h)
            exact ⟨⟨rfl, rfl⟩, fun _ hc => (by cases hc), fun hc => (by cases hc),
              fun hc => (by cases hc), fun hc => (by cases hc), fun hc => (by cases hc)⟩
          · obtain ⟨rfl, rfl⟩ := Prod.mk.inj (Option.some.inj h)
            exact ⟨⟨rfl, rfl⟩, fun _ _ => ⟨hst, wq, hq, by simpa using he⟩,
              fun hc => (by cases hc), fun hc => (by cases hc), fun hc => (by cases hc),
              fun hc => (by cases hc)⟩
        · cases h
  | shutdown =>
    simp only [loom_worker_thread_step] at h
    obtain ⟨rfl, rfl⟩ := Prod.mk.inj (Option.some.inj h)
    exact ⟨⟨rfl, rfl⟩, fun hc => (by cases hc), fun hc => (by cases hc), fun hc => (by cases hc),
      fun hc => (by cases hc), fun hc => (by cases hc)⟩
  | finished =>
    simp only [loom_worker_thread_step] at h
    cases h

/-- The bitmaps under a step of a worker. -/
theorem worker_step_bits (b : Build) (fuel : Nat) (w w1 : Worker) (s s1 : Scheduler)
    (hW : 0 < b.width)
    (h : loom_worker_thread_step b fuel w s = some (w1, s1)) :
    (∀ i, i ≠ w.id → s1.online.testBit i = s.online.testBit i)
      ∧ (∀ i, i ≠ w.id → s1.work.testBit i = true → s.work.testBit i = true)
      ∧ (∀ i, i ≠ w.id → s.work.testBit i = true → s1.work.testBit i = false →
          w.pc = WorkerPc.stealing ∧ w.shutdown = false
            ∧ ∃ s2 r, loom_steal_a_task b w.id fuel s = some (s2, r)
              ∧ s2.work.testBit i = false
              ∧ (s.online.testBit i = false ∨ i = 0)
              ∧ ∃ wq, s2.queues[i]? = some (some wq)
                ∧ loom_work_queue_is_empty wq = true) := by
  obtain ⟨id, sd, pc⟩ := w
  cases pc with
  | startup =>
    simp only [loom_worker_thread_step] at h
    obtain ⟨rfl, rfl⟩ := Prod.mk.inj (Option.some.inj h)
    apply bits_same
    intro i hi
    refine ⟨?_, rfl⟩
    show (loom_atomic_set_native s.online id).testBit i = _
    rw [testBit_set]
    simp only [] at hi
    simp [hi]
  | waiting =>
    simp only [loom_worker_thread_step] at h
    split_ifs at h
    all_goals
      obtain ⟨rfl, rfl⟩ := Prod.mk.inj (Option.some.inj h)
      exact bits_same _ _ _ _ (fun i _ => ⟨rfl, rfl⟩)
  | work_in_queue =>
    simp only [loom_worker_thread_step] at h
    split_ifs at h with hs
    · obtain ⟨rfl, rfl⟩ := Prod.mk.inj (Option.some.inj h)
      exact bits_same _ _ _ _ (fun i _ => ⟨rfl, rfl⟩)
    · split at h
      · cases h
      · rename_i s2 task hg
        split at h
        · cases h
        · rename_i s3 hsch
          obtain ⟨rfl, rfl⟩ := Prod.mk.inj (Option.some.inj h)
          obtain ⟨g1, g2, _⟩ := grabLoop_spec id _ s s2 _ hg
          apply bits_same
          intro i hi
          obtain ⟨k1, k2⟩ := keeps_bits (schedule_keeps b id s2 _ task hsch) i hi
          exact ⟨by rw [k1, g1], by rw [k2, g2]⟩
      · rename_i s2 hg
        obtain ⟨rfl, rfl⟩ := Prod.mk.inj (Option.some.inj h)
        obtain ⟨g1, g2, _⟩ := grabLoop_spec id _ s _ _ hg
        exact bits_same _ _ _ _ (fun i _ => ⟨by rw [g1], by rw [g2]⟩)
  | exhausted =>
    simp only [loom_worker_thread_step] at h
    obtain ⟨rfl, rfl⟩ := Prod.mk.inj (Option.some.inj h)
    apply bits_same
    intro i hi
    refine ⟨rfl, ?_⟩
    show (loom_atomic_reset_native s.work id).testBit i = _
    rw [testBit_reset]
    simp only [] at hi
    simp [hi]
  | stealing =>
    simp only [loom_worker_thread_step] at h
    split_ifs at h with hs
    · obtain ⟨rfl, rfl⟩ := Prod.mk.inj (Option.some.inj h)
      exact bits_same _ _ _ _ (fun i _ => ⟨rfl, rfl⟩)
    · have hsd : sd = false := by simpa using hs
      have main : ∀ (s2 : Scheduler) (r : Option Nat),
          loom_steal_a_task b id fuel s = some (s2, r) →
          (∀ i, i ≠ id → s1.online.testBit i = s2.online.testBit i
            ∧ s1.work.testBit i = s2.work.testBit i) →
          (∀ i, i ≠ id → s1.online.testBit i = s.online.testBit i)
            ∧ (∀ i, i ≠ id → s1.work.testBit i = true → s.work.testBit i = true)
            ∧ (∀ i, i ≠ id → s.work.testBit i = true → s1.work.testBit i = false →
                WorkerPc.stealing = WorkerPc.stealing ∧ sd = false
                  ∧ ∃ s2 r, loom_steal_a_task b id fuel s = some (s2, r)
                    ∧ s2.work.testBit i = false
                    ∧ (s.online.testBit i = false ∨ i = 0)
                    ∧ ∃ wq, s2.queues[i]? = some (some wq)
                      ∧ loom_work_queue_is_empty wq = true) := by
        intro s2 r hst hk
        obtain ⟨c1, c2, c3, _⟩ := steal_clears b id hW fuel s s2 r hst
        refine ⟨fun i hi => ?_, fun i hi hh => ?_, fun i hi ha hb => ?_⟩
        · rw [(hk i hi).1, c1]
        · rw [(hk i hi).2] at hh
          exact c2 i hh
        · rw [(hk i hi).2] at hb
          obtain ⟨_, d2, d3⟩ := c3 i ha hb
          exact ⟨rfl, hsd, s2, r, hst, hb, d2, d3⟩
      split at h
      · cases h
      · rename_i s2 task hst
        split at h
        · cases h
        · rename_i s3 hsch
          obtain ⟨rfl, rfl⟩ := Prod.mk.inj (Option.some.inj h)
          exact main s2 _ hst (fun i hi => keeps_bits (schedule_keeps b id s2 _ task hsch) i hi)
      · rename_i s2 hst
        split at h
        · split_ifs at h
          all_goals
            obtain ⟨rfl, rfl⟩ := Prod.mk.inj (Option.some.inj h)
            exact main _ _ hst (fun i _ => ⟨rfl, rfl⟩)
        · cases h
  | shutdown =>
    simp only [loom_worker_thread_step] at h
    obtain ⟨rfl, rfl⟩ := Prod.mk.inj (Option.some.inj h)
    apply bits_same
    intro i hi
    simp only [] at hi
    refine ⟨?_, ?_⟩
    · show (loom_atomic_reset_native s.online id).testBit i = _
      rw [testBit_reset]
      simp [hi]
    · show (loom_atomic_set_native s.work id).testBit i = _
      rw [testBit_set]
      simp [hi]
  | finished =>
    simp only [loom_worker_thread_step] at h
    cases h

/-- C35 (worker transitions), amended: for every step of `loom_worker_thread`
from a label to the next, on a bitmap of 32 or 64 bits:
the worker keeps its slot and does not write its shutdown flag;
it goes from `stealing` to `waiting` only when `loom_steal_a_task` has
returned none and its own deque is then empty;
it leaves `work_in_queue` for `stealing` only through `exhausted`, which it
reaches only when `loom_grab_a_task` has returned none, its own deque being
then empty, and which it leaves by clearing its own bit of `work`;
it changes no bit of `online` other than its own and sets no bit of `work`
other than its own;
and it clears a bit of `work` other than its own only at `stealing`, inside
`loom_steal_a_task`, and then the bit is that of a deque found empty whose
owner is offline or is the main thread. -/
theorem C35_worker_step_rules (b : Build) (fuel : Nat) (w w1 : Worker) (s s1 : Scheduler)
    (hW : b.width = 32 ∨ b.width = 64)
    (h : loom_worker_thread_step b fuel w s = some (w1, s1)) :
    (w1.id = w.id ∧ w1.shutdown = w.shutdown)
      ∧ (w.pc = WorkerPc.stealing → w1.pc = WorkerPc.waiting →
          loom_steal_a_task b w.id fuel s = some (s1, none)
            ∧ ∃ wq, s1.queues[w.id]? = some (some wq) ∧ loom_work_queue_is_empty wq = true)
      ∧ (w.pc = WorkerPc.work_in_queue → w1.pc ≠ WorkerPc.stealing)
      ∧ (w1.pc = WorkerPc.exhausted →
          w.pc = WorkerPc.work_in_queue ∧ loom_grab_a_task w.id s = some (s1, none)
            ∧ ∃ wq, s1.queues[w.id]? = some (some wq) ∧ loom_work_queue_is_empty wq = true)
      ∧ (w.pc = WorkerPc.exhausted →
          w1.pc = WorkerPc.stealing
            ∧ s1 = { s with work := loom_atomic_reset_native s.work w.id })
      ∧ (w1.pc = WorkerPc.stealing →
          w.pc = WorkerPc.exhausted ∨ w.pc = WorkerPc.stealing
            ∨ (w.pc = WorkerPc.waiting ∧ s.message = false ∧ s.work_to_steal = true))
      ∧ (∀ i, i ≠ w.id → s1.online.testBit i = s.online.testBit i)
      ∧ (∀ i, i ≠ w.id → s1.work.testBit i = true → s.work.testBit i = true)
      ∧ (∀ i, i ≠ w.id → s.work.testBit i = true → s1.work.testBit i = false →
          w.pc = WorkerPc.stealing ∧ w.shutdown = false
            ∧ ∃ s2 r, loom_steal_a_task b w.id fuel s = some (s2, r)
              ∧ s2.work.testBit i = false
              ∧ (s.online.testBit i = false ∨ i = 0)
              ∧ ∃ wq, s2.queues[i]? = some (some wq)
                ∧ loom_work_queue_is_empty wq = true) :=
  ⟨(worker_step_labels b fuel w w1 s s1 h).1, (worker_step_labels b fuel w w1 s s1 h).2.1,
    (worker_step_labels b fuel w w1 s s1 h).2.2.1,
    (worker_step_labels b fuel w w1 s s1 h).2.2.2.1,
    (worker_step_labels b fuel w w1 s s1 h).2.2.2.2.1,
    (worker_step_labels b fuel w w1 s s1 h).2.2.2.2.2,
    worker_step_bits b fuel w w1 s s1 (by rcases hW with h1 | h1 <;> omega) h⟩

/-- C35 witness: the step of worker 1 from `stealing` in `mainStale`, which
ends at `waiting` with bit 0 of `work` cleared inside the steal. -/
theorem C35_worker_step_rules_witness :
    (({ thief1 with pc := WorkerPc.waiting } : Worker).id = thief1.id
        ∧ ({ thief1 with pc := WorkerPc.waiting } : Worker).shutdown = thief1.shutdown)
      ∧ (thief1.pc = WorkerPc.stealing →
          ({ thief1 with pc := WorkerPc.waiting } : Worker).pc = WorkerPc.waiting →
          loom_steal_a_task build64 thief1.id 2 mainStale
              = some ({ mainStale with work := 0 }, none)
            ∧ ∃ wq, ({ mainStale with work := 0 } : Scheduler).queues[thief1.id]?
                = some (some wq) ∧ loom_work_queue_is_empty wq = true)
      ∧ (thief1.pc = WorkerPc.work_in_queue →
          ({ thief1 with pc := WorkerPc.waiting } : Worker).pc ≠ WorkerPc.stealing)
      ∧ (({ thief1 with pc := WorkerPc.waiting } : Worker).pc = WorkerPc.exhausted →
          thief1.pc = WorkerPc.work_in_queue
            ∧ loom_grab_a_task thief1.id mainStale = some ({ mainStale with work := 0 }, none)
            ∧ ∃ wq, ({ mainStale with work := 0 } : Scheduler).queues[thief1.id]?
                = some (some wq) ∧ loom_work_queue_is_empty wq = true)
      ∧ (thief1.pc = WorkerPc.exhausted →
          ({ thief1 with pc := WorkerPc.waiting } : Worker).pc = WorkerPc.stealing
            ∧ ({ mainStale with work := 0 } : Scheduler)
                = { mainStale with work := loom_atomic_reset_native mainStale.work thief1.id })
      ∧ (({ thief1 with pc := WorkerPc.waiting } : Worker).pc = WorkerPc.stealing →
          thief1.pc = WorkerPc.exhausted ∨ thief1.pc = WorkerPc.stealing
            ∨ (thief1.pc = WorkerPc.waiting ∧ mainStale.message = false
                ∧ mainStale.work_to_steal = true))
      ∧ (∀ i, i ≠ thief1.id → ({ mainStale with work := 0 } : Scheduler).online.testBit i
          = mainStale.online.testBit i)
      ∧ (∀ i, i ≠ thief1.id → ({ mainStale with work := 0 } : Scheduler).work.testBit i = true →
          mainStale.work.testBit i = true)
      ∧ (∀ i, i ≠ thief1.id → mainStale.work.testBit i = true →
          ({ mainStale with work := 0 } : Scheduler).work.testBit i = false →
          thief1.pc = WorkerPc.stealing ∧ thief1.shutdown = false
            ∧ ∃ s2 r, loom_steal_a_task build64 thief1.id 2 mainStale = some (s2, r)
              ∧ s2.work.testBit i = false
              ∧ (mainStale.online.testBit i = false ∨ i = 0)
              ∧ ∃ wq, s2.queues[i]? = some (some wq)
                ∧ loom_work_queue_is_empty wq = true) :=
  C35_worker_step_rules build64 2 thief1 { thief1 with pc := WorkerPc.waiting } mainStale
    { mainStale with work := 0 } (Or.inr rfl) (by decide)


/-! ## The successors of a completed task -/

theorem task_of_tasks {s s1 : Scheduler} (h : s1.tasks = s.tasks) (x : Nat) :
    s1.task x = s.task x := by
  simp [Scheduler.task, h]

/-- The log of the completion of the witness of C39, and the kick of task 2
afterwards. -/
theorem four_done_example :
    fourDone.log = fourWired.log ++ [Event.prologue 0, Event.kernel 0, Event.epilogue 0,
        Event.unblock 1 0, Event.push 0 1, Event.unblock 2 0, Event.push 0 2,
        Event.unblock 3 0, Event.push 0 3, Event.unblock 4 0, Event.push 0 4]
      ∧ handle_to_task fourDone (mkHandle 2 3) = some 2
      ∧ loom_kick 0 fourDone (mkHandle 2 3) = some fourDone := by
  decide

/-! ## The run of a batch among other tasks -/

theorem edgesLeft_move {c : CallCtx} {done : List Nat} {t : Nat} (u : Nat) (hnd : c.U.Nodup)
    (ht : t ∈ c.U) (hd : t ∉ done) :
    edgesLeft c (done ++ [t]) u + (c.succ t).count u = edgesLeft c done u := by
  have h := sum_move_aux (fun p => (c.succ p).count u) done t hd c.U hnd
  simpa [edgesLeft, ht] using h

theorem edgesLeft_pos {c : CallCtx} {done : List Nat} {u : Nat} (h : 0 < edgesLeft c done u) :
    ∃ p, p ∈ c.U ∧ p ∉ done ∧ u ∈ c.succ p := by
  obtain ⟨p, hp, hpd, hpc⟩ :=
    sum_pos_exists (fun p => (c.succ p).count u) done c.U h
  exact ⟨p, hp, hpd, List.count_pos_iff.mp hpc⟩

theorem readPermit_congr {s s1 : Scheduler} (ht : s1.tasks.tasks = s.tasks.tasks)
    (hp : s1.permits.permits = s.permits.permits) (r : PermitRef) :
    s1.readPermit r = s.readPermit r := by
  cases r <;> simp [Scheduler.readPermit, ht, hp]

/-- A submission leaves the permit pool alone. -/
theorem submit_permits (q : Nat) (s s1 : Scheduler) (t : Nat)
    (h : loom_submit_a_task q s t = some s1) : s1.permits = s.permits := by
  simp only [loom_submit_a_task] at h
  split at h
  · exact absurd h (by simp)
  · split at h
    · rw [← Option.some.inj h]
      rfl
    · split at h
      · split at h
        · exact absurd h (by simp)
        · split at h
          · rw [← Option.some.inj h]
            rfl
          · split at h
            · split at h
              · rw [← Option.some.inj h]
                rfl
              · rw [← Option.some.inj h]
                rfl
            · rw [← Option.some.inj h]
              rfl
      · exact absurd h (by simp)

theorem run_congr {c : CallCtx} {s s1 : Scheduler} {L done rem uk : List Nat}
    (h : Run c s L done rem uk) (hq : s1.queues[0]? = s.queues[0]?)
    (ht : s1.tasks.tasks = s.tasks.tasks) (hp : s1.permits.permits = s.permits.permits)
    (hb : s1.barriers = s.barriers)
    (hw : s1.work = s.work) (hl : s1.log = s.log) : Run c s1 L done rem uk := by
  have htask : ∀ t, s1.task t = s.task t := by
    intro t; simp [Scheduler.task, ht]
  refine ⟨?_, h.nodup, h.sub, ?_, ?_, ?_, ?_, ?_, ?_, ?_⟩
  · rw [hq]; exact h.queue
  · intro t htB
    rw [htask t, ht]
    exact h.tasks t htB
  · intro r
    rw [readPermit_congr ht hp]
    exact h.reads r
  · rw [hp]; exact h.pool
  · rw [hb]; exact h.barrier
  · rw [hb]; exact h.memory
  · rw [hw]; exact h.work
  · rw [hl]; exact h.log

theorem run_room {c : CallCtx} {s : Scheduler} {L done rem uk : List Nat}
    (h : Run c s L done rem uk) : L.length + done.length ≤ c.U.length := by
  have := nodup_length_le h.nodup h.sub
  simpa using this

/-- Submitting a dormant task whose `blockers` field is zero puts it on the
main deque, on top of what the deque holds. -/
theorem run_submit_ready {c : CallCtx} {rank : Nat → Nat} {s : Scheduler}
    {L done rem uk : List Nat} {u : Nat} (uk1 : List Nat)
    (ok : CallOK c rank) (h : Run c s L done rem uk) (hu : u ∈ c.U) (hnot : u ∉ L ++ done)
    (hz : (s.task u).blockers = 0) (huk : ∀ t, t ∈ uk → t ≠ u → t ∈ uk1) :
    ∃ s1, loom_submit_a_task 0 s u = some s1 ∧ Run c s1 (L ++ [u]) done rem uk1 := by
  obtain ⟨hlt, hid, hwk, hbl, hbar, _, hout⟩ := h.tasks u hu
  obtain ⟨hval, _, _⟩ := hout hnot
  have hpend : edgesLeft c done u = 0 := by omega
  have hcount : rem.count u = 0 := by omega
  obtain ⟨wq, hq, hh, htop⟩ := h.queue
  have hlen : (u :: (L ++ done)).length ≤ c.U.length := by
    apply nodup_length_le (List.nodup_cons.mpr ⟨hnot, h.nodup⟩)
    intro x hx
    rcases List.mem_cons.mp hx with hx | hx
    · rw [hx]; exact hu
    · exact h.sub x hx
  simp only [List.length_cons, List.length_append] at hlen
  have hroom := ok.room
  have hfar := ok.far
  have hbot := hh.2.2.1
  simp only [List.length_append] at hbot
  obtain ⟨wq1, hp, hh1, htop1⟩ := holds_push u hh
    (by simp only [List.length_append]; omega) ok.small (by omega)
  obtain ⟨s1, hs1, htasks, hq1, hbar1, hlog1, hw1⟩ := submit_ready c.b hlt hz hq hp h.work
  have hperm := submit_permits 0 s s1 u hs1
  refine ⟨s1, hs1, ⟨⟨wq1, hq1, by rw [← List.append_assoc]; exact hh1,
      by rw [htop1]; exact htop⟩, nodup_snoc_mid h.nodup hnot,
    ?_, ?_, ?_, by rw [hperm]; exact h.pool, by rw [hbar1]; exact h.barrier,
    by rw [hbar1]; exact h.memory, hw1, ?_⟩⟩
  · intro x hx
    have : x ∈ L ++ done ∨ x = u := by
      simp only [List.mem_append, List.mem_singleton] at hx ⊢
      rcases hx with (hx | hx) | hx
      · exact Or.inl (Or.inl hx)
      · exact Or.inr hx
      · exact Or.inl (Or.inr hx)
    rcases this with hx | hx
    · exact h.sub x hx
    · rw [hx]; exact hu
  · intro t htB
    have htk := task_of_set htasks hlt t
    have hlen1 : s1.tasks.tasks.length = s.tasks.tasks.length := by
      rw [htasks]; simp
    by_cases htu : t = u
    · subst htu
      have hT : s1.task t = { s.task t with blockers := 4294967295 } := by
        rw [htk, if_pos rfl]
      rw [hT]
      refine ⟨by rw [hlen1]; exact hlt, hid, hwk, hbl, hbar, ?_, ?_⟩
      · intro _
        exact ⟨rfl, hpend, List.count_eq_zero.mp hcount⟩
      · intro hc
        exact absurd (by simp) hc
    · obtain ⟨a1, a2, a3, a5, a6, a7, a8⟩ := h.tasks t htB
      have hT : s1.task t = s.task t := by
        rw [htk, if_neg htu]
      rw [hT]
      have hmem : t ∈ L ++ [u] ++ done ↔ t ∈ L ++ done := by
        simp [htu]
      refine ⟨by rw [hlen1]; exact a1, a2, a3, a5, a6, ?_, ?_⟩
      · intro hm; exact a7 (hmem.mp hm)
      · intro hm
        obtain ⟨b1, b2, b3⟩ := a8 (fun hc => hm (hmem.mpr hc))
        exact ⟨b1, b2, fun hB hz0 => huk t (b3 hB hz0) htu⟩
  · intro r
    rw [submit_readPermit 0 s s1 u hs1 r]
    exact h.reads r
  · obtain ⟨nl, hnl, hk, hbv⟩ := h.log
    refine ⟨nl ++ [Event.push 0 u], by rw [hlog1, hnl, List.append_assoc], ?_, ?_⟩
    · rw [kernelsRun_append, hk]; simp [kernelsRun]
    · rw [barrierValues_append, hbv]; simp [barrierValues]

theorem run_drop_unkicked {c : CallCtx} {s : Scheduler} {L done rem uk : List Nat}
    (h : Run c s L done rem uk) (hnz : ∀ t, t ∈ uk → (s.task t).blockers ≠ 0) :
    Run c s L done rem [] := by
  refine ⟨h.queue, h.nodup, h.sub, ?_, h.reads, h.pool, h.barrier, h.memory, h.work, h.log⟩
  intro t ht
  obtain ⟨a1, a2, a3, a5, a6, a7, a8⟩ := h.tasks t ht
  refine ⟨a1, a2, a3, a5, a6, a7, ?_⟩
  intro hm
  obtain ⟨b1, b2, b3⟩ := a8 hm
  exact ⟨b1, b2, fun hB hz => absurd hz (hnz t (b3 hB hz))⟩

/-- One decrement of the `blockers` field of a successor by the task that is
being completed. -/
theorem run_decr {c : CallCtx} {s : Scheduler} {L done rem : List Nat} {u : Nat}
    (h : Run c s L done (u :: rem) []) (hu : u ∈ c.U) :
    u ∉ L ++ done ∧ u < s.tasks.tasks.length ∧
    loom_atomic_decr_u32 (s.task u).blockers = (s.task u).blockers - 1 ∧
    Run c ((s.setTask u { s.task u with blockers := (s.task u).blockers - 1 }).emit
        (Event.unblock u ((s.task u).blockers - 1))) L done rem [u] := by
  obtain ⟨hlt, hid, hwk, hbl, hbar, hin, hout⟩ := h.tasks u hu
  have hnot : u ∉ L ++ done := by
    intro hc
    exact (hin hc).2.2 (List.mem_cons_self _ _)
  obtain ⟨hval, h32, _⟩ := hout hnot
  simp only [List.count_cons_self] at hval
  have hdecr : loom_atomic_decr_u32 (s.task u).blockers = (s.task u).blockers - 1 :=
    sub32_of_le (by omega) h32
  refine ⟨hnot, hlt, hdecr, ⟨h.queue, h.nodup, h.sub, ?_, ?_, h.pool, h.barrier, h.memory,
    h.work, ?_⟩⟩
  · intro t htB
    have htk : ((s.setTask u { s.task u with blockers := (s.task u).blockers - 1 }).emit
        (Event.unblock u ((s.task u).blockers - 1))).task t
          = if t = u then { s.task u with blockers := (s.task u).blockers - 1 }
            else s.task t := setTask_task s u t _ hlt
    have hlen : ((s.setTask u { s.task u with blockers := (s.task u).blockers - 1 }).emit
        (Event.unblock u ((s.task u).blockers - 1))).tasks.tasks.length
          = s.tasks.tasks.length := setTask_length s u _
    by_cases htu : t = u
    · subst htu
      rw [htk, if_pos rfl, hlen]
      refine ⟨hlt, hid, hwk, hbl, hbar, fun hc => absurd hc hnot, ?_⟩
      intro _
      refine ⟨?_, ?_, fun _ _ => List.mem_singleton_self _⟩
      · show (s.task t).blockers - 1 = edgesLeft c done t + List.count t rem + spare c t
        omega
      · show (s.task t).blockers - 1 < U32
        omega
    · obtain ⟨a1, a2, a3, a5, a6, a7, a8⟩ := h.tasks t htB
      rw [htk, if_neg htu, hlen]
      refine ⟨a1, a2, a3, a5, a6, ?_, ?_⟩
      · intro hm
        obtain ⟨b1, b2, b3⟩ := a7 hm
        exact ⟨b1, b2, fun hc => b3 (List.mem_cons_of_mem _ hc)⟩
      · intro hm
        obtain ⟨b1, b2, b3⟩ := a8 hm
        rw [List.count_cons_of_ne htu] at b1
        exact ⟨b1, b2, fun hB hz => absurd (b3 hB hz) (by simp)⟩
  · intro r
    have : ((s.setTask u { s.task u with blockers := (s.task u).blockers - 1 }).emit
        (Event.unblock u ((s.task u).blockers - 1))).readPermit r = s.readPermit r :=
      readPermit_setTask s u (s.task u)
        { s.task u with blockers := (s.task u).blockers - 1 } (task_get hlt) rfl r
    rw [this]
    exact h.reads r
  · obtain ⟨nl, hnl, hk, hbv⟩ := h.log
    refine ⟨nl ++ [Event.unblock u ((s.task u).blockers - 1)], ?_, ?_, ?_⟩
    · show s.log ++ _ = _
      rw [hnl, List.append_assoc]
    · rw [kernelsRun_append, hk]; simp [kernelsRun]
    · rw [barrierValues_append, hbv]; simp [barrierValues]

theorem return_permit_parts (b : Build) (s : Scheduler) (r : PermitRef) :
    (loom_return_a_permit b s r).queues = s.queues
      ∧ (loom_return_a_permit b s r).tasks = s.tasks
      ∧ (loom_return_a_permit b s r).permits.permits = s.permits.permits
      ∧ (loom_return_a_permit b s r).barriers = s.barriers
      ∧ (loom_return_a_permit b s r).work = s.work
      ∧ (loom_return_a_permit b s r).log = s.log := by
  cases r <;> exact ⟨rfl, rfl, rfl, rfl, rfl, rfl⟩

/-- The walk of a permit chain by `loom_unblock_any_permitted`, through the
embedded cells and the nodes of the pool: every successor is decremented once,
and those that reach zero are pushed. -/
theorem run_unblock_loop {c : CallCtx} {rank : Nat → Nat} (ok : CallOK c rank) {t : Nat}
    (ht : t ∈ c.U) (done : List Nat) :
    ∀ (j i : Nat) (s : Scheduler) (L : List Nat) (fuel : Nat),
      i + j = (c.succ t).length → j < fuel →
      Run c s L done ((c.succ t).drop i) [] →
      ∃ s1 L1, unblockLoop c.b 0 fuel s ((c.cells t)[i]?) = some s1
        ∧ Run c s1 L1 done [] [] := by
  obtain ⟨_, hchain, _, _⟩ := ok.chains t ht
  intro j
  induction j with
  | zero =>
    intro i s L fuel hij hf h
    have hnone : (c.cells t)[i]? = none := List.getElem?_eq_none (by rw [hchain.1]; omega)
    have hnil : (c.succ t).drop i = [] := List.drop_eq_nil_of_le (by omega)
    rw [hnil] at h
    rw [hnone]
    refine ⟨s, L, ?_, h⟩
    cases fuel <;> rfl
  | succ j ih =>
    intro i s L fuel hij hf h
    have hi : i < (c.succ t).length := by omega
    obtain ⟨f, rfl⟩ : ∃ f, fuel = f + 1 := ⟨fuel - 1, by omega⟩
    obtain ⟨cl, hcl, hread0⟩ := hchain.2 i hi
    have hget : (c.succ t)[i]? = some ((c.succ t)[i]) := List.getElem?_eq_getElem hi
    have hmem : (c.succ t)[i] ∈ c.succ t := List.getElem_mem hi
    obtain ⟨u, hu⟩ : ∃ u, (c.succ t)[i] = u := ⟨_, rfl⟩
    have hdrop : (c.succ t).drop i = u :: (c.succ t).drop (i + 1) := by
      rw [List.drop_eq_getElem_cons hi, hu]
    rw [hu] at hmem hget
    have huU : u ∈ c.U := ok.closed t ht u hmem
    rw [hdrop] at h
    rw [hget] at hread0
    have hread : s.readPermit cl = some { next := (c.cells t)[i + 1]?, task := some u } := by
      rw [h.reads]; exact hread0
    obtain ⟨hnot, hlt, hdecr, hinv1⟩ := run_decr h huU
    rw [hcl]
    have hnext : ∀ (s2 : Scheduler) (L2 : List Nat),
        Run c s2 L2 done ((c.succ t).drop (i + 1)) [] →
        unblockStep c.b 0 s cl
          = some (loom_return_a_permit c.b s2 cl, (c.cells t)[i + 1]?) →
        ∃ s1 L1, unblockLoop c.b 0 (f + 1) s (some cl) = some s1
          ∧ Run c s1 L1 done [] [] := by
      intro s2 L2 h2 hstep
      rw [unblockLoop_succ, hstep]
      obtain ⟨e1, e2, e3, e4, e5, e6⟩ := return_permit_parts c.b s2 cl
      exact ih (i + 1) _ L2 f (by omega) (by omega)
        (run_congr h2 (by rw [e1]) (by rw [e2]) e3 e4 e5 e6)
    by_cases hv : (s.task u).blockers - 1 = 0
    · obtain ⟨s2, hs2, hinv2⟩ := run_submit_ready [] ok hinv1 huU hnot
        (by
          show ((s.setTask u _).task u).blockers = 0
          rw [setTask_task _ _ _ _ hlt, if_pos rfl]
          exact hv)
        (by
          intro x hx hne
          exact absurd (List.mem_singleton.mp hx) hne)
      apply hnext s2 (L ++ [u]) hinv2
      have hread2 : s2.readPermit cl
          = some { next := (c.cells t)[i + 1]?, task := some u } := by
        rw [hinv2.reads]; exact hread0
      exact unblockStep_eq c.b 0 s s2 cl _ _ u hread rfl hlt
        (by rw [hdecr, if_pos hv]; exact hs2) hread2
    · have hinv2 := run_drop_unkicked hinv1 (by
        intro x hx
        rw [List.mem_singleton.mp hx]
        show ((s.setTask u _).task u).blockers ≠ 0
        rw [setTask_task _ _ _ _ hlt, if_pos rfl]
        exact hv)
      apply hnext _ L hinv2
      have hread2 := hinv2.reads cl
      rw [hread0] at hread2
      exact unblockStep_eq c.b 0 s _ cl _ _ u hread rfl hlt
        (by rw [hdecr, if_neg hv]) hread2

/-- The call of `loom_unblock_any_permitted` on a task of `U`. -/
theorem run_unblock {c : CallCtx} {rank : Nat → Nat} (ok : CallOK c rank) {t : Nat}
    (ht : t ∈ c.U) {done L : List Nat} {s : Scheduler}
    (h : Run c s L done (c.succ t) []) :
    ∃ s1 L1, loom_unblock_any_permitted c.b 0 s t = some s1 ∧ Run c s1 L1 done [] [] := by
  obtain ⟨hlt, _, _, hbl, _, _, _⟩ := h.tasks t ht
  obtain ⟨hblocks, hchain, hhead, hlen⟩ := ok.chains t ht
  simp only [loom_unblock_any_permitted, task_get hlt, hbl, hblocks]
  by_cases hz : (c.succ t).length > 0
  · rw [if_pos hz]
    obtain ⟨cl, hcl, _⟩ := hchain.2 0 hz
    have h0 := hhead cl hcl
    have := run_unblock_loop ok ht done (c.succ t).length 0 s L
      (c.b.embedded_permits + s.permits.permits.length + 1) (by omega)
      (by rw [h.pool]; omega) (by simpa using h)
    rw [hcl, h0] at this
    exact this
  · rw [if_neg hz]
    have hnil : c.succ t = [] := List.length_eq_zero.mp (by omega)
    rw [hnil] at h
    exact ⟨s, L, rfl, h⟩

theorem hasKernel_congr {T T1 : Task} (h : T.work = T1.work) : T.hasKernel = T1.hasKernel := by
  simp [Task.hasKernel, h]

/-- The call of `loom_schedule_a_task` up to the walk of the permit chain: the
prologue, the kernel if there is one and the epilogue are called, and the
barrier of the task, if it has one, is decremented. -/
theorem schedule_parts (b : Build) (q : Nat) (s : Scheduler) (t : Nat)
    (h1 : t < s.tasks.tasks.length)
    (h2 : ∀ k, (s.task t).barrier = some k → k < s.barriers.length) :
    ∃ s5, loom_schedule_a_task b q s t
        = (match loom_unblock_any_permitted b q s5 t with
           | none => none
           | some s6 => some (loom_return_a_task s6 t))
      ∧ s5.queues = s.queues ∧ s5.tasks = s.tasks ∧ s5.permits = s.permits
      ∧ s5.work = s.work
      ∧ s5.barriers = (match (s.task t).barrier with
          | none => s.barriers
          | some k => s.barriers.set k (loom_atomic_decr_u32 (s.barriers.getD k 0)))
      ∧ s5.log = s.log ++ ([Event.prologue t]
          ++ (if (s.task t).hasKernel then [Event.kernel t] else [])
          ++ [Event.epilogue t]
          ++ (match (s.task t).barrier with
              | none => []
              | some k => [Event.barrier k (loom_atomic_decr_u32 (s.barriers.getD k 0))])) := by
  have hget : ∀ k, k < s.barriers.length → s.barriers[k]? = some (s.barriers.getD k 0) := by
    intro k hk
    simp [List.getD_eq_getElem?_getD, List.getElem?_eq_getElem hk]
  simp only [loom_schedule_a_task, task_get h1]
  cases hw : (s.task t).work with
  | none =>
    cases hb : (s.task t).barrier with
    | none =>
      exact ⟨_, rfl, rfl, rfl, rfl, rfl, rfl, by simp [Scheduler.emit, Task.hasKernel, hw]⟩
    | some k =>
      have hk : ((s.emit (Event.prologue t)).emit (Event.epilogue t)).barriers[k]?
          = some (s.barriers.getD k 0) := hget k (h2 k hb)
      simp only [hk]
      exact ⟨_, rfl, rfl, rfl, rfl, rfl, rfl, by simp [Scheduler.emit, Task.hasKernel, hw]⟩
  | cpu kernel data =>
    cases hb : (s.task t).barrier with
    | none =>
      exact ⟨_, rfl, rfl, rfl, rfl, rfl, rfl, by simp [Scheduler.emit, Task.hasKernel, hw]⟩
    | some k =>
      have hk : (((s.emit (Event.prologue t)).emit (Event.kernel t)).emit
          (Event.epilogue t)).barriers[k]? = some (s.barriers.getD k 0) := hget k (h2 k hb)
      simp only [hk]
      exact ⟨_, rfl, rfl, rfl, rfl, rfl, rfl, by simp [Scheduler.emit, Task.hasKernel, hw]⟩

theorem batchDone_snoc (c : CallCtx) (done : List Nat) (t : Nat) :
    batchDone c (done ++ [t]) = batchDone c done ++ (if t ∈ c.B then [t] else []) := by
  simp only [batchDone, List.filter_append]
  by_cases h : t ∈ c.B
  · simp [h]
  · simp [h]

theorem batchDone_lt {c : CallCtx} {done : List Nat} {t : Nat} (hB : t ∈ c.B) (hd : t ∉ done)
    (hnd : done.Nodup) : (batchDone c done).length < c.B.length := by
  have h1 : (t :: batchDone c done).Nodup := by
    refine List.nodup_cons.mpr ⟨fun hc => hd (List.mem_filter.mp hc).1, hnd.filter _⟩
  have h2 : ∀ x, x ∈ t :: batchDone c done → x ∈ c.B := by
    intro x hx
    rcases List.mem_cons.mp hx with hx | hx
    · rw [hx]; exact hB
    · simpa using (List.mem_filter.mp hx).2
  have := nodup_length_le h1 h2
  simp only [List.length_cons] at this
  omega

/-- The main thread pops the task pushed last and completes it. -/
theorem run_task {c : CallCtx} {rank : Nat → Nat} (ok : CallOK c rank) {s : Scheduler}
    {L done : List Nat} {t : Nat} (fuel : Nat) (h : Run c s (L ++ [t]) done [] []) :
    ∃ s1 L1, loom_do_some_work c.b 0 fuel s = some (s1, true)
      ∧ Run c s1 L1 (done ++ [t]) [] [] := by
  obtain ⟨wq, hq, hh, htop⟩ := h.queue
  have hroom := run_room h
  simp only [List.length_append, List.length_singleton] at hroom
  have hfar := ok.far
  have hbot := hh.2.2.1
  simp only [List.length_append, List.length_singleton] at hbot
  rw [← List.append_assoc] at hh
  obtain ⟨wq1, hgrab, hh1, htop1⟩ := grab_spec hq hh (by omega)
  have htU : t ∈ c.U := h.sub t (by simp)
  obtain ⟨hnd, htd, htL⟩ := nodup_move_last h.nodup
  have hndd : done.Nodup := (List.nodup_append.mp h.nodup).2.1
  obtain ⟨hlt, hid, hwk, hbl, hbar, hin, _⟩ := h.tasks t htU
  have hmem0 := h.memory
  have hbarlt : ∀ k, ((s.setQueue 0 wq1).task t).barrier = some k
      → k < (s.setQueue 0 wq1).barriers.length := by
    intro k hk
    have hk1 : (s.task t).barrier = some k := hk
    show k < s.barriers.length
    rw [hbar] at hk1
    by_cases htB : t ∈ c.B
    · rw [if_pos htB] at hk1
      have := Option.some.inj hk1
      omega
    · rw [if_neg htB] at hk1
      have := ok.barriers t htU htB k hk1
      omega
  obtain ⟨s5, hsched, e1, e2, e3, e4, e5, e6⟩ :=
    schedule_parts c.b 0 (s.setQueue 0 wq1) t hlt hbarlt
  have hb5 : s5.barriers = (match (s.task t).barrier with
      | none => s.barriers
      | some k => s.barriers.set k (loom_atomic_decr_u32 (s.barriers.getD k 0))) := e5
  have hl5 : s5.log = s.log ++ ([Event.prologue t]
      ++ (if (s.task t).hasKernel then [Event.kernel t] else [])
      ++ [Event.epilogue t]
      ++ (match (s.task t).barrier with
          | none => []
          | some k => [Event.barrier k (loom_atomic_decr_u32 (s.barriers.getD k 0))])) := e6
  have htask5 : ∀ x, s5.task x = s.task x := by
    intro x
    rw [task_of_tasks e2]
    rfl
  have hklt : c.s0.barriers.length < s.barriers.length := by omega
  have hcur : s.barriers.getD c.s0.barriers.length 0
      = c.B.length - (batchDone c done).length := by
    rw [List.getD_eq_getElem?_getD, h.barrier]
    rfl
  have hfacts : s5.barriers[c.s0.barriers.length]?
        = some (c.B.length - (batchDone c (done ++ [t])).length)
      ∧ s5.barriers.length = c.s0.barriers.length + 1
      ∧ barrierValues c.s0.barriers.length ([Event.prologue t]
          ++ (if (s.task t).hasKernel then [Event.kernel t] else [])
          ++ [Event.epilogue t]
          ++ (match (s.task t).barrier with
              | none => []
              | some k => [Event.barrier k (loom_atomic_decr_u32 (s.barriers.getD k 0))]))
        = (if t ∈ c.B then [c.B.length - 1 - (batchDone c done).length] else []) := by
    rw [hb5, batchDone_snoc]
    have hbvk : ∀ l : List Event,
        barrierValues c.s0.barriers.length ([Event.prologue t]
          ++ (if (s.task t).hasKernel then [Event.kernel t] else [])
          ++ [Event.epilogue t] ++ l) = barrierValues c.s0.barriers.length l := by
      intro l
      by_cases hk : (s.task t).hasKernel = true
      · simp [hk, barrierValues]
      · simp [hk, barrierValues]
    rw [hbvk]
    by_cases htB : t ∈ c.B
    · rw [if_pos htB] at hbar
      have hlt2 := batchDone_lt htB htd hndd
      have hdecr : loom_atomic_decr_u32 (c.B.length - (batchDone c done).length)
          = c.B.length - 1 - (batchDone c done).length := by
        have hU : c.B.length ≤ c.U.length := nodup_length_le ok.nodupB ok.sub
        rw [loom_atomic_decr_u32, sub32_of_le (by omega) (by omega)]
        omega
      simp only [hbar, hcur, hdecr, if_pos htB, List.length_append, List.length_singleton]
      refine ⟨?_, by simp [hmem0], by simp [barrierValues]⟩
      rw [List.getElem?_set_eq_of_lt _ hklt]
      congr 1
      omega
    · rw [if_neg htB] at hbar
      simp only [if_neg htB, List.append_nil]
      cases hb : (c.s0.task t).barrier with
      | none =>
        rw [hb] at hbar
        simp only [hbar]
        exact ⟨h.barrier, hmem0, by simp [barrierValues]⟩
      | some k1 =>
        rw [hb] at hbar
        have hk1 := ok.barriers t htU htB k1 hb
        simp only [hbar]
        refine ⟨?_, by simp [hmem0], ?_⟩
        · rw [List.getElem?_set_ne (by omega)]
          exact h.barrier
        · have hne : ¬ k1 = c.s0.barriers.length := by omega
          simp [barrierValues, hne]
  obtain ⟨f1, f2, f3⟩ := hfacts
  have hinv5 : Run c s5 L (done ++ [t]) (c.succ t) [] := by
    refine ⟨⟨wq1, by rw [e1]; exact setQueue_get s wq wq1 hq, hh1, ?_⟩, hnd, ?_, ?_, ?_, ?_,
      f1, f2, by rw [e4]; exact h.work, ?_⟩
    · simp only [List.length_append, List.length_singleton]; omega
    · intro x hx
      apply h.sub
      simp only [List.mem_append, List.mem_singleton] at hx ⊢
      rcases hx with hx | hx | hx
      · exact Or.inl (Or.inl hx)
      · exact Or.inr hx
      · exact Or.inl (Or.inr hx)
    · intro x hxU
      obtain ⟨a1, a2, a3, a5, a6, a7, a8⟩ := h.tasks x hxU
      have hmem : x ∈ L ++ (done ++ [t]) ↔ x ∈ L ++ [t] ++ done := by
        simp only [List.mem_append, List.mem_singleton]
        constructor
        · rintro (hx | hx | hx)
          · exact Or.inl (Or.inl hx)
          · exact Or.inr hx
          · exact Or.inl (Or.inr hx)
        · rintro ((hx | hx) | hx)
          · exact Or.inl hx
          · exact Or.inr (Or.inr hx)
          · exact Or.inr (Or.inl hx)
      have hmove := edgesLeft_move x ok.nodupU htU htd
      rw [htask5 x, e2]
      refine ⟨a1, a2, a3, a5, a6, ?_, ?_⟩
      · intro hm
        obtain ⟨b1, b2, _⟩ := a7 (hmem.mp hm)
        refine ⟨b1, by omega, ?_⟩
        apply List.count_eq_zero.mp
        omega
      · intro hm
        obtain ⟨b1, b2, b3⟩ := a8 (fun hc => hm (hmem.mpr hc))
        simp only [List.count_nil, Nat.add_zero] at b1
        exact ⟨by omega, b2, b3⟩
    · intro r
      have ht5 : s5.tasks.tasks = s.tasks.tasks := by rw [e2]; rfl
      have hp5 : s5.permits.permits = s.permits.permits := by rw [e3]; rfl
      have hr : s5.readPermit r = s.readPermit r := readPermit_congr ht5 hp5 r
      rw [hr]
      exact h.reads r
    · rw [e3]
      exact h.pool
    · obtain ⟨nl, hnl, hk, hbv⟩ := h.log
      refine ⟨nl ++ ([Event.prologue t]
          ++ (if (s.task t).hasKernel then [Event.kernel t] else [])
          ++ [Event.epilogue t]
          ++ (match (s.task t).barrier with
              | none => []
              | some k => [Event.barrier k (loom_atomic_decr_u32 (s.barriers.getD k 0))])),
        by rw [hl5, hnl, List.append_assoc], ?_, ?_⟩
      · rw [kernelsRun_append, hk, List.filter_append]
        congr 1
        have hkk : (c.s0.task t).hasKernel = (s.task t).hasKernel := hasKernel_congr hwk.symm
        by_cases hk1 : (s.task t).hasKernel = true
        · have hk0 : (c.s0.task t).hasKernel = true := by rw [hkk]; exact hk1
          cases hb : (s.task t).barrier <;> simp [hk1, hk0, kernelsRun]
        · have hk0 : ¬ (c.s0.task t).hasKernel = true := by rw [hkk]; exact hk1
          cases hb : (s.task t).barrier <;> simp [hk1, hk0, kernelsRun]
      · rw [barrierValues_append, hbv, f3, batchDone_snoc]
        by_cases htB : t ∈ c.B
        · simp only [if_pos htB, List.length_append, List.length_singleton, List.range_succ,
            List.map_append, List.map_cons, List.map_nil]
        · simp only [if_neg htB, List.append_nil]
  obtain ⟨s6, L6, hs6, hinv6⟩ := run_unblock ok htU hinv5
  rw [hs6] at hsched
  refine ⟨loom_return_a_task s6 t, L6, ?_, run_congr hinv6 rfl rfl rfl rfl rfl rfl⟩
  simp [loom_do_some_work, hgrab, hsched]

/-- As long as a task of the batch has not run, the run has a task on the main
deque: a task of the batch that is neither queued nor done waits for a
predecessor of lower rank, which belongs to the batch and has not run
either. -/
theorem run_progress {c : CallCtx} {rank : Nat → Nat} (ok : CallOK c rank) {s : Scheduler}
    {L done : List Nat} (h : Run c s L done [] []) :
    ∀ (r t : Nat), rank t = r → t ∈ c.B → t ∉ done → L ≠ [] := by
  intro r
  induction r using Nat.strong_induction_on with
  | _ r ih =>
    intro t hr htB htd
    by_cases htL : t ∈ L
    · exact List.ne_nil_of_mem htL
    · obtain ⟨_, _, _, _, _, _, hout⟩ := h.tasks t (ok.sub t htB)
      have hnot : t ∉ L ++ done := by
        simp only [List.mem_append]
        rintro (hc | hc)
        · exact htL hc
        · exact htd hc
      obtain ⟨b1, _, b3⟩ := hout hnot
      have hsp : spare c t = 0 := by
        have := ok.exact t htB
        simp only [spare]
        omega
      simp only [List.count_nil, Nat.add_zero, hsp] at b1
      have hpos : 0 < edgesLeft c done t := by
        rcases Nat.eq_zero_or_pos (edgesLeft c done t) with h0 | h0
        · rw [h0] at b1
          exact absurd (b3 htB b1) (by simp)
        · exact h0
      obtain ⟨p, hpU, hpd, hpt⟩ := edgesLeft_pos hpos
      have hpB := ok.inside p hpU t hpt htB
      have hrank := ok.acyclic p hpB t hpt htB
      exact ih (rank p) (by omega) p rfl hpB hpd

/-- The waiting loop runs one task per pass, of the batch or unblocked by it,
and returns when the counter is zero. -/
theorem run_wait {c : CallCtx} {rank : Nat → Nat} (ok : CallOK c rank) :
    ∀ (m : Nat) (s : Scheduler) (L done : List Nat), Run c s L done [] [] →
      c.U.length - done.length = m →
      ∃ s1 L1 done1, waitLoop c.b 0 c.s0.barriers.length (m + 1) s = some s1
        ∧ Run c s1 L1 done1 [] []
        ∧ c.B.length - (batchDone c done1).length = 0 := by
  have hret : ∀ (f : Nat) (s : Scheduler) (L done : List Nat), Run c s L done [] [] →
      c.B.length - (batchDone c done).length = 0 →
      ∃ s1 L1 done1, waitLoop c.b 0 c.s0.barriers.length (f + 1) s = some s1
        ∧ Run c s1 L1 done1 [] []
        ∧ c.B.length - (batchDone c done1).length = 0 := by
    intro f s L done h hv
    have hbar := h.barrier
    rw [hv] at hbar
    refine ⟨s, L, done, ?_, h, hv⟩
    rw [waitLoop_succ]
    simp only [hbar]
    have hz : is_zero_yet 0 = (0, true) := by decide
    simp only [hz, set_barrier_self s c.s0.barriers.length 0 hbar, if_true]
  have hstep : ∀ (s : Scheduler) (L done : List Nat), Run c s L done [] [] →
      c.B.length - (batchDone c done).length ≠ 0 →
      ∃ L0 x, L = L0 ++ [x] ∧ done.length < c.U.length := by
    intro s L done h hv
    have hndd : done.Nodup := (List.nodup_append.mp h.nodup).2.1
    obtain ⟨t, htB, htd⟩ := @exists_not_mem (batchDone c done) c.B ok.nodupB (by omega)
    have htd1 : t ∉ done := fun hc => htd (List.mem_filter.mpr ⟨hc, by simpa using htB⟩)
    have hne := run_progress ok h (rank t) t rfl htB htd1
    rcases List.eq_nil_or_concat L with h0 | ⟨L0, x, hx⟩
    · exact absurd h0 hne
    · have hroom := run_room h
      have hx1 : L = L0 ++ [x] := by simpa using hx
      rw [hx1] at hroom
      simp only [List.length_append, List.length_singleton] at hroom
      exact ⟨L0, x, hx1, by omega⟩
  intro m
  induction m with
  | zero =>
    intro s L done h hm
    by_cases hv : c.B.length - (batchDone c done).length = 0
    · exact hret 0 s L done h hv
    · obtain ⟨L0, x, _, hlt⟩ := hstep s L done h hv
      omega
  | succ m ih =>
    intro s L done h hm
    by_cases hv : c.B.length - (batchDone c done).length = 0
    · exact hret (m + 1) s L done h hv
    · obtain ⟨L0, x, rfl, hlt⟩ := hstep s L done h hv
      obtain ⟨v, hvv⟩ : ∃ v, c.B.length - (batchDone c done).length = v + 1 :=
        ⟨c.B.length - (batchDone c done).length - 1, by omega⟩
      have hbar := h.barrier
      rw [hvv] at hbar
      have hz : is_zero_yet (v + 1) = (v + 1, false) := by
        simp [is_zero_yet]
      obtain ⟨s2, L2, hwork, hinv2⟩ := run_task ok (m + 1 + 1) h
      obtain ⟨s3, L3, done3, hw3, hinv3, hlen3⟩ := ih s2 L2 (done ++ [x]) hinv2
        (by simp only [List.length_append, List.length_singleton]; omega)
      refine ⟨s3, L3, done3, ?_, hinv3, hlen3⟩
      rw [waitLoop_succ]
      simp only [hbar]
      simp only [hz, set_barrier_self s c.s0.barriers.length (v + 1) hbar, hwork, hw3]
      simp

/-- The first loop of `kick` leaves the permits where they are. -/
theorem setBarriers_reads (k : Nat) : ∀ (hs : List Handle) (s s1 : Scheduler),
    setBarriers k s hs = some s1 →
    s1.permits = s.permits ∧ ∀ r, s1.readPermit r = s.readPermit r := by
  intro hs
  induction hs with
  | nil =>
    intro s s1 h
    rw [← Option.some.inj h]
    exact ⟨rfl, fun _ => rfl⟩
  | cons x hs ih =>
    intro s s1 h
    simp only [setBarriers] at h
    split at h
    · exact absurd h (by simp)
    · rename_i task _
      split at h
      · exact absurd h (by simp)
      · rename_i T hT
        obtain ⟨a1, a2⟩ := ih _ s1 h
        refine ⟨a1, fun r => ?_⟩
        rw [a2 r]
        exact readPermit_setTask s task T { T with barrier := some k } hT rfl r

theorem run_shrink_unkicked {c : CallCtx} {s : Scheduler} {L done rem uk : List Nat} {u : Nat}
    (h : Run c s L done rem (u :: uk)) (hnz : (s.task u).blockers ≠ 0) :
    Run c s L done rem uk := by
  refine ⟨h.queue, h.nodup, h.sub, ?_, h.reads, h.pool, h.barrier, h.memory, h.work, h.log⟩
  intro t ht
  obtain ⟨a1, a2, a3, a5, a6, a7, a8⟩ := h.tasks t ht
  refine ⟨a1, a2, a3, a5, a6, a7, ?_⟩
  intro hm
  obtain ⟨b1, b2, b3⟩ := a8 hm
  refine ⟨b1, b2, fun hB hz => ?_⟩
  rcases List.mem_cons.mp (b3 hB hz) with hx | hx
  · rw [hx] at hz
    exact absurd hz hnz
  · exact hx

/-- The second loop of `kick` pushes the tasks of the batch that have no
predecessor and leaves the others dormant. -/
theorem run_kick {c : CallCtx} {rank : Nat → Nat} (ok : CallOK c rank) :
    ∀ (hs : List Handle) (s : Scheduler) (L : List Nat),
      Run c s L [] [] (hs.map (fun h => h.index)) →
      (∀ h, h ∈ hs → h.index ∈ c.B ∧ (c.s0.task h.index).id = h.id) →
      ∃ s1 L1, loom_kick_n 0 s hs = some s1 ∧ Run c s1 L1 [] [] [] := by
  intro hs
  induction hs with
  | nil =>
    intro s L h _
    exact ⟨s, L, rfl, h⟩
  | cons x hs ih =>
    intro s L h hall
    obtain ⟨hxB, hxid⟩ := hall x (List.mem_cons_self _ _)
    have hxU := ok.sub x.index hxB
    obtain ⟨hlt, hid, _, _, _, hin, _⟩ := h.tasks x.index hxU
    have hh : handle_to_task s x = some x.index :=
      handle_to_task_eq hlt (by rw [hid, hxid])
    simp only [List.map_cons] at h
    by_cases hz : (s.task x.index).blockers = 0
    · have hnot : x.index ∉ L ++ [] := by
        intro hc
        have := (hin hc).1
        rw [hz] at this
        exact absurd this (by decide)
      obtain ⟨s1, hs1, hinv1⟩ := run_submit_ready (hs.map (fun h => h.index)) ok h hxU
        hnot hz (by
          intro t ht hne
          rcases List.mem_cons.mp ht with ht | ht
          · exact absurd ht hne
          · exact ht)
      obtain ⟨s2, L2, hs2, hinv2⟩ := ih s1 (L ++ [x.index]) hinv1
        (fun h' hh' => hall h' (List.mem_cons_of_mem _ hh'))
      refine ⟨s2, L2, ?_, hinv2⟩
      simp only [loom_kick_n, hh, hs1, hs2]
    · have hs1 := submit_blocked 0 hlt hz
      obtain ⟨s2, L2, hs2, hinv2⟩ := ih s L (run_shrink_unkicked h hz)
        (fun h' hh' => hall h' (List.mem_cons_of_mem _ hh'))
      refine ⟨s2, L2, ?_, hinv2⟩
      simp only [loom_kick_n, hh, hs1, hs2]

theorem edgesLeft_nil (c : CallCtx) (t : Nat) : edgesLeft c [] t = edgesInto c.succ c.U t := by
  simp [edgesLeft, edgesInto]

/-- The start of the run of a batch that is ready among other tasks: the kick
succeeds and leaves a state of the run in which nothing is done yet. -/
theorem call_kicked (b : Build) (s : Scheduler) (hs : List Handle) (U : List Nat)
    (succ : Nat → List Nat) (cells : Nat → List PermitRef) (rank : Nat → Nat)
    (h : CallReady b s hs U succ cells rank) :
    ∃ (c : CallCtx) (s2 : Scheduler) (L2 : List Nat), CallOK c rank ∧ c.b = b
      ∧ c.B = hs.map (fun x => x.index) ∧ c.U = U ∧ c.s0 = s
      ∧ kick 0 { s with barriers := s.barriers ++ [hs.length % U32] } hs s.barriers.length
          = some s2
      ∧ Run c s2 L2 [] [] [] := by
  obtain ⟨wq, Lold, hq, hhold, hroom, hsmall, hfar⟩ := h.queue
  obtain ⟨hUnd, hBU, hUin⟩ := h.reach
  have hmem : ∀ t, t ∈ hs.map (fun x => x.index) → ∃ x, x ∈ hs ∧ x.index = t := by
    intro t ht
    obtain ⟨x, hx, hxt⟩ := List.mem_map.mp ht
    exact ⟨x, hx, hxt⟩
  let c : CallCtx :=
    { b := b, B := hs.map (fun x => x.index), U := U, succ := succ, cells := cells, s0 := s
      Q := wq.size, t0 := wq.top, Lold := Lold }
  have hBlen : c.B.length = hs.length := by simp [c]
  have hbot := hhold.2.2.1
  have hsubU : ∀ t, t ∈ c.B → t ∈ c.U := by
    intro t ht
    obtain ⟨x, hx, rfl⟩ := hmem t ht
    exact hBU x hx
  have hle : hs.length ≤ U.length := by
    have := nodup_length_le h.distinct hsubU
    simpa using this
  have ok : CallOK c rank := by
    refine ⟨hUnd, h.distinct, hsubU, ?_, fun t ht => (hUin t ht).2, h.chains, ?_, ?_, ?_, ?_,
      h.barriers, hroom, hsmall, by show wq.top + Lold.length + U.length < U32; omega⟩
    · intro t ht
      obtain ⟨x, hx, rfl⟩ := hmem t ht
      exact h.kernels x hx
    · intro t ht
      rw [edgesLeft_nil]
      exact h.blockers t ht
    · intro t ht
      obtain ⟨x, hx, rfl⟩ := hmem t ht
      rw [edgesLeft_nil]
      exact (h.batch x hx).1
    · intro p hp t hpt ht
      obtain ⟨x, hx, rfl⟩ := hmem t ht
      exact (h.batch x hx).2 p hp hpt
    · intro t ht u hu huB
      obtain ⟨x, hx, rfl⟩ := hmem t ht
      exact h.acyclic x hx u hu huB
  have hn32 : hs.length % U32 = hs.length := Nat.mod_eq_of_lt (by omega)
  obtain ⟨s1, hs1, e1, e2, e3, e4, e5, e6⟩ := setBarriers_spec s.barriers.length hs
    { s with barriers := s.barriers ++ [hs.length % U32] } (fun x hx => h.inPool x hx)
  obtain ⟨e7, e8⟩ := setBarriers_reads s.barriers.length hs _ s1 hs1
  have hinv1 : Run c s1 [] [] [] (hs.map (fun x => x.index)) := by
    refine ⟨⟨wq, by rw [e1]; exact hq, by simpa using hhold, by simp [c]⟩,
      by simp, by simp, ?_, ?_, by rw [e7], ?_, by rw [e2]; simp [c],
      by rw [e3]; exact h.noWorkers,
      ⟨[], by rw [e4]; simp [c], rfl, by simp [barrierValues, batchDone]⟩⟩
    · intro t ht
      obtain ⟨b1, b2⟩ := h.blockers t ht
      have hsp : (s.task t).blockers = edgesLeft c [] t + List.count t [] + spare c t := by
        simp only [spare, List.count_nil, Nat.add_zero]
        rw [edgesLeft_nil]
        show (s.task t).blockers
          = edgesInto succ U t + ((s.task t).blockers - edgesInto succ U t)
        omega
      rw [e5, e6 t]
      by_cases htB : t ∈ hs.map (fun x => x.index)
      · rw [if_pos htB]
        refine ⟨(hUin t ht).1, rfl, rfl, rfl, ?_, by simp, ?_⟩
        · show some s.barriers.length = if t ∈ c.B then some s.barriers.length else _
          rw [if_pos htB]
        · intro _
          exact ⟨hsp, b2, fun _ _ => htB⟩
      · rw [if_neg htB]
        refine ⟨(hUin t ht).1, rfl, rfl, rfl, ?_, by simp, ?_⟩
        · show _ = if t ∈ c.B then some s.barriers.length else (s.task t).barrier
          rw [if_neg htB]
          rfl
        · intro _
          exact ⟨hsp, b2, fun hB => absurd hB htB⟩
    · intro r
      rw [e8 r]
      rfl
    · rw [e2]
      show (s.barriers ++ [hs.length % U32])[s.barriers.length]? = _
      rw [hn32]
      simp [c, batchDone]
  obtain ⟨s2, L2, hs2, hinv2⟩ := run_kick ok hs s1 [] hinv1 (by
    intro x hx
    exact ⟨List.mem_map.mpr ⟨x, hx, rfl⟩, (h.inPool x hx).2⟩)
  refine ⟨c, s2, L2, ok, rfl, rfl, rfl, rfl, ?_, hinv2⟩
  simp only [kick, hs1, hs2]

/-- C5 (barrier countdown), amended: for every batch that is ready in the
sense of `CallReady` (distinct valid handles of tasks with kernels that have
not been kicked; intact permit chains, embedded or from the pool, on the
tasks that can be reached from the batch; `blockers` fields that count the
predecessors, which for a task of the batch all belong to the batch; no cycle
within the batch; a main deque with room for the reachable tasks on top of
what it holds and no counter wrap; no worker), the call of
`loom_kick_and_do_work_while_waiting_n` on the main thread returns for some
amount of fuel; on return the barrier counter is 0, the kernel of every task
of the batch has run exactly once during the call, no kernel has run twice,
every kernel that ran is one of a reachable task (so that the kernels that
ran are exactly those of the batch when no task outside the batch can be
reached), and the counter took the values `n - 1, n - 2, ..., 0` in this
order. -/
theorem C5_barrier_countdown_of_ready_batch (b : Build) (s : Scheduler) (hs : List Handle)
    (U : List Nat) (succ : Nat → List Nat) (cells : Nat → List PermitRef) (rank : Nat → Nat)
    (h : CallReady b s hs U succ cells rank) :
    ∃ fuel s1 nl, loom_kick_and_do_work_while_waiting_n b 0 fuel s hs = some s1
      ∧ s1.barriers[s.barriers.length]? = some 0
      ∧ s1.log = s.log ++ nl
      ∧ (∀ x, x ∈ hs → (kernelsRun nl).count x.index = 1)
      ∧ (kernelsRun nl).Nodup
      ∧ (∀ t, t ∈ kernelsRun nl → t ∈ U)
      ∧ ((∀ t, t ∈ U → t ∈ hs.map (fun x => x.index))
          → (kernelsRun nl).Perm (hs.map (fun x => x.index)))
      ∧ barrierValues s.barriers.length nl
          = (List.range hs.length).map (fun i => hs.length - 1 - i) := by
  obtain ⟨c, s2, L2, ok, rfl, hB, rfl, rfl, hkick, hinv2⟩ :=
    call_kicked b s hs U succ cells rank h
  obtain ⟨s3, L3, done3, hs3, hinv3, hlen3⟩ := run_wait ok c.U.length s2 L2 [] hinv2 (by simp)
  obtain ⟨nl, hnl, hk, hbv⟩ := hinv3.log
  have hBlen : c.B.length = hs.length := by rw [hB]; simp
  have hnd : done3.Nodup := (List.nodup_append.mp hinv3.nodup).2.1
  have hbnd : (batchDone c done3).Nodup := hnd.filter _
  have hbsub : ∀ x, x ∈ batchDone c done3 → x ∈ c.B := by
    intro x hx
    simpa using (List.mem_filter.mp hx).2
  have hperm : (batchDone c done3).Perm c.B :=
    (List.subperm_of_subset hbnd hbsub).perm_of_length_le (by omega)
  have hblen : (batchDone c done3).length = hs.length := by
    rw [hperm.length_eq, hBlen]
  have hkmem : ∀ x, x ∈ hs → x.index ∈ kernelsRun nl := by
    intro x hx
    have hxB : x.index ∈ c.B := by rw [hB]; exact List.mem_map.mpr ⟨x, hx, rfl⟩
    have hxd : x.index ∈ done3 := (List.mem_filter.mp (hperm.mem_iff.mpr hxB)).1
    rw [hk]
    refine List.mem_filter.mpr ⟨hxd, ?_⟩
    have := ok.kernels x.index hxB
    cases hw : (c.s0.task x.index).work with
    | none => exact absurd hw this
    | cpu kernel data => simp [Task.hasKernel, hw]
  have hknd : (kernelsRun nl).Nodup := by rw [hk]; exact hnd.filter _
  have hksub : ∀ t, t ∈ kernelsRun nl → t ∈ c.U := by
    intro t ht
    rw [hk] at ht
    exact hinv3.sub t (List.mem_append_right _ (List.mem_filter.mp ht).1)
  refine ⟨c.U.length + 1, s3, nl, ?_, ?_, hnl, ?_, hknd, hksub, ?_, ?_⟩
  · simp only [loom_kick_and_do_work_while_waiting_n, hkick]
    exact hs3
  · have := hinv3.barrier
    rw [hlen3] at this
    exact this
  · intro x hx
    exact List.count_eq_one_of_mem hknd (hkmem x hx)
  · intro hall
    refine (List.perm_ext_iff_of_nodup hknd h.distinct).mpr
      (fun t => ⟨fun ht => hall t (hksub t ht), ?_⟩)
    intro ht
    obtain ⟨x, hx, hxt⟩ := List.mem_map.mp ht
    rw [← hxt]
    exact hkmem x hx
  · rw [hbv, hblen]
    rw [hBlen]

/-- The batch `b3`, `a`, `b1`, `b2` of `fanScript` is ready: `a` has three
successors, two of them in nodes of the permit pool, the main deque holds the
task `w`, and the tasks `x` and `y` outside the batch can be reached from
it. -/
theorem fan_callReady :
    CallReady build64 fanReady fanBatch fanReach fanSucc fanCells (fun t => t) := by
  refine ⟨by decide, by decide, by decide, by decide, ?_, by decide, by decide, by decide, ?_,
    ⟨{ top := 0, bottom := 1, tasks := [some 7, none, none, none, none, none, none, none],
       size := 8, size_minus_one := 7 }, [7], by decide,
      ⟨by decide, by decide, by decide, by decide⟩, by decide, by decide, by decide⟩, by decide⟩
  · intro t ht
    simp only [fanReach, List.mem_cons, List.mem_singleton, List.not_mem_nil, or_false] at ht
    rcases ht with rfl | rfl | rfl | rfl | rfl | rfl
    · refine ⟨by decide, ⟨by decide, fun i hi => ?_⟩, by decide, by decide⟩
      have hi3 : i < 3 := hi
      interval_cases i
      · exact ⟨PermitRef.embedded 0 0, by decide, by decide⟩
      · exact ⟨PermitRef.pooled 0, by decide, by decide⟩
      · exact ⟨PermitRef.pooled 1, by decide, by decide⟩
    · have h0 : (fanSucc 1).length = 0 := by decide
      exact ⟨by decide, ⟨by decide, fun i hi => absurd hi (by omega)⟩, by decide, by decide⟩
    · refine ⟨by decide, ⟨by decide, fun i hi => ?_⟩, by decide, by decide⟩
      have hi1 : i < 1 := hi
      interval_cases i
      exact ⟨PermitRef.embedded 2 0, by decide, by decide⟩
    · refine ⟨by decide, ⟨by decide, fun i hi => ?_⟩, by decide, by decide⟩
      have hi1 : i < 1 := hi
      interval_cases i
      exact ⟨PermitRef.embedded 3 0, by decide, by decide⟩
    · have h0 : (fanSucc 4).length = 0 := by decide
      exact ⟨by decide, ⟨by decide, fun i hi => absurd hi (by omega)⟩, by decide, by decide⟩
    · have h0 : (fanSucc 5).length = 0 := by decide
      exact ⟨by decide, ⟨by decide, fun i hi => absurd hi (by omega)⟩, by decide, by decide⟩
  · intro t ht htB k hk
    simp only [fanReach, List.mem_cons, List.mem_singleton, List.not_mem_nil, or_false] at ht
    rcases ht with rfl | rfl | rfl | rfl | rfl | rfl
    · exact absurd (by decide) htB
    · exact absurd (by decide) htB
    · exact absurd (by decide) htB
    · exact absurd (by decide) htB
    · have hb : (fanReady.task 4).barrier = none := by decide
      rw [hb] at hk
      cases hk
    · have hb : (fanReady.task 5).barrier = none := by decide
      rw [hb] at hk
      cases hk

/-- C5 witness: the batch `b3`, `a`, `b1`, `b2` of `fanScript`, in which `a`
fans out to three successors through the permit pool, run on a main deque
that already holds `w`, with the successors `x` and `y` outside the batch. -/
theorem C5_barrier_countdown_of_ready_batch_witness :
    ∃ fuel s1 nl, loom_kick_and_do_work_while_waiting_n build64 0 fuel fanReady fanBatch
        = some s1
      ∧ s1.barriers[fanReady.barriers.length]? = some 0
      ∧ s1.log = fanReady.log ++ nl
      ∧ (∀ x, x ∈ fanBatch → (kernelsRun nl).count x.index = 1)
      ∧ (kernelsRun nl).Nodup
      ∧ (∀ t, t ∈ kernelsRun nl → t ∈ fanReach)
      ∧ ((∀ t, t ∈ fanReach → t ∈ fanBatch.map (fun x => x.index))
          → (kernelsRun nl).Perm (fanBatch.map (fun x => x.index)))
      ∧ barrierValues fanReady.barriers.length nl
          = (List.range fanBatch.length).map (fun i => fanBatch.length - 1 - i) :=
  C5_barrier_countdown_of_ready_batch build64 fanReady fanBatch fanReach fanSucc fanCells
    (fun t => t) fan_callReady

/-- The run of the batch of `fanScript`: the kernels of `a`, `b3`, `x`, `b2`
and `b1` run in this order, the task `y` stays dormant with one predecessor
left, the task `w` stays on the main deque and the counter goes from 3 down
to 0. -/
theorem fan_run_example :
    (loom_kick_and_do_work_while_waiting_n build64 0 7 fanReady fanBatch).map
        (fun s => (kernelsRun (s.log.drop fanReady.log.length),
          barrierValues fanReady.barriers.length s.log, (s.task 5).blockers,
          s.queues.map (fun q => q.map loom_work_queue_depth)))
      = some ([0, 3, 4, 2, 1], [3, 2, 1, 0], 1, (some 1) :: List.replicate 63 none) := by
  decide

/-! ## A kernel that runs before a predecessor -/

/-- C20 (kernel never runs blocked), evaluated on `overflowScript`: the calls
up to the completion of `a` succeed; the edge `e -> f2` (slots 6 and 8) is
wired, `e` has not run and is the one predecessor of `f2` that is not
complete, so the count that the field `blockers` of `f2` stands for is 1; yet
the next call of `loom_do_some_work` invokes the kernel of `f2`. By then the
field holds the latch `0xffffffff`: the completion of `a` walked the pool
node 0, which was handed out a second time and carries `e -> f2`, took the
field from 1 to 0 and submitted `f2`. The predecessor `e` is still not
complete after the kernel of `f2` has run, nor at the end of the script.
When instead `a` is kicked and run, then `e`, then `f1` (`sharedNodeScript`),
both completions walk the node 0: the first one submits `f2`, the second one
decrements the latched field, and the kernel of `f2` is invoked while the
field holds `0xfffffffe`, which is neither zero nor the latch. -/
theorem C20_kernel_runs_before_predecessor :
    (( loom_initialize build64 4 exampleOptions).bind
        (fun s => runOps build64 s overflowUntilF2) = some overflowBeforeF2
      ∧ chainTargets overflowBeforeF2 9 (some (PermitRef.embedded 6 0)) = [some 7, some 8]
      ∧ kernelsRun overflowBeforeF2.log = [3, 0]
      ∧ outstandingPredecessors build64 overflowBeforeF2 8 = [6]
      ∧ kernelCall build64 0 1 overflowBeforeF2 = [(8, 4294967295)]
      ∧ Event.unblock 8 0 ∈ overflowBeforeF2.log
      ∧ (loom_do_some_work build64 0 1 overflowBeforeF2).map
          (fun r => (kernelsRun r.1.log, outstandingPredecessors build64 r.1 8))
        = some ([3, 0, 8], [6])
      ∧ overflowRun.map (fun s => (kernelsRun s.log, outstandingPredecessors build64 s 8))
        = some ([3, 0, 8, 1, 5, 4], [6]))
    ∧ (( loom_initialize build64 4 exampleOptions).bind
        (fun s => runOps build64 s sharedNodeScript) = some sharedNodeBeforeF2
      ∧ kernelsRun sharedNodeBeforeF2.log = [3, 0, 6, 7]
      ∧ outstandingPredecessors build64 sharedNodeBeforeF2 8 = []
      ∧ kernelCall build64 0 1 sharedNodeBeforeF2 = [(8, 4294967294)]
      ∧ (loom_do_some_work build64 0 1 sharedNodeBeforeF2).map
          (fun r => kernelsRun r.1.log) = some [3, 0, 6, 7, 8]) := by
  decide

end Loom
